import Mathlib

/-!
# primecount: the 30-wheel sieve, the phi cache and Lehmer's formula

A shallow embedding of `src/src/Sieve.cpp`, `src/include/phi_vector.hpp`,
`src/src/pi_lehmer.cpp` and `src/src/deleglise-rivat/S2_sieve.cpp`.

Conventions of the embedding.
* A byte array is a `List Nat`; a pointer into it is the byte index.
* `uint32_t` and `uint64_t` arithmetic is `Nat` arithmetic with an explicit
  reduction modulo `2^32` or `2^64` where the source can wrap.
* A function returns `none` where the source would index a vector out of
  bounds, fail an assertion, or where the step budget of a loop is used up.
-/

namespace Primecount

/-! ## Sieve.cpp: tables -/

/-- The pair stored per sieving prime: `Wheel(multiple, index)`. -/
structure Wheel where
  multiple : Nat
  index : Nat
deriving DecidableEq, Repr

/-- The state of a `Sieve` object: `start_`, `sieve_`, `wheel_`. -/
structure Sieve where
  start_ : Nat
  sieve_ : List Nat
  wheel_ : List Wheel
deriving DecidableEq, Repr

/-- The table `wheel_offsets` of Sieve.cpp. -/
def wheel_offsets : List Nat :=
  [0, 8 * 0, 0, 0, 0, 0,
   0, 8 * 1, 0, 0, 0, 8 * 2,
   0, 8 * 3, 0, 0, 0, 8 * 4,
   0, 8 * 5, 0, 0, 0, 8 * 6,
   0, 0,     0, 0, 0, 8 * 7]

/-- The table `wheel_init` of Sieve.cpp: pairs `(factor, index)`. -/
def wheel_init : List (Nat × Nat) :=
  [(1, 0), (0, 0), (5, 1), (4, 1), (3, 1),
   (2, 1), (1, 1), (0, 1), (3, 2), (2, 2),
   (1, 2), (0, 2), (1, 3), (0, 3), (3, 4),
   (2, 4), (1, 4), (0, 4), (1, 5), (0, 5),
   (3, 6), (2, 6), (1, 6), (0, 6), (5, 7),
   (4, 7), (3, 7), (2, 7), (1, 7), (0, 7)]

/-- The small primes used for pre-sieving (`primes` of Sieve.cpp). -/
def sieve_primes : List Nat := [0, 2, 3, 5, 7, 11, 13, 17, 19, 23]

/-- The 64 `case w:` lines of `Sieve::cross_off`, in order: the line
`case w: cnt += unset_bit<b>(s); s += prime * f + c;` is the triple `(b, f, c)`. -/
def case_table : List (Nat × Nat × Nat) :=
  [(0, 6, 0), (1, 4, 0), (2, 2, 0), (3, 4, 0), (4, 2, 0), (5, 4, 0), (6, 6, 0), (7, 2, 1),
   (1, 6, 1), (5, 4, 1), (4, 2, 1), (0, 4, 0), (7, 2, 1), (3, 4, 1), (2, 6, 1), (6, 2, 1),
   (2, 6, 2), (4, 4, 2), (0, 2, 0), (6, 4, 2), (1, 2, 0), (7, 4, 2), (3, 6, 2), (5, 2, 1),
   (3, 6, 3), (0, 4, 1), (6, 2, 1), (5, 4, 2), (2, 2, 1), (1, 4, 1), (7, 6, 3), (4, 2, 1),
   (4, 6, 3), (7, 4, 3), (1, 2, 1), (2, 4, 2), (5, 2, 1), (6, 4, 3), (0, 6, 3), (3, 2, 1),
   (5, 6, 4), (3, 4, 2), (7, 2, 2), (1, 4, 2), (6, 2, 2), (0, 4, 2), (4, 6, 4), (2, 2, 1),
   (6, 6, 5), (2, 4, 3), (3, 2, 1), (7, 4, 4), (0, 2, 1), (4, 4, 3), (5, 6, 5), (1, 2, 1),
   (7, 6, 6), (6, 4, 4), (5, 2, 2), (4, 4, 4), (3, 2, 2), (2, 4, 4), (1, 6, 6), (0, 2, 1)]

/-- The 8 unrolled `while` loops of `Sieve::cross_off`, one per residue class.
The loop `while (s + prime * 28 + g < sieve_end) { ... s += prime * 30 + r; }`
whose body lines are `cnt += unset_bit<b>(s + prime * f + o);` is the triple
`(g, [(b, f, o), ...], r)`. -/
def loop_table : List (Nat × List (Nat × Nat × Nat) × Nat) :=
  [(0, [(0, 0, 0), (1, 6, 0), (2, 10, 0), (3, 12, 0), (4, 16, 0), (5, 18, 0), (6, 22, 0), (7, 28, 0)], 1),
   (6, [(1, 0, 0), (5, 6, 1), (4, 10, 2), (0, 12, 3), (7, 16, 3), (3, 18, 4), (2, 22, 5), (6, 28, 6)], 7),
   (10, [(2, 0, 0), (4, 6, 2), (0, 10, 4), (6, 12, 4), (1, 16, 6), (7, 18, 6), (3, 22, 8), (5, 28, 10)], 11),
   (12, [(3, 0, 0), (0, 6, 3), (6, 10, 4), (5, 12, 5), (2, 16, 7), (1, 18, 8), (7, 22, 9), (4, 28, 12)], 13),
   (16, [(4, 0, 0), (7, 6, 3), (1, 10, 6), (2, 12, 7), (5, 16, 9), (6, 18, 10), (0, 22, 13), (3, 28, 16)], 17),
   (18, [(5, 0, 0), (3, 6, 4), (7, 10, 6), (1, 12, 8), (6, 16, 10), (0, 18, 12), (4, 22, 14), (2, 28, 18)], 19),
   (22, [(6, 0, 0), (2, 6, 5), (3, 10, 8), (7, 12, 9), (0, 16, 13), (4, 18, 14), (5, 22, 17), (1, 28, 22)], 23),
   (28, [(7, 0, 0), (6, 6, 6), (5, 10, 10), (4, 12, 12), (3, 16, 16), (2, 18, 18), (1, 22, 22), (0, 28, 28)], 29)]

/-- The offsets `{ 1, 7, 11, 13, 17, 19, 23, 29 }` of the 8 bits of a byte. -/
def bit_offsets : List Nat := [1, 7, 11, 13, 17, 19, 23, 29]

/-! ## Sieve.cpp: words, masks and popcount -/

/-- The 64-bit word `((uint64_t*) &sieve_[0])[j]`: the bytes `8j .. 8j+7`
read little-endian, as on the platforms the source targets. -/
def read_word (bytes : List Nat) (j : Nat) : Nat :=
  ((List.range 8).map (fun t => (bytes.getD (8 * j + t) 0 % 256) <<< (8 * t))).foldl
    (fun acc w => acc ||| w) 0

/-- The store `((uint64_t*) &sieve_[0])[j] &= mask`, byte by byte. -/
def and_word (bytes : List Nat) (j mask : Nat) : List Nat :=
  (List.range 8).foldl
    (fun bs t => bs.set (8 * j + t) (bs.getD (8 * j + t) 0 &&& ((mask >>> (8 * t)) % 256))) bytes

/-- The number whose bit `i` is `f (s + i)` for `i < n`. -/
def of_bits (f : Nat → Bool) : Nat → Nat → Nat
  | _, 0 => 0
  | s, n + 1 => Nat.bit (f s) (of_bits f (s + 1) n)

/-- The offset from `start_` that bit `i` of the byte array stands for, the bits
numbered through the bytes (bit `i` is bit `i % 8` of byte `i / 8`); for
`i < 64` also the offset inside a 240-number word of bit `i` of the word. -/
def word_offset (i : Nat) : Nat := 30 * (i / 8) + bit_offsets.getD (i % 8) 0

/-- Modelled from the spec: the table `unset_smaller` of SieveTables.hpp, which is
not among the sources. Entry `k` keeps the bits of offsets `>= k` within a
240-number word. -/
def unset_smaller (k : Nat) : Nat := of_bits (fun i => decide (k ≤ word_offset i)) 0 64

/-- Modelled from the spec: the table `unset_larger` of SieveTables.hpp, which is
not among the sources. Entry `k` keeps the bits of offsets `<= k` within a
240-number word. -/
def unset_larger (k : Nat) : Nat := of_bits (fun i => decide (word_offset i ≤ k)) 0 64

/-- Modelled from the spec: `popcnt64` of popcnt.hpp, which is not among the
sources: the number of 1 bits of a 64-bit word. -/
def popcnt64 (w : Nat) : Nat := ((List.range 64).filter (fun i => w.testBit i)).length

/-- Modelled from the spec: `popcnt(&sieve[first], n)` of popcnt.hpp, which is not
among the sources: the number of 1 bits of `n` consecutive 64-bit words. -/
def popcnt (bytes : List Nat) (first n : Nat) : Nat :=
  ((List.range n).map (fun j => popcnt64 (read_word bytes (first + j)))).sum

/-! ## Sieve.cpp: the member functions -/

/-- The function `Sieve::segment_size`. -/
def segment_size (st : Sieve) : Nat := st.sieve_.length * 30

/-- The function `Sieve::get_segment_size`. -/
def get_segment_size (size : Nat) : Nat :=
  let size := max 240 size
  if size % 240 ≠ 0 then (size + (240 - size % 240)) % 2 ^ 64 else size

/-- The call `sieve_.resize(n)`: truncate, or pad with zero bytes. -/
def resize (bytes : List Nat) (n : Nat) : List Nat :=
  bytes.take n ++ List.replicate (n - bytes.length) 0

/-- The function `Sieve::set_sieve_size`. -/
def set_sieve_size (st : Sieve) (segment_size : Nat) : Sieve :=
  let segment_size := get_segment_size segment_size
  let size := segment_size / 30
  { st with sieve_ := resize st.sieve_ size }

/-- The constructor `Sieve::Sieve`; `none` where an assertion fails.
`wheel_.resize(4)` leaves four value-initialised entries. -/
def Sieve.new (start segment_size _wheel_size : Nat) : Option Sieve :=
  if start % 30 = 0 ∧ segment_size % 240 = 0 then
    some (set_sieve_size
      { start_ := start, sieve_ := [], wheel_ := List.replicate 4 ⟨0, 0⟩ } segment_size)
  else none

/-- The function `Sieve::count`. -/
def count (st : Sieve) (start stop : Nat) : Nat :=
  if start > stop then 0
  else
    let start_idx := start / 240
    let stop_idx := stop / 240
    let m1 := unset_smaller (start % 240)
    let m2 := unset_larger (stop % 240)
    if start_idx = stop_idx then
      popcnt64 (read_word st.sieve_ start_idx &&& (m1 &&& m2))
    else
      popcnt64 (read_word st.sieve_ start_idx &&& m1)
        + popcnt st.sieve_ (start_idx + 1) (stop_idx - (start_idx + 1))
        + popcnt64 (read_word st.sieve_ stop_idx &&& m2)

/-- The template `unset_bit<n>(sieve)` applied to the byte at index `s`:
the new array and the returned `is_bit`. -/
def unset_bit (n : Nat) (bytes : List Nat) (s : Nat) : List Nat × Nat :=
  let b := bytes.getD s 0
  (bytes.set s ((b &&& (0xFFFFFFFF ^^^ (1 <<< n))) % 256), (b >>> n) &&& 1)

/-- The function `Sieve::add_wheel`; `none` for the division by zero. -/
def add_wheel (st : Sieve) (prime : Nat) : Option Sieve :=
  if prime = 0 then none
  else
    let quotient := (st.start_ / prime + 1) % 2 ^ 64
    let multiple := (prime * quotient) % 2 ^ 64
    let factor := (wheel_init.getD (quotient % 30) (0, 0)).1
    let multiple := (multiple + prime * factor) % 2 ^ 64
    let multiple := ((multiple + 2 ^ 64 - st.start_) % 2 ^ 64) / 30
    let index := (wheel_init.getD (quotient % 30) (0, 0)).2
    let index := (index + wheel_offsets.getD (prime % 30) 0) % 2 ^ 32
    some { st with wheel_ := st.wheel_ ++ [⟨multiple % 2 ^ 32, index⟩] }

/-- The body of an unrolled `while` loop of `cross_off`: the eight `unset_bit`
lines, in order. -/
def loop_body (k s : Nat) (entries : List (Nat × Nat × Nat)) (bytes : List Nat) (cnt : Nat) :
    List Nat × Nat :=
  entries.foldl
    (fun acc e => let r := unset_bit e.1 acc.1 (s + k * e.2.1 + e.2.2); (r.1, acc.2 + r.2))
    (bytes, cnt)

/-- The unrolled `while` loop of residue class `c` in `cross_off`; `k` is
`prime / 30` and `send` the index of `sieve_end`. Returns the byte array,
`cnt` and `s` when the loop is left; `none` when the step budget is used up. -/
def cross_loop (k send c : Nat) : Nat → List Nat → Nat → Nat → Option (List Nat × Nat × Nat)
  | 0, _, _, _ => none
  | fuel + 1, bytes, cnt, s =>
    let row := loop_table.getD c (0, [], 0)
    if s + k * 28 + row.1 < send then
      let r := loop_body k s row.2.1 bytes cnt
      cross_loop k send c fuel r.1 r.2 (s + k * 30 + row.2.2)
    else some (bytes, cnt, s)

/-- The `switch (wheel.index)` of `cross_off`, entered at `case w:` with the
pointer `s`. One unit of the step budget is one `case` line. Returns the byte
array, `cnt`, `s` and the value stored into `wheel.index` at the `break`. -/
def cross_run (k send : Nat) : Nat → List Nat → Nat → Nat → Nat →
    Option (List Nat × Nat × Nat × Nat)
  | 0, _, _, _, _ => none
  | fuel + 1, bytes, cnt, s, w =>
    let e := case_table.getD w (0, 0, 0)
    let r := unset_bit e.1 bytes s
    let s1 := s + k * e.2.1 + e.2.2
    if w % 8 = 7 then
      match cross_loop k send (w / 8) (send - s1 + 1) r.1 (cnt + r.2) s1 with
      | none => none
      | some (bytes2, cnt2, s2) =>
        if s2 ≥ send then some (bytes2, cnt2, s2, w - 7)
        else cross_run k send fuel bytes2 cnt2 s2 (w - 7)
    else
      if s1 ≥ send then some (r.1, cnt + r.2, s1, w + 1)
      else cross_run k send fuel r.1 (cnt + r.2) s1 (w + 1)

/-- The cast `(uint32_t) (s - sieve_end)` of a pointer difference. -/
def ptr_diff32 (s send : Nat) : Nat := (((s : Int) - (send : Int)) % (2 ^ 32 : Int)).toNat

/-- The part of `Sieve::cross_off` after the call of `add_wheel`. -/
def cross_off_wheel (st1 : Sieve) (i prime : Nat) : Option (Nat × Sieve) :=
  match st1.wheel_.get? i with
  | none => none
  | some wheel =>
    let sieve_size := st1.sieve_.length % 2 ^ 32
    if wheel.multiple ≥ sieve_size then
      some (0, { st1 with wheel_ := st1.wheel_.set i ⟨wheel.multiple - sieve_size, wheel.index⟩ })
    else if wheel.index < 64 then
      match cross_run (prime / 30) sieve_size (8 * (sieve_size - wheel.multiple) + 8)
          st1.sieve_ 0 wheel.multiple wheel.index with
      | none => none
      | some (bytes, cnt, s, w) =>
        some (cnt, { st1 with sieve_ := bytes,
                              wheel_ := st1.wheel_.set i ⟨ptr_diff32 s sieve_size, w⟩ })
    else
      some (0, { st1 with
        wheel_ := st1.wheel_.set i ⟨ptr_diff32 wheel.multiple sieve_size, wheel.index⟩ })

/-- The function `Sieve::cross_off`: the returned count and the new state.
`none` where `wheel_[i]` is out of bounds or `add_wheel` divides by zero. -/
def cross_off (st : Sieve) (i prime : Nat) : Option (Nat × Sieve) :=
  if i ≥ st.wheel_.length then
    match add_wheel st prime with
    | none => none
    | some st1 => cross_off_wheel st1 i prime
  else cross_off_wheel st i prime

/-- The loop `for (i = 4; i <= c; i++) cross_off(i, primes[i]);` of `pre_sieve`,
as a fold over the indices still to do. -/
def pre_sieve_loop (st : Sieve) : List Nat → Option Sieve
  | [] => some st
  | i :: rest =>
    match sieve_primes.get? i with
    | none => none
    | some p =>
      match cross_off st i p with
      | none => none
      | some r => pre_sieve_loop r.2 rest

/-- The first part of `Sieve::pre_sieve`: the `fill` and the shortening of the
last segment. `none` where the word written lies outside the byte array. -/
def pre_sieve_fill (st : Sieve) (low high : Nat) : Option Sieve :=
  let filled : Sieve := { st with sieve_ := st.sieve_.map (fun _ => 0xff) }
  let size := (high + 2 ^ 64 - low) % 2 ^ 64
  if size < segment_size filled then
    let st2 := set_sieve_size filled size
    let back := (size + 2 ^ 64 - 1) % 2 ^ 64
    if 8 * (back / 240) + 8 ≤ st2.sieve_.length then
      some { st2 with sieve_ := and_word st2.sieve_ (back / 240) (unset_larger (back % 240)) }
    else none
  else some filled

/-- The function `Sieve::pre_sieve`. `none` where `pre_sieve_fill` gives `none`,
`assert(c < primes.size())` fails or a `cross_off` gives `none`. -/
def pre_sieve (st : Sieve) (c low high : Nat) : Option Sieve :=
  match pre_sieve_fill st low high with
  | none => none
  | some st3 =>
    if c < sieve_primes.length then pre_sieve_loop st3 (List.range' 4 (c + 1 - 4)) else none

/-! ## Sieve.cpp: what the claims speak of -/

/-- Bit `i` of the byte array, the bits numbered through the bytes. -/
def live_bit (bytes : List Nat) (i : Nat) : Bool := (bytes.getD (i / 8) 0).testBit (i % 8)

/-- The number of live bits whose represented offset lies in `[a, b]`. -/
def live_count (bytes : List Nat) (a b : Nat) : Nat :=
  ((Finset.range (8 * bytes.length)).filter
    (fun i => live_bit bytes i = true ∧ a ≤ word_offset i ∧ word_offset i ≤ b)).card

/-- The bit cleared by the line `case w:` of `cross_off`. -/
def case_bit (w : Nat) : Nat := (case_table.getD w (0, 0, 0)).1

/-- The factor `f` of `s += prime * f + c` in the line `case w:`. -/
def case_factor (w : Nat) : Nat := (case_table.getD w (0, 0, 0)).2.1

/-- The carry `c` of `s += prime * f + c` in the line `case w:`. -/
def case_carry (w : Nat) : Nat := (case_table.getD w (0, 0, 0)).2.2

/-- The sum of the factors of the first `j` lines of residue class `c`. -/
def cum_factor (c : Nat) : Nat → Nat
  | 0 => 0
  | j + 1 => cum_factor c j + case_factor (8 * c + j)

/-- The sum of the carries of the first `j` lines of residue class `c`. -/
def cum_carry (c : Nat) : Nat → Nat
  | 0 => 0
  | j + 1 => cum_carry c j + case_carry (8 * c + j)

/-- The relation between the pointer `s` at the line `case w:` and the multiple
to cross off there: for a prime `p` of residue class `c`, the bit about to be
cleared stands for `p` times the `n`-th number coprime to 30. -/
def wheel_inv (start p c s w n : Nat) : Prop :=
  w = 8 * c + n % 8 ∧ start + 30 * s + bit_offsets.getD (case_bit w) 0 = p * word_offset n

/-- The bit position, inside a byte, of an offset coprime to 30: the inverse of
`bit_offsets`. -/
def bit_index : Nat → Option Nat
  | 1 => some 0
  | 7 => some 1
  | 11 => some 2
  | 13 => some 3
  | 17 => some 4
  | 19 => some 5
  | 23 => some 6
  | 29 => some 7
  | _ => none

/-- Whether the integer `n` has a bit in the byte array and that bit is live. -/
def is_live (st : Sieve) (n : Nat) : Bool :=
  decide (st.start_ ≤ n) &&
    match bit_index ((n - st.start_) % 30) with
    | some t => live_bit st.sieve_ (8 * ((n - st.start_) / 30) + t)
    | none => false

/-- A sequence of calls `cross_off(i, p)`, `cross_off(i + 1, p')`, ... for the
primes of a list, at consecutive wheel indices. -/
def cross_off_list (st : Sieve) (i : Nat) : List Nat → Option Sieve
  | [] => some st
  | p :: ps =>
    match cross_off st i p with
    | none => none
    | some r => cross_off_list r.2 (i + 1) ps

/-- The number of 1 bits of the byte array: `popcount(bytes)`. -/
def popcount_bytes (bytes : List Nat) : Nat :=
  ((Finset.range (8 * bytes.length)).filter (fun i => live_bit bytes i = true)).card

/-- The number of live bits with offset in `[a, b]` that word `j` holds. -/
def word_part (bytes : List Nat) (a b j : Nat) : Nat :=
  ((Finset.range 64).filter (fun i => live_bit bytes (64 * j + i) = true
      ∧ a ≤ 240 * j + word_offset i ∧ 240 * j + word_offset i ≤ b)).card

/-- A run with a repeated call: a sieve over `[0, 480)`, `pre_sieve(3, 0, 480)`, then
`cross_off(4, 7)` twice. -/
def twice_crossed : Option Sieve :=
  (Sieve.new 0 480 10).bind (fun st0 => (pre_sieve st0 3 0 480).bind (fun st1 =>
    (cross_off st1 4 7).bind (fun r1 => (cross_off r1.2 4 7).map (fun r2 => r2.2))))

/-! ## The glossary: pi(x) and phi(x, a) -/

/-- Whether `n` is divisible by none of the first `a` primes: a prime `q` is among
the first `a` primes exactly when `π(q) ≤ a`, so every prime factor `q` of `n`
must have `a < π(q)`. -/
def is_rough (a n : Nat) : Prop :=
  ∀ q ∈ Finset.range (n + 1), q.Prime → q ∣ n → a < Nat.primeCounting q

instance is_rough_decidable (a n : Nat) : Decidable (is_rough a n) := by
  unfold is_rough; infer_instance

/-- The partial sieve function `phi(x, a)`: the count of the integers in `[1, x]`
that are not divisible by any of the first `a` primes. -/
def phi_spec (x a : Nat) : Nat :=
  ((Finset.Icc 1 x).filter (fun n => is_rough a n)).card

/-! ## phi_vector.hpp -/

/-- The constant `MAX_A`. -/
def MAX_A : Nat := 100

/-- What `PhiCache::phi` and `phi_vector` use of PhiTiny.hpp, which is not among
the sources: the largest `a` that `is_phi_tiny(a)` accepts, the closed form
`phi_tiny(x, a)` and `PhiTiny::get_c(y)`. -/
structure PhiTiny where
  max_a : Nat
  phi_tiny : Nat → Nat → Nat
  get_c : Nat → Nat

/-- The function `PhiCache::is_pix`; `isquare(n)` is `n * n`. -/
def is_pix (primes pi : List Nat) (x a : Nat) : Bool :=
  decide (x < pi.length) && decide (x < primes.getD (a + 1) 0 * primes.getD (a + 1) 0)

/-- The function `PhiCache::is_cached`. -/
def is_cached (cache : List (List Nat)) (x a : Nat) : Bool :=
  decide (a < cache.length) && decide (x < (cache.getD a []).length)
    && decide ((cache.getD a []).getD x 0 ≠ 0)

/-- The function `PhiCache::update_cache`; the cast `(T) abs(sum)` to `uint16_t`
is the reduction modulo `2^16`. -/
def update_cache (cache : List (List Nat)) (x a : Nat) (sum : Int) : List (List Nat) :=
  if a < cache.length ∧ x ≤ 65535 then
    let row := cache.getD a []
    let row := if x ≥ row.length then resize row (x + 1) else row
    cache.set a (row.set x (sum.natAbs % 65536))
  else cache

/-- One pass of the loop `for (i = c; i < pi_sqrtx; i++)` of `PhiCache::phi<SIGN>`:
`acc` holds `sum` and the cache, `recur` is the nested call `phi<-SIGN>`. -/
def phi_step (primes pi : List Nat)
    (recur : List (List Nat) → Int → Nat → Nat → Option (Int × List (List Nat)))
    (sign : Int) (x : Nat) (acc : Option (Int × List (List Nat))) (i : Nat) :
    Option (Int × List (List Nat)) :=
  match acc with
  | none => none
  | some (sum, cache1) =>
    if primes.getD (i + 1) 0 = 0 then none
    else
      let x2 := x / primes.getD (i + 1) 0
      if is_pix primes pi x2 i then
        some (sum + ((pi.getD x2 0 : Int) - i + 1) * (-sign), cache1)
      else
        match recur cache1 (-sign) x2 i with
        | none => none
        | some (v, cache2) => some (sum + v, cache2)

/-- The function `PhiCache::phi<SIGN>(x, a)` on the cache `cache`: the returned
value and the new cache. The arguments `x` and `a` are nonnegative in every
claim and are naturals here; `fuel` bounds the depth of the recursion, and the
result is `none` when it is used up or a divisor `prime(i + 1)` is zero. -/
def PhiCache.phi (tiny : PhiTiny) (primes pi : List Nat) :
    Nat → List (List Nat) → Int → Nat → Nat → Option (Int × List (List Nat))
  | 0, _, _, _, _ => none
  | fuel + 1, cache, sign, x, a =>
    if x ≤ primes.getD a 0 then some (sign, cache)
    else if a ≤ tiny.max_a then some ((tiny.phi_tiny x a : Int) * sign, cache)
    else if is_pix primes pi x a then some (((pi.getD x 0 : Int) - a + 1) * sign, cache)
    else if is_cached cache x a then some ((((cache.getD a []).getD x 0 : Nat) : Int) * sign, cache)
    else
      let sqrtx := Nat.sqrt x
      let pi_sqrtx := if sqrtx < pi.length ∧ sqrtx < primes.getD a 0 then pi.getD sqrtx 0 else a
      let c := tiny.get_c sqrtx
      let sum0 : Int := ((pi_sqrtx : Int) - a) * sign + (tiny.phi_tiny x c : Int) * sign
      match (List.range' c (pi_sqrtx - c)).foldl
          (phi_step primes pi (PhiCache.phi tiny primes pi fuel) sign x) (some (sum0, cache)) with
      | none => none
      | some (sum, cache3) => some (sum, update_cache cache3 x a sum)

/-- The empty cache of a new `PhiCache` object: `MAX_A` empty vectors. -/
def empty_cache : List (List Nat) := List.replicate MAX_A []

/-- The call `cache.phi<SIGN>(x, a)` with a recursion depth that always suffices:
each nested call has a smaller `a`. -/
def phi_call (tiny : PhiTiny) (primes pi : List Nat) (cache : List (List Nat)) (sign : Int)
    (x a : Nat) : Option (Int × List (List Nat)) :=
  PhiCache.phi tiny primes pi (a + 1) cache sign x a

/-- The loop `for (i = c + 1; i <= limit; i++) phi[i] = cache.phi<-1>(x / primes[i - 1], i - 2)`
of `phi_vector`, run by one thread, as a fold over the indices still to do. -/
def phi_vector_loop (tiny : PhiTiny) (primes pi : List Nat) (x : Nat) :
    List Nat → List Int → List (List Nat) → Option (List Int)
  | [], phi, _ => some phi
  | i :: rest, phi, cache =>
    if primes.getD (i - 1) 0 = 0 then none
    else
      match phi_call tiny primes pi cache (-1) (x / primes.getD (i - 1) 0) (i - 2) with
      | none => none
      | some (v, cache2) => phi_vector_loop tiny primes pi x rest (phi.set i v) cache2

/-- The loop `for (i = c + 1; i <= a; i++) phi[i] += phi[i - 1]` of `phi_vector`. -/
def phi_vector_sum : List Nat → List Int → List Int
  | [], phi => phi
  | i :: rest, phi => phi_vector_sum rest (phi.set i (phi.getD i 0 + phi.getD (i - 1) 0))

/-- The function `phi_vector(x, a, primes, pi)` with the default `threads = 1`.
`none` where `pi[x]` is read out of bounds, `phi_tiny(x, c - 1)` is called with
`c = 0`, or a `phi` call gives `none`. -/
def phi_vector (tiny : PhiTiny) (primes pi : List Nat) (x a : Nat) : Option (List Int) :=
  let size := a + 1
  let c := tiny.get_c (primes.getD a 0)
  let a1 : Option Nat := if primes.getD a 0 > x then pi.get? x else some a
  match a1 with
  | none => none
  | some a =>
    let phi : List Int := List.replicate (a + 1) (if x > 0 then -1 else 0)
    let phi : List Int :=
      phi.take size ++ List.replicate (size - phi.length) (if x > 0 then 1 else 0)
    if x > 0 ∧ a > c then
      if c = 0 then none
      else
        let phi := phi.set c (tiny.phi_tiny x (c - 1) : Int)
        let sqrtx := Nat.sqrt x
        let limit := if sqrtx < pi.length then min a (pi.getD sqrtx 0 + 1) else a
        match phi_vector_loop tiny primes pi x (List.range' (c + 1) (limit + 1 - (c + 1))) phi
            empty_cache with
        | none => none
        | some phi => some (phi_vector_sum (List.range' (c + 1) (a + 1 - (c + 1))) phi)
    else some phi

/-! ## pi_lehmer.cpp -/

/-- Modelled from the spec: `iroot<4>(x)` of pmath.hpp, which is not among the
sources: the integer fourth root `floor(x^(1/4))`. -/
def iroot4 (x : Int) : Int := (Nat.sqrt (Nat.sqrt x.toNat) : Nat)

/-- The function `pi_lehmer(x, threads)`; its collaborators `pi_meissel`, `phi`,
`P2_lehmer` and `P3`, which are not among the sources, are parameters. -/
def pi_lehmer (pi_meissel : Int → Int → Int) (phi P2_lehmer P3 : Int → Int → Int → Int)
    (x threads : Int) : Int :=
  if x < 2 then 0
  else
    let y := iroot4 x
    let a := pi_meissel y 1
    let phi_xa := phi x a threads
    let p2 := P2_lehmer x a threads
    let p3 := P3 x a threads
    let sum := phi_xa + a - 1 - p2 - p3
    sum

/-- The count of the integers in `[1, x]` that are products of exactly `k` primes
(counted with multiplicity), all greater than the `a`-th prime: the contract of
`P2_lehmer` for `k = 2` and of `P3` for `k = 3`. -/
def pk_spec (k x a : Nat) : Nat :=
  ((Finset.Icc 1 x).filter (fun n => is_rough a n ∧ n.primeFactorsList.length = k)).card

/-! ## Reference tables for the closed examples -/

/-- A PhiTiny with `max_a = 6` whose closed form is `phi` itself. -/
def ref_tiny : PhiTiny := ⟨6, phi_spec, fun y => min 6 (Nat.primeCounting y)⟩

/-- The first 22 primes, 1-based, with the sentinel 0. -/
def ref_primes : List Nat :=
  [0, 2, 3, 5, 7, 11, 13, 17, 19, 23, 29, 31, 37, 41, 43, 47, 53, 59, 61, 67, 71, 73, 79]

/-- The prime-counting table for the arguments `0 .. 100`. -/
def ref_pi : List Nat := (List.range 101).map Nat.primeCounting

/-! ## What the claims assume of the tables -/

/-- The table `primes` is the true 1-based list of primes up to index `N`:
`primes[0]` is the sentinel 0 and `primes[i]` is the `i`-th prime. -/
def primes_ok (primes : List Nat) (N : Nat) : Prop :=
  N < primes.length ∧ primes.getD 0 0 = 0
    ∧ ∀ i, 1 ≤ i → i ≤ N → (primes.getD i 0).Prime ∧ Nat.primeCounting (primes.getD i 0) = i

/-- The table `pi` is the true prime-counting table: `pi[n] = π(n)`. -/
def pi_ok (pi : List Nat) : Prop :=
  ∀ n, n < pi.length → pi.getD n 0 = Nat.primeCounting n

/-- The contract of PhiTiny: `phi_tiny(x, a)` is `phi(x, a)` for `a ≤ max_a`, and
`get_c(y)` is at most `max_a` and at most `π(y)`. -/
def tiny_ok (tiny : PhiTiny) : Prop :=
  (∀ x a, a ≤ tiny.max_a → tiny.phi_tiny x a = phi_spec x a)
    ∧ ∀ y, tiny.get_c y ≤ tiny.max_a ∧ tiny.get_c y ≤ Nat.primeCounting y

/-- The invariant of the cache: an entry that is not zero is `phi(x, a)`. -/
def cache_ok (cache : List (List Nat)) : Prop :=
  ∀ a x, (cache.getD a []).getD x 0 ≠ 0 → (cache.getD a []).getD x 0 = phi_spec x a

/-! ## S2_sieve.cpp -/

/-- Modelled from the spec: `ceil_div(a, b)` of pmath.hpp, which is not among the
sources: the quotient rounded up. -/
def ceil_div (a b : Nat) : Nat := (a + b - 1) / b

/-- Modelled from the spec: `in_between(min, x, max)` of pmath.hpp, which is not
among the sources: `x` clamped to `[min, max]`. -/
def in_between (lo x hi : Nat) : Nat :=
  if x < lo ∨ hi < lo then lo else if hi < x then hi else x

/-- The search of `isqrt` from `r` down: the largest `r2 ≤ r` with `r2 * r2 ≤ n`. -/
def isqrt_down (n : Nat) : Nat → Nat
  | 0 => 0
  | r + 1 => if (r + 1) * (r + 1) ≤ n then r + 1 else isqrt_down n r

/-- Modelled from the spec: `isqrt(n)` of pmath.hpp, which is not among the sources:
the integer square root, the largest `r` with `r * r ≤ n`. -/
def isqrt (n : Nat) : Nat := isqrt_down n n

/-- What `S2_sieve_thread` uses of FactorTable.hpp, which is not among the
sources: `to_index` (as a function of the number), `get_number`, `lpf`, `mu`. -/
structure FactorTable where
  to_index : Nat → Nat
  get_number : Nat → Nat
  lpf : Nat → Nat
  mu : Nat → Int

/-- A special leaf as it is evaluated: the index `b`, the factor `mu` it is
weighted with (`mu(m)` for an easy leaf, `-1` for a hard leaf), the quotient
`xn = x / n` and the value `phi[b] + count` used for it. -/
structure Leaf where
  b : Nat
  mu : Int
  xn : Nat
  value : Int
deriving DecidableEq, Repr

/-- The local state of `S2_sieve_thread`: `S2_thread`, the bit sieve, the counters,
`next`, `phi`, `mu_sum`; and, for the claims, the list of the leaves evaluated.
Modelled from the spec: the counters of tos_counters.hpp, which is not among the
sources, are the list of the bits they count, so that `cnt_query(counters, k)` is
the number of bits set at the positions `≤ k`. -/
structure S2Worker where
  s2 : Int
  sieve : List Bool
  counters : List Bool
  next : List Nat
  phi : List Int
  mu_sum : List Int
  leaves : List Leaf
deriving DecidableEq, Repr

/-- The function `generate_next_multiples`; `~next_multiple & 1` is 1 exactly
when `next_multiple` is even. -/
def generate_next_multiples (low size : Nat) (primes : List Nat) : List Nat :=
  0 :: (List.range' 1 (size - 1)).map (fun b =>
    let prime := primes.getD b 0
    let next_multiple := ceil_div low prime * prime
    next_multiple + prime * (if next_multiple % 2 = 0 then 1 else 0))

/-- Modelled from the spec: `BitSieve::fill(low, high)` of BitSieve.hpp, which is
not among the sources: the bits of the odd numbers of the segment are set, those
of the even numbers are cleared (the other primes are crossed off with the stride
`2 * prime`, over the odd multiples only). -/
def sieve_fill (size low : Nat) : List Bool :=
  (List.range size).map (fun k => decide ((low + k) % 2 = 1))

/-- Modelled from the spec: `cnt_query(counters, k)` of tos_counters.hpp: the
number of bits set at the positions `≤ k`. -/
def cnt_query (counters : List Bool) (k : Nat) : Nat :=
  ((counters.take (k + 1)).filter (fun bit => bit)).length

/-- The loop `for (prime = primes[i]; k < high; k += prime * 2) sieve.unset(k - low)`;
gives the last `k` and the sieve, `none` when `k < low` or the step budget is
used up. -/
def unset_loop (prime low high : Nat) : Nat → Nat → List Bool → Option (Nat × List Bool)
  | 0, _, _ => none
  | fuel + 1, k, sieve =>
    if k < high then
      if k < low then none
      else unset_loop prime low high fuel (k + prime * 2) (sieve.set (k - low) false)
    else some (k, sieve)

/-- The function `S2_sieve::cross_off`: gives `next_multiple`, the sieve and the
counters; `cnt_update` clears the bit the counters count. -/
def s2_cross_off (prime low high : Nat) :
    Nat → Nat → List Bool → List Bool → Option (Nat × List Bool × List Bool)
  | 0, _, _, _ => none
  | fuel + 1, k, sieve, counters =>
    if k < high then
      if k < low then none
      else if sieve.getD (k - low) false then
        s2_cross_off prime low high fuel (k + prime * 2) (sieve.set (k - low) false)
          (counters.set (k - low) false)
      else s2_cross_off prime low high fuel (k + prime * 2) sieve counters
    else some (k, sieve, counters)

/-- The small-prime loop `for (i = 2; i <= c; i++)` of a segment, over the indices
still to do. -/
def small_primes (primes : List Nat) (low high : Nat) :
    List Nat → List Bool → List Nat → Option (List Bool × List Nat)
  | [], sieve, next => some (sieve, next)
  | i :: rest, sieve, next =>
    match unset_loop (primes.getD i 0) low high (high - next.getD i 0 + 1) (next.getD i 0) sieve with
    | none => none
    | some (k, sieve2) => small_primes primes low high rest sieve2 (next.set i k)

/-- The statements `phi[b] += cnt_query(counters, (high - 1) - low); cross_off(...)`
that end the processing of the index `b` in a segment. -/
def finish_b (primes : List Nat) (low high b : Nat) (w : S2Worker) : Option S2Worker :=
  let prime := primes.getD b 0
  let w1 := { w with phi := w.phi.set b (w.phi.getD b 0 + cnt_query w.counters (high - 1 - low)) }
  match s2_cross_off prime low high (high - w1.next.getD b 0 + 1) (w1.next.getD b 0)
      w1.sieve w1.counters with
  | none => none
  | some (k, sieve2, counters2) =>
    some { w1 with sieve := sieve2, counters := counters2, next := w1.next.set b k }

/-- The evaluation of one leaf: `count = cnt_query(counters, xn - low)`,
`phi_xn = phi[b] + count`, `S2_thread -= mu * phi_xn`, `mu_sum[b] -= mu`.
`none` when `xn - low` is not an index of the counters. -/
def eval_leaf (x low b n : Nat) (mu : Int) (w : S2Worker) : Option S2Worker :=
  if n = 0 then none
  else
    let xn := x / n
    if xn < low ∨ w.counters.length ≤ xn - low then none
    else
      let count := cnt_query w.counters (xn - low)
      let phi_xn : Int := w.phi.getD b 0 + count
      some { w with s2 := w.s2 - mu * phi_xn,
                    mu_sum := w.mu_sum.set b (w.mu_sum.getD b 0 - mu),
                    leaves := w.leaves ++ [⟨b, mu, xn, phi_xn⟩] }

/-- The loop `for (m = max_m; m > min_m; m--)` of the easy leaves, over the table
indices still to do. -/
def easy_leaves (x low b prime : Nat) (factors : FactorTable) :
    List Nat → S2Worker → Option S2Worker
  | [], w => some w
  | m :: rest, w =>
    if prime < factors.lpf m then
      match eval_leaf x low b (prime * factors.get_number m) (factors.mu m) w with
      | none => none
      | some w2 => easy_leaves x low b prime factors rest w2
    else easy_leaves x low b prime factors rest w

/-- The body of the loop `for (end = min(pi_sqrty, pi_max); b <= end; b++)`. The
flag is true when `goto next_segment` is taken. -/
def easy_b (x y : Nat) (factors : FactorTable) (primes : List Nat) (low high b : Nat)
    (w : S2Worker) : Option (S2Worker × Bool) :=
  let prime := primes.getD b 0
  let min_m := max (min (x / (prime * high)) y) (y / prime)
  let max_m := min (x / (prime * low)) y
  if prime ≥ max_m then some (w, true)
  else
    let min_m := factors.to_index min_m
    let max_m := factors.to_index max_m
    match easy_leaves x low b prime factors (List.range' (min_m + 1) (max_m - min_m)).reverse w with
    | none => none
    | some w2 =>
      match finish_b primes low high b w2 with
      | none => none
      | some w3 => some (w3, false)

/-- The loop `for (; primes[l] > min_hard_leaf; l--)` of the hard leaves; `none`
when `l` would go below 0. -/
def hard_leaves (x low b prime min_hard_leaf : Nat) (primes : List Nat) :
    Nat → S2Worker → Option S2Worker
  | 0, w => if primes.getD 0 0 > min_hard_leaf then none else some w
  | l + 1, w =>
    if primes.getD (l + 1) 0 > min_hard_leaf then
      match eval_leaf x low b (prime * primes.getD (l + 1) 0) (-1) w with
      | none => none
      | some w2 => hard_leaves x low b prime min_hard_leaf primes l w2
    else some w

/-- The body of the loop `for (; b <= pi_max; b++)` of the hard leaves. -/
def hard_b (x y z : Nat) (pi primes : List Nat) (low high b : Nat) (w : S2Worker) :
    Option (S2Worker × Bool) :=
  let prime := primes.getD b 0
  let l := pi.getD (min (min (x / (prime * low)) y) (z / prime)) 0
  let min_hard_leaf := max (max (min (x / (prime * high)) y) (y / prime)) prime
  if prime ≥ primes.getD l 0 then some (w, true)
  else
    match hard_leaves x low b prime min_hard_leaf primes l w with
    | none => none
    | some w2 =>
      match finish_b primes low high b w2 with
      | none => none
      | some w3 => some (w3, false)

/-- A `for` loop over the indices `b` with the exit `goto next_segment`. -/
def run_bs (body : Nat → S2Worker → Option (S2Worker × Bool)) :
    List Nat → S2Worker → Option (S2Worker × Bool)
  | [], w => some (w, false)
  | b :: rest, w =>
    match body b w with
    | none => none
    | some (w2, true) => some (w2, true)
    | some (w2, false) => run_bs body rest w2

/-- One pass of the loop `for (; low < limit; low += segment_size)` of
`S2_sieve_thread`: the segment `[low, high)`. -/
def process_segment (x y z c : Nat) (factors : FactorTable) (pi primes : List Nat)
    (pi_sqrty pi_max low high : Nat) (w : S2Worker) : Option S2Worker :=
  let filled : Option S2Worker :=
    if c ≤ pi_max then
      match small_primes primes low high (List.range' 2 (c + 1 - 2))
          (sieve_fill w.sieve.length low) w.next with
      | none => none
      | some (sieve2, next2) => some { w with sieve := sieve2, counters := sieve2, next := next2 }
    else some w
  match filled with
  | none => none
  | some w1 =>
    let b_end := min pi_sqrty pi_max
    match run_bs (easy_b x y factors primes low high) (List.range' (c + 1) (b_end + 1 - (c + 1)))
        w1 with
    | none => none
    | some (w2, true) => some w2
    | some (w2, false) =>
      let b := max (c + 1) (b_end + 1)
      match run_bs (hard_b x y z pi primes low high) (List.range' b (pi_max + 1 - b)) w2 with
      | none => none
      | some (w3, _) => some w3

/-- The loop `for (; low < limit; low += segment_size)` of `S2_sieve_thread`. -/
def segment_loop (x y z c : Nat) (factors : FactorTable) (pi primes : List Nat)
    (pi_sqrty pi_max segment_size limit : Nat) : Nat → Nat → S2Worker → Option S2Worker
  | 0, low, w => if low < limit then none else some w
  | fuel + 1, low, w =>
    if low < limit then
      match process_segment x y z c factors pi primes pi_sqrty pi_max low
          (min (low + segment_size) limit) w with
      | none => none
      | some w2 =>
        segment_loop x y z c factors pi primes pi_sqrty pi_max segment_size limit fuel
          (low + segment_size) w2
    else some w

/-- The function `S2_sieve_thread`: the final local state, whose `s2`, `mu_sum`
and `phi` are the returned value and the two output vectors. -/
def S2_sieve_thread (x y z c segment_size segments_per_thread thread_num low limit : Nat)
    (factors : FactorTable) (pi primes : List Nat) : Option S2Worker :=
  let low := low + segment_size * segments_per_thread * thread_num
  let limit := min (low + segment_size * segments_per_thread) limit
  let pi_sqrty := pi.getD (isqrt y) 0
  let max_prime := min (min (isqrt (x / low)) y) (isqrt z)
  let pi_max := pi.getD max_prime 0
  let w : S2Worker :=
    { s2 := 0, sieve := List.replicate segment_size true,
      counters := List.replicate segment_size false,
      next := generate_next_multiples low (pi_max + 1) primes,
      phi := List.replicate (pi_max + 1) 0, mu_sum := List.replicate (pi_max + 1) 0,
      leaves := [] }
  segment_loop x y z c factors pi primes pi_sqrty pi_max segment_size limit
    segments_per_thread low w

/-- The state of the outer loop of `S2_sieve`: `s2_sieve`, `phi_total`, and, for
the claims, the leaves evaluated so far, each with the value used for it:
`phi_total[b]` as carried when its worker is added, plus the worker's value. -/
structure S2State where
  s2 : Int
  phi_total : List Int
  leaves : List Leaf
deriving DecidableEq, Repr

/-- The loop `for (size_t j = 1; j < phi[i].size(); j++)` of the carry-over. -/
def carry_over (mu_sum phi : List Int) : List Nat → Int → List Int → Int × List Int
  | [], s2, phi_total => (s2, phi_total)
  | j :: rest, s2, phi_total =>
    carry_over mu_sum phi rest (s2 + phi_total.getD j 0 * mu_sum.getD j 0)
      (phi_total.set j (phi_total.getD j 0 + phi.getD j 0))

/-- The work of the threads `i = first, first + 1, ...` of one pass of the outer
loop: the worker, the reduction `s2_sieve += ...` and its carry-over. The sum and
the carry-over are done worker by worker; the sum is the same in any order.
`none` when a worker gives `none` or its vectors are longer than `phi_total`. -/
def run_threads (x y z c segment_size segments_per_thread low limit : Nat)
    (factors : FactorTable) (pi primes : List Nat) : List Nat → S2State → Option S2State
  | [], st => some st
  | i :: rest, st =>
    match S2_sieve_thread x y z c segment_size segments_per_thread i low limit factors pi
        primes with
    | none => none
    | some w =>
      if st.phi_total.length < w.phi.length then none
      else
        let r := carry_over w.mu_sum w.phi (List.range' 1 (w.phi.length - 1)) (st.s2 + w.s2)
          st.phi_total
        run_threads x y z c segment_size segments_per_thread low limit factors pi primes rest
          { s2 := r.1, phi_total := r.2,
            leaves := st.leaves ++ w.leaves.map (fun e =>
              { e with value := st.phi_total.getD e.b 0 + e.value }) }

/-- The loop `while (low < limit)` of `S2_sieve`. Modelled from the spec:
S2LoadBalancer.hpp is not among the sources; `balance k` is the pair
`(segment_size, segments_per_thread)` that `loadBalancer.update` leaves after the
`k`-th pass. `none` when a segment size is 0 or the step budget is used up. -/
def s2_loop (x y z c limit : Nat) (factors : FactorTable) (pi primes : List Nat)
    (balance : Nat → Nat × Nat) :
    Nat → Nat → Nat → Nat → Nat → Nat → S2State → Option S2State
  | 0, _, low, _, _, _, st => if low < limit then none else some st
  | fuel + 1, k, low, threads, segment_size, segments_per_thread, st =>
    if low < limit then
      if segment_size = 0 then none
      else
        let segments := ceil_div (limit - low) segment_size
        let threads := in_between 1 threads segments
        let segments_per_thread := in_between 1 segments_per_thread (ceil_div segments threads)
        match run_threads x y z c segment_size segments_per_thread low limit factors pi primes
            (List.range threads) st with
        | none => none
        | some st2 =>
          s2_loop x y z c limit factors pi primes balance fuel (k + 1)
            (low + segments_per_thread * threads * segment_size) threads
            (balance k).1 (balance k).2 st2
    else some st

/-- The function `S2_sieve::S2_sieve`: the final state, whose `s2` is the returned
value. `min_segment_size` is `loadBalancer.get_min_segment_size()`. -/
def S2_sieve (x y z c : Nat) (pi primes : List Nat) (factors : FactorTable) (threads : Nat)
    (min_segment_size : Nat) (balance : Nat → Nat × Nat) : Option S2State :=
  let low := 1
  let limit := z + 1
  let phi_total : List Int := List.replicate (pi.getD (min (isqrt z) y) 0 + 1) 0
  s2_loop x y z c limit factors pi primes balance limit 0 low threads min_segment_size 1
    { s2 := 0, phi_total := phi_total, leaves := [] }

/-! ## S2_sieve.cpp: what the claims speak of -/

/-- The number of the integers in `[lo, hi)` that are not divisible by any of the
first `i` primes. -/
def rough_count (i lo hi : Nat) : Nat :=
  ((Finset.Ico lo hi).filter (fun n => is_rough i n)).card

/-- The level of the sieve when the primes up to the index `i` are crossed off: a
filled segment holds the odd numbers, which is the level 1. -/
def sieve_level (i : Nat) : Nat := max i 1

/-- The value `nm` is a multiple of `p` that is `≥ pos`, and for an odd `p` it is the
least odd multiple of `p` that is `≥ pos`. -/
def next_ok (p pos nm : Nat) : Prop :=
  p ∣ nm ∧ pos ≤ nm ∧ (p % 2 = 1 → nm % 2 = 1 ∧ nm < pos + 2 * p)

/-- The test that leaves a segment starting at `low` by `goto next_segment` at the
index `b`: the one of the easy loop for `b ≤ pi_sqrty`, of the hard loop above. -/
def seg_break (x y z : Nat) (pi primes : List Nat) (b low : Nat) : Prop :=
  if b ≤ pi.getD (Nat.sqrt y) 0 then
    primes.getD b 0 ≥ min (x / (primes.getD b 0 * low)) y
  else
    primes.getD b 0
      ≥ primes.getD (pi.getD (min (min (x / (primes.getD b 0 * low)) y) (z / primes.getD b 0)) 0) 0

/-- No index from `c + 1` to `b` leaves a segment starting at `low`. -/
def seg_alive (x y z c : Nat) (pi primes : List Nat) (b low : Nat) : Prop :=
  ∀ b', c + 1 ≤ b' → b' ≤ b → ¬ seg_break x y z pi primes b' low

/-- The sum of `-mu * value` over a list of leaves. -/
def leaf_sum (leaves : List Leaf) : Int :=
  (leaves.map (fun e => -e.mu * e.value)).sum

/-- The sum of `-mu` over the leaves of a list with the index `j`. -/
def leaf_mu_sum (leaves : List Leaf) (j : Nat) : Int :=
  ((leaves.filter (fun e => e.b = j)).map (fun e => -e.mu)).sum

/-- The contract of FactorTable: `get_number` is increasing and at least 1, and
`to_index(n)` is the index of the largest table number `≤ n`. -/
def factors_ok (factors : FactorTable) : Prop :=
  (∀ i j, i < j → factors.get_number i < factors.get_number j)
    ∧ 1 ≤ factors.get_number 0
    ∧ ∀ n, 1 ≤ n → factors.get_number (factors.to_index n) ≤ n
        ∧ n < factors.get_number (factors.to_index n + 1)

/-- The tables meet their contracts: `pi` is the prime-counting table up to `y`,
`primes` is the list of the primes up to the index `π(y)`, and `factors` meets the
contract of FactorTable. -/
def s2_tables_ok (y : Nat) (pi primes : List Nat) (factors : FactorTable) : Prop :=
  y < pi.length ∧ pi_ok pi ∧ primes_ok primes (Nat.primeCounting y) ∧ factors_ok factors

/-- A leaf logged by the worker that starts at `low_t`: its index is one the worker
handles, and its value counts the numbers of `[low_t, xn]` of the sieve level
`b - 1`. -/
def leaf_ok (x y z c : Nat) (pi primes : List Nat) (pi_max low_t : Nat) (e : Leaf) : Prop :=
  c + 1 ≤ e.b ∧ e.b ≤ pi_max ∧ seg_alive x y z c pi primes e.b low_t ∧ low_t ≤ e.xn
    ∧ e.value = (rough_count (sieve_level (e.b - 1)) low_t (e.xn + 1) : Int)

/-- The sums of a worker are those of its log. -/
def acct_ok (x y z c : Nat) (pi primes : List Nat) (pi_max low_t : Nat) (w : S2Worker) : Prop :=
  w.s2 = leaf_sum w.leaves ∧ w.mu_sum.length = pi_max + 1
    ∧ (∀ j, w.mu_sum.getD j 0 = leaf_mu_sum w.leaves j)
    ∧ ∀ e ∈ w.leaves, leaf_ok x y z c pi primes pi_max low_t e

/-- The state of a worker inside the segment `[low, high)` when the multiples of the
primes up to the index `i` are crossed off. -/
def mid_inv (x y z c : Nat) (pi primes : List Nat) (S pi_max low_t low high i : Nat)
    (w : S2Worker) : Prop :=
  w.sieve.length = S ∧ w.counters = w.sieve ∧ w.next.length = pi_max + 1
    ∧ w.phi.length = pi_max + 1
    ∧ (∀ k, low + k < high → (w.sieve.getD k false = true ↔ is_rough (sieve_level i) (low + k)))
    ∧ (∀ b, c + 1 ≤ b → b ≤ i →
        next_ok (primes.getD b 0) high (w.next.getD b 0)
          ∧ w.phi.getD b 0 = (rough_count (sieve_level (b - 1)) low_t high : Int))
    ∧ (∀ b, i < b → b ≤ pi_max → seg_alive x y z c pi primes b low →
        next_ok (primes.getD b 0) low (w.next.getD b 0)
          ∧ w.phi.getD b 0 = (rough_count (sieve_level (b - 1)) low_t low : Int))
    ∧ (∀ j, 2 ≤ j → j ≤ c → next_ok (primes.getD j 0) high (w.next.getD j 0))
    ∧ acct_ok x y z c pi primes pi_max low_t w

/-- The state of a worker before the segment that starts at `pos`. -/
def worker_inv (x y z c : Nat) (pi primes : List Nat) (S pi_max low_t pos : Nat)
    (w : S2Worker) : Prop :=
  w.sieve.length = S ∧ w.next.length = pi_max + 1 ∧ w.phi.length = pi_max + 1
    ∧ (∀ b, c + 1 ≤ b → b ≤ pi_max → seg_alive x y z c pi primes b pos →
        next_ok (primes.getD b 0) pos (w.next.getD b 0)
          ∧ w.phi.getD b 0 = (rough_count (sieve_level (b - 1)) low_t pos : Int))
    ∧ (c ≤ pi_max → ∀ j, 2 ≤ j → j ≤ c → next_ok (primes.getD j 0) pos (w.next.getD j 0))
    ∧ acct_ok x y z c pi primes pi_max low_t w

/-- The value `pi_max` of the worker that starts at `low`. -/
def pi_max_at (x y z : Nat) (pi : List Nat) (low : Nat) : Nat :=
  pi.getD (min (min (Nat.sqrt (x / low)) y) (Nat.sqrt z)) 0

/-- The state of the outer loop before the worker that starts at `pos`. -/
def orch_inv (x y z c : Nat) (pi primes : List Nat) (limit pos : Nat) (st : S2State) : Prop :=
  st.phi_total.length = pi.getD (min (Nat.sqrt z) y) 0 + 1
    ∧ (∀ b, c + 1 ≤ b → b ≤ pi_max_at x y z pi pos → seg_alive x y z c pi primes b pos →
        st.phi_total.getD b 0 = (rough_count (sieve_level (b - 1)) 1 (min pos limit) : Int))
    ∧ st.s2 = leaf_sum st.leaves
    ∧ ∀ e ∈ st.leaves,
        c + 1 ≤ e.b ∧ e.value = (phi_spec e.xn (sieve_level (e.b - 1)) : Int)

/-- A reference FactorTable over the numbers `1, 2, 3, ...` in place of the numbers
coprime to the wheel primes: `get_number(i) = i + 1`, `to_index(n) = n - 1`, with the
least prime factor (a large value for the number 1) and the Moebius function of the
numbers up to 20. -/
def ref_factors : FactorTable :=
  { to_index := fun n => n - 1
    get_number := fun i => i + 1
    lpf := fun i => [65535, 2, 3, 2, 5, 2, 7, 2, 3, 2, 11, 2, 13, 2, 3, 2, 17, 2, 19, 2].getD i 0
    mu := fun i =>
      ([1, -1, -1, 0, -1, 1, -1, 0, 0, 1, -1, 0, -1, 1, 1, 0, -1, 0, -1, 0] : List Int).getD i 0 }

/-- The contract of `FactorTable::lpf`: for a table number above 1 it is at most the
number (it is its least prime factor, or a smaller value that encodes `mu`). -/
def factors_lpf_ok (factors : FactorTable) : Prop :=
  ∀ m, 1 < factors.get_number m → factors.lpf m ≤ factors.get_number m

/-- The term of a leaf in the value of `S2_sieve`: `-mu * phi(x / n, b - 1)`. -/
def leaf_term (e : Leaf) : Int :=
  -e.mu * (phi_spec e.xn (sieve_level (e.b - 1)) : Int)

/-- The sum of the terms of a list of leaves. -/
def spec_sum (leaves : List Leaf) : Int :=
  (leaves.map leaf_term).sum

/-- The sum of the terms of the easy leaves `n = primes[b] * get_number(m)` of the index
`b` whose quotient `x / n` lies in `[lo, hi)`: `primes[b] < lpf(m)` and
`y / primes[b] < get_number(m) ≤ y`. -/
def easy_sum (x y : Nat) (primes : List Nat) (factors : FactorTable) (b lo hi : Nat) : Int :=
  Finset.sum (Finset.range y) (fun m =>
    if primes.getD b 0 < factors.lpf m ∧ y / primes.getD b 0 < factors.get_number m
        ∧ factors.get_number m ≤ y
        ∧ lo ≤ x / (primes.getD b 0 * factors.get_number m)
        ∧ x / (primes.getD b 0 * factors.get_number m) < hi
    then -factors.mu m
      * (phi_spec (x / (primes.getD b 0 * factors.get_number m)) (sieve_level (b - 1)) : Int)
    else 0)

/-- The sum of the terms of the hard leaves `n = primes[b] * primes[l]` of the index `b`
whose quotient `x / n` lies in `[lo, hi)`: `primes[b] < primes[l]`,
`y / primes[b] < primes[l] ≤ y` and `primes[l] ≤ z / primes[b]`. -/
def hard_sum (x y z : Nat) (pi primes : List Nat) (b lo hi : Nat) : Int :=
  Finset.sum (Finset.range (pi.getD y 0 + 1)) (fun l =>
    if primes.getD b 0 < primes.getD l 0 ∧ y / primes.getD b 0 < primes.getD l 0
        ∧ primes.getD l 0 ≤ z / primes.getD b 0
        ∧ lo ≤ x / (primes.getD b 0 * primes.getD l 0)
        ∧ x / (primes.getD b 0 * primes.getD l 0) < hi
    then -(-1 : Int)
      * (phi_spec (x / (primes.getD b 0 * primes.getD l 0)) (sieve_level (b - 1)) : Int)
    else 0)

/-- The sum of the terms of the leaves of the index `b` whose quotient lies in
`[lo, hi)`: easy leaves for `b ≤ π(√y)`, hard leaves above. -/
def b_sum (x y z : Nat) (pi primes : List Nat) (factors : FactorTable) (b lo hi : Nat) : Int :=
  if b ≤ pi.getD (Nat.sqrt y) 0 then easy_sum x y primes factors b lo hi
  else hard_sum x y z pi primes b lo hi

/-- The sum of the terms of all the special leaves whose quotient lies in `[lo, hi)`, over
the indices `c < b ≤ π(min(√z, y))`; it does not depend on any schedule. -/
def total_sum (x y z c : Nat) (pi primes : List Nat) (factors : FactorTable) (lo hi : Nat) :
    Int :=
  Finset.sum (Finset.Ioc c (pi.getD (min (Nat.sqrt z) y) 0))
    (fun b => b_sum x y z pi primes factors b lo hi)

/-! ## Sieve.cpp: the words read by `count`, the segments of `cross_off` -/

/-- The indices of the 64-bit words that `Sieve::count(start, stop)` reads, in the order of
the source: `sieve[start_idx]` alone when `start_idx == stop_idx`, otherwise
`sieve[start_idx]`, the `stop_idx - (start_idx + 1)` words from `start_idx + 1` on that
`popcnt` reads, and `sieve[stop_idx]`. -/
def count_reads (start stop : Nat) : List Nat :=
  if start > stop then []
  else
    let start_idx := start / 240
    let stop_idx := stop / 240
    if start_idx = stop_idx then [start_idx]
    else [start_idx] ++ List.range' (start_idx + 1) (stop_idx - (start_idx + 1)) ++ [stop_idx]

/-- The calls `cross_off(i, p)` on successive segments: before the call for a segment the
byte array holds the bytes of that segment (as `pre_sieve` and the calls for the other
primes have left them), and the wheel is kept from call to call. Returns the byte arrays
after the calls and the last state. -/
def cross_off_segments (st : Sieve) (i p : Nat) : List (List Nat) → Option (List (List Nat) × Sieve)
  | [] => some ([], st)
  | seg :: rest =>
    match cross_off { st with sieve_ := seg } i p with
    | none => none
    | some r =>
      match cross_off_segments r.2 i p rest with
      | none => none
      | some r2 => some (r.2.sieve_ :: r2.1, r2.2)

/-- The invariant of the size of the byte array: a positive whole number of 64-bit words;
together with what lets `pre_sieve` run: `segment_size()` fits in 64 bits and the wheel has
its four inert entries. -/
def sieve_inv (st : Sieve) : Prop :=
  0 < st.sieve_.length ∧ st.sieve_.length % 8 = 0 ∧ segment_size st < 2 ^ 64
    ∧ 4 ≤ st.wheel_.length

/-- The integer that a wheel entry designates relative to a segment that starts at the
integer `low`: the byte `multiple` of that segment, and in it the bit that the line
`case index:` of `cross_off` clears. -/
def wheel_target (low : Nat) (wh : Wheel) : Nat :=
  low + 30 * wh.multiple + bit_offsets.getD (case_bit wh.index) 0

/-- A wheel entry of a prime `p` of residue class `c`, as it stands before the call for the
segment that starts at `low`: it designates `p` times the `n`-th number coprime to 30, in
state `8 * c + n % 8`, and every earlier such multiple of `p` lies below the segment. -/
def wheel_ok (low p c : Nat) (wh : Wheel) : Prop :=
  ∃ n, wheel_inv low p c wh.multiple wh.index n ∧ ∀ m, m < n → p * word_offset m ≤ low

/-! ## int128_t.hpp -/

/-- The loop `while (n > 0) { str += '0' + n % 10; n /= 10; }` of `operator<<`; a
character is its code, so `'0' + d` is `48 + d`. `none` when the step budget is used up. -/
def digit_loop : Nat → Nat → List Nat → Option (List Nat)
  | 0, n, str => if n > 0 then none else some str
  | fuel + 1, n, str =>
    if n > 0 then digit_loop fuel (n / 10) (str ++ [(48 + n % 10) % 256]) else some str

/-- The function `operator<<(std::ostream&, uint128_t n)`: the characters written to the
stream, as their codes. A 128-bit number has at most 39 decimal digits. -/
def ostream_u128 (n : Nat) : Option (List Nat) :=
  match digit_loop 40 (n % 2 ^ 128) [] with
  | none => none
  | some str => some (if str.isEmpty then [48] else str).reverse

/-- The number that a string of decimal digits denotes, most significant digit first. -/
def decimal_value (s : List Nat) : Nat :=
  s.foldl (fun acc c => 10 * acc + (c - 48)) 0

/-! ## phi_vector.hpp: sequences of calls -/

/-- A sequence of calls `phi<SIGN>(x, a)`, each given as `(SIGN, x, a)`, made on one
`PhiCache` object whose cache is `cache` before the first call: the returned values. -/
def phi_calls (tiny : PhiTiny) (primes pi : List Nat) :
    List (Int × Nat × Nat) → List (List Nat) → Option (List Int)
  | [], _ => some []
  | c :: rest, cache =>
    match phi_call tiny primes pi cache c.1 c.2.1 c.2.2 with
    | none => none
    | some r =>
      match phi_calls tiny primes pi rest r.2 with
      | none => none
      | some vs => some (r.1 :: vs)

/-- The same calls, each made on a new `PhiCache` object with an empty cache. -/
def phi_fresh (tiny : PhiTiny) (primes pi : List Nat) :
    List (Int × Nat × Nat) → Option (List Int)
  | [] => some []
  | c :: rest =>
    match phi_call tiny primes pi empty_cache c.1 c.2.1 c.2.2 with
    | none => none
    | some r =>
      match phi_fresh tiny primes pi rest with
      | none => none
      | some vs => some (r.1 :: vs)

/-! ## phi_vector.hpp: a table that is too short -/

/-- The function `PhiCache::phi<SIGN>` with `isqrt(x)` computed by the search `isqrt`
in place of `Nat.sqrt`: line by line the same function as `PhiCache.phi`, in a form that
evaluates by reduction. -/
def phi_eval (tiny : PhiTiny) (primes pi : List Nat) :
    Nat → List (List Nat) → Int → Nat → Nat → Option (Int × List (List Nat))
  | 0, _, _, _, _ => none
  | fuel + 1, cache, sign, x, a =>
    if x ≤ primes.getD a 0 then some (sign, cache)
    else if a ≤ tiny.max_a then some ((tiny.phi_tiny x a : Int) * sign, cache)
    else if is_pix primes pi x a then some (((pi.getD x 0 : Int) - a + 1) * sign, cache)
    else if is_cached cache x a then some ((((cache.getD a []).getD x 0 : Nat) : Int) * sign, cache)
    else
      let sqrtx := isqrt x
      let pi_sqrtx := if sqrtx < pi.length ∧ sqrtx < primes.getD a 0 then pi.getD sqrtx 0 else a
      let c := tiny.get_c sqrtx
      let sum0 : Int := ((pi_sqrtx : Int) - a) * sign + (tiny.phi_tiny x c : Int) * sign
      match (List.range' c (pi_sqrtx - c)).foldl
          (phi_step primes pi (phi_eval tiny primes pi fuel) sign x) (some (sum0, cache)) with
      | none => none
      | some (sum, cache3) => some (sum, update_cache cache3 x a sum)

/-- The recurrence `phi(x, a) = phi(x, a - 1) - phi(x / p_a, a - 1)` over the first primes,
from `phi(x, 0) = x`. -/
def phi_rec (x : Nat) : Nat → Nat
  | 0 => x
  | a + 1 => phi_rec x a - phi_rec (x / ref_primes.getD (a + 1) 0) a

/-- Modelled from the spec: PhiTiny.hpp is not among the sources. A PhiTiny with
`max_a = 6` whose `phi_tiny` is computed by the recurrence, and whose `get_c(y)` is
`pi(y)` for `y < 13` and 6 from there on. -/
def rec_tiny : PhiTiny :=
  ⟨6, phi_rec, fun y => if y < 13 then ([0, 0, 1, 2, 2, 3, 3, 4, 4, 4, 4, 5, 5] : List Nat).getD y 0
    else 6⟩

/-- The prime-counting table for the arguments `0 .. 7` only. -/
def short_pi : List Nat := [0, 0, 1, 2, 2, 3, 3, 4]

/-! ## phi_vector.hpp: the first loop without its limit -/

/-- The function `phi_vector` with the loop `for (i = c + 1; i <= limit; i++)` run for
every `i` in `(c, a]`, that is with `limit = a` also when `sqrtx < pi.size()`; every
other statement is the one of `phi_vector`. -/
def phi_vector_full (tiny : PhiTiny) (primes pi : List Nat) (x a : Nat) : Option (List Int) :=
  let size := a + 1
  let c := tiny.get_c (primes.getD a 0)
  let a1 : Option Nat := if primes.getD a 0 > x then pi.get? x else some a
  match a1 with
  | none => none
  | some a =>
    let phi : List Int := List.replicate (a + 1) (if x > 0 then -1 else 0)
    let phi : List Int :=
      phi.take size ++ List.replicate (size - phi.length) (if x > 0 then 1 else 0)
    if x > 0 ∧ a > c then
      if c = 0 then none
      else
        let phi := phi.set c (tiny.phi_tiny x (c - 1) : Int)
        let limit := a
        match phi_vector_loop tiny primes pi x (List.range' (c + 1) (limit + 1 - (c + 1))) phi
            empty_cache with
        | none => none
        | some phi => some (phi_vector_sum (List.range' (c + 1) (a + 1 - (c + 1))) phi)
    else some phi

/-! ## Sieve.cpp: the bytes that `cross_off` touches -/

/-- The byte indices that the body of an unrolled `while` loop of `cross_off` passes to
`unset_bit`, in order. -/
def loop_body_touched (k s : Nat) (entries : List (Nat × Nat × Nat)) : List Nat :=
  entries.map (fun e => s + k * e.2.1 + e.2.2)

/-- The unrolled `while` loop of residue class `c` in `cross_off`, as `cross_loop`: the
byte indices passed to `unset_bit`, in order, and `s` when the loop is left. -/
def cross_loop_touched (k send c : Nat) : Nat → Nat → Option (List Nat × Nat)
  | 0, _ => none
  | fuel + 1, s =>
    let row := loop_table.getD c (0, [], 0)
    if s + k * 28 + row.1 < send then
      match cross_loop_touched k send c fuel (s + k * 30 + row.2.2) with
      | none => none
      | some (tr, s2) => some (loop_body_touched k s row.2.1 ++ tr, s2)
    else some ([], s)

/-- The `switch (wheel.index)` of `cross_off`, as `cross_run`: the byte indices passed to
`unset_bit`, in order. -/
def cross_run_touched (k send : Nat) : Nat → Nat → Nat → Option (List Nat)
  | 0, _, _ => none
  | fuel + 1, s, w =>
    let e := case_table.getD w (0, 0, 0)
    let s1 := s + k * e.2.1 + e.2.2
    if w % 8 = 7 then
      match cross_loop_touched k send (w / 8) (send - s1 + 1) s1 with
      | none => none
      | some (tr, s2) =>
        if s2 ≥ send then some (s :: tr)
        else
          match cross_run_touched k send fuel s2 (w - 7) with
          | none => none
          | some tr2 => some (s :: tr ++ tr2)
    else
      if s1 ≥ send then some [s]
      else
        match cross_run_touched k send fuel s1 (w + 1) with
        | none => none
        | some tr2 => some (s :: tr2)

/-- The part of `Sieve::cross_off` after the call of `add_wheel`, as `cross_off_wheel`:
the indices of the bytes of `sieve_` that are read or written, in order. -/
def cross_off_wheel_touched (st1 : Sieve) (i prime : Nat) : Option (List Nat) :=
  match st1.wheel_.get? i with
  | none => none
  | some wheel =>
    let sieve_size := st1.sieve_.length % 2 ^ 32
    if wheel.multiple ≥ sieve_size then some []
    else if wheel.index < 64 then
      cross_run_touched (prime / 30) sieve_size (8 * (sieve_size - wheel.multiple) + 8)
        wheel.multiple wheel.index
    else some []

/-- The function `Sieve::cross_off`, as `cross_off`: the indices of the bytes of `sieve_`
that the call reads or writes, in order. `none` where `cross_off` gives `none`. -/
def cross_off_touched (st : Sieve) (i prime : Nat) : Option (List Nat) :=
  if i ≥ st.wheel_.length then
    match add_wheel st prime with
    | none => none
    | some st1 => cross_off_wheel_touched st1 i prime
  else cross_off_wheel_touched st i prime

/-! ## S2_sieve.cpp: odd multiples, the calls of `cnt_update`, the segments -/

/-- The value `nm` is the least odd multiple of `p` that is `≥ pos`. -/
def least_odd_multiple (p pos nm : Nat) : Prop :=
  p ∣ nm ∧ nm % 2 = 1 ∧ pos ≤ nm ∧ ∀ m, p ∣ m → m % 2 = 1 → pos ≤ m → nm ≤ m

/-- The function `S2_sieve::cross_off` over counters of any type: `upd counters pos` is
the call `cnt_update(counters, pos, segment_size)`. -/
def cross_off_with {C : Type} (upd : C → Nat → C) (prime low high : Nat) :
    Nat → Nat → List Bool → C → Option (Nat × List Bool × C)
  | 0, _, _, _ => none
  | fuel + 1, k, sieve, counters =>
    if k < high then
      if k < low then none
      else if sieve.getD (k - low) false then
        cross_off_with upd prime low high fuel (k + prime * 2) (sieve.set (k - low) false)
          (upd counters (k - low))
      else cross_off_with upd prime low high fuel (k + prime * 2) sieve counters
    else some (k, sieve, counters)

/-- The positions passed to `cnt_update` by one call of `S2_sieve::cross_off`, in order:
the counters are the list of the calls made. -/
def cross_off_updates (prime low high fuel k : Nat) (sieve : List Bool) :
    Option (Nat × List Bool × List Nat) :=
  cross_off_with (fun (ups : List Nat) pos => ups ++ [pos]) prime low high fuel k sieve []

/-- Modelled from the spec: `cnt_update(counters, pos, segment_size)` of
tos_counters.hpp, which is not among the sources, on the counters seen through their
queries (`q j` is `cnt_query(counters, j)`): the call takes one off every count that
includes the position `pos`. -/
def cnt_update (q : Nat → Int) (pos : Nat) : Nat → Int :=
  fun j => if pos ≤ j then q j - 1 else q j

/-- The loop `for (; low < limit; low += segment_size)` of `S2_sieve_thread`, as
`segment_loop`, with a log: for each pass the bounds `low`, `high` of the segment and the
leaves evaluated in the pass. -/
def segment_log (x y z c : Nat) (factors : FactorTable) (pi primes : List Nat)
    (pi_sqrty pi_max segment_size limit : Nat) :
    Nat → Nat → S2Worker → Option (S2Worker × List (Nat × Nat × List Leaf))
  | 0, low, w => if low < limit then none else some (w, [])
  | fuel + 1, low, w =>
    if low < limit then
      match process_segment x y z c factors pi primes pi_sqrty pi_max low
          (min (low + segment_size) limit) w with
      | none => none
      | some w2 =>
        match segment_log x y z c factors pi primes pi_sqrty pi_max segment_size limit fuel
            (low + segment_size) w2 with
        | none => none
        | some (w3, log) =>
          some (w3, (low, min (low + segment_size) limit, w2.leaves.drop w.leaves.length) :: log)
    else some (w, [])

/-- The function `S2_sieve_thread`, as `S2_sieve_thread`, with the log of its segments. -/
def thread_log (x y z c segment_size segments_per_thread thread_num low limit : Nat)
    (factors : FactorTable) (pi primes : List Nat) :
    Option (S2Worker × List (Nat × Nat × List Leaf)) :=
  let low := low + segment_size * segments_per_thread * thread_num
  let limit := min (low + segment_size * segments_per_thread) limit
  let pi_sqrty := pi.getD (isqrt y) 0
  let max_prime := min (min (isqrt (x / low)) y) (isqrt z)
  let pi_max := pi.getD max_prime 0
  let w : S2Worker :=
    { s2 := 0, sieve := List.replicate segment_size true,
      counters := List.replicate segment_size false,
      next := generate_next_multiples low (pi_max + 1) primes,
      phi := List.replicate (pi_max + 1) 0, mu_sum := List.replicate (pi_max + 1) 0,
      leaves := [] }
  segment_log x y z c factors pi primes pi_sqrty pi_max segment_size limit
    segments_per_thread low w

/-- The segments `[low, high)` of the loop `for (; low < limit; low += segment_size)` of
`S2_sieve_thread`: the control of the loop alone. `none` when the step budget is used
up. -/
def segments_loop (segment_size limit : Nat) : Nat → Nat → Option (List (Nat × Nat))
  | 0, low => if low < limit then none else some []
  | fuel + 1, low =>
    if low < limit then
      match segments_loop segment_size limit fuel (low + segment_size) with
      | none => none
      | some segs => some ((low, min (low + segment_size) limit) :: segs)
    else some []

/-- The segments that the worker `thread_num` of a pass sieves: the first two statements
of `S2_sieve_thread` and the control of its loop. -/
def thread_segments (segment_size segments_per_thread thread_num low limit : Nat) :
    Option (List (Nat × Nat)) :=
  let low := low + segment_size * segments_per_thread * thread_num
  let limit := min (low + segment_size * segments_per_thread) limit
  segments_loop segment_size limit segments_per_thread low

/-- The segments of the workers `i = first, first + 1, ...` of one pass of the outer loop
of `S2_sieve`, in the order of the workers. -/
def pass_segments (segment_size segments_per_thread low limit : Nat) :
    List Nat → Option (List (Nat × Nat))
  | [] => some []
  | i :: rest =>
    match thread_segments segment_size segments_per_thread i low limit with
    | none => none
    | some segs =>
      match pass_segments segment_size segments_per_thread low limit rest with
      | none => none
      | some segs2 => some (segs ++ segs2)

/-- The segments sieved over the passes of the loop `while (low < limit)` of `S2_sieve`:
the control of `s2_loop`, with `balance k` the pair that `loadBalancer.update` leaves
after the `k`-th pass. -/
def schedule_loop (limit : Nat) (balance : Nat → Nat × Nat) :
    Nat → Nat → Nat → Nat → Nat → Nat → Option (List (Nat × Nat))
  | 0, _, low, _, _, _ => if low < limit then none else some []
  | fuel + 1, k, low, threads, segment_size, segments_per_thread =>
    if low < limit then
      if segment_size = 0 then none
      else
        let segments := ceil_div (limit - low) segment_size
        let threads := in_between 1 threads segments
        let segments_per_thread := in_between 1 segments_per_thread (ceil_div segments threads)
        match pass_segments segment_size segments_per_thread low limit (List.range threads) with
        | none => none
        | some segs =>
          match schedule_loop limit balance fuel (k + 1)
              (low + segments_per_thread * threads * segment_size) threads
              (balance k).1 (balance k).2 with
          | none => none
          | some segs2 => some (segs ++ segs2)
    else some []

/-- The segments sieved by `S2_sieve`, all workers and passes, as `S2_sieve`. -/
def S2_sieve_segments (z threads min_segment_size : Nat) (balance : Nat → Nat × Nat) :
    Option (List (Nat × Nat)) :=
  schedule_loop (z + 1) balance (z + 1) 0 1 threads min_segment_size 1

/-- A list of segments is a chain from `a` to `b`: every segment is not empty, the first
starts at `a`, each of the others starts where the one before it ends, and the last ends
at `b`. -/
def seg_chain : List (Nat × Nat) → Nat → Nat → Prop
  | [], a, b => a = b
  | s :: rest, a, b => s.1 = a ∧ a < s.2 ∧ seg_chain rest s.2 b

/-! ## int128_t.hpp: the signed operator -/

/-- The statement `n = -n` on an `int128_t`: the negation taken modulo `2^128` and read as
a signed 128-bit value. -/
def neg_i128 (n : Int) : Int := (-n + 2 ^ 127) % 2 ^ 128 - 2 ^ 127

/-- The function `operator<<(std::ostream&, int128_t n)`: the characters written to the
stream, as their codes; `"-"` is the code 45 and `(uint128_t) n` is `n` modulo `2^128`. -/
def ostream_i128 (n : Int) : Option (List Nat) :=
  let stream : List Nat := if n < 0 then [45] else []
  let n : Int := if n < 0 then neg_i128 n else n
  match ostream_u128 (n % 2 ^ 128).toNat with
  | none => none
  | some digits => some (stream ++ digits)

theorem of_bits_testBit (f : Nat → Bool) (n s i : Nat) :
    (of_bits f s n).testBit i = (decide (i < n) && f (s + i)) := by
  induction n generalizing s i with
  | zero => simp [of_bits]
  | succ n ih =>
    cases i with
    | zero => simp [of_bits, Nat.testBit_bit_zero]
    | succ i =>
      simp only [of_bits, Nat.testBit_bit_succ, ih]
      have : s + 1 + i = s + (i + 1) := by omega
      rw [this]
      simp

theorem byte_shift_testBit (b t i : Nat) :
    ((b % 256) <<< (8 * t)).testBit i = (decide (i / 8 = t) && b.testBit (i % 8)) := by
  have h256 : (256 : Nat) = 2 ^ 8 := by norm_num
  rw [Nat.testBit_shiftLeft, h256, Nat.testBit_mod_two_pow]
  by_cases h : i / 8 = t
  · have h1 : i ≥ 8 * t := by omega
    have h2 : i - 8 * t < 8 := by omega
    have h3 : i - 8 * t = i % 8 := by omega
    rw [h3] at h2
    simp [h, h1, h2, h3]
  · by_cases h1 : i ≥ 8 * t
    · have h2 : ¬ (i - 8 * t < 8) := by omega
      simp [h, h1, h2]
    · simp [h, h1]

theorem read_word_testBit (bytes : List Nat) (j i : Nat) :
    (read_word bytes j).testBit i
      = (decide (i < 64) && (bytes.getD (8 * j + i / 8) 0).testBit (i % 8)) := by
  have hr : List.range 8 = [0, 1, 2, 3, 4, 5, 6, 7] := by decide
  simp only [read_word, hr, List.map, List.foldl, Nat.testBit_or, byte_shift_testBit,
    Nat.zero_testBit, Bool.false_or]
  by_cases hi : i < 64
  · have ht : i / 8 < 8 := by omega
    generalize i / 8 = t at ht ⊢
    interval_cases t <;> simp [hi]
  · have h0 : ¬ i / 8 = 0 := by omega
    have h1 : ¬ i / 8 = 1 := by omega
    have h2 : ¬ i / 8 = 2 := by omega
    have h3 : ¬ i / 8 = 3 := by omega
    have h4 : ¬ i / 8 = 4 := by omega
    have h5 : ¬ i / 8 = 5 := by omega
    have h6 : ¬ i / 8 = 6 := by omega
    have h7 : ¬ i / 8 = 7 := by omega
    simp [hi, h0, h1, h2, h3, h4, h5, h6, h7]

theorem list_filter_length_eq_card (n : Nat) (p : Nat → Bool) :
    ((List.range n).filter p).length = ((Finset.range n).filter (fun i => p i = true)).card := by
  simp [Finset.card, Finset.filter, Finset.range, Multiset.range]

theorem popcnt64_and (w m : Nat) :
    popcnt64 (w &&& m)
      = ((Finset.range 64).filter (fun i => w.testBit i = true ∧ m.testBit i = true)).card := by
  unfold popcnt64
  rw [list_filter_length_eq_card]
  congr 1
  ext i
  simp [Nat.testBit_and]

theorem popcnt64_eq (w : Nat) :
    popcnt64 w = ((Finset.range 64).filter (fun i => w.testBit i = true)).card := by
  unfold popcnt64
  rw [list_filter_length_eq_card]

theorem bit_offsets_bounds (t : Nat) (ht : t < 8) :
    1 ≤ bit_offsets.getD t 0 ∧ bit_offsets.getD t 0 ≤ 29 := by
  interval_cases t <;> simp [bit_offsets]

theorem word_offset_bounds (i : Nat) (hi : i < 64) :
    1 ≤ word_offset i ∧ word_offset i ≤ 239 := by
  have h := bit_offsets_bounds (i % 8) (Nat.mod_lt _ (by norm_num))
  unfold word_offset
  omega

theorem word_offset_shift (j i : Nat) : word_offset (64 * j + i) = 240 * j + word_offset i := by
  unfold word_offset
  have h1 : (64 * j + i) / 8 = 8 * j + i / 8 := by omega
  have h2 : (64 * j + i) % 8 = i % 8 := by omega
  rw [h1, h2]
  ring

theorem live_bit_word (bytes : List Nat) (j i : Nat) (hi : i < 64) :
    (read_word bytes j).testBit i = live_bit bytes (64 * j + i) := by
  rw [read_word_testBit]
  unfold live_bit
  have h1 : (64 * j + i) / 8 = 8 * j + i / 8 := by omega
  have h2 : (64 * j + i) % 8 = i % 8 := by omega
  rw [h1, h2]
  simp [hi]

theorem sum_blocks (f : Nat → Nat) (W : Nat) :
    (∑ i ∈ Finset.range (64 * W), f i)
      = ∑ j ∈ Finset.range W, ∑ i ∈ Finset.range 64, f (64 * j + i) := by
  induction W with
  | zero => simp
  | succ W ih =>
    rw [Finset.sum_range_succ, ← ih, Nat.mul_succ, Finset.sum_range_add]

theorem popcnt_eq_sum (bytes : List Nat) (first n : Nat) :
    popcnt bytes first n = ∑ j ∈ Finset.range n, popcnt64 (read_word bytes (first + j)) := by
  unfold popcnt
  induction n with
  | zero => simp
  | succ n ih => rw [List.range_succ, List.map_append, List.sum_append, ih, Finset.sum_range_succ]; simp

/-- The live bits of word `j` whose offset lies in `[a, b]`. -/
theorem word_count_def (bytes : List Nat) (a b j : Nat) :
    (∑ i ∈ Finset.range 64,
        if (live_bit bytes (64 * j + i) = true ∧ a ≤ word_offset (64 * j + i)
            ∧ word_offset (64 * j + i) ≤ b) then 1 else 0)
      = ((Finset.range 64).filter (fun i => live_bit bytes (64 * j + i) = true
            ∧ a ≤ 240 * j + word_offset i ∧ 240 * j + word_offset i ≤ b)).card := by
  rw [Finset.card_filter]
  apply Finset.sum_congr rfl
  intro i _
  rw [word_offset_shift]

theorem live_count_eq_sum (bytes : List Nat) (a b W : Nat) (hW : bytes.length = 8 * W) :
    live_count bytes a b
      = ∑ j ∈ Finset.range W, ((Finset.range 64).filter (fun i => live_bit bytes (64 * j + i) = true
            ∧ a ≤ 240 * j + word_offset i ∧ 240 * j + word_offset i ≤ b)).card := by
  unfold live_count
  rw [Finset.card_filter, hW]
  have : 8 * (8 * W) = 64 * W := by ring
  rw [this, sum_blocks]
  apply Finset.sum_congr rfl
  intro j _
  exact word_count_def bytes a b j

theorem word_part_outside (bytes : List Nat) (a b j : Nat) (h : j < a / 240 ∨ b / 240 < j) :
    word_part bytes a b j = 0 := by
  unfold word_part
  rw [Finset.card_eq_zero, Finset.filter_eq_empty_iff]
  intro i hi
  have hb := word_offset_bounds i (Finset.mem_range.mp hi)
  omega

theorem word_part_both (bytes : List Nat) (a b j : Nat) (h1 : j = a / 240) (h2 : j = b / 240) :
    popcnt64 (read_word bytes j &&& (unset_smaller (a % 240) &&& unset_larger (b % 240)))
      = word_part bytes a b j := by
  unfold word_part
  rw [popcnt64_and]
  congr 1
  apply Finset.filter_congr
  intro i hi
  have hi := Finset.mem_range.mp hi
  have hb := word_offset_bounds i hi
  rw [live_bit_word bytes j i hi, Nat.testBit_and]
  simp only [unset_smaller, unset_larger, of_bits_testBit, Nat.zero_add, hi, decide_True,
    Bool.true_and, Bool.and_eq_true, decide_eq_true_eq]
  constructor
  · rintro ⟨hl, h3, h4⟩; exact ⟨hl, by omega, by omega⟩
  · rintro ⟨hl, h3, h4⟩; exact ⟨hl, by omega, by omega⟩

theorem word_part_first (bytes : List Nat) (a b j : Nat) (h1 : j = a / 240) (h2 : j < b / 240) :
    popcnt64 (read_word bytes j &&& unset_smaller (a % 240)) = word_part bytes a b j := by
  unfold word_part
  rw [popcnt64_and]
  congr 1
  apply Finset.filter_congr
  intro i hi
  have hi := Finset.mem_range.mp hi
  have hb := word_offset_bounds i hi
  rw [live_bit_word bytes j i hi]
  simp only [unset_smaller, of_bits_testBit, Nat.zero_add, hi, decide_True,
    Bool.true_and, decide_eq_true_eq]
  constructor
  · rintro ⟨hl, h3⟩; exact ⟨hl, by omega, by omega⟩
  · rintro ⟨hl, h3, h4⟩; exact ⟨hl, by omega⟩

theorem word_part_last (bytes : List Nat) (a b j : Nat) (h1 : a / 240 < j) (h2 : j = b / 240) :
    popcnt64 (read_word bytes j &&& unset_larger (b % 240)) = word_part bytes a b j := by
  unfold word_part
  rw [popcnt64_and]
  congr 1
  apply Finset.filter_congr
  intro i hi
  have hi := Finset.mem_range.mp hi
  have hb := word_offset_bounds i hi
  rw [live_bit_word bytes j i hi]
  simp only [unset_larger, of_bits_testBit, Nat.zero_add, hi, decide_True,
    Bool.true_and, decide_eq_true_eq]
  constructor
  · rintro ⟨hl, h3⟩; exact ⟨hl, by omega, by omega⟩
  · rintro ⟨hl, h3, h4⟩; exact ⟨hl, by omega⟩

theorem word_part_middle (bytes : List Nat) (a b j : Nat) (h1 : a / 240 < j) (h2 : j < b / 240) :
    popcnt64 (read_word bytes j) = word_part bytes a b j := by
  unfold word_part
  rw [popcnt64_eq]
  congr 1
  apply Finset.filter_congr
  intro i hi
  have hi := Finset.mem_range.mp hi
  have hb := word_offset_bounds i hi
  rw [live_bit_word bytes j i hi]
  constructor
  · intro hl; exact ⟨hl, by omega, by omega⟩
  · rintro ⟨hl, _, _⟩; exact hl

theorem count_eq_live_count (st : Sieve) (a b : Nat) (hlen : st.sieve_.length % 8 = 0)
    (hab : a ≤ b) (hb : b < segment_size st) : count st a b = live_count st.sieve_ a b := by
  obtain ⟨W, hW⟩ : ∃ W, st.sieve_.length = 8 * W := ⟨st.sieve_.length / 8, by omega⟩
  have hbW : b / 240 < W := by unfold segment_size at hb; omega
  rw [live_count_eq_sum st.sieve_ a b W hW]
  change count st a b = ∑ j ∈ Finset.range W, word_part st.sieve_ a b j
  unfold count
  rw [if_neg (by omega)]
  by_cases hidx : a / 240 = b / 240
  · simp only [hidx, if_true]
    rw [Finset.sum_eq_single_of_mem (b / 240) (Finset.mem_range.mpr hbW)]
    · exact word_part_both st.sieve_ a b (b / 240) hidx.symm rfl
    · intro j _ hj
      apply word_part_outside
      omega
  · have hlt : a / 240 < b / 240 := by
      have : a / 240 ≤ b / 240 := Nat.div_le_div_right hab
      omega
    simp only [hidx, if_false]
    rw [← Finset.sum_range_add_sum_Ico _ (show a / 240 ≤ W by omega)]
    rw [Finset.sum_eq_zero (s := Finset.range (a / 240))
      (fun j hj => word_part_outside st.sieve_ a b j (Or.inl (Finset.mem_range.mp hj)))]
    rw [← Finset.sum_Ico_consecutive _ (show a / 240 ≤ b / 240 + 1 by omega)
      (show b / 240 + 1 ≤ W by omega)]
    rw [Finset.sum_eq_zero (s := Finset.Ico (b / 240 + 1) W)
      (fun j hj => word_part_outside st.sieve_ a b j (Or.inr (by
        have := (Finset.mem_Ico.mp hj).1; omega)))]
    rw [Finset.sum_Ico_succ_top (show a / 240 ≤ b / 240 by omega)]
    rw [Finset.sum_eq_sum_Ico_succ_bot hlt]
    rw [word_part_first st.sieve_ a b (a / 240) rfl hlt,
      word_part_last st.sieve_ a b (b / 240) hlt rfl, popcnt_eq_sum,
      Finset.sum_Ico_eq_sum_range]
    simp only [Nat.zero_add, Nat.add_zero]
    congr 2
    apply Finset.sum_congr rfl
    intro j hj
    have hj := Finset.mem_range.mp hj
    exact word_part_middle st.sieve_ a b (a / 240 + 1 + j) (by omega) (by omega)

theorem live_count_split (bytes : List Nat) (a b c : Nat) (hab : a ≤ b) (hbc : b < c) :
    live_count bytes a b + live_count bytes (b + 1) c = live_count bytes a c := by
  unfold live_count
  rw [← Finset.card_union_of_disjoint]
  · congr 1
    ext i
    simp only [Finset.mem_union, Finset.mem_filter, Finset.mem_range]
    constructor
    · rintro (⟨h1, h2, h3, h4⟩ | ⟨h1, h2, h3, h4⟩)
      · exact ⟨h1, h2, h3, by omega⟩
      · exact ⟨h1, h2, by omega, h4⟩
    · rintro ⟨h1, h2, h3, h4⟩
      by_cases h : word_offset i ≤ b
      · exact Or.inl ⟨h1, h2, h3, h⟩
      · exact Or.inr ⟨h1, h2, by omega, h4⟩
  · rw [Finset.disjoint_filter]
    intro i _ h1 h2
    omega

theorem clear_bit_testBit (b n t : Nat) (hn : n < 8) (ht : t < 8) :
    ((b &&& (0xFFFFFFFF ^^^ (1 <<< n))) % 256).testBit t = (b.testBit t && !decide (t = n)) := by
  have h256 : (256 : Nat) = 2 ^ 8 := by norm_num
  have hF : (0xFFFFFFFF : Nat) = 2 ^ 32 - 1 := by norm_num
  rw [h256, Nat.testBit_mod_two_pow, Nat.testBit_and, Nat.testBit_xor, hF,
    Nat.testBit_two_pow_sub_one, Nat.one_shiftLeft, Nat.testBit_two_pow]
  have h32 : t < 32 := by omega
  by_cases h : t = n
  · subst h; simp [ht, h32]
  · have h' : ¬ n = t := fun e => h e.symm
    simp [ht, h32, h, h']

theorem unset_bit_length (n : Nat) (bytes : List Nat) (s : Nat) :
    (unset_bit n bytes s).1.length = bytes.length := by
  simp [unset_bit]

theorem unset_bit_live (n : Nat) (bytes : List Nat) (s i : Nat) (hn : n < 8) :
    live_bit (unset_bit n bytes s).1 i = (live_bit bytes i && !decide (i = 8 * s + n)) := by
  unfold live_bit unset_bit
  have ht : i % 8 < 8 := Nat.mod_lt _ (by norm_num)
  simp only [List.getD_eq_getElem?_getD, List.getElem?_set]
  by_cases hs : s = i / 8
  · subst hs
    by_cases hl : i / 8 < bytes.length
    · simp only [hl, if_true, Option.getD_some]
      rw [clear_bit_testBit _ _ _ hn ht]
      have : (i = 8 * (i / 8) + n) ↔ (i % 8 = n) := by omega
      simp [this]
    · have hnone : bytes[i / 8]? = none := List.getElem?_eq_none (by omega)
      simp [hl, hnone]
  · have : ¬ i = 8 * s + n := by omega
    simp [hs, this]

theorem unset_bit_ret (n : Nat) (bytes : List Nat) (s : Nat) (hn : n < 8) :
    (unset_bit n bytes s).2 = if live_bit bytes (8 * s + n) = true then 1 else 0 := by
  unfold live_bit unset_bit
  have h1 : (8 * s + n) / 8 = s := by omega
  have h2 : (8 * s + n) % 8 = n := by omega
  simp only [h1, h2]
  rw [Nat.and_one_is_mod, Nat.shiftRight_eq_div_pow]
  rw [Nat.testBit_to_div_mod]
  simp only [decide_eq_true_eq]
  split_ifs with h <;> omega

theorem live_bit_lt (bytes : List Nat) (i : Nat) (h : live_bit bytes i = true) :
    i < 8 * bytes.length := by
  unfold live_bit at h
  by_contra hc
  have hnone : bytes[i / 8]? = none := List.getElem?_eq_none (by omega)
  simp [List.getD_eq_getElem?_getD, hnone] at h

theorem unset_bit_popcount (n : Nat) (bytes : List Nat) (s : Nat) (hn : n < 8) :
    (unset_bit n bytes s).2 + popcount_bytes (unset_bit n bytes s).1 = popcount_bytes bytes := by
  unfold popcount_bytes
  rw [unset_bit_length, unset_bit_ret n bytes s hn]
  have hset : (Finset.range (8 * bytes.length)).filter
        (fun i => live_bit (unset_bit n bytes s).1 i = true)
      = ((Finset.range (8 * bytes.length)).filter (fun i => live_bit bytes i = true)).erase
          (8 * s + n) := by
    ext i
    simp only [Finset.mem_filter, Finset.mem_range, Finset.mem_erase, unset_bit_live n bytes s i hn,
      Bool.and_eq_true, Bool.not_eq_true', decide_eq_false_iff_not]
    tauto
  rw [hset]
  by_cases h : live_bit bytes (8 * s + n) = true
  · have hm : 8 * s + n ∈ (Finset.range (8 * bytes.length)).filter
        (fun i => live_bit bytes i = true) := by
      simp only [Finset.mem_filter, Finset.mem_range]
      exact ⟨live_bit_lt bytes _ h, h⟩
    rw [if_pos h, Finset.card_erase_of_mem hm]
    have : 0 < ((Finset.range (8 * bytes.length)).filter
        (fun i => live_bit bytes i = true)).card := Finset.card_pos.mpr ⟨_, hm⟩
    omega
  · rw [if_neg h, Finset.erase_eq_of_not_mem]
    · simp
    · simp only [Finset.mem_filter, not_and]
      intro _
      exact h

theorem case_bit_lt (w : Nat) : (case_table.getD w (0, 0, 0)).1 < 8 := by
  rcases Nat.lt_or_ge w 64 with h | h
  · interval_cases w <;> decide
  · rw [List.getD_eq_default _ _ (by simpa [case_table] using h)]
    norm_num

theorem case_carry_pos (w : Nat) (hw : w < 64) (h7 : w % 8 = 7) :
    1 ≤ (case_table.getD w (0, 0, 0)).2.2 := by
  interval_cases w <;> first | omega | decide

theorem loop_row_bits (c : Nat) : ∀ e ∈ (loop_table.getD c (0, [], 0)).2.1, e.1 < 8 := by
  rcases Nat.lt_or_ge c 8 with h | h
  · interval_cases c <;> decide
  · rw [List.getD_eq_default _ _ (by simpa [loop_table] using h)]
    simp

theorem loop_row_inc (c : Nat) (hc : c < 8) : 1 ≤ (loop_table.getD c (0, [], 0)).2.2 := by
  interval_cases c <;> decide

theorem loop_body_popcount (k s : Nat) (entries : List (Nat × Nat × Nat)) :
    ∀ (bytes : List Nat) (cnt : Nat), (∀ e ∈ entries, e.1 < 8) →
      (loop_body k s entries bytes cnt).2 + popcount_bytes (loop_body k s entries bytes cnt).1
          = cnt + popcount_bytes bytes
        ∧ (loop_body k s entries bytes cnt).1.length = bytes.length := by
  induction entries with
  | nil => intro bytes cnt _; simp [loop_body]
  | cons e rest ih =>
    intro bytes cnt h
    have he : e.1 < 8 := h e (List.mem_cons_self _ _)
    have hrest : ∀ e' ∈ rest, e'.1 < 8 := fun e' he' => h e' (List.mem_cons_of_mem _ he')
    have step : loop_body k s (e :: rest) bytes cnt
        = loop_body k s rest (unset_bit e.1 bytes (s + k * e.2.1 + e.2.2)).1
            (cnt + (unset_bit e.1 bytes (s + k * e.2.1 + e.2.2)).2) := by
      simp [loop_body]
    rw [step]
    obtain ⟨h1, h2⟩ := ih (unset_bit e.1 bytes (s + k * e.2.1 + e.2.2)).1
      (cnt + (unset_bit e.1 bytes (s + k * e.2.1 + e.2.2)).2) hrest
    have h3 := unset_bit_popcount e.1 bytes (s + k * e.2.1 + e.2.2) he
    rw [unset_bit_length] at h2
    exact ⟨by omega, h2⟩

theorem cross_loop_popcount (k send c : Nat) :
    ∀ (fuel : Nat) (bytes : List Nat) (cnt s : Nat) (r : List Nat × Nat × Nat),
      cross_loop k send c fuel bytes cnt s = some r →
        r.2.1 + popcount_bytes r.1 = cnt + popcount_bytes bytes
          ∧ r.1.length = bytes.length ∧ s ≤ r.2.2 := by
  intro fuel
  induction fuel with
  | zero => intro bytes cnt s r h; simp [cross_loop] at h
  | succ fuel ih =>
    intro bytes cnt s r h
    simp only [cross_loop] at h
    split_ifs at h with hg
    · obtain ⟨h1, h2, h3⟩ := ih _ _ _ r h
      obtain ⟨h4, h5⟩ := loop_body_popcount k s (loop_table.getD c (0, [], 0)).2.1 bytes cnt
        (loop_row_bits c)
      exact ⟨by omega, by omega, by omega⟩
    · cases h
      exact ⟨rfl, rfl, le_refl _⟩

theorem cross_loop_some (k send c : Nat) (hc : c < 8) :
    ∀ (fuel : Nat) (bytes : List Nat) (cnt s : Nat), send - s < fuel →
      ∃ r, cross_loop k send c fuel bytes cnt s = some r := by
  intro fuel
  induction fuel with
  | zero => intro bytes cnt s h; omega
  | succ fuel ih =>
    intro bytes cnt s h
    simp only [cross_loop]
    split_ifs with hg
    · have := loop_row_inc c hc
      exact ih _ _ _ (by omega)
    · exact ⟨_, rfl⟩

theorem cross_run_popcount (k send : Nat) :
    ∀ (fuel : Nat) (bytes : List Nat) (cnt s w : Nat) (r : List Nat × Nat × Nat × Nat),
      cross_run k send fuel bytes cnt s w = some r →
        r.2.1 + popcount_bytes r.1 = cnt + popcount_bytes bytes
          ∧ r.1.length = bytes.length := by
  intro fuel
  induction fuel with
  | zero => intro bytes cnt s w r h; simp [cross_run] at h
  | succ fuel ih =>
    intro bytes cnt s w r h
    have hu := unset_bit_popcount (case_table.getD w (0, 0, 0)).1 bytes s (case_bit_lt w)
    have hl := unset_bit_length (case_table.getD w (0, 0, 0)).1 bytes s
    simp only [cross_run] at h
    split_ifs at h with h7 hs1
    · split at h
      · cases h
      · rename_i bytes2 cnt2 s2 hloop
        obtain ⟨h1, h2, _⟩ := cross_loop_popcount k send _ _ _ _ _ _ hloop
        simp only at h1 h2
        split_ifs at h with hs2
        · cases h
          exact ⟨by simp only; omega, by simp only; omega⟩
        · obtain ⟨h3, h4⟩ := ih _ _ _ _ r h
          exact ⟨by omega, by omega⟩
    · cases h
      exact ⟨by simp only; omega, by simp only; omega⟩
    · obtain ⟨h3, h4⟩ := ih _ _ _ _ r h
      exact ⟨by omega, by omega⟩

theorem cross_run_some (k send : Nat) :
    ∀ (fuel : Nat) (bytes : List Nat) (cnt s w : Nat), w < 64 → s < send →
      8 * (send - s) + 8 ≤ fuel + w % 8 →
      ∃ r, cross_run k send fuel bytes cnt s w = some r := by
  intro fuel
  induction fuel with
  | zero => intro bytes cnt s w hw hs hf; omega
  | succ fuel ih =>
    intro bytes cnt s w hw hs hf
    simp only [cross_run]
    split_ifs with h7 hs1
    · have hc := case_carry_pos w hw h7
      obtain ⟨r, hr⟩ := cross_loop_some k send (w / 8) (by omega)
        (send - (s + k * (case_table.getD w (0, 0, 0)).2.1 + (case_table.getD w (0, 0, 0)).2.2) + 1)
        (unset_bit (case_table.getD w (0, 0, 0)).1 bytes s).1
        (cnt + (unset_bit (case_table.getD w (0, 0, 0)).1 bytes s).2)
        (s + k * (case_table.getD w (0, 0, 0)).2.1 + (case_table.getD w (0, 0, 0)).2.2) (by omega)
      obtain ⟨_, _, hs2⟩ := cross_loop_popcount k send _ _ _ _ _ _ hr
      rw [hr]
      obtain ⟨b2, c2, s2⟩ := r
      simp only
      split_ifs with hs3
      · exact ⟨_, rfl⟩
      · simp only at hs2
        exact ih _ _ _ _ (by omega) (by omega) (by omega)
    · exact ⟨_, rfl⟩
    · exact ih _ _ _ _ (by omega) (by omega) (by omega)

theorem cross_off_wheel_count (st1 : Sieve) (i p : Nat) (hi : i < st1.wheel_.length) :
    ∃ cnt st2, cross_off_wheel st1 i p = some (cnt, st2)
      ∧ cnt + popcount_bytes st2.sieve_ = popcount_bytes st1.sieve_ := by
  unfold cross_off_wheel
  rw [List.get?_eq_get hi]
  simp only
  split_ifs with h1 h2
  · exact ⟨_, _, rfl, by simp⟩
  · obtain ⟨r, hr⟩ := cross_run_some (p / 30) (st1.sieve_.length % 2 ^ 32)
      (8 * (st1.sieve_.length % 2 ^ 32 - (st1.wheel_.get ⟨i, hi⟩).multiple) + 8) st1.sieve_ 0
      (st1.wheel_.get ⟨i, hi⟩).multiple (st1.wheel_.get ⟨i, hi⟩).index h2 (by omega) (by omega)
    obtain ⟨h3, _⟩ := cross_run_popcount _ _ _ _ _ _ _ r hr
    rw [hr]
    obtain ⟨b2, c2, s2, w2⟩ := r
    exact ⟨_, _, rfl, by simpa using h3⟩
  · exact ⟨_, _, rfl, by simp⟩

theorem add_wheel_some (st : Sieve) (p : Nat) (hp : 0 < p) :
    ∃ wh, add_wheel st p = some { st with wheel_ := st.wheel_ ++ [wh] } := by
  unfold add_wheel
  rw [if_neg (by omega)]
  exact ⟨_, rfl⟩

theorem cross_off_count_aux (st : Sieve) (i p : Nat) (hi : i ≤ st.wheel_.length) (hp : 0 < p) :
    ∃ cnt st2, cross_off st i p = some (cnt, st2)
      ∧ cnt + popcount_bytes st2.sieve_ = popcount_bytes st.sieve_ := by
  unfold cross_off
  split_ifs with h
  · obtain ⟨wh, hwh⟩ := add_wheel_some st p hp
    rw [hwh]
    simp only
    exact cross_off_wheel_count { st with wheel_ := st.wheel_ ++ [wh] } i p (by simp; omega)
  · exact cross_off_wheel_count st i p (by omega)

theorem word_offset_succ (n : Nat) :
    word_offset (n + 1) = word_offset n + case_factor (n % 8) := by
  have ht : n % 8 < 8 := Nat.mod_lt _ (by norm_num)
  unfold word_offset
  by_cases h7 : n % 8 = 7
  · have h1 : (n + 1) / 8 = n / 8 + 1 := by omega
    have h2 : (n + 1) % 8 = 0 := by omega
    rw [h1, h2, h7]
    simp [bit_offsets, case_factor, case_table]
    omega
  · have h1 : (n + 1) / 8 = n / 8 := by omega
    have h2 : (n + 1) % 8 = n % 8 + 1 := by omega
    rw [h1, h2]
    generalize n % 8 = t at ht h7 ⊢
    interval_cases t <;> simp [bit_offsets, case_factor, case_table] <;> omega

theorem case_factor_pos (w : Nat) (hw : w < 64) : 0 < case_factor w := by
  unfold case_factor
  interval_cases w <;> decide

theorem word_offset_strictMono : StrictMono word_offset := by
  apply strictMono_nat_of_lt_succ
  intro n
  rw [word_offset_succ]
  have := case_factor_pos (n % 8) (by omega)
  omega

theorem table_factor (c t : Nat) (hc : c < 8) (ht : t < 8) :
    case_factor (8 * c + t) = case_factor t := by
  unfold case_factor
  interval_cases c <;> interval_cases t <;> decide

theorem table_carry (c t : Nat) (hc : c < 8) (ht : t < 8) :
    30 * case_carry (8 * c + t) + bit_offsets.getD (case_bit (8 * c + (t + 1) % 8)) 0
      = bit_offsets.getD (case_bit (8 * c + t)) 0 + bit_offsets.getD c 0 * case_factor (8 * c + t) := by
  unfold case_factor case_carry case_bit
  interval_cases c <;> interval_cases t <;> decide

theorem table_bit (c t : Nat) (hc : c < 8) (ht : t < 8) :
    bit_offsets.getD (case_bit (8 * c + t)) 0 = (bit_offsets.getD c 0 * bit_offsets.getD t 0) % 30 := by
  unfold case_bit
  interval_cases c <;> interval_cases t <;> decide

theorem wheel_inv_step (start p k c s w n : Nat) (hp : p = 30 * k + bit_offsets.getD c 0)
    (hc : c < 8) (h : wheel_inv start p c s w n) :
    wheel_inv start p c (s + k * case_factor w + case_carry w) (8 * c + (n + 1) % 8) (n + 1) := by
  obtain ⟨hw, he⟩ := h
  have ht : n % 8 < 8 := Nat.mod_lt _ (by norm_num)
  refine ⟨rfl, ?_⟩
  have h1 : (n + 1) % 8 = (n % 8 + 1) % 8 := by omega
  have tc := table_carry c (n % 8) hc ht
  have tf := table_factor c (n % 8) hc ht
  rw [← hw] at tc tf
  rw [h1]
  have e : p * word_offset (n + 1)
      = p * word_offset n + 30 * (k * case_factor w) + bit_offsets.getD c 0 * case_factor w := by
    rw [word_offset_succ, ← tf, hp]; ring
  rw [e]
  omega

theorem wheel_inv_bit (start p c s w n i : Nat) (h : wheel_inv start p c s w n) :
    i = 8 * s + case_bit w ↔ start + word_offset i = p * word_offset n := by
  obtain ⟨hw, he⟩ := h
  have hb : case_bit w < 8 := case_bit_lt w
  have hwo : word_offset (8 * s + case_bit w) = 30 * s + bit_offsets.getD (case_bit w) 0 := by
    unfold word_offset
    have h1 : (8 * s + case_bit w) / 8 = s := by omega
    have h2 : (8 * s + case_bit w) % 8 = case_bit w := by omega
    rw [h1, h2]
  constructor
  · intro hi
    rw [hi, hwo]; omega
  · intro hi
    apply word_offset_strictMono.injective
    rw [hwo]; omega

theorem loop_row_eq (c : Nat) (hc : c < 8) :
    loop_table.getD c (0, [], 0)
        = (cum_carry c 7,
            (List.range 8).map (fun j => (case_bit (8 * c + j), cum_factor c j, cum_carry c j)),
            cum_carry c 8)
      ∧ cum_factor c 7 = 28 ∧ cum_factor c 8 = 30 := by
  interval_cases c <;> decide

theorem wheel_inv_iter (start p k c s n : Nat) (hp : p = 30 * k + bit_offsets.getD c 0)
    (hc : c < 8) (hn : n % 8 = 0) (h : wheel_inv start p c s (8 * c) n) :
    ∀ j, j ≤ 8 →
      wheel_inv start p c (s + k * cum_factor c j + cum_carry c j) (8 * c + j % 8) (n + j) := by
  intro j
  induction j with
  | zero =>
    intro _
    simpa [cum_factor, cum_carry] using h
  | succ j ih =>
    intro hj
    have hprev := ih (by omega)
    have hstep := wheel_inv_step start p k c _ _ _ hp hc hprev
    have h1 : (n + j + 1) % 8 = (j + 1) % 8 := by omega
    have h2 : j % 8 = j := by omega
    rw [h1, h2] at hstep
    have h3 : s + k * cum_factor c j + cum_carry c j + k * case_factor (8 * c + j)
          + case_carry (8 * c + j)
        = s + k * cum_factor c (j + 1) + cum_carry c (j + 1) := by
      simp only [cum_factor, cum_carry]; ring
    rw [h3] at hstep
    exact hstep

theorem loop_body_live (k s : Nat) (entries : List (Nat × Nat × Nat)) :
    ∀ (bytes : List Nat) (cnt : Nat), (∀ e ∈ entries, e.1 < 8) → ∀ i,
      (live_bit (loop_body k s entries bytes cnt).1 i = true
        ↔ live_bit bytes i = true ∧ ∀ e ∈ entries, i ≠ 8 * (s + k * e.2.1 + e.2.2) + e.1) := by
  induction entries with
  | nil => intro bytes cnt _ i; simp [loop_body]
  | cons e rest ih =>
    intro bytes cnt h i
    have he : e.1 < 8 := h e (List.mem_cons_self _ _)
    have hrest : ∀ e' ∈ rest, e'.1 < 8 := fun e' he' => h e' (List.mem_cons_of_mem _ he')
    have step : loop_body k s (e :: rest) bytes cnt
        = loop_body k s rest (unset_bit e.1 bytes (s + k * e.2.1 + e.2.2)).1
            (cnt + (unset_bit e.1 bytes (s + k * e.2.1 + e.2.2)).2) := by
      simp [loop_body]
    rw [step, ih _ _ hrest i, unset_bit_live _ _ _ _ he]
    simp only [Bool.and_eq_true, Bool.not_eq_true', decide_eq_false_iff_not, List.mem_cons,
      forall_eq_or_imp, ne_eq]
    tauto

theorem loop_iter_live (start p k c s n : Nat) (bytes : List Nat) (cnt : Nat)
    (hp : p = 30 * k + bit_offsets.getD c 0) (hc : c < 8) (hn : n % 8 = 0)
    (h : wheel_inv start p c s (8 * c) n) (i : Nat) :
    (live_bit (loop_body k s (loop_table.getD c (0, [], 0)).2.1 bytes cnt).1 i = true
      ↔ live_bit bytes i = true
          ∧ ¬ ∃ m, n ≤ m ∧ m < n + 8 ∧ start + word_offset i = p * word_offset m) := by
  rw [loop_body_live k s _ bytes cnt (loop_row_bits c) i]
  rw [(loop_row_eq c hc).1]
  simp only [List.mem_map, List.mem_range, forall_exists_index, and_imp, ne_eq]
  apply and_congr_right
  intro _
  constructor
  · rintro hall ⟨m, hm1, hm2, hm3⟩
    have hinv := wheel_inv_iter start p k c s n hp hc hn h (m - n) (by omega)
    have e1 : n + (m - n) = m := by omega
    have e2 : (m - n) % 8 = m - n := by omega
    rw [e1, e2] at hinv
    have := (wheel_inv_bit start p c _ _ m i hinv).mpr hm3
    exact hall _ (m - n) (by omega) rfl this
  · intro hex e j hj hje hi
    subst hje
    simp only at hi
    have hinv := wheel_inv_iter start p k c s n hp hc hn h j (by omega)
    have e2 : j % 8 = j := by omega
    rw [e2] at hinv
    exact hex ⟨n + j, by omega, by omega, (wheel_inv_bit start p c _ _ (n + j) i hinv).mp hi⟩

theorem loop_iter_inv (start p k c s n : Nat)
    (hp : p = 30 * k + bit_offsets.getD c 0) (hc : c < 8) (hn : n % 8 = 0)
    (h : wheel_inv start p c s (8 * c) n) :
    wheel_inv start p c (s + k * 30 + (loop_table.getD c (0, [], 0)).2.2) (8 * c) (n + 8) := by
  have hinv := wheel_inv_iter start p k c s n hp hc hn h 8 (le_refl _)
  rw [(loop_row_eq c hc).1]
  rw [(loop_row_eq c hc).2.2] at hinv
  simpa using hinv

theorem cross_loop_spec (start p k c send : Nat) (hp : p = 30 * k + bit_offsets.getD c 0)
    (hc : c < 8) :
    ∀ (fuel : Nat) (bytes : List Nat) (cnt s n : Nat) (r : List Nat × Nat × Nat),
      n % 8 = 0 → wheel_inv start p c s (8 * c) n →
      cross_loop k send c fuel bytes cnt s = some r →
      ∃ n', n ≤ n' ∧ n' % 8 = 0 ∧ wheel_inv start p c r.2.2 (8 * c) n'
        ∧ ∀ i, (live_bit r.1 i = true
            ↔ live_bit bytes i = true
              ∧ ¬ ∃ m, n ≤ m ∧ m < n' ∧ start + word_offset i = p * word_offset m) := by
  intro fuel
  induction fuel with
  | zero => intro bytes cnt s n r _ _ h; simp [cross_loop] at h
  | succ fuel ih =>
    intro bytes cnt s n r hn hinv h
    simp only [cross_loop] at h
    split_ifs at h with hg
    · have hinv2 := loop_iter_inv start p k c s n hp hc hn hinv
      obtain ⟨n', h1, h2, h3, h4⟩ := ih _ _ _ (n + 8) r (by omega) hinv2 h
      refine ⟨n', by omega, h2, h3, ?_⟩
      intro i
      rw [h4 i, loop_iter_live start p k c s n bytes cnt hp hc hn hinv i]
      constructor
      · rintro ⟨⟨hl, ha⟩, hb⟩
        refine ⟨hl, ?_⟩
        rintro ⟨m, hm1, hm2, hm3⟩
        by_cases hm : m < n + 8
        · exact ha ⟨m, hm1, hm, hm3⟩
        · exact hb ⟨m, by omega, hm2, hm3⟩
      · rintro ⟨hl, ha⟩
        refine ⟨⟨hl, ?_⟩, ?_⟩
        · rintro ⟨m, hm1, hm2, hm3⟩
          exact ha ⟨m, hm1, by omega, hm3⟩
        · rintro ⟨m, hm1, hm2, hm3⟩
          exact ha ⟨m, by omega, hm2, hm3⟩
    · cases h
      refine ⟨n, le_refl _, hn, hinv, ?_⟩
      intro i
      constructor
      · intro hl
        exact ⟨hl, by rintro ⟨m, hm1, hm2, _⟩; omega⟩
      · rintro ⟨hl, _⟩; exact hl

theorem cross_run_spec (start p k c send : Nat) (hp : p = 30 * k + bit_offsets.getD c 0)
    (hc : c < 8) :
    ∀ (fuel : Nat) (bytes : List Nat) (cnt s w n : Nat) (r : List Nat × Nat × Nat × Nat),
      wheel_inv start p c s w n →
      cross_run k send fuel bytes cnt s w = some r →
      ∃ n', n < n' ∧ wheel_inv start p c r.2.2.1 r.2.2.2 n' ∧ send ≤ r.2.2.1
        ∧ ∀ i, (live_bit r.1 i = true
            ↔ live_bit bytes i = true
              ∧ ¬ ∃ m, n ≤ m ∧ m < n' ∧ start + word_offset i = p * word_offset m) := by
  intro fuel
  induction fuel with
  | zero => intro bytes cnt s w n r _ h; simp [cross_run] at h
  | succ fuel ih =>
    intro bytes cnt s w n r hinv h
    have hstep := wheel_inv_step start p k c s w n hp hc hinv
    have hbit := fun i => wheel_inv_bit start p c s w n i hinv
    have hlive := fun i => unset_bit_live (case_bit w) bytes s i (case_bit_lt w)
    have hw := hinv.1
    simp only [cross_run] at h
    change (if w % 8 = 7 then _ else _) = some r at h
    -- the bit cleared by this line
    have one : ∀ i, (live_bit (unset_bit (case_table.getD w (0, 0, 0)).1 bytes s).1 i = true
        ↔ live_bit bytes i = true ∧ ¬ start + word_offset i = p * word_offset n) := by
      intro i
      have := hlive i
      unfold case_bit at this
      rw [this, ← hbit i]
      simp [case_bit]
    split_ifs at h with h7 hs1
    · have e7 : 8 * c + (n + 1) % 8 = w - 7 := by omega
      have e8 : w - 7 = 8 * c := by omega
      have e9 : w / 8 = c := by omega
      rw [e7, e8] at hstep
      rw [e9] at h
      split at h
      · cases h
      · rename_i bytes2 cnt2 s2 hloop
        obtain ⟨n1, h1, h2, h3, h4⟩ := cross_loop_spec start p k c send hp hc _ _ _ _ (n + 1) _
          (by omega) hstep hloop
        simp only at h3 h4
        split_ifs at h with hs2
        · cases h
          refine ⟨n1, by omega, by rw [e8]; exact h3, hs2, ?_⟩
          intro i
          simp only
          rw [h4 i, one i]
          constructor
          · rintro ⟨⟨hl, ha⟩, hb⟩
            refine ⟨hl, ?_⟩
            rintro ⟨m, hm1, hm2, hm3⟩
            by_cases hm : m = n
            · subst hm; exact ha hm3
            · exact hb ⟨m, by omega, hm2, hm3⟩
          · rintro ⟨hl, ha⟩
            refine ⟨⟨hl, ?_⟩, ?_⟩
            · intro hm3
              exact ha ⟨n, le_refl _, by omega, hm3⟩
            · rintro ⟨m, hm1, hm2, hm3⟩
              exact ha ⟨m, by omega, hm2, hm3⟩
        · rw [e8] at h
          obtain ⟨n2, g1, g2, g3, g4⟩ := ih _ _ _ _ n1 r h3 h
          refine ⟨n2, by omega, g2, g3, ?_⟩
          intro i
          rw [g4 i, h4 i, one i]
          constructor
          · rintro ⟨⟨⟨hl, ha⟩, hb⟩, hd⟩
            refine ⟨hl, ?_⟩
            rintro ⟨m, hm1, hm2, hm3⟩
            by_cases hm : m = n
            · subst hm; exact ha hm3
            · by_cases hm' : m < n1
              · exact hb ⟨m, by omega, hm', hm3⟩
              · exact hd ⟨m, by omega, hm2, hm3⟩
          · rintro ⟨hl, ha⟩
            refine ⟨⟨⟨hl, ?_⟩, ?_⟩, ?_⟩
            · intro hm3
              exact ha ⟨n, le_refl _, by omega, hm3⟩
            · rintro ⟨m, hm1, hm2, hm3⟩
              exact ha ⟨m, by omega, by omega, hm3⟩
            · rintro ⟨m, hm1, hm2, hm3⟩
              exact ha ⟨m, by omega, hm2, hm3⟩
    · cases h
      have e7 : 8 * c + (n + 1) % 8 = w + 1 := by omega
      rw [e7] at hstep
      refine ⟨n + 1, by omega, hstep, hs1, ?_⟩
      intro i
      simp only
      rw [one i]
      constructor
      · rintro ⟨hl, ha⟩
        refine ⟨hl, ?_⟩
        rintro ⟨m, hm1, hm2, hm3⟩
        have : m = n := by omega
        subst this; exact ha hm3
      · rintro ⟨hl, ha⟩
        exact ⟨hl, fun hm3 => ha ⟨n, le_refl _, by omega, hm3⟩⟩
    · have e7 : 8 * c + (n + 1) % 8 = w + 1 := by omega
      rw [e7] at hstep
      obtain ⟨n2, g1, g2, g3, g4⟩ := ih _ _ _ _ (n + 1) r hstep h
      refine ⟨n2, by omega, g2, g3, ?_⟩
      intro i
      rw [g4 i, one i]
      constructor
      · rintro ⟨⟨hl, ha⟩, hd⟩
        refine ⟨hl, ?_⟩
        rintro ⟨m, hm1, hm2, hm3⟩
        by_cases hm : m = n
        · subst hm; exact ha hm3
        · exact hd ⟨m, by omega, hm2, hm3⟩
      · rintro ⟨hl, ha⟩
        refine ⟨⟨hl, ?_⟩, ?_⟩
        · intro hm3
          exact ha ⟨n, le_refl _, by omega, hm3⟩
        · rintro ⟨m, hm1, hm2, hm3⟩
          exact ha ⟨m, by omega, hm2, hm3⟩

theorem wheel_init_facts (x : Nat) (hx : x < 30) :
    (wheel_init.getD x (0, 0)).1 ≤ 5 ∧ (wheel_init.getD x (0, 0)).2 < 8
      ∧ x + (wheel_init.getD x (0, 0)).1 = bit_offsets.getD (wheel_init.getD x (0, 0)).2 0
      ∧ ∀ t, t < (wheel_init.getD x (0, 0)).2 → bit_offsets.getD t 0 < x := by
  interval_cases x <;> decide

theorem wheel_offsets_class (c : Nat) (hc : c < 8) :
    wheel_offsets.getD (bit_offsets.getD c 0) 0 = 8 * c := by
  interval_cases c <;> decide

theorem word_offset_mk (j t : Nat) (ht : t < 8) :
    word_offset (8 * j + t) = 30 * j + bit_offsets.getD t 0 := by
  unfold word_offset
  have h1 : (8 * j + t) / 8 = j := by omega
  have h2 : (8 * j + t) % 8 = t := by omega
  rw [h1, h2]

theorem add_wheel_inv (st : Sieve) (p c : Nat) (hstart : st.start_ % 30 = 0) (hc : c < 8)
    (hpc : p % 30 = bit_offsets.getD c 0) (h64 : st.start_ + 6 * p < 2 ^ 64) (hp32 : p < 2 ^ 32) :
    ∃ mult n0, add_wheel st p = some { st with wheel_ := st.wheel_ ++ [⟨mult, 8 * c + n0 % 8⟩] }
      ∧ wheel_inv st.start_ p c mult (8 * c + n0 % 8) n0
      ∧ ∀ m, m < n0 → p * word_offset m ≤ st.start_ := by
  have hres := bit_offsets_bounds c hc
  have hp0 : 0 < p := by omega
  obtain ⟨hf5, hix, hsum, hless⟩ := wheel_init_facts ((st.start_ / p + 1) % 30)
    (Nat.mod_lt _ (by norm_num))
  have hQ1 : p * (st.start_ / p) ≤ st.start_ := Nat.mul_div_le _ _
  have hQ2 : st.start_ < p * (st.start_ / p + 1) := Nat.lt_mul_div_succ _ hp0
  have hQle : st.start_ / p ≤ st.start_ := Nat.div_le_self _ _
  have hQ3 : p * (st.start_ / p + 1) = p * (st.start_ / p) + p := by ring
  have hQmod : (st.start_ / p + 1) % 2 ^ 64 = st.start_ / p + 1 := by
    apply Nat.mod_eq_of_lt; omega
  generalize hQ : st.start_ / p + 1 = Q at *
  generalize hf : (wheel_init.getD (Q % 30) (0, 0)).1 = f at *
  generalize hixd : (wheel_init.getD (Q % 30) (0, 0)).2 = ix at *
  have hB : p * f ≤ 5 * p := by
    calc p * f ≤ p * 5 := Nat.mul_le_mul_left _ hf5
      _ = 5 * p := by ring
  have hq0 : Q + f = word_offset (8 * (Q / 30) + ix) := by
    rw [word_offset_mk _ _ hix]; omega
  have hmod : (p * Q + p * f) % 30 = bit_offsets.getD (case_bit (8 * c + ix)) 0 := by
    rw [table_bit c ix hc hix, ← Nat.mul_add, Nat.mul_mod, hpc]
    have : (Q + f) % 30 = bit_offsets.getD ix 0 := by
      have := bit_offsets_bounds ix hix
      omega
    rw [this]
  have hn0 : (8 * (Q / 30) + ix) % 8 = ix := by omega
  refine ⟨(p * Q + p * f - st.start_) / 30, 8 * (Q / 30) + ix, ?_, ?_, ?_⟩
  · unfold add_wheel
    rw [if_neg (by omega)]
    simp only [hQ, hQmod, hf, hixd, hpc, wheel_offsets_class c hc, hn0]
    have e1 : (p * Q % 2 ^ 64 + p * f) % 2 ^ 64 = p * Q + p * f := by omega
    have e2 : (p * Q + p * f + 2 ^ 64 - st.start_) % 2 ^ 64 = p * Q + p * f - st.start_ := by
      omega
    have e3 : (p * Q + p * f - st.start_) / 30 % 2 ^ 32 = (p * Q + p * f - st.start_) / 30 := by
      omega
    have e4 : (ix + 8 * c) % 2 ^ 32 = 8 * c + ix := by omega
    rw [e1, e2, e3, e4]
  · refine ⟨by rw [hn0], ?_⟩
    rw [hn0, ← hq0, Nat.mul_add]
    omega
  · intro m hm
    have hlt : word_offset m < Q := by
      by_cases hj : m / 8 < Q / 30
      · have := bit_offsets_bounds (m % 8) (Nat.mod_lt _ (by norm_num))
        unfold word_offset
        omega
      · have h1 : m / 8 = Q / 30 := by omega
        have h2 : m % 8 < ix := by omega
        have := hless (m % 8) h2
        unfold word_offset
        omega
    have : word_offset m ≤ st.start_ / p := by omega
    calc p * word_offset m ≤ p * (st.start_ / p) := Nat.mul_le_mul_left _ this
      _ ≤ st.start_ := hQ1

set_option maxRecDepth 100000 in
theorem residue_cofactor :
    ∀ c < 8, ∀ y < 30, ∀ t < 8,
      (bit_offsets.getD c 0 * y) % 30 = bit_offsets.getD t 0 →
        ∃ u < 8, bit_offsets.getD u 0 = y := by
  decide

theorem dvd_iff_word_offset (start p c n0 : Nat) (hstart : start % 30 = 0) (hc : c < 8)
    (hpc : p % 30 = bit_offsets.getD c 0) (hmin : ∀ m, m < n0 → p * word_offset m ≤ start)
    (j : Nat) :
    p ∣ start + word_offset j ↔ ∃ m, n0 ≤ m ∧ start + word_offset j = p * word_offset m := by
  constructor
  · rintro ⟨q, hq⟩
    have ht : j % 8 < 8 := Nat.mod_lt _ (by norm_num)
    have hb := bit_offsets_bounds (j % 8) ht
    have hmod : (bit_offsets.getD c 0 * (q % 30)) % 30 = bit_offsets.getD (j % 8) 0 := by
      rw [← hpc, ← Nat.mul_mod, ← hq]
      unfold word_offset
      omega
    obtain ⟨u, hu, hres⟩ := residue_cofactor c hc (q % 30) (Nat.mod_lt _ (by norm_num)) (j % 8) ht
      hmod
    have hqm : q = word_offset (8 * (q / 30) + u) := by
      rw [word_offset_mk _ _ hu, hres]; omega
    refine ⟨8 * (q / 30) + u, ?_, by rw [← hqm]; exact hq⟩
    by_contra hlt
    have := hmin _ (not_le.mp hlt)
    rw [← hqm, ← hq] at this
    have := (word_offset_bounds (j % 64) (Nat.mod_lt _ (by norm_num))).1
    have hj1 : 1 ≤ word_offset j := by
      unfold word_offset; omega
    omega
  · rintro ⟨m, _, hm⟩
    exact ⟨word_offset m, hm⟩

theorem word_offset_lt_of_bit (len j : Nat) (hj : j < 8 * len) : word_offset j < 30 * len := by
  have hb := bit_offsets_bounds (j % 8) (Nat.mod_lt _ (by norm_num))
  unfold word_offset
  omega

theorem cross_off_fresh (st : Sieve) (i p c : Nat) (hstart : st.start_ % 30 = 0) (hc : c < 8)
    (hpc : p % 30 = bit_offsets.getD c 0) (h64 : st.start_ + 6 * p < 2 ^ 64) (hp32 : p < 2 ^ 32)
    (hi : i = st.wheel_.length) (hlen : st.sieve_.length < 2 ^ 32) :
    ∃ cnt st2, cross_off st i p = some (cnt, st2) ∧ st2.start_ = st.start_
      ∧ st2.sieve_.length = st.sieve_.length ∧ st2.wheel_.length = st.wheel_.length + 1
      ∧ ∀ j, (live_bit st2.sieve_ j = true
          ↔ live_bit st.sieve_ j = true ∧ ¬ p ∣ st.start_ + word_offset j) := by
  obtain ⟨mult, n0, hadd, hinv, hmin⟩ := add_wheel_inv st p c hstart hc hpc h64 hp32
  have hdvd := dvd_iff_word_offset st.start_ p c n0 hstart hc hpc hmin
  have hk : p = 30 * (p / 30) + bit_offsets.getD c 0 := by omega
  have hmono := word_offset_strictMono
  unfold cross_off
  rw [if_pos (by omega), hadd]
  simp only
  unfold cross_off_wheel
  have hget : (st.wheel_ ++ [(⟨mult, 8 * c + n0 % 8⟩ : Wheel)]).get? i
      = some ⟨mult, 8 * c + n0 % 8⟩ := by
    rw [hi]; simp
  simp only [hget, Nat.mod_eq_of_lt hlen]
  split_ifs with h1 h2
  · refine ⟨_, _, rfl, rfl, rfl, by simp, ?_⟩
    intro j
    simp only
    constructor
    · intro hl
      refine ⟨hl, ?_⟩
      rw [hdvd j]
      rintro ⟨m, hm1, hm2⟩
      have hj := word_offset_lt_of_bit _ j (live_bit_lt _ _ hl)
      have hmm : word_offset n0 ≤ word_offset m := hmono.monotone hm1
      have : p * word_offset n0 ≤ p * word_offset m := Nat.mul_le_mul_left _ hmm
      have := hinv.2
      omega
    · rintro ⟨hl, _⟩; exact hl
  · obtain ⟨r, hr⟩ := cross_run_some (p / 30) st.sieve_.length
      (8 * (st.sieve_.length - mult) + 8) st.sieve_ 0 mult (8 * c + n0 % 8) h2 (by omega)
      (by omega)
    obtain ⟨_, hlen2⟩ := cross_run_popcount _ _ _ _ _ _ _ r hr
    obtain ⟨n1, g1, g2, g3, g4⟩ := cross_run_spec st.start_ p (p / 30) c st.sieve_.length hk hc
      _ _ _ _ _ n0 r hinv hr
    rw [hr]
    obtain ⟨b2, c2, s2, w2⟩ := r
    refine ⟨_, _, rfl, rfl, hlen2, by simp, ?_⟩
    intro j
    simp only at g2 g3 g4 ⊢
    rw [g4 j, hdvd j]
    constructor
    · rintro ⟨hl, ha⟩
      refine ⟨hl, ?_⟩
      rintro ⟨m, hm1, hm2⟩
      apply ha
      refine ⟨m, hm1, ?_, hm2⟩
      by_contra hge
      have hj := word_offset_lt_of_bit _ j (live_bit_lt _ _ hl)
      have hmm : word_offset n1 ≤ word_offset m := hmono.monotone (not_lt.mp hge)
      have : p * word_offset n1 ≤ p * word_offset m := Nat.mul_le_mul_left _ hmm
      have := g2.2
      omega
    · rintro ⟨hl, ha⟩
      refine ⟨hl, ?_⟩
      rintro ⟨m, hm1, _, hm3⟩
      exact ha ⟨m, hm1, hm3⟩
  · exfalso
    omega

theorem prime_class (p : Nat) (hp : p.Prime) (h7 : 7 ≤ p) :
    ∃ c, c < 8 ∧ p % 30 = bit_offsets.getD c 0 := by
  have h2 : ¬ 2 ∣ p := fun h => by
    have := (Nat.prime_dvd_prime_iff_eq Nat.prime_two hp).mp h; omega
  have h3 : ¬ 3 ∣ p := fun h => by
    have := (Nat.prime_dvd_prime_iff_eq Nat.prime_three hp).mp h; omega
  have h5 : ¬ 5 ∣ p := fun h => by
    have := (Nat.prime_dvd_prime_iff_eq Nat.prime_five hp).mp h; omega
  have h2' : p % 2 ≠ 0 := fun h => h2 (Nat.dvd_of_mod_eq_zero h)
  have h3' : p % 3 ≠ 0 := fun h => h3 (Nat.dvd_of_mod_eq_zero h)
  have h5' : p % 5 ≠ 0 := fun h => h5 (Nat.dvd_of_mod_eq_zero h)
  have hcases : p % 30 = 1 ∨ p % 30 = 7 ∨ p % 30 = 11 ∨ p % 30 = 13 ∨ p % 30 = 17
      ∨ p % 30 = 19 ∨ p % 30 = 23 ∨ p % 30 = 29 := by
    have e2 : p % 30 % 2 = p % 2 := Nat.mod_mod_of_dvd p (by norm_num)
    have e3 : p % 30 % 3 = p % 3 := Nat.mod_mod_of_dvd p (by norm_num)
    have e5 : p % 30 % 5 = p % 5 := Nat.mod_mod_of_dvd p (by norm_num)
    have hy : p % 30 < 30 := Nat.mod_lt _ (by norm_num)
    rw [← e2] at h2'
    rw [← e3] at h3'
    rw [← e5] at h5'
    generalize p % 30 = y at *
    interval_cases y <;> simp_all
  rcases hcases with h | h | h | h | h | h | h | h
  · exact ⟨0, by norm_num, by rw [h]; rfl⟩
  · exact ⟨1, by norm_num, by rw [h]; rfl⟩
  · exact ⟨2, by norm_num, by rw [h]; rfl⟩
  · exact ⟨3, by norm_num, by rw [h]; rfl⟩
  · exact ⟨4, by norm_num, by rw [h]; rfl⟩
  · exact ⟨5, by norm_num, by rw [h]; rfl⟩
  · exact ⟨6, by norm_num, by rw [h]; rfl⟩
  · exact ⟨7, by norm_num, by rw [h]; rfl⟩

theorem sieve_primes_facts (i : Nat) (h4 : 4 ≤ i) (h9 : i ≤ 9) :
    ∃ p, sieve_primes.get? i = some p ∧ p.Prime ∧ 7 ≤ p ∧ p ≤ 23 := by
  interval_cases i
  · exact ⟨7, rfl, by norm_num, by norm_num, by norm_num⟩
  · exact ⟨11, rfl, by norm_num, by norm_num, by norm_num⟩
  · exact ⟨13, rfl, by norm_num, by norm_num, by norm_num⟩
  · exact ⟨17, rfl, by norm_num, by norm_num, by norm_num⟩
  · exact ⟨19, rfl, by norm_num, by norm_num, by norm_num⟩
  · exact ⟨23, rfl, by norm_num, by norm_num, by norm_num⟩

theorem cross_off_prime (st : Sieve) (i p : Nat) (hstart : st.start_ % 30 = 0) (hp : p.Prime)
    (hp7 : 7 ≤ p) (hp32 : p < 2 ^ 32) (h64 : st.start_ + 6 * p < 2 ^ 64)
    (hi : i = st.wheel_.length) (hlen : st.sieve_.length < 2 ^ 32) :
    ∃ cnt st2, cross_off st i p = some (cnt, st2) ∧ st2.start_ = st.start_
      ∧ st2.sieve_.length = st.sieve_.length ∧ st2.wheel_.length = st.wheel_.length + 1
      ∧ ∀ j, (live_bit st2.sieve_ j = true
          ↔ live_bit st.sieve_ j = true ∧ ¬ p ∣ st.start_ + word_offset j) := by
  obtain ⟨c, hc, hpc⟩ := prime_class p hp hp7
  exact cross_off_fresh st i p c hstart hc hpc h64 hp32 hi hlen

theorem pre_sieve_loop_spec (n : Nat) :
    ∀ (st : Sieve) (a : Nat), a = st.wheel_.length → 4 ≤ a → a + n ≤ 10 →
      st.start_ % 30 = 0 → st.sieve_.length < 2 ^ 32 → st.start_ + 138 < 2 ^ 64 →
      ∃ st2, pre_sieve_loop st (List.range' a n) = some st2 ∧ st2.start_ = st.start_
        ∧ st2.sieve_.length = st.sieve_.length ∧ st2.wheel_.length = st.wheel_.length + n
        ∧ ∀ j, (live_bit st2.sieve_ j = true
            ↔ live_bit st.sieve_ j = true
              ∧ ∀ i, a ≤ i → i < a + n → ¬ sieve_primes.getD i 0 ∣ st.start_ + word_offset j) := by
  induction n with
  | zero =>
    intro st a _ _ _ _ _ _
    refine ⟨st, rfl, rfl, rfl, rfl, ?_⟩
    intro j
    constructor
    · intro h; exact ⟨h, fun i h1 h2 => by omega⟩
    · intro h; exact h.1
  | succ n ih =>
    intro st a ha h4 h10 hstart hlen h64
    obtain ⟨p, hget, hp, hp7, hp23⟩ := sieve_primes_facts a h4 (by omega)
    obtain ⟨cnt, st1, hco, e1, e2, e3, e4⟩ := cross_off_prime st a p hstart hp hp7
      (by omega) (by omega) ha hlen
    obtain ⟨st2, g0, g1, g2, g3, g4⟩ := ih st1 (a + 1) (by omega) (by omega) (by omega)
      (by rw [e1]; exact hstart) (by rw [e2]; exact hlen) (by rw [e1]; exact h64)
    have hgetD : sieve_primes.getD a 0 = p := by
      rw [List.getD_eq_getElem?_getD, ← List.get?_eq_getElem?, hget]; rfl
    refine ⟨st2, ?_, by rw [g1, e1], by rw [g2, e2], by rw [g3, e3]; omega, ?_⟩
    · rw [List.range'_succ]
      simp only [pre_sieve_loop, hget, hco]
      exact g0
    · intro j
      rw [g4 j, e4 j, e1]
      constructor
      · rintro ⟨⟨hl, hp'⟩, hall⟩
        refine ⟨hl, ?_⟩
        intro i hi1 hi2
        by_cases hia : i = a
        · subst hia; rw [hgetD]; exact hp'
        · exact hall i (by omega) (by omega)
      · rintro ⟨hl, hall⟩
        refine ⟨⟨hl, ?_⟩, ?_⟩
        · rw [← hgetD]; exact hall a (le_refl _) (by omega)
        · intro i hi1 hi2
          exact hall i (by omega) (by omega)

theorem cross_off_list_spec (ps : List Nat) :
    ∀ (st : Sieve) (a : Nat), a = st.wheel_.length →
      st.start_ % 30 = 0 → st.sieve_.length < 2 ^ 32 →
      (∀ p ∈ ps, p.Prime ∧ 7 ≤ p ∧ p < 2 ^ 32 ∧ st.start_ + 6 * p < 2 ^ 64) →
      ∃ st2, cross_off_list st a ps = some st2 ∧ st2.start_ = st.start_
        ∧ st2.sieve_.length = st.sieve_.length
        ∧ ∀ j, (live_bit st2.sieve_ j = true
            ↔ live_bit st.sieve_ j = true ∧ ∀ p ∈ ps, ¬ p ∣ st.start_ + word_offset j) := by
  induction ps with
  | nil =>
    intro st a _ _ _ _
    exact ⟨st, rfl, rfl, rfl, fun j => by simp⟩
  | cons p ps ih =>
    intro st a ha hstart hlen hps
    obtain ⟨hp, hp7, hp32, h64⟩ := hps p (List.mem_cons_self _ _)
    obtain ⟨cnt, st1, hco, e1, e2, e3, e4⟩ := cross_off_prime st a p hstart hp hp7 hp32 h64 ha hlen
    obtain ⟨st2, g0, g1, g2, g4⟩ := ih st1 (a + 1) (by omega)
      (by rw [e1]; exact hstart) (by rw [e2]; exact hlen)
      (fun q hq => by rw [e1]; exact hps q (List.mem_cons_of_mem _ hq))
    refine ⟨st2, ?_, by rw [g1, e1], by rw [g2, e2], ?_⟩
    · simp only [cross_off_list, hco]
      exact g0
    · intro j
      rw [g4 j, e4 j, e1]
      simp only [List.mem_cons, forall_eq_or_imp]
      tauto

theorem and_fold_getD (W : Nat) (f : Nat → Nat) (l : List Nat) (hl : l.Nodup) :
    ∀ (bytes : List Nat) (B : Nat),
      (l.foldl (fun bs t => bs.set (8 * W + t) (bs.getD (8 * W + t) 0 &&& f t)) bytes).getD B 0
        = if (∃ t ∈ l, 8 * W + t = B) then bytes.getD B 0 &&& f (B - 8 * W) else bytes.getD B 0 := by
  induction l with
  | nil => intro bytes B; simp
  | cons t l ih =>
    intro bytes B
    have hnd := List.nodup_cons.mp hl
    rw [List.foldl_cons, ih hnd.2]
    by_cases hB : 8 * W + t = B
    · have hnot : ¬ ∃ t' ∈ l, 8 * W + t' = B := by
        rintro ⟨t', ht', he⟩
        have : t' = t := by omega
        subst this
        exact hnd.1 ht'
      have hyes : ∃ t' ∈ t :: l, 8 * W + t' = B := ⟨t, List.mem_cons_self _ _, hB⟩
      rw [if_neg hnot, if_pos hyes]
      subst hB
      have e : 8 * W + t - 8 * W = t := by omega
      rw [e]
      simp only [List.getD_eq_getElem?_getD, List.getElem?_set]
      by_cases hlen : 8 * W + t < bytes.length
      · simp [hlen]
      · have hnone : bytes[8 * W + t]? = none := List.getElem?_eq_none (by omega)
        simp [hlen, hnone]
    · have hiff : (∃ t' ∈ t :: l, 8 * W + t' = B) ↔ (∃ t' ∈ l, 8 * W + t' = B) := by
        simp only [List.mem_cons, exists_eq_or_imp]
        constructor
        · rintro (h | h)
          · exact absurd h hB
          · exact h
        · intro h; exact Or.inr h
      have hget : (bytes.set (8 * W + t) (bytes.getD (8 * W + t) 0 &&& f t)).getD B 0
          = bytes.getD B 0 := by
        simp only [List.getD_eq_getElem?_getD, List.getElem?_set]
        simp [hB]
      rw [hget]
      by_cases hex : ∃ t' ∈ l, 8 * W + t' = B
      · rw [if_pos hex, if_pos (hiff.mpr hex)]
      · rw [if_neg hex, if_neg (fun h => hex (hiff.mp h))]

theorem and_word_live (bytes : List Nat) (W mask j : Nat) :
    live_bit (and_word bytes W mask) j
      = (live_bit bytes j && (!decide (j / 64 = W) || mask.testBit (j % 64))) := by
  unfold live_bit and_word
  rw [and_fold_getD W (fun t => (mask >>> (8 * t)) % 256) (List.range 8) (List.nodup_range 8)]
  have hu : j % 8 < 8 := Nat.mod_lt _ (by norm_num)
  have h256 : (256 : Nat) = 2 ^ 8 := by norm_num
  by_cases hW : j / 64 = W
  · have hex : ∃ t ∈ List.range 8, 8 * W + t = j / 8 :=
      ⟨j / 8 - 8 * W, List.mem_range.mpr (by omega), by omega⟩
    rw [if_pos hex]
    simp only [Nat.testBit_and, h256, Nat.testBit_mod_two_pow, Nat.testBit_shiftRight, hu,
      decide_True, Bool.true_and, hW, Bool.not_true, Bool.false_or]
    have : 8 * (j / 8 - 8 * W) + j % 8 = j % 64 := by omega
    rw [this]
  · have hex : ¬ ∃ t ∈ List.range 8, 8 * W + t = j / 8 := by
      rintro ⟨t, ht, he⟩
      have := List.mem_range.mp ht
      omega
    rw [if_neg hex]
    simp [hW]

theorem live_bit_take_fill (bytes : List Nat) (n j : Nat) :
    live_bit ((bytes.map (fun _ => 0xff)).take n) j
      = decide (j < 8 * n ∧ j < 8 * bytes.length) := by
  unfold live_bit
  have hu : j % 8 < 8 := Nat.mod_lt _ (by norm_num)
  by_cases h : j / 8 < n ∧ j / 8 < bytes.length
  · have h1 : j < 8 * n ∧ j < 8 * bytes.length := by omega
    have : ((bytes.map (fun _ => 0xff)).take n).getD (j / 8) 0 = 0xff := by
      rw [List.getD_eq_getElem?_getD, List.getElem?_take_of_lt h.1, List.getElem?_map,
        List.getElem?_eq_getElem h.2]
      rfl
    rw [this]
    simp only [h1, and_self, decide_True]
    generalize j % 8 = u at hu
    interval_cases u <;> decide
  · have h1 : ¬ (j < 8 * n ∧ j < 8 * bytes.length) := by omega
    have : ((bytes.map (fun _ => 0xff)).take n).getD (j / 8) 0 = 0 := by
      rw [List.getD_eq_getElem?_getD, List.getElem?_eq_none]
      · rfl
      · simp only [List.length_take, List.length_map]; omega
    rw [this]
    simp [h1]

theorem word_offset_split (j : Nat) :
    word_offset j = 240 * (j / 64) + word_offset (j % 64) := by
  have := word_offset_shift (j / 64) (j % 64)
  rw [← this]
  congr 1
  omega

theorem pre_sieve_fill_spec (st : Sieve) (low high : Nat) (hlt : low < high)
    (h64 : high < 2 ^ 63) (hlen8 : st.sieve_.length % 8 = 0)
    (hcover : high - low ≤ segment_size st) :
    ∃ st3, pre_sieve_fill st low high = some st3 ∧ st3.start_ = st.start_
      ∧ st3.wheel_ = st.wheel_ ∧ st3.sieve_.length ≤ st.sieve_.length
      ∧ ∀ j, (live_bit st3.sieve_ j = true ↔ word_offset j < high - low) := by
  unfold segment_size at hcover
  have hsize : (high + 2 ^ 64 - low) % 2 ^ 64 = high - low := by omega
  unfold pre_sieve_fill
  simp only [hsize, segment_size, List.length_map]
  generalize hsz : high - low = size at *
  have hpos : 1 ≤ size := by omega
  have hback : (size + 2 ^ 64 - 1) % 2 ^ 64 = size - 1 := by omega
  by_cases hshort : size < st.sieve_.length * 30
  · rw [if_pos hshort]
    have hgs : get_segment_size size / 30 = 8 * ((size - 1) / 240 + 1) := by
      unfold get_segment_size
      simp only
      split_ifs with hm
      · have : max 240 size + (240 - max 240 size % 240) < 2 ^ 64 := by omega
        rw [Nat.mod_eq_of_lt this]
        omega
      · omega
    have hle : get_segment_size size / 30 ≤ st.sieve_.length := by omega
    have hres : resize (st.sieve_.map (fun _ => 0xff)) (get_segment_size size / 30)
        = (st.sieve_.map (fun _ => 0xff)).take (get_segment_size size / 30) := by
      unfold resize
      have : get_segment_size size / 30 - (st.sieve_.map (fun _ => 0xff)).length = 0 := by
        simp only [List.length_map]; omega
      rw [this]
      simp
    simp only [set_sieve_size, hback, hres]
    have hl2 : ((st.sieve_.map (fun _ => 0xff)).take (get_segment_size size / 30)).length
        = get_segment_size size / 30 := by
      simp only [List.length_take, List.length_map]; omega
    rw [if_pos (by rw [hl2, hgs]; omega)]
    refine ⟨_, rfl, rfl, rfl, ?_, ?_⟩
    · simp only [and_word]
      have : ∀ (l : List Nat) (bs : List Nat),
          (l.foldl (fun bs t => bs.set (8 * ((size - 1) / 240) + t)
            (bs.getD (8 * ((size - 1) / 240) + t) 0
              &&& (unset_larger ((size - 1) % 240) >>> (8 * t)) % 256)) bs).length = bs.length := by
        intro l
        induction l with
        | nil => intro bs; rfl
        | cons t l ih => intro bs; rw [List.foldl_cons, ih]; simp
      rw [this, hl2]
      exact hle
    · intro j
      simp only
      rw [and_word_live, live_bit_take_fill, hgs]
      have hj64 : j % 64 < 64 := Nat.mod_lt _ (by norm_num)
      have hb := word_offset_bounds (j % 64) hj64
      have hsplit := word_offset_split j
      simp only [unset_larger, of_bits_testBit, Nat.zero_add, hj64, decide_True, Bool.true_and,
        Bool.and_eq_true, decide_eq_true_eq, Bool.or_eq_true, Bool.not_eq_true',
        decide_eq_false_iff_not]
      constructor
      · rintro ⟨⟨h1, h2⟩, h3⟩
        rcases h3 with h3 | h3
        · omega
        · omega
      · intro h
        refine ⟨⟨by omega, by omega⟩, ?_⟩
        by_cases hW : j / 64 = (size - 1) / 240
        · right; omega
        · left; exact hW
  · rw [if_neg hshort]
    refine ⟨_, rfl, rfl, rfl, by simp, ?_⟩
    intro j
    simp only
    have := live_bit_take_fill st.sieve_ st.sieve_.length j
    rw [List.take_of_length_le (by simp)] at this
    rw [this]
    have hb := bit_offsets_bounds (j % 8) (Nat.mod_lt _ (by norm_num))
    simp only [and_self, decide_eq_true_eq]
    unfold word_offset
    omega

theorem residue_of_coprime (n : Nat) (h2 : n % 2 ≠ 0) (h3 : n % 3 ≠ 0) (h5 : n % 5 ≠ 0) :
    ∃ t, t < 8 ∧ n % 30 = bit_offsets.getD t 0 := by
  have hcases : n % 30 = 1 ∨ n % 30 = 7 ∨ n % 30 = 11 ∨ n % 30 = 13 ∨ n % 30 = 17
      ∨ n % 30 = 19 ∨ n % 30 = 23 ∨ n % 30 = 29 := by
    have e2 : n % 30 % 2 = n % 2 := Nat.mod_mod_of_dvd n (by norm_num)
    have e3 : n % 30 % 3 = n % 3 := Nat.mod_mod_of_dvd n (by norm_num)
    have e5 : n % 30 % 5 = n % 5 := Nat.mod_mod_of_dvd n (by norm_num)
    have hy : n % 30 < 30 := Nat.mod_lt _ (by norm_num)
    rw [← e2] at h2
    rw [← e3] at h3
    rw [← e5] at h5
    generalize n % 30 = y at *
    interval_cases y <;> simp_all
  rcases hcases with h | h | h | h | h | h | h | h
  · exact ⟨0, by norm_num, by rw [h]; rfl⟩
  · exact ⟨1, by norm_num, by rw [h]; rfl⟩
  · exact ⟨2, by norm_num, by rw [h]; rfl⟩
  · exact ⟨3, by norm_num, by rw [h]; rfl⟩
  · exact ⟨4, by norm_num, by rw [h]; rfl⟩
  · exact ⟨5, by norm_num, by rw [h]; rfl⟩
  · exact ⟨6, by norm_num, by rw [h]; rfl⟩
  · exact ⟨7, by norm_num, by rw [h]; rfl⟩

theorem bit_index_offset (t : Nat) (ht : t < 8) : bit_index (bit_offsets.getD t 0) = some t := by
  interval_cases t <;> rfl

theorem bit_index_some (r t : Nat) (h : bit_index r = some t) :
    t < 8 ∧ bit_offsets.getD t 0 = r := by
  unfold bit_index at h
  split at h
  all_goals first
    | (cases h; exact ⟨by norm_num, rfl⟩)
    | cases h

theorem is_live_iff (st : Sieve) (n : Nat) :
    is_live st n = true ↔ ∃ j, live_bit st.sieve_ j = true ∧ n = st.start_ + word_offset j := by
  unfold is_live
  constructor
  · intro h
    simp only [Bool.and_eq_true, decide_eq_true_eq] at h
    obtain ⟨h1, h2⟩ := h
    split at h2
    · rename_i t ht
      obtain ⟨ht8, hres⟩ := bit_index_some _ _ ht
      refine ⟨_, h2, ?_⟩
      rw [word_offset_mk _ _ ht8, hres]
      omega
    · cases h2
  · rintro ⟨j, hl, hn⟩
    have ht : j % 8 < 8 := Nat.mod_lt _ (by norm_num)
    have hb := bit_offsets_bounds (j % 8) ht
    have hwo : word_offset j = 30 * (j / 8) + bit_offsets.getD (j % 8) 0 := rfl
    have e1 : (n - st.start_) % 30 = bit_offsets.getD (j % 8) 0 := by omega
    have e2 : (n - st.start_) / 30 = j / 8 := by omega
    have e3 : 8 * (j / 8) + j % 8 = j := by omega
    simp only [Bool.and_eq_true, decide_eq_true_eq]
    refine ⟨by omega, ?_⟩
    rw [e1, bit_index_offset _ ht, e2]
    simp only [e3]
    exact hl

theorem exists_bit_iff (low n : Nat) (hlow : low % 30 = 0) :
    (∃ j, n = low + word_offset j) ↔ low ≤ n ∧ n % 2 ≠ 0 ∧ n % 3 ≠ 0 ∧ n % 5 ≠ 0 := by
  constructor
  · rintro ⟨j, hj⟩
    have ht : j % 8 < 8 := Nat.mod_lt _ (by norm_num)
    have hwo : word_offset j = 30 * (j / 8) + bit_offsets.getD (j % 8) 0 := rfl
    rw [hwo] at hj
    generalize j % 8 = t at *
    interval_cases t <;> simp [bit_offsets] at hj <;> omega
  · rintro ⟨h1, h2, h3, h5⟩
    obtain ⟨t, ht, hres⟩ := residue_of_coprime n h2 h3 h5
    have hb := bit_offsets_bounds t ht
    refine ⟨8 * ((n - low) / 30) + t, ?_⟩
    rw [word_offset_mk _ _ ht]
    omega

theorem coprime_prime_iff (n p : Nat) (hp : p.Prime) : Nat.Coprime n p ↔ ¬ p ∣ n := by
  rw [Nat.coprime_comm]
  exact hp.coprime_iff_not_dvd

theorem sieve_new_facts (low seg ws : Nat) (st0 : Sieve) (h : Sieve.new low seg ws = some st0) :
    low % 30 = 0 ∧ st0.start_ = low ∧ st0.wheel_.length = 4
      ∧ st0.sieve_.length = max 240 seg / 30 ∧ st0.sieve_.length % 8 = 0 := by
  unfold Sieve.new at h
  split_ifs at h with hc
  cases h
  have hg : get_segment_size seg = max 240 seg := by
    unfold get_segment_size
    simp only
    rw [if_neg]
    omega
  simp only [set_sieve_size, resize, hg]
  refine ⟨hc.1, trivial, by simp, by simp, ?_⟩
  simp
  omega

theorem pre_sieve_cross_off_live_aux (low seg ws c high : Nat) (ps : List Nat) (st0 : Sieve)
    (hnew : Sieve.new low seg ws = some st0) (hseg : seg < 2 ^ 36)
    (hc3 : 3 ≤ c) (hc9 : c ≤ 9) (hlt : low < high) (hcover : high ≤ low + segment_size st0)
    (h63 : high < 2 ^ 63) (hps : ∀ p ∈ ps, p.Prime ∧ 7 ≤ p ∧ p < 2 ^ 32) :
    ∃ st1 st2, pre_sieve st0 c low high = some st1
      ∧ cross_off_list st1 (c + 1) ps = some st2
      ∧ ∀ n, (is_live st2 n = true
          ↔ low ≤ n ∧ n < high
            ∧ (∀ i, 1 ≤ i → i ≤ c → Nat.Coprime n (sieve_primes.getD i 0))
            ∧ ∀ p ∈ ps, Nat.Coprime n p) := by
  obtain ⟨hlow, hstart0, hwheel0, hlen0, hlen8⟩ := sieve_new_facts low seg ws st0 hnew
  have hlen32 : st0.sieve_.length < 2 ^ 32 := by rw [hlen0]; omega
  obtain ⟨st3, hfill, f1, f2, f3, f4⟩ := pre_sieve_fill_spec st0 low high hlt h63 hlen8
    (by omega)
  obtain ⟨st1, hloop, l1, l2, l3, l4⟩ := pre_sieve_loop_spec (c + 1 - 4) st3 4
    (by rw [f2, hwheel0]) (le_refl _) (by omega) (by rw [f1, hstart0]; exact hlow) (by omega)
    (by rw [f1, hstart0]; omega)
  obtain ⟨st2, hlist, m1, m2, m4⟩ := cross_off_list_spec ps st1 (c + 1)
    (by rw [l3, f2, hwheel0]; omega) (by rw [l1, f1, hstart0]; exact hlow) (by omega)
    (fun p hp => by
      obtain ⟨h1, h2, h3⟩ := hps p hp
      refine ⟨h1, h2, h3, ?_⟩
      rw [l1, f1, hstart0]; omega)
  refine ⟨st1, st2, ?_, hlist, ?_⟩
  · unfold pre_sieve
    rw [hfill]
    simp only
    rw [if_pos (by simp [sieve_primes]; omega)]
    exact hloop
  · intro n
    rw [is_live_iff, m1, l1, f1, hstart0]
    constructor
    · rintro ⟨j, hl, hn⟩
      rw [m4 j, l4 j, f4 j, l1, f1, hstart0, ← hn] at hl
      obtain ⟨⟨hhi, hpre⟩, hcross⟩ := hl
      obtain ⟨g1, g2, g3, g5⟩ := (exists_bit_iff low n hlow).mp ⟨j, hn⟩
      refine ⟨g1, by omega, ?_, ?_⟩
      · intro i hi1 hic
        by_cases hi4 : 4 ≤ i
        · obtain ⟨p, hget, hp, _, _⟩ := sieve_primes_facts i hi4 (by omega)
          have hgetD : sieve_primes.getD i 0 = p := by
            rw [List.getD_eq_getElem?_getD, ← List.get?_eq_getElem?, hget]; rfl
          have := hpre i hi4 (by omega)
          rw [hgetD] at this ⊢
          exact (coprime_prime_iff n p hp).mpr this
        · have hi : i = 1 ∨ i = 2 ∨ i = 3 := by omega
          rcases hi with hi | hi | hi
          · subst hi
            exact (coprime_prime_iff n 2 Nat.prime_two).mpr
              (fun h => g2 (Nat.mod_eq_zero_of_dvd h))
          · subst hi
            exact (coprime_prime_iff n 3 Nat.prime_three).mpr
              (fun h => g3 (Nat.mod_eq_zero_of_dvd h))
          · subst hi
            exact (coprime_prime_iff n 5 Nat.prime_five).mpr
              (fun h => g5 (Nat.mod_eq_zero_of_dvd h))
      · intro p hp
        exact (coprime_prime_iff n p (hps p hp).1).mpr (hcross p hp)
    · rintro ⟨g1, ghi, gpre, gcross⟩
      have c2 := (coprime_prime_iff n 2 Nat.prime_two).mp (gpre 1 (le_refl _) (by omega))
      have c3 := (coprime_prime_iff n 3 Nat.prime_three).mp (gpre 2 (by omega) (by omega))
      have c5 := (coprime_prime_iff n 5 Nat.prime_five).mp (gpre 3 (by omega) (by omega))
      obtain ⟨j, hn⟩ := (exists_bit_iff low n hlow).mpr
        ⟨g1, fun h => c2 (Nat.dvd_of_mod_eq_zero h), fun h => c3 (Nat.dvd_of_mod_eq_zero h),
          fun h => c5 (Nat.dvd_of_mod_eq_zero h)⟩
      refine ⟨j, ?_, hn⟩
      rw [m4 j, l4 j, f4 j, l1, f1, hstart0, ← hn]
      refine ⟨⟨by omega, ?_⟩, ?_⟩
      · intro i hi4 hic
        obtain ⟨p, hget, hp, _, _⟩ := sieve_primes_facts i hi4 (by omega)
        have hgetD : sieve_primes.getD i 0 = p := by
          rw [List.getD_eq_getElem?_getD, ← List.get?_eq_getElem?, hget]; rfl
        have := gpre i (by omega) (by omega)
        rw [hgetD] at this ⊢
        exact (coprime_prime_iff n p hp).mp this
      · intro p hp
        exact (coprime_prime_iff n p (hps p hp).1).mp (gcross p hp)

open Nat in
theorem pi_succ (m : Nat) :
    Nat.primeCounting (m + 1) = Nat.primeCounting m + (if (m + 1).Prime then 1 else 0) := by
  unfold Nat.primeCounting Nat.primeCounting'
  rw [Nat.count_succ]

theorem pi_lt_of_lt_prime (q P : Nat) (hP : P.Prime) (h : q < P) :
    Nat.primeCounting q < Nat.primeCounting P := by
  unfold Nat.primeCounting Nat.primeCounting'
  calc Nat.count Nat.Prime (q + 1) ≤ Nat.count Nat.Prime P := Nat.count_monotone _ (by omega)
    _ < Nat.count Nat.Prime (P + 1) := Nat.count_strict_mono hP (by omega)

theorem prime_le_of_pi_le (P s : Nat) (hP : P.Prime)
    (h : Nat.primeCounting P ≤ Nat.primeCounting s) : P ≤ s := by
  by_contra hc
  have := pi_lt_of_lt_prime s P hP (by omega)
  omega

theorem prime_eq_of_pi_eq (q P : Nat) (hq : q.Prime) (hP : P.Prime)
    (h : Nat.primeCounting q = Nat.primeCounting P) : q = P := by
  have h1 := prime_le_of_pi_le q P hq (by omega)
  have h2 := prime_le_of_pi_le P q hP (by omega)
  omega

theorem is_rough_iff (a n : Nat) (hn : 1 ≤ n) :
    is_rough a n ↔ ∀ q, q.Prime → q ∣ n → a < Nat.primeCounting q := by
  unfold is_rough
  constructor
  · intro h q hq hd
    exact h q (Finset.mem_range.mpr (by have := Nat.le_of_dvd (by omega) hd; omega)) hq hd
  · intro h q _ hq hd
    exact h q hq hd

theorem is_rough_one (a : Nat) : is_rough a 1 := by
  rw [is_rough_iff a 1 (le_refl _)]
  intro q hq hd
  have := Nat.le_of_dvd (by norm_num) hd
  have := hq.two_le
  omega

theorem phi_spec_pos (x a : Nat) (hx : 1 ≤ x) : 1 ≤ phi_spec x a := by
  unfold phi_spec
  apply Finset.card_pos.mpr
  exact ⟨1, by simp [is_rough_one, hx]⟩

theorem phi_spec_le (x a : Nat) : phi_spec x a ≤ x := by
  unfold phi_spec
  calc _ ≤ (Finset.Icc 1 x).card := Finset.card_filter_le _ _
    _ = x := by simp

/-- `phi(y, a) = 1` when `y ≥ 1` has at most `a` primes below it. -/
theorem phi_spec_small (y a : Nat) (hy : 1 ≤ y) (h : Nat.primeCounting y ≤ a) :
    phi_spec y a = 1 := by
  unfold phi_spec
  rw [Finset.card_eq_one]
  refine ⟨1, ?_⟩
  ext n
  simp only [Finset.mem_filter, Finset.mem_Icc, Finset.mem_singleton]
  constructor
  · rintro ⟨⟨h1, h2⟩, hr⟩
    by_contra hne
    rw [is_rough_iff a n h1] at hr
    have hq := Nat.minFac_prime hne
    have := hr _ hq (Nat.minFac_dvd n)
    have hle : n.minFac ≤ y := le_trans (Nat.minFac_le (by omega)) h2
    have := Nat.monotone_primeCounting hle
    omega
  · intro h1
    subst h1
    exact ⟨⟨le_refl _, hy⟩, is_rough_one a⟩

/-- The primes `q ≤ m` with `a < π(q)` number `π(m) - a`. -/
theorem card_large_primes (a m : Nat) :
    ((Finset.Icc 1 m).filter (fun q => q.Prime ∧ a < Nat.primeCounting q)).card
      = Nat.primeCounting m - a := by
  induction m with
  | zero => simp
  | succ m ih =>
    have hIcc : Finset.Icc 1 (m + 1) = insert (m + 1) (Finset.Icc 1 m) := by
      ext k; simp only [Finset.mem_Icc, Finset.mem_insert]; omega
    rw [hIcc, Finset.filter_insert]
    have hpi := pi_succ m
    by_cases hp : (m + 1).Prime
    · rw [if_pos hp] at hpi
      by_cases ha : a < Nat.primeCounting (m + 1)
      · rw [if_pos ⟨hp, ha⟩, Finset.card_insert_of_not_mem (by simp), ih]
        omega
      · rw [if_neg (fun h => ha h.2), ih]
        omega
    · rw [if_neg hp] at hpi
      rw [if_neg (fun h => hp h.1), ih, hpi]
      rfl

/-- The pi shortcut: below the square of the `(a+1)`-th prime `P`, the numbers
counted by `phi(x, a)` are 1 and the primes above the `a`-th. -/
theorem phi_spec_pix (x a P : Nat) (hx : 1 ≤ x) (hP : P.Prime)
    (hpi : Nat.primeCounting P = a + 1) (hlt : x < P * P) :
    phi_spec x a = 1 + (Nat.primeCounting x - a) := by
  unfold phi_spec
  rw [← card_large_primes a x]
  have hset : (Finset.Icc 1 x).filter (fun n => is_rough a n)
      = insert 1 ((Finset.Icc 1 x).filter (fun q => q.Prime ∧ a < Nat.primeCounting q)) := by
    ext n
    simp only [Finset.mem_filter, Finset.mem_Icc, Finset.mem_insert]
    constructor
    · rintro ⟨⟨h1, h2⟩, hr⟩
      by_cases hn1 : n = 1
      · exact Or.inl hn1
      · right
        rw [is_rough_iff a n h1] at hr
        have hq := Nat.minFac_prime hn1
        have haq := hr _ hq (Nat.minFac_dvd n)
        have hPq : P ≤ n.minFac := prime_le_of_pi_le P _ hP (by omega)
        have hprime : n.Prime := by
          by_contra hnp
          have hsq := Nat.minFac_sq_le_self (by omega) hnp
          have : P * P ≤ n.minFac * n.minFac := Nat.mul_le_mul hPq hPq
          have : n.minFac ^ 2 = n.minFac * n.minFac := by ring
          omega
        rw [hprime.minFac_eq] at haq
        exact ⟨⟨h1, h2⟩, hprime, haq⟩
    · rintro (h | ⟨⟨h1, h2⟩, hp, ha⟩)
      · subst h
        exact ⟨⟨le_refl _, hx⟩, is_rough_one a⟩
      · refine ⟨⟨h1, h2⟩, ?_⟩
        rw [is_rough_iff a n h1]
        intro q hq hd
        have := (Nat.prime_dvd_prime_iff_eq hq hp).mp hd
        subst this
        exact ha
  rw [hset, Finset.card_insert_of_not_mem]
  · omega
  · simp [Nat.not_prime_one]

/-- The recurrence `phi(x, a) = phi(x, a + 1) + phi(x / P, a)` for the `(a+1)`-th prime `P`. -/
theorem phi_spec_rec (x a P : Nat) (hP : P.Prime) (hpi : Nat.primeCounting P = a + 1) :
    phi_spec x a = phi_spec x (a + 1) + phi_spec (x / P) a := by
  have hP0 : 0 < P := hP.pos
  unfold phi_spec
  rw [← Finset.filter_card_add_filter_neg_card_eq_card (fun n => ¬ P ∣ n)]
  congr 1
  · congr 1
    ext n
    simp only [Finset.mem_filter, Finset.mem_Icc]
    constructor
    · rintro ⟨⟨⟨h1, h2⟩, hr⟩, hnd⟩
      refine ⟨⟨h1, h2⟩, ?_⟩
      rw [is_rough_iff a n h1] at hr
      rw [is_rough_iff (a + 1) n h1]
      intro q hq hd
      have := hr q hq hd
      by_contra hle
      have heq : Nat.primeCounting q = Nat.primeCounting P := by omega
      have := prime_eq_of_pi_eq q P hq hP heq
      subst this
      exact hnd hd
    · rintro ⟨⟨h1, h2⟩, hr⟩
      rw [is_rough_iff (a + 1) n h1] at hr
      refine ⟨⟨⟨h1, h2⟩, ?_⟩, ?_⟩
      · rw [is_rough_iff a n h1]
        intro q hq hd
        have := hr q hq hd
        omega
      · intro hd
        have := hr P hP hd
        omega
  · symm
    apply Finset.card_bij (fun m _ => P * m)
    · intro m hm
      simp only [Finset.mem_filter, Finset.mem_Icc] at hm ⊢
      obtain ⟨⟨h1, h2⟩, hr⟩ := hm
      have hle : P * m ≤ x := by
        calc P * m ≤ P * (x / P) := Nat.mul_le_mul_left _ h2
          _ ≤ x := Nat.mul_div_le _ _
      have hpos : 1 ≤ P * m := Nat.mul_pos hP0 h1
      refine ⟨⟨⟨hpos, hle⟩, ?_⟩, by simp⟩
      rw [is_rough_iff a m h1] at hr
      rw [is_rough_iff a _ hpos]
      intro q hq hd
      rcases (Nat.Prime.dvd_mul hq).mp hd with h | h
      · have := (Nat.prime_dvd_prime_iff_eq hq hP).mp h
        subst this
        omega
      · exact hr q hq h
    · intro m1 _ m2 _ h
      exact Nat.eq_of_mul_eq_mul_left hP0 h
    · intro n hn
      simp only [Finset.mem_filter, Finset.mem_Icc, not_not] at hn
      obtain ⟨⟨⟨h1, h2⟩, hr⟩, m, hm⟩ := hn
      subst hm
      have hm1 : 1 ≤ m := by
        rcases Nat.eq_zero_or_pos m with h | h
        · subst h; simp at h1
        · exact h
      refine ⟨m, ?_, rfl⟩
      simp only [Finset.mem_filter, Finset.mem_Icc]
      refine ⟨⟨hm1, (Nat.le_div_iff_mul_le hP0).mpr (by rw [Nat.mul_comm]; exact h2)⟩, ?_⟩
      rw [is_rough_iff a _ h1] at hr
      rw [is_rough_iff a m hm1]
      intro q hq hd
      exact hr q hq (Dvd.dvd.mul_left hd P)

theorem tbl_prime (primes : List Nat) (N i : Nat) (h : primes_ok primes N) (h1 : 1 ≤ i)
    (h2 : i ≤ N) : (primes.getD i 0).Prime := (h.2.2 i h1 h2).1

theorem tbl_pi (primes : List Nat) (N i : Nat) (h : primes_ok primes N) (h2 : i ≤ N) :
    Nat.primeCounting (primes.getD i 0) = i := by
  rcases Nat.eq_zero_or_pos i with h0 | h0
  · subst h0
    rw [h.2.1]
    rfl
  · exact (h.2.2 i h0 h2).2

theorem tbl_mono (primes : List Nat) (N i j : Nat) (h : primes_ok primes N) (hij : i ≤ j)
    (hj : j ≤ N) : primes.getD i 0 ≤ primes.getD j 0 := by
  rcases Nat.eq_zero_or_pos i with h0 | h0
  · subst h0
    rw [h.2.1]
    exact Nat.zero_le _
  · apply prime_le_of_pi_le _ _ (tbl_prime primes N i h h0 (by omega))
    rw [tbl_pi primes N i h (by omega), tbl_pi primes N j h hj]
    exact hij

theorem resize_getD (l : List Nat) (n i : Nat) :
    (resize l n).getD i 0 = if i < n then l.getD i 0 else 0 := by
  unfold resize
  simp only [List.getD_eq_getElem?_getD]
  by_cases h1 : i < n
  · rw [if_pos h1]
    by_cases h2 : i < l.length
    · rw [List.getElem?_append_left (by simp; omega), List.getElem?_take_of_lt h1]
    · rw [List.getElem?_append_right (by simp; omega)]
      have hnone : l[i]? = none := List.getElem?_eq_none (by omega)
      rw [hnone]
      simp only [List.length_take, Option.getD_none]
      rw [List.getElem?_replicate]
      split_ifs <;> rfl
  · rw [if_neg h1, List.getElem?_eq_none]
    · rfl
    · simp only [List.length_append, List.length_take, List.length_replicate]
      omega

theorem set_getD_self (r : List Nat) (x v : Nat) (h : x < r.length) :
    (r.set x v).getD x 0 = v := by
  simp [List.getD_eq_getElem?_getD, List.getElem?_set, h]

theorem update_cache_ok (cache : List (List Nat)) (x a : Nat) (sum : Int)
    (hc : cache_ok cache) (hsum : sum.natAbs = phi_spec x a) :
    cache_ok (update_cache cache x a sum) := by
  unfold update_cache
  split_ifs with hcond
  · intro a' x' hne
    have hle := phi_spec_le x a
    have hv : sum.natAbs % 65536 = phi_spec x a := by rw [hsum]; omega
    simp only [hv] at hne ⊢
    by_cases ha : a' = a
    · subst ha
      have hrow : ∀ (r : List Nat), (cache.set a' r).getD a' [] = r := by
        intro r
        simp [List.getD_eq_getElem?_getD, List.getElem?_set, hcond.1]
      rw [hrow] at hne ⊢
      by_cases hx : x' = x
      · subst hx
        by_cases hlen : x' ≥ (cache.getD a' []).length
        · simp only [hlen, if_true] at hne ⊢
          have : x' < (resize (cache.getD a' []) (x' + 1)).length := by
            unfold resize; simp; omega
          exact set_getD_self _ _ _ this
        · simp only [hlen, if_false] at hne ⊢
          have : x' < (cache.getD a' []).length := by omega
          exact set_getD_self _ _ _ this
      · have hset : ∀ (r : List Nat), (r.set x (phi_spec x a')).getD x' 0 = r.getD x' 0 := by
          intro r
          simp only [List.getD_eq_getElem?_getD, List.getElem?_set]
          rw [if_neg (fun h => hx h.symm)]
        rw [hset] at hne ⊢
        split_ifs at hne ⊢ with hlen
        · rw [resize_getD] at hne ⊢
          split_ifs at hne ⊢ with hlt
          · exact hc a' x' hne
          · exact absurd rfl hne
        · exact hc a' x' hne
    · have hrow : ∀ (r : List Nat), (cache.set a r).getD a' [] = cache.getD a' [] := by
        intro r
        simp only [List.getD_eq_getElem?_getD, List.getElem?_set]
        rw [if_neg (fun h => ha h.symm)]
      rw [hrow] at hne ⊢
      exact hc a' x' hne
  · exact hc

/-- The terms of the recurrence that the source moves out of the loop are all 1. -/
theorem phi_spec_tail (x b : Nat) (n : Nat) :
    (∀ i, b ≤ i → i < b + n →
      ∃ P, P.Prime ∧ Nat.primeCounting P = i + 1 ∧ P ≤ x ∧ x < P * P) →
    phi_spec x b = phi_spec x (b + n) + n := by
  induction n with
  | zero => intro _; rfl
  | succ n ih =>
    intro h
    have h1 := ih (fun i hi1 hi2 => h i hi1 (by omega))
    obtain ⟨P, hP, hpi, hle, hlt⟩ := h (b + n) (by omega) (by omega)
    have hrec := phi_spec_rec x (b + n) P hP hpi
    have hdiv1 : 1 ≤ x / P := (Nat.le_div_iff_mul_le hP.pos).mpr (by omega)
    have hdiv2 : x / P < P := (Nat.div_lt_iff_lt_mul hP.pos).mpr hlt
    have hsmall : phi_spec (x / P) (b + n) = 1 := by
      apply phi_spec_small _ _ hdiv1
      have := pi_lt_of_lt_prime (x / P) P hP hdiv2
      omega
    have e : b + (n + 1) = b + n + 1 := by omega
    rw [e]
    omega

theorem sqrt_div_le (x P : Nat) : Nat.sqrt (x / P) ≤ Nat.sqrt x :=
  Nat.sqrt_le_sqrt (Nat.div_le_self _ _)

theorem phi_step_spec (primes pi : List Nat) (sign : Int) (x s P : Nat) (K : Int)
    (cache : List (List Nat))
    (recur : List (List Nat) → Int → Nat → Nat → Option (Int × List (List Nat)))
    (hpi : pi_ok pi) (hPdef : primes.getD (s + 1) 0 = P) (hP : P.Prime)
    (hPpi : Nat.primeCounting P = s + 1) (hPP : P * P ≤ x) (hc : cache_ok cache)
    (hrec : cache_ok cache →
      ∃ cache2, recur cache (-sign) (x / P) s = some (-sign * (phi_spec (x / P) s : Int), cache2)
        ∧ cache_ok cache2) :
    ∃ cache1, phi_step primes pi recur sign x (some (sign * (phi_spec x s : Int) + K, cache)) s
        = some (sign * (phi_spec x (s + 1) : Int) + K, cache1) ∧ cache_ok cache1 := by
  have hP0 : P ≠ 0 := hP.pos.ne'
  have hx2 : P ≤ x / P := (Nat.le_div_iff_mul_le hP.pos).mpr hPP
  have hx2' : 1 ≤ x / P := le_trans hP.pos hx2
  have hrecur := phi_spec_rec x s P hP hPpi
  unfold phi_step
  simp only [hPdef, if_neg hP0]
  by_cases hpix : is_pix primes pi (x / P) s = true
  · rw [if_pos hpix]
    refine ⟨cache, ?_, hc⟩
    unfold is_pix at hpix
    rw [hPdef] at hpix
    simp only [Bool.and_eq_true, decide_eq_true_eq] at hpix
    have h1 := phi_spec_pix (x / P) s P hx2' hP hPpi hpix.2
    have h2 : Nat.primeCounting P ≤ Nat.primeCounting (x / P) := Nat.monotone_primeCounting hx2
    rw [hpi _ hpix.1]
    have h3 : (phi_spec (x / P) s : Int) = (Nat.primeCounting (x / P) : Int) - s + 1 := by
      rw [h1]; omega
    have h4 : (phi_spec x s : Int) = phi_spec x (s + 1) + phi_spec (x / P) s := by
      rw [hrecur]; push_cast; ring
    rw [h4, ← h3]
    congr 1
    ring_nf
  · rw [if_neg hpix]
    obtain ⟨cache2, hr, hc2⟩ := hrec hc
    rw [hr]
    refine ⟨cache2, ?_, hc2⟩
    have h4 : (phi_spec x s : Int) = phi_spec x (s + 1) + phi_spec (x / P) s := by
      rw [hrecur]; push_cast; ring
    simp only [h4]
    congr 1
    ring_nf

theorem phi_loop_spec (primes pi : List Nat) (N fuel : Nat) (sign : Int) (x : Nat)
    (recur : List (List Nat) → Int → Nat → Nat → Option (Int × List (List Nat)))
    (hprimes : primes_ok primes N) (hpi : pi_ok pi) (hsq : Nat.sqrt x < pi.length)
    (hrec : ∀ cache x2 i, i < fuel → i + 1 ≤ N → 1 ≤ x2 → Nat.sqrt x2 < pi.length →
      cache_ok cache →
      ∃ cache2, recur cache (-sign) x2 i = some (-sign * (phi_spec x2 i : Int), cache2)
        ∧ cache_ok cache2) :
    ∀ (n s : Nat) (K : Int) (cache : List (List Nat)), s + n ≤ fuel → s + n ≤ N →
      (∀ i, s ≤ i → i < s + n → primes.getD (i + 1) 0 ≤ Nat.sqrt x) → cache_ok cache →
      ∃ cache2, (List.range' s n).foldl (phi_step primes pi recur sign x)
            (some (sign * (phi_spec x s : Int) + K, cache))
          = some (sign * (phi_spec x (s + n) : Int) + K, cache2) ∧ cache_ok cache2 := by
  intro n
  induction n with
  | zero =>
    intro s K cache _ _ _ hc
    exact ⟨cache, rfl, hc⟩
  | succ n ih =>
    intro s K cache hf hN hle hc
    have hP := tbl_prime primes N (s + 1) hprimes (by omega) (by omega)
    have hPpi := tbl_pi primes N (s + 1) hprimes (by omega)
    have hPle := hle s (le_refl _) (by omega)
    have hsqx : Nat.sqrt x * Nat.sqrt x ≤ x := Nat.sqrt_le x
    have hPP : primes.getD (s + 1) 0 * primes.getD (s + 1) 0 ≤ x :=
      le_trans (Nat.mul_le_mul hPle hPle) hsqx
    have hx2 : 1 ≤ x / primes.getD (s + 1) 0 :=
      (Nat.le_div_iff_mul_le hP.pos).mpr (by have := hP.pos; nlinarith)
    obtain ⟨cache1, hstep, hc1⟩ := phi_step_spec primes pi sign x s _ K cache recur hpi rfl hP
      hPpi hPP hc (fun hc' => hrec cache _ s (by omega) (by omega) hx2
        (lt_of_le_of_lt (sqrt_div_le _ _) hsq) hc')
    obtain ⟨cache2, hrest, hc2⟩ := ih (s + 1) K cache1 (by omega) (by omega)
      (fun i h1 h2 => hle i (by omega) (by omega)) hc1
    refine ⟨cache2, ?_, hc2⟩
    rw [List.range'_succ, List.foldl_cons, hstep, hrest]
    have : s + 1 + n = s + (n + 1) := by omega
    rw [this]

theorem phi_correct (tiny : PhiTiny) (primes pi : List Nat) (N : Nat) (htiny : tiny_ok tiny)
    (hprimes : primes_ok primes N) (hpi : pi_ok pi) :
    ∀ (fuel : Nat) (cache : List (List Nat)) (sign : Int) (x a : Nat),
      a < fuel → a + 1 ≤ N → 1 ≤ x → Nat.sqrt x < pi.length → (sign = 1 ∨ sign = -1) →
      cache_ok cache →
      ∃ cache2, PhiCache.phi tiny primes pi fuel cache sign x a
          = some (sign * (phi_spec x a : Int), cache2) ∧ cache_ok cache2 := by
  intro fuel
  induction fuel with
  | zero => intro cache sign x a h; omega
  | succ fuel ih =>
    intro cache sign x a hfuel hN hx hsq hsign hc
    have hpa := tbl_pi primes N a hprimes (by omega)
    unfold PhiCache.phi
    split_ifs with h1 h2 h3 h4
    · -- x <= prime(a)
      have : phi_spec x a = 1 := by
        apply phi_spec_small x a hx
        have := Nat.monotone_primeCounting h1
        omega
      exact ⟨cache, by rw [this]; simp, hc⟩
    · -- tiny
      refine ⟨cache, ?_, hc⟩
      rw [htiny.1 x a h2, mul_comm]
    · -- pi shortcut
      refine ⟨cache, ?_, hc⟩
      unfold is_pix at h3
      simp only [Bool.and_eq_true, decide_eq_true_eq] at h3
      have hP := tbl_prime primes N (a + 1) hprimes (by omega) hN
      have hPpi := tbl_pi primes N (a + 1) hprimes hN
      have h5 := phi_spec_pix x a _ hx hP hPpi h3.2
      have h6 : Nat.primeCounting (primes.getD a 0) ≤ Nat.primeCounting x :=
        Nat.monotone_primeCounting (by omega)
      rw [hpi x h3.1]
      have : (phi_spec x a : Int) = (Nat.primeCounting x : Int) - a + 1 := by
        rw [h5]; omega
      rw [this, mul_comm]
    · -- cached
      refine ⟨cache, ?_, hc⟩
      unfold is_cached at h4
      simp only [Bool.and_eq_true, decide_eq_true_eq] at h4
      rw [hc a x h4.2, mul_comm]
    · -- the recursive sum
      simp only [hsq, true_and]
      have hsqx : x < (Nat.sqrt x + 1) * (Nat.sqrt x + 1) := Nat.lt_succ_sqrt x
      have hcle := (htiny.2 (Nat.sqrt x))
      have ha1 : tiny.max_a < a := by omega
      -- the bound b = pi_sqrtx and its properties
      obtain ⟨b, hb, hcb, hba, hlow, hhigh⟩ : ∃ b,
          (if Nat.sqrt x < primes.getD a 0 then pi.getD (Nat.sqrt x) 0 else a) = b
          ∧ tiny.get_c (Nat.sqrt x) ≤ b ∧ b ≤ a
          ∧ (∀ i, i < b → primes.getD (i + 1) 0 ≤ Nat.sqrt x)
          ∧ (∀ i, b ≤ i → i < a → Nat.sqrt x < primes.getD (i + 1) 0) := by
        by_cases hlt : Nat.sqrt x < primes.getD a 0
        · have ha0 : 1 ≤ a := by
            by_contra h0
            have : a = 0 := by omega
            subst this
            rw [hprimes.2.1] at hlt
            omega
          have hPa := tbl_prime primes N a hprimes ha0 (by omega)
          have hlt' := pi_lt_of_lt_prime _ _ hPa hlt
          refine ⟨Nat.primeCounting (Nat.sqrt x), ?_, hcle.2, by omega, ?_, ?_⟩
          · rw [if_pos hlt, hpi _ hsq]
          · intro i hi
            apply prime_le_of_pi_le _ _ (tbl_prime primes N (i + 1) hprimes (by omega) (by omega))
            rw [tbl_pi primes N (i + 1) hprimes (by omega)]
            omega
          · intro i hi1 hi2
            by_contra hle
            have := Nat.monotone_primeCounting (not_lt.mp hle)
            rw [tbl_pi primes N (i + 1) hprimes (by omega)] at this
            omega
        · refine ⟨a, by rw [if_neg hlt], by omega, le_refl _, ?_, ?_⟩
          · intro i hi
            have := tbl_mono primes N (i + 1) a hprimes (by omega) (by omega)
            omega
          · intro i hi1 hi2
            omega
      rw [hb]
      have hK : ((b : Int) - a) * sign + (tiny.phi_tiny x (tiny.get_c (Nat.sqrt x)) : Int) * sign
          = sign * (phi_spec x (tiny.get_c (Nat.sqrt x)) : Int) + ((b : Int) - a) * sign := by
        rw [htiny.1 x _ hcle.1]; ring
      rw [hK]
      obtain ⟨cache2, hloop, hc2⟩ := phi_loop_spec primes pi N fuel sign x
        (PhiCache.phi tiny primes pi fuel) hprimes hpi hsq
        (fun cache' x2 i hi hiN hx2 hsq2 hc' =>
          ih cache' (-sign) x2 i hi hiN hx2 hsq2 (by rcases hsign with h | h <;> simp [h]) hc')
        (b - tiny.get_c (Nat.sqrt x)) (tiny.get_c (Nat.sqrt x)) (((b : Int) - a) * sign) cache
        (by omega) (by omega) (fun i _ hi => hlow i (by omega)) hc
      rw [hloop]
      have hbc : tiny.get_c (Nat.sqrt x) + (b - tiny.get_c (Nat.sqrt x)) = b := by omega
      rw [hbc]
      have htail := phi_spec_tail x b (a - b) (fun i hi1 hi2 => by
        have hi3 : i < a := by omega
        have hP := tbl_prime primes N (i + 1) hprimes (by omega) (by omega)
        have hPpi := tbl_pi primes N (i + 1) hprimes (by omega)
        have hgt := hhigh i hi1 hi3
        have hPa := tbl_mono primes N (i + 1) a hprimes (by omega) (by omega)
        refine ⟨_, hP, hPpi, by omega, ?_⟩
        calc x < (Nat.sqrt x + 1) * (Nat.sqrt x + 1) := hsqx
          _ ≤ primes.getD (i + 1) 0 * primes.getD (i + 1) 0 := Nat.mul_le_mul hgt hgt)
      have hab : b + (a - b) = a := by omega
      rw [hab] at htail
      have hval : sign * (phi_spec x b : Int) + ((b : Int) - a) * sign
          = sign * (phi_spec x a : Int) := by
        rw [htail]; push_cast [Nat.cast_sub hba]; ring
      simp only [hval]
      refine ⟨_, rfl, ?_⟩
      apply update_cache_ok _ _ _ _ hc2
      rcases hsign with h | h <;> simp [h]

theorem iroot4_spec (x : Nat) :
    Nat.sqrt (Nat.sqrt x) ≤ x ∧ x < (Nat.sqrt (Nat.sqrt x) + 1) ^ 4 := by
  have h1 := Nat.sqrt_le' x
  have h2 := Nat.lt_succ_sqrt' x
  have h3 := Nat.sqrt_le' (Nat.sqrt x)
  have h4 := Nat.lt_succ_sqrt' (Nat.sqrt x)
  have h5 := Nat.sqrt_le_self x
  have h6 := Nat.sqrt_le_self (Nat.sqrt x)
  refine ⟨by omega, ?_⟩
  have h7 : Nat.sqrt x + 1 ≤ (Nat.sqrt (Nat.sqrt x) + 1) ^ 2 := by
    simp only [Nat.succ_eq_add_one] at h4; omega
  calc x < (Nat.sqrt x + 1) ^ 2 := h2
    _ ≤ ((Nat.sqrt (Nat.sqrt x) + 1) ^ 2) ^ 2 := Nat.pow_le_pow_left h7 2
    _ = (Nat.sqrt (Nat.sqrt x) + 1) ^ 4 := by ring

theorem rough_factors_ge (a n y : Nat) (hn : 1 ≤ n) (hy : Nat.primeCounting y = a)
    (hr : is_rough a n) : ∀ q ∈ n.primeFactorsList, y + 1 ≤ q := by
  intro q hq
  rw [is_rough_iff a n hn] at hr
  have hp := Nat.prime_of_mem_primeFactorsList hq
  have hd := Nat.dvd_of_mem_primeFactorsList hq
  have := hr q hp hd
  by_contra hlt
  have := Nat.monotone_primeCounting (show q ≤ y by omega)
  omega

theorem rough_omega_le (x n : Nat) (hn : 1 ≤ n) (hnx : n ≤ x)
    (hr : is_rough (Nat.primeCounting (Nat.sqrt (Nat.sqrt x))) n) :
    n.primeFactorsList.length < 4 := by
  by_contra h4
  have hge := rough_factors_ge _ n _ hn rfl hr
  have h1 := List.pow_card_le_prod n.primeFactorsList (Nat.sqrt (Nat.sqrt x) + 1) hge
  rw [Nat.prod_primeFactorsList (by omega)] at h1
  have h2 : (Nat.sqrt (Nat.sqrt x) + 1) ^ 4
      ≤ (Nat.sqrt (Nat.sqrt x) + 1) ^ n.primeFactorsList.length :=
    Nat.pow_le_pow_right (by omega) (by omega)
  have := (iroot4_spec x).2
  omega

theorem pk_zero (x a : Nat) (hx : 1 ≤ x) : pk_spec 0 x a = 1 := by
  unfold pk_spec
  rw [Finset.card_eq_one]
  refine ⟨1, ?_⟩
  ext n
  simp only [Finset.mem_filter, Finset.mem_Icc, Finset.mem_singleton, List.length_eq_zero]
  constructor
  · rintro ⟨⟨h1, _⟩, _, h3⟩
    rcases (Nat.primeFactorsList_eq_nil n).mp h3 with h | h
    · omega
    · exact h
  · intro h
    subst h
    exact ⟨⟨le_refl _, hx⟩, is_rough_one a, by simp⟩

theorem pk_one (x a : Nat) : pk_spec 1 x a = Nat.primeCounting x - a := by
  unfold pk_spec
  rw [← card_large_primes a x]
  congr 1
  apply Finset.filter_congr
  intro n hn
  have h1 := (Finset.mem_Icc.mp hn).1
  have hcard : n.primeFactorsList.length = 1 ↔ n.Prime := by
    rw [← ArithmeticFunction.cardFactors_apply]
    exact ArithmeticFunction.cardFactors_eq_one_iff_prime
  rw [hcard, is_rough_iff a n h1]
  constructor
  · rintro ⟨hr, hp⟩
    exact ⟨hp, hr n hp (dvd_refl _)⟩
  · rintro ⟨hp, ha⟩
    refine ⟨?_, hp⟩
    intro q hq hd
    have := (Nat.prime_dvd_prime_iff_eq hq hp).mp hd
    subst this
    exact ha

/-- Lehmer's formula on the counts of the glossary. -/
theorem lehmer_formula (x : Nat) (hx : 2 ≤ x) :
    phi_spec x (Nat.primeCounting (Nat.sqrt (Nat.sqrt x)))
      = 1 + (Nat.primeCounting x - Nat.primeCounting (Nat.sqrt (Nat.sqrt x)))
        + pk_spec 2 x (Nat.primeCounting (Nat.sqrt (Nat.sqrt x)))
        + pk_spec 3 x (Nat.primeCounting (Nat.sqrt (Nat.sqrt x))) := by
  generalize ha : Nat.primeCounting (Nat.sqrt (Nat.sqrt x)) = a
  have hfib := Finset.card_eq_sum_card_fiberwise
    (f := fun n : Nat => n.primeFactorsList.length)
    (s := (Finset.Icc 1 x).filter (fun n => is_rough a n)) (t := Finset.range 4)
    (fun n hn => by
      have hn' := Finset.mem_filter.mp hn
      have hI := Finset.mem_Icc.mp hn'.1
      have hr := hn'.2
      rw [← ha] at hr
      exact Finset.mem_range.mpr (rough_omega_le x n hI.1 hI.2 hr))
  have hk : ∀ k, (((Finset.Icc 1 x).filter (fun n => is_rough a n)).filter
      (fun n => n.primeFactorsList.length = k)).card = pk_spec k x a := by
    intro k
    unfold pk_spec
    rw [Finset.filter_filter]
  unfold phi_spec
  rw [hfib]
  simp only [Finset.sum_range_succ, Finset.sum_range_zero, hk]
  rw [pk_zero x a (by omega), pk_one, Nat.zero_add]

/-! ### The bit sieve of S2_sieve.cpp -/

theorem set_false_getD (sieve : List Bool) (i j : Nat) :
    (sieve.set i false).getD j false = (sieve.getD j false && !decide (j = i)) := by
  simp only [List.getD_eq_getElem?_getD, List.getElem?_set]
  by_cases h : i = j
  · subst h
    by_cases hl : i < sieve.length
    · simp [hl]
    · simp [hl, List.getElem?_eq_none (not_lt.mp hl)]
  · have h' : ¬ j = i := fun e => h e.symm
    simp [h, h']

theorem set_false_of_false (sieve : List Bool) (i : Nat) (h : sieve.getD i false = false) :
    sieve.set i false = sieve := by
  apply List.ext_getElem?
  intro j
  rw [List.getElem?_set]
  by_cases hij : i = j
  · subst hij
    by_cases hl : i < sieve.length
    · rw [if_pos rfl, if_pos hl]
      rw [List.getD_eq_getElem?_getD, List.getElem?_eq_getElem hl] at h
      rw [List.getElem?_eq_getElem hl]
      simp only [Option.getD_some] at h
      rw [h]
    · rw [if_pos rfl, if_neg hl, List.getElem?_eq_none (not_lt.mp hl)]
  · rw [if_neg hij]

theorem s2_cross_off_eq (prime low high : Nat) :
    ∀ (fuel k : Nat) (sieve : List Bool),
      s2_cross_off prime low high fuel k sieve sieve
        = (unset_loop prime low high fuel k sieve).map (fun r => (r.1, r.2, r.2)) := by
  intro fuel
  induction fuel with
  | zero => intro k sieve; rfl
  | succ fuel ih =>
    intro k sieve
    simp only [s2_cross_off, unset_loop]
    split_ifs with h1 h2 h3
    · rfl
    · exact ih _ _
    · rw [ih]
      have : sieve.set (k - low) false = sieve :=
        set_false_of_false sieve _ (by simpa using h3)
      rw [this]
    · rfl

/-- The effect of the crossing-off loop started at `k`: it ends, and it clears the
bits of `k, k + 2p, k + 4p, ...` below `high`. -/
theorem unset_loop_spec (prime low high : Nat) (hp : 1 ≤ prime) :
    ∀ (fuel k : Nat) (sieve : List Bool), low ≤ k → high - k < fuel →
      ∃ k2 sieve2, unset_loop prime low high fuel k sieve = some (k2, sieve2)
        ∧ sieve2.length = sieve.length ∧ high ≤ k2 ∧ (k < high → k2 < high + 2 * prime)
        ∧ (high ≤ k → k2 = k) ∧ (∃ t, k2 = k + 2 * prime * t)
        ∧ ∀ i, (sieve2.getD i false = true
            ↔ sieve.getD i false = true
                ∧ ¬ (low + i < high ∧ ∃ t, low + i = k + 2 * prime * t)) := by
  intro fuel
  induction fuel with
  | zero => intro k sieve _ h; omega
  | succ fuel ih =>
    intro k sieve hk hf
    simp only [unset_loop]
    by_cases h1 : k < high
    · rw [if_pos h1, if_neg (by omega)]
      obtain ⟨k2, sieve2, e, hl, g1, g2, g3, ⟨t, ht⟩, g5⟩ :=
        ih (k + prime * 2) (sieve.set (k - low) false) (by omega) (by omega)
      refine ⟨k2, sieve2, e, by rw [hl]; simp, g1, ?_, by omega, ⟨t + 1, by rw [ht]; ring⟩, ?_⟩
      · intro _
        by_cases h2 : k + prime * 2 < high
        · have := g2 h2; omega
        · have := g3 (by omega); omega
      · intro i
        rw [g5 i, set_false_getD]
        have hiff : (∃ t, low + i = k + 2 * prime * t)
            ↔ (i = k - low ∨ ∃ t, low + i = k + prime * 2 + 2 * prime * t) := by
          constructor
          · rintro ⟨t, ht⟩
            rcases Nat.eq_zero_or_pos t with h0 | h0
            · subst h0; left; omega
            · right
              refine ⟨t - 1, ?_⟩
              have : 2 * prime * t = 2 * prime * (t - 1) + 2 * prime := by
                have : t = (t - 1) + 1 := by omega
                conv_lhs => rw [this]
                ring
              omega
          · rintro (h | ⟨t, ht⟩)
            · exact ⟨0, by omega⟩
            · exact ⟨t + 1, by rw [ht]; ring⟩
        rw [hiff]
        simp only [Bool.and_eq_true, Bool.not_eq_true', decide_eq_false_iff_not]
        constructor
        · rintro ⟨⟨hs, hne⟩, hrest⟩
          refine ⟨hs, ?_⟩
          rintro ⟨hlt, h | h⟩
          · exact hne h
          · exact hrest ⟨hlt, h⟩
        · rintro ⟨hs, hno⟩
          refine ⟨⟨hs, ?_⟩, ?_⟩
          · intro h
            exact hno ⟨by omega, Or.inl h⟩
          · rintro ⟨hlt, h⟩
            exact hno ⟨hlt, Or.inr h⟩
    · rw [if_neg h1]
      refine ⟨k, sieve, rfl, rfl, by omega, by omega, fun _ => rfl, ⟨0, by ring⟩, ?_⟩
      intro i
      constructor
      · intro hs
        refine ⟨hs, ?_⟩
        rintro ⟨h2, t, ht⟩
        have : 0 ≤ 2 * prime * t := Nat.zero_le _
        omega
      · rintro ⟨hs, _⟩; exact hs

theorem odd_coprime_two (p : Nat) (hp : p % 2 = 1) : Nat.Coprime 2 p := by
  rw [Nat.coprime_two_left, Nat.odd_iff]
  exact hp

/-- From the least odd multiple on, the progression with the stride `2p` runs through the
odd multiples of `p`. -/
theorem next_ok_progression (p pos nm n : Nat) (hp : p % 2 = 1) (h : next_ok p pos nm)
    (hn : pos ≤ n) : (∃ t, n = nm + 2 * p * t) ↔ (p ∣ n ∧ n % 2 = 1) := by
  obtain ⟨hd, hle, hrest⟩ := h
  obtain ⟨hodd, hlt⟩ := hrest hp
  constructor
  · rintro ⟨t, rfl⟩
    refine ⟨Dvd.dvd.add hd ⟨2 * t, by ring⟩, ?_⟩
    have : 2 * p * t = 2 * (p * t) := by ring
    omega
  · rintro ⟨hdn, hoddn⟩
    have hge : nm ≤ n := by
      by_contra hc
      have h2 : 2 ∣ nm - n := by omega
      have hp2 : p ∣ nm - n := Nat.dvd_sub' hd hdn
      have := Nat.Coprime.mul_dvd_of_dvd_of_dvd (odd_coprime_two p hp) h2 hp2
      have := Nat.le_of_dvd (by omega) this
      omega
    have h2 : 2 ∣ n - nm := by omega
    have hp2 : p ∣ n - nm := Nat.dvd_sub' hdn hd
    obtain ⟨t, ht⟩ := Nat.Coprime.mul_dvd_of_dvd_of_dvd (odd_coprime_two p hp) h2 hp2
    exact ⟨t, by omega⟩

theorem next_ok_advance (p pos high nm k2 : Nat) (h : next_ok p pos nm) (hph : pos ≤ high)
    (h1 : high ≤ k2) (h2 : nm < high → k2 < high + 2 * p) (h3 : high ≤ nm → k2 = nm)
    (h4 : ∃ t, k2 = nm + 2 * p * t) : next_ok p high k2 := by
  obtain ⟨hd, hle, hrest⟩ := h
  obtain ⟨t, ht⟩ := h4
  refine ⟨?_, h1, fun hp => ⟨?_, ?_⟩⟩
  · rw [ht]; exact Dvd.dvd.add hd ⟨2 * t, by ring⟩
  · obtain ⟨hodd, hlt⟩ := hrest hp
    have : 2 * p * t = 2 * (p * t) := by ring
    omega
  · obtain ⟨hodd, hlt⟩ := hrest hp
    by_cases hc : nm < high
    · exact h2 hc
    · have := h3 (by omega); omega

theorem ceil_div_mul (low p : Nat) (hp : 1 ≤ p) :
    low ≤ ceil_div low p * p ∧ ceil_div low p * p < low + p := by
  unfold ceil_div
  have h1 := Nat.div_add_mod (low + p - 1) p
  have h2 := Nat.mod_lt (low + p - 1) (show p > 0 by omega)
  have h3 : (low + p - 1) / p * p = p * ((low + p - 1) / p) := Nat.mul_comm _ _
  omega

theorem generate_next_multiples_length (low size : Nat) (primes : List Nat) (hs : 1 ≤ size) :
    (generate_next_multiples low size primes).length = size := by
  unfold generate_next_multiples
  simp
  omega

theorem generate_next_multiples_ok (low size : Nat) (primes : List Nat) (b : Nat) (hb1 : 1 ≤ b)
    (hb : b < size) (hp : 1 ≤ primes.getD b 0) :
    next_ok (primes.getD b 0) low ((generate_next_multiples low size primes).getD b 0) := by
  obtain ⟨h1, h2⟩ := ceil_div_mul low (primes.getD b 0) hp
  have hget : (generate_next_multiples low size primes).getD b 0
      = ceil_div low (primes.getD b 0) * primes.getD b 0
        + primes.getD b 0
          * (if ceil_div low (primes.getD b 0) * primes.getD b 0 % 2 = 0 then 1 else 0) := by
    unfold generate_next_multiples
    obtain ⟨b', rfl⟩ : ∃ b', b = b' + 1 := ⟨b - 1, by omega⟩
    simp only [List.getD_eq_getElem?_getD, List.getElem?_cons_succ, List.getElem?_map]
    rw [List.getElem?_range' _ _ (by omega)]
    simp only [Option.map_some', Option.getD_some, Nat.mul_one, Nat.one_mul]
    have : 1 + b' = b' + 1 := by omega
    rw [this]
  rw [hget]
  have hdvd : primes.getD b 0 ∣ ceil_div low (primes.getD b 0) * primes.getD b 0 :=
    Dvd.intro_left _ rfl
  generalize ceil_div low (primes.getD b 0) * primes.getD b 0 = nm0 at *
  generalize primes.getD b 0 = p at *
  split_ifs with he
  · refine ⟨?_, by omega, fun hodd => ⟨by omega, by omega⟩⟩
    rw [Nat.mul_one]
    exact Dvd.dvd.add hdvd (dvd_refl p)
  · refine ⟨by simpa using hdvd, by omega, fun hodd => ⟨by omega, by omega⟩⟩

theorem isqrt_down_eq (n : Nat) : ∀ r, isqrt_down n r = min r (Nat.sqrt n) := by
  intro r
  induction r with
  | zero => simp [isqrt_down]
  | succ r ih =>
    simp only [isqrt_down]
    by_cases h : (r + 1) * (r + 1) ≤ n
    · rw [if_pos h, min_eq_left (Nat.le_sqrt.mpr h)]
    · rw [if_neg h, ih]
      have : ¬ r + 1 ≤ Nat.sqrt n := fun hc => h (Nat.le_sqrt.mp hc)
      omega

theorem isqrt_eq (n : Nat) : isqrt n = Nat.sqrt n := by
  unfold isqrt
  rw [isqrt_down_eq, min_eq_right (Nat.sqrt_le_self n)]

theorem tbl_one (primes : List Nat) (N : Nat) (h : primes_ok primes N) (hN : 1 ≤ N) :
    primes.getD 1 0 = 2 := by
  apply prime_eq_of_pi_eq _ _ (tbl_prime primes N 1 h (le_refl _) hN) Nat.prime_two
  rw [tbl_pi primes N 1 h hN]
  decide

theorem tbl_odd (primes : List Nat) (N b : Nat) (h : primes_ok primes N) (hb : 2 ≤ b)
    (hN : b ≤ N) : primes.getD b 0 % 2 = 1 := by
  have hp := tbl_prime primes N b h (by omega) hN
  rcases hp.eq_two_or_odd with h2 | h2
  · exfalso
    have h1 := tbl_pi primes N b h hN
    rw [h2] at h1
    have : Nat.primeCounting 2 = 1 := by decide
    omega
  · exact h2

theorem tbl_strict (primes : List Nat) (N i j : Nat) (h : primes_ok primes N) (hij : i < j)
    (hj : j ≤ N) : primes.getD i 0 < primes.getD j 0 := by
  have h1 := tbl_mono primes N i j h (by omega) hj
  rcases Nat.eq_or_lt_of_le h1 with he | hl
  · exfalso
    have := tbl_pi primes N i h (by omega)
    have := tbl_pi primes N j h hj
    rw [he] at *
    omega
  · exact hl

/-- The value `primes[pi[v]]` is at most `v`. -/
theorem tbl_pi_le (primes : List Nat) (N v : Nat) (h : primes_ok primes N)
    (hv : Nat.primeCounting v ≤ N) : primes.getD (Nat.primeCounting v) 0 ≤ v := by
  rcases Nat.eq_zero_or_pos (Nat.primeCounting v) with h0 | h0
  · rw [h0, h.2.1]; exact Nat.zero_le _
  · apply prime_le_of_pi_le _ _ (tbl_prime primes N _ h h0 hv)
    rw [tbl_pi primes N _ h hv]

theorem rough_succ_tbl (primes : List Nat) (N i n : Nat) (h : primes_ok primes N)
    (hi : i + 1 ≤ N) (hn : 1 ≤ n) :
    is_rough (i + 1) n ↔ is_rough i n ∧ ¬ primes.getD (i + 1) 0 ∣ n := by
  have hP := tbl_prime primes N (i + 1) h (by omega) hi
  have hPpi := tbl_pi primes N (i + 1) h hi
  rw [is_rough_iff (i + 1) n hn, is_rough_iff i n hn]
  constructor
  · intro hr
    refine ⟨fun q hq hd => by have := hr q hq hd; omega, ?_⟩
    intro hd
    have := hr _ hP hd
    omega
  · rintro ⟨hr, hnd⟩ q hq hd
    have := hr q hq hd
    by_contra hle
    have heq : Nat.primeCounting q = Nat.primeCounting (primes.getD (i + 1) 0) := by omega
    have := prime_eq_of_pi_eq q _ hq hP heq
    subst this
    exact hnd hd

theorem rough_zero (n : Nat) (hn : 1 ≤ n) : is_rough 0 n := by
  rw [is_rough_iff 0 n hn]
  intro q hq _
  have := Nat.monotone_primeCounting hq.two_le
  have h2 : Nat.primeCounting 2 = 1 := by decide
  omega

theorem rough_one_iff (n : Nat) (hn : 1 ≤ n) : is_rough 1 n ↔ n % 2 = 1 := by
  rw [is_rough_iff 1 n hn]
  have h2 : Nat.primeCounting 2 = 1 := by decide
  have h3 : Nat.primeCounting 3 = 2 := by decide
  constructor
  · intro hr
    by_contra hc
    have := hr 2 Nat.prime_two (Nat.dvd_of_mod_eq_zero (by omega))
    omega
  · intro ho q hq hd
    have hq2 : q ≠ 2 := by
      rintro rfl
      have := Nat.mod_eq_zero_of_dvd hd
      omega
    have hq3 : 3 ≤ q := by
      have := hq.two_le
      omega
    have := Nat.monotone_primeCounting hq3
    omega

theorem rough_odd (i n : Nat) (hi1 : 1 ≤ i) (hn : 1 ≤ n) (hr : is_rough i n) : n % 2 = 1 := by
  rw [← rough_one_iff n hn]
  rw [is_rough_iff i n hn] at hr
  rw [is_rough_iff 1 n hn]
  intro q hq hd
  have := hr q hq hd
  omega

theorem rough_count_add (i lo mid hi : Nat) (h1 : lo ≤ mid) (h2 : mid ≤ hi) :
    rough_count i lo mid + rough_count i mid hi = rough_count i lo hi := by
  unfold rough_count
  rw [← Finset.card_union_of_disjoint]
  · congr 1
    rw [← Finset.filter_union, Finset.Ico_union_Ico_eq_Ico h1 h2]
  · apply Finset.disjoint_filter_filter
    exact Finset.Ico_disjoint_Ico_consecutive lo mid hi

theorem rough_count_self (i lo : Nat) : rough_count i lo lo = 0 := by
  unfold rough_count
  simp

theorem phi_spec_eq_rough_count (v i : Nat) : phi_spec v i = rough_count i 1 (v + 1) := by
  unfold phi_spec rough_count
  rfl

theorem cnt_query_eq_card (counters : List Bool) (k : Nat) :
    cnt_query counters k
      = ((Finset.range (k + 1)).filter (fun j => counters.getD j false = true)).card := by
  unfold cnt_query
  generalize k + 1 = m
  induction m with
  | zero => simp
  | succ m ih =>
    rw [List.take_succ, List.filter_append, List.length_append, ih, Finset.range_succ,
      Finset.filter_insert]
    by_cases hm : m < counters.length
    · rw [List.getElem?_eq_getElem hm, List.getD_eq_getElem?_getD, List.getElem?_eq_getElem hm]
      simp only [Option.toList_some, Option.getD_some]
      by_cases hb : counters[m] = true
      · rw [if_pos hb, Finset.card_insert_of_not_mem (by simp)]
        simp [hb]
      · rw [if_neg hb]
        simp [hb]
    · have hnone : counters[m]? = none := List.getElem?_eq_none (not_lt.mp hm)
      rw [hnone, List.getD_eq_getElem?_getD, hnone]
      simp

/-- The count of the bits set at the positions `≤ k` of a sieve that shows the numbers of
`[low, high)` not divisible by the first `i` primes. -/
theorem cnt_query_rough (sieve : List Bool) (i low high k : Nat) (hk : low + k < high)
    (hs : ∀ j, low + j < high → (sieve.getD j false = true ↔ is_rough i (low + j))) :
    cnt_query sieve k = rough_count i low (low + k + 1) := by
  rw [cnt_query_eq_card]
  unfold rough_count
  rw [Finset.card_filter, Finset.card_filter, Finset.sum_Ico_eq_sum_range]
  have : low + k + 1 - low = k + 1 := by omega
  rw [this]
  apply Finset.sum_congr rfl
  intro j hj
  have hj' := Finset.mem_range.mp hj
  have := hs j (by omega)
  by_cases hr : is_rough i (low + j)
  · rw [if_pos (this.mpr hr), if_pos hr]
  · rw [if_neg (fun h => hr (this.mp h)), if_neg hr]

/-- One crossing-off pass of the odd prime with the index `i` takes the sieve from the
level `i - 1` to the level `i` and the next multiple from `low` to `high`. -/
theorem cross_step_odd (primes : List Nat) (N i low high nm : Nat) (sieve : List Bool)
    (h : primes_ok primes N) (hi : 2 ≤ i) (hiN : i ≤ N) (hlow : 1 ≤ low) (hlh : low ≤ high)
    (hn : next_ok (primes.getD i 0) low nm)
    (hs : ∀ k, low + k < high → (sieve.getD k false = true ↔ is_rough (i - 1) (low + k))) :
    ∃ k2 sieve2,
      unset_loop (primes.getD i 0) low high (high - nm + 1) nm sieve = some (k2, sieve2)
        ∧ sieve2.length = sieve.length ∧ next_ok (primes.getD i 0) high k2
        ∧ ∀ k, low + k < high → (sieve2.getD k false = true ↔ is_rough i (low + k)) := by
  have hodd := tbl_odd primes N i h hi hiN
  have hp1 : 1 ≤ primes.getD i 0 := by omega
  obtain ⟨k2, sieve2, e, hl, g1, g2, g3, g4, g5⟩ :=
    unset_loop_spec (primes.getD i 0) low high hp1 (high - nm + 1) nm sieve hn.2.1 (by omega)
  refine ⟨k2, sieve2, e, hl, next_ok_advance _ _ _ _ _ hn hlh g1 g2 g3 g4, ?_⟩
  intro k hk
  rw [g5 k, hs k hk]
  have hsucc := rough_succ_tbl primes N (i - 1) (low + k) h (by omega) (by omega)
  have hi1 : i - 1 + 1 = i := by omega
  rw [hi1] at hsucc
  rw [hsucc]
  constructor
  · rintro ⟨hr, hnot⟩
    refine ⟨hr, fun hd => hnot ⟨hk, ?_⟩⟩
    have ho := rough_odd (i - 1) (low + k) (by omega) (by omega) hr
    exact (next_ok_progression _ _ _ _ hodd hn (by omega)).mpr ⟨hd, ho⟩
  · rintro ⟨hr, hnd⟩
    refine ⟨hr, fun hc => hnd ?_⟩
    exact ((next_ok_progression _ _ _ _ hodd hn (by omega)).mp hc.2).1

theorem getD_set_nat (l : List Nat) (i j v : Nat) :
    (l.set i v).getD j 0 = if j = i ∧ i < l.length then v else l.getD j 0 := by
  simp only [List.getD_eq_getElem?_getD, List.getElem?_set]
  by_cases h : i = j
  · subst h
    by_cases hl : i < l.length
    · simp [hl]
    · simp [hl, List.getElem?_eq_none (not_lt.mp hl)]
  · have h' : ¬ j = i := fun e => h e.symm
    simp [h, h']

theorem getD_set_int (l : List Int) (i j : Nat) (v : Int) :
    (l.set i v).getD j 0 = if j = i ∧ i < l.length then v else l.getD j 0 := by
  simp only [List.getD_eq_getElem?_getD, List.getElem?_set]
  by_cases h : i = j
  · subst h
    by_cases hl : i < l.length
    · simp [hl]
    · simp [hl, List.getElem?_eq_none (not_lt.mp hl)]
  · have h' : ¬ j = i := fun e => h e.symm
    simp [h, h']

/-- The small-prime loop over the indices `i, ..., i + n - 1` takes the sieve from the
level `i - 1` to the level `i + n - 1`. -/
theorem small_primes_spec (primes : List Nat) (N low high : Nat) (h : primes_ok primes N)
    (hlow : 1 ≤ low) (hlh : low ≤ high) :
    ∀ (n i : Nat) (sieve : List Bool) (next : List Nat), 2 ≤ i → i + n ≤ N + 1 →
      i + n ≤ next.length →
      (∀ j, i ≤ j → j < i + n → next_ok (primes.getD j 0) low (next.getD j 0)) →
      (∀ k, low + k < high → (sieve.getD k false = true ↔ is_rough (i - 1) (low + k))) →
      ∃ sieve2 next2,
        small_primes primes low high (List.range' i n) sieve next = some (sieve2, next2)
          ∧ sieve2.length = sieve.length ∧ next2.length = next.length
          ∧ (∀ j, j < i ∨ i + n ≤ j → next2.getD j 0 = next.getD j 0)
          ∧ (∀ j, i ≤ j → j < i + n → next_ok (primes.getD j 0) high (next2.getD j 0))
          ∧ ∀ k, low + k < high →
              (sieve2.getD k false = true ↔ is_rough (i + n - 1) (low + k)) := by
  intro n
  induction n with
  | zero =>
    intro i sieve next _ _ _ _ hs
    exact ⟨sieve, next, rfl, rfl, rfl, fun _ _ => rfl, fun j h1 h2 => by omega, hs⟩
  | succ n ih =>
    intro i sieve next hi hN hlen hnext hs
    obtain ⟨k2, sieve1, e1, hl1, hn1, hs1⟩ :=
      cross_step_odd primes N i low high (next.getD i 0) sieve h hi (by omega) hlow hlh
        (hnext i (le_refl _) (by omega)) hs
    have hnext1 : ∀ j, i + 1 ≤ j → j < i + 1 + n →
        next_ok (primes.getD j 0) low ((next.set i k2).getD j 0) := by
      intro j h1 h2
      rw [getD_set_nat, if_neg (by omega)]
      exact hnext j (by omega) (by omega)
    obtain ⟨sieve2, next2, e2, hl2, hnl2, hfr, hn2, hs2⟩ :=
      ih (i + 1) sieve1 (next.set i k2) (by omega) (by omega) (by simp; omega) hnext1
        (by simpa using hs1)
    refine ⟨sieve2, next2, ?_, by rw [hl2, hl1], by rw [hnl2]; simp, ?_, ?_, ?_⟩
    · simp only [List.range'_succ, small_primes, e1]
      exact e2
    · intro j hj
      rw [hfr j (by omega), getD_set_nat, if_neg (by omega)]
    · intro j h1 h2
      by_cases hji : j = i
      · subst hji
        rw [hfr j (by omega), getD_set_nat, if_pos ⟨rfl, by omega⟩]
        exact hn1
      · exact hn2 j (by omega) (by omega)
    · intro k hk
      have := hs2 k hk
      have e : i + 1 + n - 1 = i + (n + 1) - 1 := by omega
      rw [e] at this
      exact this

/-- The bits of a filled segment are those of the odd numbers. -/
theorem sieve_fill_spec (size low : Nat) (hlow : 1 ≤ low) :
    (sieve_fill size low).length = size
      ∧ ∀ k, k < size → ((sieve_fill size low).getD k false = true ↔ is_rough 1 (low + k)) := by
  unfold sieve_fill
  refine ⟨by simp, ?_⟩
  intro k hk
  rw [rough_one_iff (low + k) (by omega)]
  simp [List.getD_eq_getElem?_getD, List.getElem?_map, List.getElem?_range hk]

/-- One crossing-off pass of the prime with the index `i ≥ 1` takes the sieve from the
level of `i - 1` to the level of `i` and the next multiple from `low` to `high`; the pass
of the prime 2 clears bits of even numbers only, which are clear in a filled segment. -/
theorem cross_step (primes : List Nat) (N i low high nm : Nat) (sieve : List Bool)
    (h : primes_ok primes N) (hi : 1 ≤ i) (hiN : i ≤ N) (hlow : 1 ≤ low) (hlh : low ≤ high)
    (hn : next_ok (primes.getD i 0) low nm)
    (hs : ∀ k, low + k < high →
      (sieve.getD k false = true ↔ is_rough (sieve_level (i - 1)) (low + k))) :
    ∃ k2 sieve2,
      unset_loop (primes.getD i 0) low high (high - nm + 1) nm sieve = some (k2, sieve2)
        ∧ sieve2.length = sieve.length ∧ next_ok (primes.getD i 0) high k2
        ∧ ∀ k, low + k < high →
            (sieve2.getD k false = true ↔ is_rough (sieve_level i) (low + k)) := by
  by_cases hi2 : 2 ≤ i
  · have e1 : sieve_level (i - 1) = i - 1 := by unfold sieve_level; omega
    have e2 : sieve_level i = i := by unfold sieve_level; omega
    rw [e2]
    simp only [e1] at hs
    exact cross_step_odd primes N i low high nm sieve h hi2 hiN hlow hlh hn hs
  · have hi1 : i = 1 := by omega
    subst hi1
    have hp : primes.getD 1 0 = 2 := tbl_one primes N h hiN
    rw [hp] at hn ⊢
    have e1 : sieve_level (1 - 1) = 1 := rfl
    have e2 : sieve_level 1 = 1 := rfl
    rw [e2]
    rw [e1] at hs
    obtain ⟨k2, sieve2, e, hl, g1, g2, g3, g4, g5⟩ :=
      unset_loop_spec 2 low high (by omega) (high - nm + 1) nm sieve hn.2.1 (by omega)
    refine ⟨k2, sieve2, e, hl, next_ok_advance _ _ _ _ _ hn hlh g1 g2 g3 g4, ?_⟩
    intro k hk
    rw [g5 k, hs k hk]
    constructor
    · exact fun hh => hh.1
    · intro hr
      refine ⟨hr, ?_⟩
      rintro ⟨_, t, ht⟩
      have ho := (rough_one_iff (low + k) (by omega)).mp hr
      have hev := Nat.mod_eq_zero_of_dvd hn.1
      omega

theorem pi_tbl (pi : List Nat) (y v : Nat) (hpi : pi_ok pi) (hy : y < pi.length) (hv : v ≤ y) :
    pi.getD v 0 = Nat.primeCounting v :=
  hpi v (by omega)

/-- A segment that is left at the index `b` stays left at `b` for every later start. -/
theorem seg_break_mono (x y z : Nat) (pi primes : List Nat) (b low low2 : Nat)
    (hpi : pi_ok pi) (hy : y < pi.length) (hpr : primes_ok primes (Nat.primeCounting y))
    (hb1 : 1 ≤ b) (hbN : b ≤ Nat.primeCounting y) (hlow : 1 ≤ low) (hll : low ≤ low2)
    (h : seg_break x y z pi primes b low) : seg_break x y z pi primes b low2 := by
  have hp := (tbl_prime primes _ b hpr hb1 hbN).two_le
  have hdiv : x / (primes.getD b 0 * low2) ≤ x / (primes.getD b 0 * low) :=
    Nat.div_le_div_left (Nat.mul_le_mul_left _ hll) (Nat.mul_pos (by omega) (by omega))
  unfold seg_break at *
  split_ifs at * with hc
  · have : min (x / (primes.getD b 0 * low2)) y ≤ min (x / (primes.getD b 0 * low)) y :=
      min_le_min hdiv (le_refl _)
    omega
  · generalize hv : min (min (x / (primes.getD b 0 * low)) y) (z / primes.getD b 0) = v at h
    generalize hv2 : min (min (x / (primes.getD b 0 * low2)) y) (z / primes.getD b 0) = v2
    have hvv : v2 ≤ v := by
      rw [← hv, ← hv2]
      exact min_le_min (min_le_min hdiv (le_refl _)) (le_refl _)
    have hvy : v ≤ y := by
      rw [← hv]
      exact le_trans (min_le_left _ _) (min_le_right _ _)
    rw [pi_tbl pi y v hpi hy hvy] at h
    rw [pi_tbl pi y v2 hpi hy (by omega)]
    have := tbl_mono primes _ (Nat.primeCounting v2) (Nat.primeCounting v) hpr
      (Nat.monotone_primeCounting hvv) (Nat.monotone_primeCounting hvy)
    omega

theorem seg_alive_mono (x y z c : Nat) (pi primes : List Nat) (b low low2 : Nat)
    (hpi : pi_ok pi) (hy : y < pi.length) (hpr : primes_ok primes (Nat.primeCounting y))
    (hbN : b ≤ Nat.primeCounting y) (hlow : 1 ≤ low) (hll : low ≤ low2)
    (h : seg_alive x y z c pi primes b low2) : seg_alive x y z c pi primes b low := by
  intro b2 h1 h2 hbr
  exact h b2 h1 h2 (seg_break_mono x y z pi primes b2 low low2 hpi hy hpr (by omega) (by omega)
    hlow hll hbr)

theorem seg_alive_succ (x y z c : Nat) (pi primes : List Nat) (b low : Nat)
    (h : seg_alive x y z c pi primes b low) (hb : ¬ seg_break x y z pi primes (b + 1) low) :
    seg_alive x y z c pi primes (b + 1) low := by
  intro b2 h1 h2
  by_cases he : b2 = b + 1
  · subst he; exact hb
  · exact h b2 h1 (by omega)

theorem seg_alive_base (x y z c : Nat) (pi primes : List Nat) (low : Nat) :
    seg_alive x y z c pi primes c low := by
  intro b2 h1 h2
  omega

theorem leaf_sum_append (l : List Leaf) (e : Leaf) :
    leaf_sum (l ++ [e]) = leaf_sum l + -e.mu * e.value := by
  unfold leaf_sum
  simp

theorem leaf_mu_sum_append (l : List Leaf) (e : Leaf) (j : Nat) :
    leaf_mu_sum (l ++ [e]) j = leaf_mu_sum l j + (if e.b = j then -e.mu else 0) := by
  unfold leaf_mu_sum
  by_cases h : e.b = j
  · simp [List.filter_append, h]
  · simp [List.filter_append, h]

/-- The evaluation of a leaf whose quotient lies in the segment: it is done, and the sums
stay those of the log. -/
theorem eval_leaf_spec (x y z c : Nat) (pi primes : List Nat)
    (S pi_max low_t low high b n : Nat) (mu : Int) (w : S2Worker)
    (hinv : mid_inv x y z c pi primes S pi_max low_t low high (b - 1) w)
    (hb : c + 1 ≤ b) (hbm : b ≤ pi_max) (halive : seg_alive x y z c pi primes b low)
    (halive_t : seg_alive x y z c pi primes b low_t)
    (hlt : low_t ≤ low) (hhS : high ≤ low + S) (hn : n ≠ 0) (h1 : low ≤ x / n)
    (h2 : x / n < high) :
    ∃ w2, eval_leaf x low b n mu w = some w2
      ∧ mid_inv x y z c pi primes S pi_max low_t low high (b - 1) w2 := by
  obtain ⟨hS, hcs, hnl, hpl, hsieve, hdone, hpend, hsmall, hs2, hml, hmu, hleaves⟩ := hinv
  have hphi := (hpend b (by omega) hbm halive).2
  have hcnt : cnt_query w.counters (x / n - low)
      = rough_count (sieve_level (b - 1)) low (x / n + 1) := by
    rw [hcs, cnt_query_rough w.sieve (sieve_level (b - 1)) low high (x / n - low) (by omega)
      hsieve]
    congr 1
    omega
  have hval : w.phi.getD b 0 + (cnt_query w.counters (x / n - low) : Int)
      = (rough_count (sieve_level (b - 1)) low_t (x / n + 1) : Int) := by
    rw [hphi, hcnt, ← rough_count_add (sieve_level (b - 1)) low_t low (x / n + 1) hlt (by omega)]
    push_cast
    rfl
  have heq : eval_leaf x low b n mu w
      = some { w with s2 := w.s2 - mu * (w.phi.getD b 0 + cnt_query w.counters (x / n - low)),
                      mu_sum := w.mu_sum.set b (w.mu_sum.getD b 0 - mu),
                      leaves := w.leaves ++ [⟨b, mu, x / n,
                        w.phi.getD b 0 + cnt_query w.counters (x / n - low)⟩] } := by
    unfold eval_leaf
    rw [if_neg hn, if_neg (by rw [hcs, hS]; omega)]
  refine ⟨_, heq, ?_⟩
  · refine ⟨hS, hcs, hnl, hpl, hsieve, hdone, hpend, hsmall, ?_, ?_, ?_, ?_⟩
    · show w.s2 - mu * _ = leaf_sum (w.leaves ++ [_])
      rw [leaf_sum_append, hs2]
      ring
    · show (w.mu_sum.set b _).length = _
      rw [List.length_set, hml]
    · intro j
      show (w.mu_sum.set b _).getD j 0 = leaf_mu_sum (w.leaves ++ [_]) j
      rw [leaf_mu_sum_append, getD_set_int, ← hmu j]
      by_cases hj : j = b
      · subst hj
        rw [if_pos ⟨rfl, by omega⟩, if_pos rfl]
        ring
      · rw [if_neg (by tauto), if_neg (fun e => hj e.symm)]
        ring
    · intro e he
      rcases List.mem_append.mp he with he | he
      · exact hleaves e he
      · rw [List.mem_singleton] at he
        subst he
        exact ⟨hb, hbm, halive_t, by show low_t ≤ x / n; omega, hval⟩

/-- The end of the work on the index `b` in a segment: the count of the segment is added
to `phi[b]` and the multiples of `primes[b]` are crossed off. -/
theorem finish_b_spec (x y z c : Nat) (pi primes : List Nat) (N : Nat)
    (S pi_max low_t low high b : Nat) (w : S2Worker) (hpr : primes_ok primes N)
    (hinv : mid_inv x y z c pi primes S pi_max low_t low high (b - 1) w)
    (hb : c + 1 ≤ b) (hbm : b ≤ pi_max) (hbN : b ≤ N)
    (halive : seg_alive x y z c pi primes b low)
    (hlow : 1 ≤ low) (hlt : low_t ≤ low) (hlh : low < high) :
    ∃ w2, finish_b primes low high b w = some w2
      ∧ mid_inv x y z c pi primes S pi_max low_t low high b w2 := by
  obtain ⟨hS, hcs, hnl, hpl, hsieve, hdone, hpend, hsmall, hacct⟩ := hinv
  obtain ⟨hnext, hphi⟩ := hpend b (by omega) hbm halive
  obtain ⟨k2, sieve2, e, hl2, hn2, hs2⟩ :=
    cross_step primes N b low high (w.next.getD b 0) w.sieve hpr (by omega) hbN hlow
      (by omega) hnext hsieve
  have hcnt : cnt_query w.counters (high - 1 - low)
      = rough_count (sieve_level (b - 1)) low high := by
    rw [hcs, cnt_query_rough w.sieve (sieve_level (b - 1)) low high (high - 1 - low) (by omega)
      hsieve]
    congr 1
    omega
  have heq : finish_b primes low high b w
      = some { w with phi := w.phi.set b (w.phi.getD b 0 + cnt_query w.counters (high - 1 - low)),
                      sieve := sieve2, counters := sieve2, next := w.next.set b k2 } := by
    unfold finish_b
    simp only []
    rw [hcs, s2_cross_off_eq, e]
    rfl
  refine ⟨_, heq, ?_⟩
  refine ⟨by show sieve2.length = S; rw [hl2, hS], rfl,
    by show (w.next.set b k2).length = _; rw [List.length_set, hnl],
    by show (w.phi.set b _).length = _; rw [List.length_set, hpl], hs2, ?_, ?_, ?_, hacct⟩
  · intro b2 h1 h2
    show next_ok _ high ((w.next.set b k2).getD b2 0) ∧ (w.phi.set b _).getD b2 0 = _
    rw [getD_set_nat, getD_set_int]
    by_cases hb2 : b2 = b
    · subst hb2
      rw [if_pos ⟨rfl, by omega⟩, if_pos ⟨rfl, by omega⟩]
      refine ⟨hn2, ?_⟩
      rw [hphi, hcnt, ← rough_count_add (sieve_level (b2 - 1)) low_t low high hlt (by omega)]
      push_cast
      rfl
    · rw [if_neg (by tauto), if_neg (by tauto)]
      exact hdone b2 h1 (by omega)
  · intro b2 h1 h2 h3
    show next_ok _ low ((w.next.set b k2).getD b2 0) ∧ (w.phi.set b _).getD b2 0 = _
    rw [getD_set_nat, getD_set_int, if_neg (by omega), if_neg (by omega)]
    exact hpend b2 (by omega) h2 h3
  · intro j h1 h2
    show next_ok _ high ((w.next.set b k2).getD j 0)
    rw [getD_set_nat, if_neg (by omega)]
    exact hsmall j h1 h2

/-- The loop of the easy leaves over table indices whose leaves lie in the segment. -/
theorem easy_leaves_spec (x y z c : Nat) (pi primes : List Nat) (factors : FactorTable)
    (S pi_max low_t low high b : Nat)
    (hb : c + 1 ≤ b) (hbm : b ≤ pi_max) (halive : seg_alive x y z c pi primes b low)
    (halive_t : seg_alive x y z c pi primes b low_t)
    (hlt : low_t ≤ low) (hhS : high ≤ low + S) :
    ∀ (ms : List Nat) (w : S2Worker),
      mid_inv x y z c pi primes S pi_max low_t low high (b - 1) w →
      (∀ m ∈ ms, primes.getD b 0 < factors.lpf m →
        primes.getD b 0 * factors.get_number m ≠ 0
          ∧ low ≤ x / (primes.getD b 0 * factors.get_number m)
          ∧ x / (primes.getD b 0 * factors.get_number m) < high) →
      ∃ w2, easy_leaves x low b (primes.getD b 0) factors ms w = some w2
        ∧ mid_inv x y z c pi primes S pi_max low_t low high (b - 1) w2 := by
  intro ms
  induction ms with
  | nil => intro w hinv _; exact ⟨w, rfl, hinv⟩
  | cons m rest ih =>
    intro w hinv hms
    simp only [easy_leaves]
    by_cases hl : primes.getD b 0 < factors.lpf m
    · rw [if_pos hl]
      obtain ⟨h0, h1, h2⟩ := hms m (List.mem_cons_self _ _) hl
      obtain ⟨w1, e1, hinv1⟩ := eval_leaf_spec x y z c pi primes S pi_max low_t low high b
        (primes.getD b 0 * factors.get_number m) (factors.mu m) w hinv hb hbm halive halive_t
        hlt hhS h0 h1 h2
      rw [e1]
      exact ih w1 hinv1 (fun m2 hm2 => hms m2 (List.mem_cons_of_mem _ hm2))
    · rw [if_neg hl]
      exact ih w hinv (fun m2 hm2 => hms m2 (List.mem_cons_of_mem _ hm2))

/-- The loop of the hard leaves from the index `l` down: it ends before the index 0. -/
theorem hard_leaves_spec (x y z c : Nat) (pi primes : List Nat)
    (S pi_max low_t low high b mhl : Nat)
    (hb : c + 1 ≤ b) (hbm : b ≤ pi_max) (halive : seg_alive x y z c pi primes b low)
    (halive_t : seg_alive x y z c pi primes b low_t)
    (hlt : low_t ≤ low) (hhS : high ≤ low + S) (h0 : primes.getD 0 0 = 0) :
    ∀ (l : Nat) (w : S2Worker),
      mid_inv x y z c pi primes S pi_max low_t low high (b - 1) w →
      (∀ l2, l2 ≤ l → mhl < primes.getD l2 0 →
        primes.getD b 0 * primes.getD l2 0 ≠ 0
          ∧ low ≤ x / (primes.getD b 0 * primes.getD l2 0)
          ∧ x / (primes.getD b 0 * primes.getD l2 0) < high) →
      ∃ w2, hard_leaves x low b (primes.getD b 0) mhl primes l w = some w2
        ∧ mid_inv x y z c pi primes S pi_max low_t low high (b - 1) w2 := by
  intro l
  induction l with
  | zero =>
    intro w hinv _
    refine ⟨w, ?_, hinv⟩
    simp only [hard_leaves]
    rw [if_neg (by omega)]
  | succ l ih =>
    intro w hinv hls
    simp only [hard_leaves]
    by_cases hl : primes.getD (l + 1) 0 > mhl
    · rw [if_pos hl]
      obtain ⟨g0, g1, g2⟩ := hls (l + 1) (le_refl _) hl
      obtain ⟨w1, e1, hinv1⟩ := eval_leaf_spec x y z c pi primes S pi_max low_t low high b
        (primes.getD b 0 * primes.getD (l + 1) 0) (-1) w hinv hb hbm halive halive_t
        hlt hhS g0 g1 g2
      rw [e1]
      exact ih w1 hinv1 (fun l2 hl2 => hls l2 (by omega))
    · rw [if_neg hl]
      exact ⟨w, rfl, hinv⟩

theorem factors_mono (factors : FactorTable) (h : factors_ok factors) (i j : Nat) (hij : i ≤ j) :
    factors.get_number i ≤ factors.get_number j := by
  rcases Nat.eq_or_lt_of_le hij with e | e
  · rw [e]
  · exact le_of_lt (h.1 i j e)

theorem factors_pos (factors : FactorTable) (h : factors_ok factors) (i : Nat) :
    1 ≤ factors.get_number i :=
  le_trans h.2.1 (factors_mono factors h 0 i (Nat.zero_le _))

/-- The prime with an index up to `π(v)` is at most `v`. -/
theorem tbl_le_of_le_pi (primes : List Nat) (N b v : Nat) (h : primes_ok primes N)
    (hb : b ≤ Nat.primeCounting v) (hv : Nat.primeCounting v ≤ N) : primes.getD b 0 ≤ v :=
  le_trans (tbl_mono primes N b _ h hb hv) (tbl_pi_le primes N v h hv)

/-- A leaf `n = p * q` with `q ≤ x / (p * low)` and `x / (p * high) < q` has its quotient
`x / n` in `[low, high)`. -/
theorem leaf_range (x p q low high : Nat) (hp : 1 ≤ p) (hq : 1 ≤ q) (hlow : 1 ≤ low)
    (hhigh : 1 ≤ high) (h1 : q ≤ x / (p * low)) (h2 : x / (p * high) < q) :
    p * q ≠ 0 ∧ low ≤ x / (p * q) ∧ x / (p * q) < high := by
  have hpq : 0 < p * q := Nat.mul_pos (by omega) (by omega)
  refine ⟨by omega, ?_, ?_⟩
  · rw [Nat.le_div_iff_mul_le hpq]
    have := (Nat.le_div_iff_mul_le (Nat.mul_pos (show 0 < p by omega) (show 0 < low by omega))).mp h1
    calc low * (p * q) = q * (p * low) := by ring
      _ ≤ x := this
  · rw [Nat.div_lt_iff_lt_mul hpq]
    have := (Nat.div_lt_iff_lt_mul (Nat.mul_pos (show 0 < p by omega) (show 0 < high by omega))).mp h2
    calc x < q * (p * high) := this
      _ = high * (p * q) := by ring

/-- The body of the loop of the easy leaves at the index `b`. -/
theorem easy_b_spec (x y z c : Nat) (pi primes : List Nat) (factors : FactorTable)
    (S pi_max low_t low high b : Nat) (w : S2Worker)
    (htab : s2_tables_ok y pi primes factors)
    (hinv : mid_inv x y z c pi primes S pi_max low_t low high (b - 1) w)
    (hb : c + 1 ≤ b) (hbm : b ≤ pi_max) (hbs : b ≤ pi.getD (Nat.sqrt y) 0)
    (hpm : pi_max ≤ Nat.primeCounting y)
    (halive : seg_alive x y z c pi primes (b - 1) low)
    (hlt1 : 1 ≤ low_t) (hlt : low_t ≤ low) (hlh : low < high) (hhS : high ≤ low + S) :
    ∃ w2 flag, easy_b x y factors primes low high b w = some (w2, flag)
      ∧ (flag = true → w2 = w ∧ seg_break x y z pi primes b low)
      ∧ (flag = false → ¬ seg_break x y z pi primes b low
          ∧ mid_inv x y z c pi primes S pi_max low_t low high b w2) := by
  obtain ⟨hy, hpi, hpr, hfac⟩ := htab
  have hbN : b ≤ Nat.primeCounting y := by omega
  have hp2 := (tbl_prime primes _ b hpr (by omega) hbN).two_le
  have hbreak_iff : seg_break x y z pi primes b low
      ↔ primes.getD b 0 ≥ min (x / (primes.getD b 0 * low)) y := by
    unfold seg_break
    rw [if_pos hbs]
  by_cases hbr : primes.getD b 0 ≥ min (x / (primes.getD b 0 * low)) y
  · refine ⟨w, true, ?_, fun _ => ⟨rfl, hbreak_iff.mpr hbr⟩, fun h => by cases h⟩
    unfold easy_b
    simp only []
    rw [if_pos hbr]
  · have hnb : ¬ seg_break x y z pi primes b low := fun h => hbr (hbreak_iff.mp h)
    have hal : seg_alive x y z c pi primes b low := by
      have := seg_alive_succ x y z c pi primes (b - 1) low halive
        (by rw [show b - 1 + 1 = b by omega]; exact hnb)
      rw [show b - 1 + 1 = b by omega] at this
      exact this
    have hal_t := seg_alive_mono x y z c pi primes b low_t low hpi hy hpr hbN hlt1 hlt hal
    -- the prime is at most sqrt y
    have hsq : primes.getD b 0 ≤ Nat.sqrt y := by
      rw [pi_tbl pi y _ hpi hy (Nat.sqrt_le_self y)] at hbs
      exact tbl_le_of_le_pi primes _ b _ hpr hbs (Nat.monotone_primeCounting (Nat.sqrt_le_self y))
    have hpp : primes.getD b 0 * primes.getD b 0 ≤ y :=
      le_trans (Nat.mul_le_mul hsq hsq) (Nat.sqrt_le y)
    have hyp : primes.getD b 0 ≤ y / primes.getD b 0 :=
      (Nat.le_div_iff_mul_le (by omega)).mpr hpp
    generalize hmax : min (x / (primes.getD b 0 * low)) y = max_m at hbr
    generalize hmin : max (min (x / (primes.getD b 0 * high)) y) (y / primes.getD b 0) = min_m
    have hmin1 : 1 ≤ min_m := by
      rw [← hmin]
      exact le_trans (by omega) (le_max_right _ _)
    have hmax1 : 1 ≤ max_m := by omega
    obtain ⟨hi1, hi2⟩ := hfac.2.2 min_m hmin1
    obtain ⟨ha1, ha2⟩ := hfac.2.2 max_m hmax1
    have hms : ∀ m ∈ (List.range' (factors.to_index min_m + 1)
          (factors.to_index max_m - factors.to_index min_m)).reverse,
        primes.getD b 0 < factors.lpf m →
        primes.getD b 0 * factors.get_number m ≠ 0
          ∧ low ≤ x / (primes.getD b 0 * factors.get_number m)
          ∧ x / (primes.getD b 0 * factors.get_number m) < high := by
      intro m hm _
      rw [List.mem_reverse, List.mem_range'_1] at hm
      have h1 : factors.get_number m ≤ max_m :=
        le_trans (factors_mono factors hfac m _ (by omega)) ha1
      have h2 : min_m < factors.get_number m :=
        lt_of_lt_of_le hi2 (factors_mono factors hfac _ m (by omega))
      apply leaf_range x _ _ low high (by omega) (factors_pos factors hfac m) (by omega)
        (by omega)
      · rw [← hmax] at h1
        exact le_trans h1 (min_le_left _ _)
      · have h3 : factors.get_number m ≤ y := by
          rw [← hmax] at h1
          exact le_trans h1 (min_le_right _ _)
        have h4 : min (x / (primes.getD b 0 * high)) y < factors.get_number m := by
          rw [← hmin] at h2
          exact lt_of_le_of_lt (le_max_left _ _) h2
        rcases min_lt_iff.mp h4 with h5 | h5
        · exact h5
        · omega
    obtain ⟨w1, e1, hinv1⟩ := easy_leaves_spec x y z c pi primes factors S pi_max low_t low high b
      hb hbm hal hal_t hlt hhS _ w hinv hms
    obtain ⟨w2, e2, hinv2⟩ := finish_b_spec x y z c pi primes _ S pi_max low_t low high b w1 hpr
      hinv1 hb hbm hbN hal (by omega) hlt hlh
    refine ⟨w2, false, ?_, (fun h => by cases h), fun _ => ⟨hnb, hinv2⟩⟩
    unfold easy_b
    simp only []
    rw [hmax, hmin, if_neg hbr, e1]
    simp only []
    rw [e2]

/-- The body of the loop of the hard leaves at the index `b`. -/
theorem hard_b_spec (x y z c : Nat) (pi primes : List Nat) (factors : FactorTable)
    (S pi_max low_t low high b : Nat) (w : S2Worker)
    (htab : s2_tables_ok y pi primes factors)
    (hinv : mid_inv x y z c pi primes S pi_max low_t low high (b - 1) w)
    (hb : c + 1 ≤ b) (hbm : b ≤ pi_max) (hbs : ¬ b ≤ pi.getD (Nat.sqrt y) 0)
    (hpm : pi_max ≤ Nat.primeCounting y)
    (halive : seg_alive x y z c pi primes (b - 1) low)
    (hlt1 : 1 ≤ low_t) (hlt : low_t ≤ low) (hlh : low < high) (hhS : high ≤ low + S) :
    ∃ w2 flag, hard_b x y z pi primes low high b w = some (w2, flag)
      ∧ (flag = true → w2 = w ∧ seg_break x y z pi primes b low)
      ∧ (flag = false → ¬ seg_break x y z pi primes b low
          ∧ mid_inv x y z c pi primes S pi_max low_t low high b w2) := by
  obtain ⟨hy, hpi, hpr, hfac⟩ := htab
  have hbN : b ≤ Nat.primeCounting y := by omega
  have hp2 := (tbl_prime primes _ b hpr (by omega) hbN).two_le
  have hbreak_iff : seg_break x y z pi primes b low
      ↔ primes.getD b 0 ≥ primes.getD (pi.getD
          (min (min (x / (primes.getD b 0 * low)) y) (z / primes.getD b 0)) 0) 0 := by
    unfold seg_break
    rw [if_neg hbs]
  generalize hv : min (min (x / (primes.getD b 0 * low)) y) (z / primes.getD b 0) = v
    at hbreak_iff
  have hvy : v ≤ y := by
    rw [← hv]
    exact le_trans (min_le_left _ _) (min_le_right _ _)
  have hvx : v ≤ x / (primes.getD b 0 * low) := by
    rw [← hv]
    exact le_trans (min_le_left _ _) (min_le_left _ _)
  have hl : pi.getD v 0 = Nat.primeCounting v := pi_tbl pi y v hpi hy hvy
  rw [hl] at hbreak_iff
  by_cases hbr : primes.getD b 0 ≥ primes.getD (Nat.primeCounting v) 0
  · refine ⟨w, true, ?_, fun _ => ⟨rfl, hbreak_iff.mpr hbr⟩, fun h => by cases h⟩
    unfold hard_b
    simp only []
    rw [hv, hl, if_pos hbr]
  · have hnb : ¬ seg_break x y z pi primes b low := fun h => hbr (hbreak_iff.mp h)
    have hal : seg_alive x y z c pi primes b low := by
      have := seg_alive_succ x y z c pi primes (b - 1) low halive
        (by rw [show b - 1 + 1 = b by omega]; exact hnb)
      rw [show b - 1 + 1 = b by omega] at this
      exact this
    have hal_t := seg_alive_mono x y z c pi primes b low_t low hpi hy hpr hbN hlt1 hlt hal
    generalize hmhl : max (max (min (x / (primes.getD b 0 * high)) y) (y / primes.getD b 0))
      (primes.getD b 0) = mhl
    have hls : ∀ l2, l2 ≤ Nat.primeCounting v → mhl < primes.getD l2 0 →
        primes.getD b 0 * primes.getD l2 0 ≠ 0
          ∧ low ≤ x / (primes.getD b 0 * primes.getD l2 0)
          ∧ x / (primes.getD b 0 * primes.getD l2 0) < high := by
      intro l2 hl2 hgt
      have hle : primes.getD l2 0 ≤ v :=
        tbl_le_of_le_pi primes _ l2 v hpr hl2 (Nat.monotone_primeCounting hvy)
      apply leaf_range x _ _ low high (by omega) (by omega) (by omega) (by omega)
      · omega
      · have h4 : min (x / (primes.getD b 0 * high)) y < primes.getD l2 0 := by
          rw [← hmhl] at hgt
          exact lt_of_le_of_lt (le_trans (le_max_left _ _) (le_max_left _ _)) hgt
        rcases min_lt_iff.mp h4 with h5 | h5
        · exact h5
        · omega
    obtain ⟨w1, e1, hinv1⟩ := hard_leaves_spec x y z c pi primes S pi_max low_t low high b mhl
      hb hbm hal hal_t hlt hhS hpr.2.1 _ w hinv hls
    obtain ⟨w2, e2, hinv2⟩ := finish_b_spec x y z c pi primes _ S pi_max low_t low high b w1 hpr
      hinv1 hb hbm hbN hal (by omega) hlt hlh
    refine ⟨w2, false, ?_, (fun h => by cases h), fun _ => ⟨hnb, hinv2⟩⟩
    unfold hard_b
    simp only []
    rw [hv, hl, hmhl, if_neg hbr, e1]
    simp only []
    rw [e2]

/-- A loop over the indices `i + 1, ..., i + n` whose body either leaves the segment or
takes the sieve one level up. -/
theorem run_bs_spec (x y z c : Nat) (pi primes : List Nat) (S pi_max low_t low high lo hi : Nat)
    (body : Nat → S2Worker → Option (S2Worker × Bool))
    (hbody : ∀ b w, lo < b → b ≤ hi → seg_alive x y z c pi primes (b - 1) low →
      mid_inv x y z c pi primes S pi_max low_t low high (b - 1) w →
      ∃ w2 flag, body b w = some (w2, flag)
        ∧ (flag = true → w2 = w ∧ seg_break x y z pi primes b low)
        ∧ (flag = false → ¬ seg_break x y z pi primes b low
            ∧ mid_inv x y z c pi primes S pi_max low_t low high b w2)) :
    ∀ (n i : Nat) (w : S2Worker), lo ≤ i → i + n ≤ hi → seg_alive x y z c pi primes i low →
      mid_inv x y z c pi primes S pi_max low_t low high i w →
      ∃ w2 flag i2, run_bs body (List.range' (i + 1) n) w = some (w2, flag) ∧ i ≤ i2
        ∧ i2 ≤ i + n ∧ seg_alive x y z c pi primes i2 low
        ∧ mid_inv x y z c pi primes S pi_max low_t low high i2 w2
        ∧ (flag = true → seg_break x y z pi primes (i2 + 1) low)
        ∧ (flag = false → i2 = i + n) := by
  intro n
  induction n with
  | zero =>
    intro i w _ _ hal hinv
    exact ⟨w, false, i, rfl, le_refl _, le_refl _, hal, hinv, (fun h => by cases h), fun _ => rfl⟩
  | succ n ih =>
    intro i w hlo hhi hal hinv
    obtain ⟨w1, flag, e, h1, h2⟩ := hbody (i + 1) w (by omega) (by omega)
      (by rw [Nat.add_sub_cancel]; exact hal) (by rw [Nat.add_sub_cancel]; exact hinv)
    cases flag with
    | true =>
      obtain ⟨hw, hbr⟩ := h1 rfl
      subst hw
      refine ⟨w1, true, i, ?_, le_refl _, by omega, hal, hinv, fun _ => hbr,
        fun h => by cases h⟩
      simp only [List.range'_succ, run_bs, e]
    | false =>
      obtain ⟨hnb, hinv1⟩ := h2 rfl
      obtain ⟨w2, flag2, i2, e2, g1, g2, g3, g4, g5, g6⟩ := ih (i + 1) w1 (by omega) (by omega)
        (seg_alive_succ x y z c pi primes i low hal hnb) hinv1
      refine ⟨w2, flag2, i2, ?_, by omega, by omega, g3, g4, g5, fun h => by
        have := g6 h; omega⟩
      simp only [List.range'_succ, run_bs, e]
      exact e2

/-- At the end of a segment the worker is ready for a segment that starts at `high`. -/
theorem mid_to_worker (x y z c : Nat) (pi primes : List Nat) (S pi_max low_t low high i : Nat)
    (w : S2Worker) (hy : y < pi.length) (hpi : pi_ok pi)
    (hpr : primes_ok primes (Nat.primeCounting y)) (hpm : pi_max ≤ Nat.primeCounting y)
    (hlow : 1 ≤ low) (hlh : low ≤ high)
    (hinv : mid_inv x y z c pi primes S pi_max low_t low high i w)
    (hdead : ∀ b, i < b → b ≤ pi_max → ¬ seg_alive x y z c pi primes b low) :
    worker_inv x y z c pi primes S pi_max low_t high w := by
  obtain ⟨hS, hcs, hnl, hpl, hsieve, hdone, hpend, hsmall, hacct⟩ := hinv
  refine ⟨hS, hnl, hpl, ?_, fun _ => hsmall, hacct⟩
  intro b h1 h2 hal
  have hal2 := seg_alive_mono x y z c pi primes b low high hpi hy hpr (by omega) hlow hlh hal
  have hbi : b ≤ i := by
    by_contra hc
    exact hdead b (by omega) h2 hal2
  exact hdone b h1 hbi

/-- One segment: the worker that is ready for the segment `[low, high)` is ready for a
segment that starts at `high` afterwards. -/
theorem process_segment_spec (x y z c : Nat) (pi primes : List Nat) (factors : FactorTable)
    (S pi_max low_t low high : Nat) (w : S2Worker)
    (htab : s2_tables_ok y pi primes factors) (hpm : pi_max ≤ Nat.primeCounting y)
    (hlt1 : 1 ≤ low_t) (hlt : low_t ≤ low) (hlh : low < high) (hhS : high ≤ low + S)
    (hinv : worker_inv x y z c pi primes S pi_max low_t low w) :
    ∃ w2, process_segment x y z c factors pi primes (pi.getD (Nat.sqrt y) 0) pi_max low high w
        = some w2
      ∧ worker_inv x y z c pi primes S pi_max low_t high w2 := by
  have htab2 := htab
  obtain ⟨hy, hpi, hpr, hfac⟩ := htab
  obtain ⟨hS, hnl, hpl, hb, hsmall, hacct⟩ := hinv
  by_cases hcm : c ≤ pi_max
  · -- the sieve is filled and the small primes are crossed off
    obtain ⟨hfl, hfs⟩ := sieve_fill_spec w.sieve.length low (by omega)
    have hsm : ∃ sieve2 next2,
        small_primes primes low high (List.range' 2 (c - 1)) (sieve_fill w.sieve.length low)
            w.next = some (sieve2, next2)
          ∧ sieve2.length = w.sieve.length ∧ next2.length = w.next.length
          ∧ (∀ j, c + 1 ≤ j → next2.getD j 0 = w.next.getD j 0)
          ∧ (∀ j, 2 ≤ j → j ≤ c → next_ok (primes.getD j 0) high (next2.getD j 0))
          ∧ ∀ k, low + k < high →
              (sieve2.getD k false = true ↔ is_rough (sieve_level c) (low + k)) := by
      by_cases hc2 : 2 ≤ c
      · obtain ⟨sieve2, next2, e1, hl2, hnl2, hfr, hn2, hs2⟩ :=
          small_primes_spec primes _ low high hpr (by omega) (by omega) (c - 1) 2
            (sieve_fill w.sieve.length low) w.next (le_refl _) (by omega) (by omega)
            (fun j h1 h2 => hsmall hcm j h1 (by omega))
            (fun k hk => hfs k (by omega))
        have hlev : 2 + (c - 1) - 1 = sieve_level c := by unfold sieve_level; omega
        rw [hlev] at hs2
        exact ⟨sieve2, next2, e1, by rw [hl2, hfl], hnl2, fun j hj => hfr j (by omega),
          fun j h1 h2 => hn2 j h1 (by omega), hs2⟩
      · have h0 : c - 1 = 0 := by omega
        have hlev : sieve_level c = 1 := by unfold sieve_level; omega
        rw [h0, hlev]
        exact ⟨_, _, rfl, hfl, rfl, fun _ _ => rfl, fun j h1 h2 => by omega,
          fun k hk => hfs k (by omega)⟩
    obtain ⟨sieve2, next2, e1, hl2, hnl2, hfr, hn2, hs2⟩ := hsm
    have hinv1 : mid_inv x y z c pi primes S pi_max low_t low high c
        { w with sieve := sieve2, counters := sieve2, next := next2 } := by
      refine ⟨by show sieve2.length = S; rw [hl2, hS], rfl,
        by show next2.length = _; rw [hnl2, hnl], hpl, hs2, fun b h1 h2 => by omega, ?_, ?_,
        hacct⟩
      · intro b h1 h2 h3
        show next_ok _ low (next2.getD b 0) ∧ _
        rw [hfr b (by omega)]
        exact hb b (by omega) h2 h3
      · intro j h1 h2
        exact hn2 j h1 h2
    -- the loop of the easy leaves
    obtain ⟨w2, flag, i2, e2, g1, g2, g3, g4, g5, g6⟩ :=
      run_bs_spec x y z c pi primes S pi_max low_t low high c
        (max c (min (pi.getD (Nat.sqrt y) 0) pi_max))
        (easy_b x y factors primes low high)
        (fun b w0 h1 h2 h3 h4 => easy_b_spec x y z c pi primes factors S pi_max low_t low high b
          w0 htab2 h4 (by omega) (by omega) (by omega) hpm h3 hlt1 hlt hlh hhS)
        (min (pi.getD (Nat.sqrt y) 0) pi_max + 1 - (c + 1)) c _ (le_refl _) (by omega)
        (seg_alive_base x y z c pi primes low) hinv1
    cases flag with
    | true =>
      refine ⟨w2, ?_, ?_⟩
      · unfold process_segment
        simp only []
        rw [if_pos hcm, show c + 1 - 2 = c - 1 by omega, e1]
        simp only []
        rw [e2]
      apply mid_to_worker x y z c pi primes S pi_max low_t low high i2 w2 hy hpi hpr hpm
        (by omega) (by omega) g4
      intro b h1 h2 hal
      exact hal (i2 + 1) (by omega) (by omega) (g5 rfl)
    | false =>
      have hi2 := g6 rfl
      have hb2 : max (c + 1) (min (pi.getD (Nat.sqrt y) 0) pi_max + 1) = i2 + 1 := by omega
      obtain ⟨w3, flag3, i3, e3, k1, k2, k3, k4, k5, k6⟩ :=
        run_bs_spec x y z c pi primes S pi_max low_t low high i2 pi_max
          (hard_b x y z pi primes low high)
          (fun b w0 h1 h2 h3 h4 => hard_b_spec x y z c pi primes factors S pi_max low_t low high
            b w0 htab2 h4 (by omega) (by omega) (by omega) hpm h3 hlt1 hlt hlh hhS)
          (pi_max + 1 - (i2 + 1)) i2 w2 (le_refl _) (by omega) g3 g4
      refine ⟨w3, ?_, ?_⟩
      · unfold process_segment
        simp only []
        rw [if_pos hcm, show c + 1 - 2 = c - 1 by omega, e1]
        simp only []
        rw [e2]
        simp only []
        rw [hb2, e3]
      apply mid_to_worker x y z c pi primes S pi_max low_t low high i3 w3 hy hpi hpr hpm
        (by omega) (by omega) k4
      intro b h1 h2 hal
      cases flag3 with
      | true => exact hal (i3 + 1) (by omega) (by omega) (k5 rfl)
      | false =>
        have := k6 rfl
        omega
  · -- nothing is done
    refine ⟨w, ?_, hS, hnl, hpl, fun b h1 h2 => by omega, fun h => by omega, hacct⟩
    unfold process_segment
    simp only []
    rw [if_neg hcm]
    have h1 : min (pi.getD (Nat.sqrt y) 0) pi_max + 1 - (c + 1) = 0 := by omega
    have h2 : pi_max + 1 - max (c + 1) (min (pi.getD (Nat.sqrt y) 0) pi_max + 1) = 0 := by omega
    rw [h1, h2]
    rfl

theorem segment_loop_done (x y z c : Nat) (factors : FactorTable) (pi primes : List Nat)
    (pi_sqrty pi_max S limit fuel low : Nat) (w : S2Worker) (h : limit ≤ low) :
    segment_loop x y z c factors pi primes pi_sqrty pi_max S limit fuel low w = some w := by
  cases fuel with
  | zero => simp only [segment_loop]; rw [if_neg (by omega)]
  | succ fuel => simp only [segment_loop]; rw [if_neg (by omega)]

/-- The loop over the segments of a worker: it ends, and the worker is then ready for a
segment that starts at `limit`. -/
theorem segment_loop_spec (x y z c : Nat) (pi primes : List Nat) (factors : FactorTable)
    (S pi_max low_t limit : Nat)
    (htab : s2_tables_ok y pi primes factors) (hpm : pi_max ≤ Nat.primeCounting y)
    (hlt1 : 1 ≤ low_t) (hS : 1 ≤ S) :
    ∀ (fuel low : Nat) (w : S2Worker), low_t ≤ low → limit ≤ low + S * fuel →
      worker_inv x y z c pi primes S pi_max low_t (min low limit) w →
      ∃ w2, segment_loop x y z c factors pi primes (pi.getD (Nat.sqrt y) 0) pi_max S limit fuel
          low w = some w2
        ∧ worker_inv x y z c pi primes S pi_max low_t limit w2 := by
  intro fuel
  induction fuel with
  | zero =>
    intro low w _ hf hinv
    rw [segment_loop_done _ _ _ _ _ _ _ _ _ _ _ _ _ _ (by omega)]
    rw [min_eq_right (by omega)] at hinv
    exact ⟨w, rfl, hinv⟩
  | succ fuel ih =>
    intro low w hlt hf hinv
    by_cases hl : low < limit
    · rw [min_eq_left (by omega)] at hinv
      obtain ⟨w1, e1, hinv1⟩ := process_segment_spec x y z c pi primes factors S pi_max low_t low
        (min (low + S) limit) w htab hpm hlt1 hlt (by omega) (by omega) hinv
      have hf2 : limit ≤ low + S + S * fuel := by
        have : S * (fuel + 1) = S * fuel + S := Nat.mul_succ S fuel
        omega
      obtain ⟨w2, e2, hinv2⟩ := ih (low + S) w1 (by omega) hf2 hinv1
      refine ⟨w2, ?_, hinv2⟩
      simp only [segment_loop]
      rw [if_pos hl, e1]
      exact e2
    · rw [segment_loop_done _ _ _ _ _ _ _ _ _ _ _ _ _ _ (by omega)]
      rw [min_eq_right (by omega)] at hinv
      exact ⟨w, rfl, hinv⟩

theorem getD_replicate_int (n j : Nat) : (List.replicate n (0 : Int)).getD j 0 = 0 := by
  rw [List.getD_eq_getElem?_getD, List.getElem?_replicate]
  split_ifs <;> rfl

theorem rough_count_empty (i lo hi : Nat) (h : hi ≤ lo) : rough_count i lo hi = 0 := by
  unfold rough_count
  rw [Finset.Ico_eq_empty (by omega)]
  rfl

theorem pi_max_at_le (x y z : Nat) (pi : List Nat) (low : Nat) (hpi : pi_ok pi)
    (hy : y < pi.length) : pi_max_at x y z pi low ≤ Nat.primeCounting y := by
  unfold pi_max_at
  have hv : min (min (Nat.sqrt (x / low)) y) (Nat.sqrt z) ≤ y :=
    le_trans (min_le_left _ _) (min_le_right _ _)
  rw [pi_tbl pi y _ hpi hy hv]
  exact Nat.monotone_primeCounting hv

/-- A worker: it ends, its sums are those of its log, and `phi[b]` counts the numbers of
its range not divisible by the first `b - 1` primes for every index `b` that no segment of
its range leaves. -/
theorem S2_sieve_thread_spec (x y z c S K t low0 limit : Nat) (factors : FactorTable)
    (pi primes : List Nat) (low_t limit_t pi_max : Nat)
    (htab : s2_tables_ok y pi primes factors) (hlow0 : 1 ≤ low0) (hS : 1 ≤ S)
    (hlowt : low_t = low0 + S * K * t) (hlimt : limit_t = min (low_t + S * K) limit)
    (hpmax : pi_max = pi_max_at x y z pi low_t) :
    ∃ w, S2_sieve_thread x y z c S K t low0 limit factors pi primes = some w
      ∧ w.phi.length = pi_max + 1
      ∧ acct_ok x y z c pi primes pi_max low_t w
      ∧ (∀ b, c + 1 ≤ b → b ≤ pi_max → seg_alive x y z c pi primes b limit_t →
          w.phi.getD b 0 = (rough_count (sieve_level (b - 1)) low_t limit_t : Int))
      ∧ (limit_t ≤ low_t → w.leaves = []) := by
  have htab2 := htab
  obtain ⟨hy, hpi, hpr, hfac⟩ := htab
  have hpm : pi_max ≤ Nat.primeCounting y := by
    rw [hpmax]; exact pi_max_at_le x y z pi low_t hpi hy
  have hdef : S2_sieve_thread x y z c S K t low0 limit factors pi primes
      = segment_loop x y z c factors pi primes (pi.getD (Nat.sqrt y) 0) pi_max S limit_t K low_t
          { s2 := 0, sieve := List.replicate S true, counters := List.replicate S false,
            next := generate_next_multiples low_t (pi_max + 1) primes,
            phi := List.replicate (pi_max + 1) 0, mu_sum := List.replicate (pi_max + 1) 0,
            leaves := [] } := by
    unfold S2_sieve_thread
    simp only [isqrt_eq]
    rw [hlimt, hpmax, hlowt]
    rfl
  have hacct0 : acct_ok x y z c pi primes pi_max low_t
      { s2 := 0, sieve := List.replicate S true, counters := List.replicate S false,
        next := generate_next_multiples low_t (pi_max + 1) primes,
        phi := List.replicate (pi_max + 1) 0, mu_sum := List.replicate (pi_max + 1) 0,
        leaves := [] } := by
    refine ⟨rfl, by simp, ?_, fun e he => by cases he⟩
    intro j
    show (List.replicate (pi_max + 1) (0 : Int)).getD j 0 = leaf_mu_sum [] j
    rw [getD_replicate_int]
    rfl
  rw [hdef]
  by_cases hl : low_t < limit_t
  · have hinv0 : worker_inv x y z c pi primes S pi_max low_t (min low_t limit_t)
        { s2 := 0, sieve := List.replicate S true, counters := List.replicate S false,
          next := generate_next_multiples low_t (pi_max + 1) primes,
          phi := List.replicate (pi_max + 1) 0, mu_sum := List.replicate (pi_max + 1) 0,
          leaves := [] } := by
      rw [min_eq_left (by omega)]
      refine ⟨by simp, generate_next_multiples_length _ _ _ (by omega), by simp, ?_, ?_, hacct0⟩
      · intro b h1 h2 _
        refine ⟨generate_next_multiples_ok low_t (pi_max + 1) primes b (by omega) (by omega)
          (le_trans (by omega) (tbl_prime primes _ b hpr (by omega) (by omega)).two_le), ?_⟩
        show (List.replicate (pi_max + 1) (0 : Int)).getD b 0 = _
        rw [getD_replicate_int, rough_count_self]
        rfl
      · intro _ j h1 h2
        exact generate_next_multiples_ok low_t (pi_max + 1) primes j (by omega) (by omega)
          (le_trans (by omega) (tbl_prime primes _ j hpr (by omega) (by omega)).two_le)
    obtain ⟨w, e, hinv⟩ := segment_loop_spec x y z c pi primes factors S pi_max low_t limit_t htab2
      hpm (by omega) hS K low_t _ (le_refl _) (by omega) hinv0
    obtain ⟨_, _, hpl, hb, _, hacct⟩ := hinv
    exact ⟨w, e, hpl, hacct, fun b h1 h2 h3 => (hb b h1 h2 h3).2, fun h => by omega⟩
  · rw [segment_loop_done _ _ _ _ _ _ _ _ _ _ _ _ _ _ (by omega)]
    refine ⟨_, rfl, by simp, hacct0, ?_, fun _ => rfl⟩
    intro b _ _ _
    show (List.replicate (pi_max + 1) (0 : Int)).getD b 0 = _
    rw [getD_replicate_int, rough_count_empty _ _ _ (by omega)]
    rfl

/-- The carry-over loop over the indices `i, ..., i + n - 1`. -/
theorem carry_over_spec (mu_sum phi : List Int) :
    ∀ (n i : Nat) (s2 : Int) (pt : List Int), i + n ≤ pt.length →
      (carry_over mu_sum phi (List.range' i n) s2 pt).1
          = s2 + ((List.range' i n).map (fun j => pt.getD j 0 * mu_sum.getD j 0)).sum
        ∧ (carry_over mu_sum phi (List.range' i n) s2 pt).2.length = pt.length
        ∧ ∀ j, (carry_over mu_sum phi (List.range' i n) s2 pt).2.getD j 0
            = if i ≤ j ∧ j < i + n then pt.getD j 0 + phi.getD j 0 else pt.getD j 0 := by
  intro n
  induction n with
  | zero =>
    intro i s2 pt _
    refine ⟨by simp [carry_over], rfl, fun j => ?_⟩
    rw [if_neg (by omega)]
    rfl
  | succ n ih =>
    intro i s2 pt hlen
    simp only [List.range'_succ, carry_over]
    obtain ⟨h1, h2, h3⟩ := ih (i + 1) (s2 + pt.getD i 0 * mu_sum.getD i 0)
      (pt.set i (pt.getD i 0 + phi.getD i 0)) (by rw [List.length_set]; omega)
    refine ⟨?_, by rw [h2, List.length_set], ?_⟩
    · rw [h1, List.map_cons, List.sum_cons, ← add_assoc]
      congr 1
      congr 1
      apply List.map_congr_left
      intro j hj
      rw [List.mem_range'_1] at hj
      rw [getD_set_int, if_neg (by omega)]
    · intro j
      rw [h3 j, getD_set_int]
      by_cases hji : j = i
      · subst hji
        rw [if_neg (by omega), if_pos ⟨rfl, by omega⟩, if_pos ⟨le_refl _, by omega⟩]
      · by_cases hc : i + 1 ≤ j ∧ j < i + 1 + n
        · rw [if_pos hc, if_neg (by tauto), if_pos (by omega)]
        · rw [if_neg hc, if_neg (by tauto), if_neg (by omega)]

theorem sum_range_indicator (f : Nat → Int) (a : Nat) :
    ∀ (n i : Nat), ((List.range' i n).map (fun j => if a = j then f j else 0)).sum
      = if i ≤ a ∧ a < i + n then f a else 0 := by
  intro n
  induction n with
  | zero => intro i; rw [if_neg (by omega)]; rfl
  | succ n ih =>
    intro i
    rw [List.range'_succ, List.map_cons, List.sum_cons, ih (i + 1)]
    by_cases hai : a = i
    · subst hai
      rw [if_pos rfl, if_neg (by omega), if_pos (by omega)]
      ring
    · rw [if_neg hai]
      by_cases hc : i + 1 ≤ a ∧ a < i + 1 + n
      · rw [if_pos hc, if_pos (by omega)]; ring
      · rw [if_neg hc, if_neg (by omega)]; ring

theorem leaf_mu_sum_cons (e : Leaf) (l : List Leaf) (j : Nat) :
    leaf_mu_sum (e :: l) j = (if e.b = j then -e.mu else 0) + leaf_mu_sum l j := by
  unfold leaf_mu_sum
  by_cases h : e.b = j
  · simp [List.filter_cons, h]
  · simp [List.filter_cons, h]

/-- The sum over the indices of `phi_total[j] * mu_sum[j]` is the sum over the leaves of
`-mu * phi_total[b]`. -/
theorem mu_sum_weighted (pt : List Int) (n : Nat) :
    ∀ (leaves : List Leaf), (∀ e ∈ leaves, 1 ≤ e.b ∧ e.b ≤ n) →
      ((List.range' 1 n).map (fun j => pt.getD j 0 * leaf_mu_sum leaves j)).sum
        = (leaves.map (fun e => -e.mu * pt.getD e.b 0)).sum := by
  intro leaves
  induction leaves with
  | nil =>
    intro _
    have : (fun j => pt.getD j 0 * leaf_mu_sum [] j) = fun _ => (0 : Int) := by
      funext j
      show pt.getD j 0 * 0 = 0
      ring
    rw [this]
    simp
  | cons e rest ih =>
    intro h
    have hfun : (fun j => pt.getD j 0 * leaf_mu_sum (e :: rest) j)
        = fun j => (if e.b = j then (fun j => pt.getD j 0 * -e.mu) j else 0)
            + pt.getD j 0 * leaf_mu_sum rest j := by
      funext j
      rw [leaf_mu_sum_cons]
      split_ifs <;> ring
    rw [hfun, List.sum_map_add, sum_range_indicator, ih (fun e2 he2 => h e2 (List.mem_cons_of_mem _ he2)),
      List.map_cons, List.sum_cons]
    obtain ⟨h1, h2⟩ := h e (List.mem_cons_self _ _)
    rw [if_pos (by omega)]
    ring

theorem leaf_sum_append_list (l1 l2 : List Leaf) :
    leaf_sum (l1 ++ l2) = leaf_sum l1 + leaf_sum l2 := by
  unfold leaf_sum
  simp

theorem leaf_sum_adjust (pt : List Int) (l : List Leaf) :
    leaf_sum (l.map (fun e => { e with value := pt.getD e.b 0 + e.value }))
      = (l.map (fun e => -e.mu * pt.getD e.b 0)).sum + leaf_sum l := by
  unfold leaf_sum
  induction l with
  | nil => simp
  | cons e rest ih =>
    simp only [List.map_cons, List.sum_cons] at ih ⊢
    rw [ih]
    ring

theorem pi_max_at_anti (x y z : Nat) (pi : List Nat) (low low2 : Nat) (hpi : pi_ok pi)
    (hy : y < pi.length) (hlow : 1 ≤ low) (hll : low ≤ low2) :
    pi_max_at x y z pi low2 ≤ pi_max_at x y z pi low := by
  unfold pi_max_at
  have hv : min (min (Nat.sqrt (x / low)) y) (Nat.sqrt z) ≤ y :=
    le_trans (min_le_left _ _) (min_le_right _ _)
  have hv2 : min (min (Nat.sqrt (x / low2)) y) (Nat.sqrt z) ≤ y :=
    le_trans (min_le_left _ _) (min_le_right _ _)
  rw [pi_tbl pi y _ hpi hy hv, pi_tbl pi y _ hpi hy hv2]
  apply Nat.monotone_primeCounting
  exact min_le_min (min_le_min (Nat.sqrt_le_sqrt (Nat.div_le_div_left hll (by omega)))
    (le_refl _)) (le_refl _)

theorem pi_max_at_le_total (x y z : Nat) (pi : List Nat) (low : Nat) (hpi : pi_ok pi)
    (hy : y < pi.length) : pi_max_at x y z pi low ≤ pi.getD (min (Nat.sqrt z) y) 0 := by
  unfold pi_max_at
  have hv : min (min (Nat.sqrt (x / low)) y) (Nat.sqrt z) ≤ y :=
    le_trans (min_le_left _ _) (min_le_right _ _)
  rw [pi_tbl pi y _ hpi hy hv, pi_tbl pi y _ hpi hy (min_le_right _ _)]
  apply Nat.monotone_primeCounting
  exact le_min (min_le_right _ _) (le_trans (min_le_left _ _) (min_le_right _ _))

/-- The reduction and the carry-over of one worker keep the state of the outer loop. -/
theorem carry_step (x y z c : Nat) (pi primes : List Nat) (factors : FactorTable)
    (limit low_t limit_t pos2 pi_max : Nat) (st : S2State) (w : S2Worker)
    (htab : s2_tables_ok y pi primes factors)
    (hlt1 : 1 ≤ low_t) (hlim1 : 1 ≤ limit) (hlimt : limit_t = min pos2 limit)
    (hpos : low_t ≤ pos2) (hpmax : pi_max = pi_max_at x y z pi low_t)
    (hinv : orch_inv x y z c pi primes limit low_t st)
    (hpl : w.phi.length = pi_max + 1) (hacct : acct_ok x y z c pi primes pi_max low_t w)
    (hphi : ∀ b, c + 1 ≤ b → b ≤ pi_max → seg_alive x y z c pi primes b limit_t →
      w.phi.getD b 0 = (rough_count (sieve_level (b - 1)) low_t limit_t : Int))
    (hempty : limit_t ≤ low_t → w.leaves = []) :
    orch_inv x y z c pi primes limit pos2
      { s2 := (carry_over w.mu_sum w.phi (List.range' 1 (w.phi.length - 1)) (st.s2 + w.s2)
          st.phi_total).1,
        phi_total := (carry_over w.mu_sum w.phi (List.range' 1 (w.phi.length - 1))
          (st.s2 + w.s2) st.phi_total).2,
        leaves := st.leaves ++ w.leaves.map (fun e =>
          { e with value := st.phi_total.getD e.b 0 + e.value }) } := by
  obtain ⟨hy, hpi, hpr, hfac⟩ := htab
  obtain ⟨hlen, hpt, hs2, hvals⟩ := hinv
  obtain ⟨ws2, wml, wmu, wleaves⟩ := hacct
  have hpm : pi_max ≤ Nat.primeCounting y := by
    rw [hpmax]; exact pi_max_at_le x y z pi low_t hpi hy
  have hpmt : pi_max + 1 ≤ st.phi_total.length := by
    rw [hlen, hpmax]
    have := pi_max_at_le_total x y z pi low_t hpi hy
    omega
  have hn : w.phi.length - 1 = pi_max := by omega
  rw [hn]
  obtain ⟨c1, c2, c3⟩ := carry_over_spec w.mu_sum w.phi pi_max 1 (st.s2 + w.s2) st.phi_total
    (by omega)
  refine ⟨by rw [c2, hlen], ?_, ?_, ?_⟩
  · intro b h1 h2 h3
    show (carry_over w.mu_sum w.phi (List.range' 1 pi_max) (st.s2 + w.s2) st.phi_total).2.getD b 0
      = _
    have hb_max : b ≤ pi_max := by
      rw [hpmax]
      exact le_trans h2 (pi_max_at_anti x y z pi low_t pos2 hpi hy hlt1 hpos)
    have hbN : b ≤ Nat.primeCounting y := by omega
    have hal_t := seg_alive_mono x y z c pi primes b low_t pos2 hpi hy hpr hbN hlt1 hpos h3
    have hal_l : seg_alive x y z c pi primes b limit_t :=
      seg_alive_mono x y z c pi primes b limit_t pos2 hpi hy hpr hbN (by omega) (by omega) h3
    rw [c3 b, if_pos (by omega), hpt b h1 (by rw [← hpmax]; exact hb_max) hal_t,
      hphi b h1 hb_max hal_l]
    by_cases hcase : low_t ≤ limit
    · rw [min_eq_left hcase, ← hlimt,
        ← rough_count_add (sieve_level (b - 1)) 1 low_t limit_t hlt1 (by omega)]
      push_cast
      rfl
    · rw [min_eq_right (by omega), ← hlimt, rough_count_empty (sieve_level (b - 1)) low_t limit_t (by omega),
        show limit_t = limit by omega]
      simp
  · show (carry_over w.mu_sum w.phi (List.range' 1 pi_max) (st.s2 + w.s2) st.phi_total).1
      = leaf_sum (st.leaves ++ _)
    rw [c1, leaf_sum_append_list, leaf_sum_adjust, hs2, ws2]
    have hfun : (fun j => st.phi_total.getD j 0 * w.mu_sum.getD j 0)
        = fun j => st.phi_total.getD j 0 * leaf_mu_sum w.leaves j := by
      funext j
      rw [wmu j]
    rw [hfun, mu_sum_weighted st.phi_total pi_max w.leaves
      (fun e he => ⟨by have := (wleaves e he).1; omega, (wleaves e he).2.1⟩)]
    ring
  · intro e he
    rcases List.mem_append.mp he with he | he
    · exact hvals e he
    · rw [List.mem_map] at he
      obtain ⟨e0, he0, rfl⟩ := he
      obtain ⟨g1, g2, g3, g4, g5⟩ := wleaves e0 he0
      have hne : ¬ limit_t ≤ low_t := by
        intro hle
        rw [hempty hle] at he0
        cases he0
      refine ⟨g1, ?_⟩
      show st.phi_total.getD e0.b 0 + e0.value
        = (phi_spec e0.xn (sieve_level (e0.b - 1)) : Int)
      rw [hpt e0.b g1 (by rw [← hpmax]; exact g2) g3, g5, min_eq_left (by omega),
        phi_spec_eq_rough_count,
        ← rough_count_add (sieve_level (e0.b - 1)) 1 low_t (e0.xn + 1) hlt1 (by omega)]
      push_cast
      rfl

/-- The workers `t, ..., t + n - 1` of one pass of the outer loop. -/
theorem run_threads_spec (x y z c S K low0 limit : Nat) (factors : FactorTable)
    (pi primes : List Nat) (htab : s2_tables_ok y pi primes factors) (hlow0 : 1 ≤ low0)
    (hS : 1 ≤ S) (hlim1 : 1 ≤ limit) :
    ∀ (n t : Nat) (st : S2State), orch_inv x y z c pi primes limit (low0 + S * K * t) st →
      ∃ st2, run_threads x y z c S K low0 limit factors pi primes (List.range' t n) st
          = some st2
        ∧ orch_inv x y z c pi primes limit (low0 + S * K * (t + n)) st2 := by
  intro n
  induction n with
  | zero => intro t st h; exact ⟨st, rfl, h⟩
  | succ n ih =>
    intro t st hinv
    obtain ⟨w, e, hpl, hacct, hphi, hempty⟩ :=
      S2_sieve_thread_spec x y z c S K t low0 limit factors pi primes (low0 + S * K * t)
        (min (low0 + S * K * t + S * K) limit) (pi_max_at x y z pi (low0 + S * K * t)) htab
        hlow0 hS rfl rfl rfl
    have hstep := carry_step x y z c pi primes factors limit (low0 + S * K * t)
      (min (low0 + S * K * t + S * K) limit) (low0 + S * K * t + S * K)
      (pi_max_at x y z pi (low0 + S * K * t)) st w htab (by omega) hlim1 rfl (by omega) rfl
      hinv hpl hacct hphi hempty
    have hpos : low0 + S * K * t + S * K = low0 + S * K * (t + 1) := by ring
    rw [hpos] at hstep
    obtain ⟨st2, e2, hinv2⟩ := ih (t + 1) _ hstep
    have hfin : t + 1 + n = t + (n + 1) := by omega
    rw [hfin] at hinv2
    refine ⟨st2, ?_, hinv2⟩
    simp only [List.range'_succ, run_threads, e]
    rw [if_neg]
    · exact e2
    · obtain ⟨hy, hpi, _, _⟩ := htab
      have := pi_max_at_le_total x y z pi (low0 + S * K * t) hpi hy
      rw [hpl, hinv.1]
      omega

theorem in_between_ge (lo v hi : Nat) : lo ≤ in_between lo v hi := by
  unfold in_between
  split_ifs <;> omega

/-- The outer loop: it ends, the value is the sum over the log, and every value of the
log is the partial sieve function of its leaf. -/
theorem s2_loop_spec (x y z c limit : Nat) (factors : FactorTable) (pi primes : List Nat)
    (balance : Nat → Nat × Nat) (htab : s2_tables_ok y pi primes factors)
    (hbal : ∀ k, 1 ≤ (balance k).1) (hlim1 : 1 ≤ limit) :
    ∀ (fuel k low threads S K : Nat) (st : S2State), 1 ≤ low → 1 ≤ S → limit ≤ low + fuel →
      orch_inv x y z c pi primes limit low st →
      ∃ st2, s2_loop x y z c limit factors pi primes balance fuel k low threads S K st
          = some st2
        ∧ st2.s2 = leaf_sum st2.leaves
        ∧ ∀ e ∈ st2.leaves,
            c + 1 ≤ e.b ∧ e.value = (phi_spec e.xn (sieve_level (e.b - 1)) : Int) := by
  intro fuel
  induction fuel with
  | zero =>
    intro k low threads S K st _ _ hf hinv
    refine ⟨st, ?_, hinv.2.2.1, hinv.2.2.2⟩
    simp only [s2_loop]
    rw [if_neg (by omega)]
  | succ fuel ih =>
    intro k low threads S K st hlow hS hf hinv
    by_cases hl : low < limit
    · generalize hT : in_between 1 threads (ceil_div (limit - low) S) = T
      generalize hK : in_between 1 K (ceil_div (ceil_div (limit - low) S) T) = K2
      have hT1 : 1 ≤ T := by rw [← hT]; exact in_between_ge _ _ _
      have hK1 : 1 ≤ K2 := by rw [← hK]; exact in_between_ge _ _ _
      have hinv0 : orch_inv x y z c pi primes limit (low + S * K2 * 0) st := by
        rw [Nat.mul_zero, Nat.add_zero]; exact hinv
      obtain ⟨st1, e1, hinv1⟩ := run_threads_spec x y z c S K2 low limit factors pi primes htab
        hlow hS hlim1 T 0 st hinv0
      have hpos : low + S * K2 * (0 + T) = low + K2 * T * S := by ring
      rw [hpos] at hinv1
      have hadv : 1 ≤ K2 * T * S := Nat.mul_pos (Nat.mul_pos hK1 hT1) hS
      obtain ⟨st2, e2, h2⟩ := ih (k + 1) (low + K2 * T * S) T (balance k).1 (balance k).2 st1
        (by omega) (hbal k) (by omega) hinv1
      refine ⟨st2, ?_, h2⟩
      simp only [s2_loop]
      rw [if_pos hl, if_neg (by omega), hT, hK, List.range_eq_range', e1]
      exact e2
    · refine ⟨st, ?_, hinv.2.2.1, hinv.2.2.2⟩
      simp only [s2_loop]
      rw [if_neg hl]

/-- The function `S2_sieve` ends; its value is the sum over the leaves it evaluates, and
the value used for a leaf is the partial sieve function `phi(x / n, b - 1)` (for `b = 1`,
which needs `c = 0`, it is `phi(x / n, 1)`: a filled segment holds the odd numbers). -/
theorem S2_sieve_spec (x y z c : Nat) (pi primes : List Nat) (factors : FactorTable)
    (threads mss : Nat) (balance : Nat → Nat × Nat)
    (htab : s2_tables_ok y pi primes factors) (hmss : 1 ≤ mss)
    (hbal : ∀ k, 1 ≤ (balance k).1) :
    ∃ st, S2_sieve x y z c pi primes factors threads mss balance = some st
      ∧ st.s2 = leaf_sum st.leaves
      ∧ ∀ e ∈ st.leaves,
          c + 1 ≤ e.b ∧ e.value = (phi_spec e.xn (sieve_level (e.b - 1)) : Int) := by
  unfold S2_sieve
  simp only [isqrt_eq]
  apply s2_loop_spec x y z c (z + 1) factors pi primes balance htab hbal (by omega) (z + 1) 0 1
    threads mss 1 _ (le_refl _) hmss (by omega)
  refine ⟨by simp, ?_, rfl, fun e he => by cases he⟩
  intro b _ _ _
  show (List.replicate _ (0 : Int)).getD b 0 = _
  rw [getD_replicate_int, min_eq_left (by omega), rough_count_self]
  rfl

/-! ### The leaves that are evaluated -/

theorem spec_sum_append (l1 l2 : List Leaf) : spec_sum (l1 ++ l2) = spec_sum l1 + spec_sum l2 := by
  unfold spec_sum
  simp

theorem spec_sum_adjust (f : Leaf → Int) (l : List Leaf) :
    spec_sum (l.map (fun e => { e with value := f e })) = spec_sum l := by
  unfold spec_sum
  rw [List.map_map]
  rfl

theorem leaf_sum_eq_spec_sum (l : List Leaf)
    (h : ∀ e ∈ l, e.value = (phi_spec e.xn (sieve_level (e.b - 1)) : Int)) :
    leaf_sum l = spec_sum l := by
  unfold leaf_sum spec_sum
  congr 1
  apply List.map_congr_left
  intro e he
  show -e.mu * e.value = leaf_term e
  rw [h e he]
  rfl

theorem eval_leaf_sum (x low b n : Nat) (mu : Int) (w w2 : S2Worker)
    (h : eval_leaf x low b n mu w = some w2) :
    spec_sum w2.leaves
      = spec_sum w.leaves + -mu * (phi_spec (x / n) (sieve_level (b - 1)) : Int) := by
  unfold eval_leaf at h
  by_cases hn : n = 0
  · rw [if_pos hn] at h
    cases h
  · rw [if_neg hn] at h
    simp only [] at h
    by_cases h2 : x / n < low ∨ w.counters.length ≤ x / n - low
    · rw [if_pos h2] at h
      cases h
    · rw [if_neg h2] at h
      cases h
      show spec_sum (w.leaves ++ [_]) = _
      rw [spec_sum_append]
      unfold spec_sum
      simp [leaf_term]

theorem easy_leaves_sum (x low b prime : Nat) (factors : FactorTable) :
    ∀ (ms : List Nat) (w w2 : S2Worker), easy_leaves x low b prime factors ms w = some w2 →
      spec_sum w2.leaves
        = spec_sum w.leaves + (ms.map (fun m =>
            if prime < factors.lpf m then
              -factors.mu m
                * (phi_spec (x / (prime * factors.get_number m)) (sieve_level (b - 1)) : Int)
            else 0)).sum := by
  intro ms
  induction ms with
  | nil =>
    intro w w2 h
    simp only [easy_leaves] at h
    cases h
    simp
  | cons m rest ih =>
    intro w w2 h
    simp only [easy_leaves] at h
    by_cases hl : prime < factors.lpf m
    · rw [if_pos hl] at h
      cases h1 : eval_leaf x low b (prime * factors.get_number m) (factors.mu m) w with
      | none => rw [h1] at h; cases h
      | some w1 =>
        rw [h1] at h
        rw [ih w1 w2 h, eval_leaf_sum x low b _ _ w w1 h1, List.map_cons, List.sum_cons,
          if_pos hl]
        ring
    · rw [if_neg hl] at h
      rw [ih w w2 h, List.map_cons, List.sum_cons, if_neg hl]
      ring

theorem hard_leaves_sum (x low b prime mhl : Nat) (primes : List Nat) :
    ∀ (l : Nat) (w w2 : S2Worker),
      (∀ l1 l2, l1 ≤ l2 → l2 ≤ l → primes.getD l1 0 ≤ primes.getD l2 0) →
      hard_leaves x low b prime mhl primes l w = some w2 →
      spec_sum w2.leaves
        = spec_sum w.leaves + Finset.sum (Finset.range (l + 1)) (fun l2 =>
            if mhl < primes.getD l2 0 then
              -(-1 : Int)
                * (phi_spec (x / (prime * primes.getD l2 0)) (sieve_level (b - 1)) : Int)
            else 0) := by
  intro l
  induction l with
  | zero =>
    intro w w2 _ h
    simp only [hard_leaves] at h
    split_ifs at h with h1
    cases h
    rw [Finset.sum_range_one, if_neg (by omega)]
    ring
  | succ l ih =>
    intro w w2 hmono h
    simp only [hard_leaves] at h
    rw [Finset.sum_range_succ]
    by_cases hl : primes.getD (l + 1) 0 > mhl
    · rw [if_pos hl] at h
      cases h1 : eval_leaf x low b (prime * primes.getD (l + 1) 0) (-1) w with
      | none => rw [h1] at h; cases h
      | some w1 =>
        rw [h1] at h
        rw [ih w1 w2 (fun l1 l2 h1 h2 => hmono l1 l2 h1 (by omega)) h,
          eval_leaf_sum x low b _ _ w w1 h1, if_pos hl]
        ring
    · rw [if_neg hl] at h
      cases h
      rw [if_neg hl, Finset.sum_eq_zero]
      · ring
      · intro l2 hl2
        rw [Finset.mem_range] at hl2
        have := hmono l2 (l + 1) (by omega) (le_refl _)
        rw [if_neg (by omega)]

theorem finish_b_leaves (primes : List Nat) (low high b : Nat) (w w2 : S2Worker)
    (h : finish_b primes low high b w = some w2) : w2.leaves = w.leaves := by
  unfold finish_b at h
  simp only [] at h
  split at h
  · cases h
  · cases h
    rfl

theorem sum_range'_eq (f : Nat → Int) :
    ∀ (n s : Nat), ((List.range' s n).map f).sum = Finset.sum (Finset.Ico s (s + n)) f := by
  intro n
  induction n with
  | zero => intro s; simp
  | succ n ih =>
    intro s
    rw [List.range'_succ, List.map_cons, List.sum_cons, ih (s + 1),
      Finset.sum_eq_sum_Ico_succ_bot (by omega : s < s + (n + 1)),
      show s + 1 + n = s + (n + 1) by omega]

theorem quot_le_iff (x p q low : Nat) (hp : 1 ≤ p) (hq : 1 ≤ q) (hlow : 1 ≤ low) :
    q ≤ x / (p * low) ↔ low ≤ x / (p * q) := by
  rw [Nat.le_div_iff_mul_le (Nat.mul_pos (by omega) (by omega)),
    Nat.le_div_iff_mul_le (Nat.mul_pos (by omega) (by omega))]
  have : q * (p * low) = low * (p * q) := by ring
  rw [this]

theorem quot_lt_iff (x p q high : Nat) (hp : 1 ≤ p) (hq : 1 ≤ q) (hhigh : 1 ≤ high) :
    x / (p * high) < q ↔ x / (p * q) < high := by
  rw [Nat.div_lt_iff_lt_mul (Nat.mul_pos (by omega) (by omega)),
    Nat.div_lt_iff_lt_mul (Nat.mul_pos (by omega) (by omega))]
  have : q * (p * high) = high * (p * q) := by ring
  rw [this]

theorem idx_le_iff (factors : FactorTable) (h : factors_ok factors) (v m : Nat) (hv : 1 ≤ v) :
    m ≤ factors.to_index v ↔ factors.get_number m ≤ v := by
  obtain ⟨h1, h2⟩ := h.2.2 v hv
  constructor
  · intro hm
    exact le_trans (factors_mono factors h m _ hm) h1
  · intro hm
    by_contra hc
    have := factors_mono factors h (factors.to_index v + 1) m (by omega)
    omega

theorem num_ge_succ (factors : FactorTable) (h : factors_ok factors) :
    ∀ m, m + 1 ≤ factors.get_number m := by
  intro m
  induction m with
  | zero => exact h.2.1
  | succ m ih =>
    have := h.1 m (m + 1) (by omega)
    omega

/-- The sum over the table indices that the loop of the easy leaves runs through is the
sum over the easy leaves whose quotient lies in the segment. -/
theorem easy_list_sum (x y : Nat) (primes : List Nat) (factors : FactorTable)
    (b low high : Nat) (hfac : factors_ok factors) (hp : 2 ≤ primes.getD b 0)
    (hpp : primes.getD b 0 * primes.getD b 0 ≤ y) (hlow : 1 ≤ low) (hlh : low < high)
    (hnb : ¬ primes.getD b 0 ≥ min (x / (primes.getD b 0 * low)) y) :
    ((List.range'
        (factors.to_index (max (min (x / (primes.getD b 0 * high)) y) (y / primes.getD b 0)) + 1)
        (factors.to_index (min (x / (primes.getD b 0 * low)) y)
          - factors.to_index
              (max (min (x / (primes.getD b 0 * high)) y) (y / primes.getD b 0)))).reverse.map
        (fun m =>
          if primes.getD b 0 < factors.lpf m then
            -factors.mu m
              * (phi_spec (x / (primes.getD b 0 * factors.get_number m))
                  (sieve_level (b - 1)) : Int)
          else 0)).sum
      = easy_sum x y primes factors b low high := by
  generalize hmax : min (x / (primes.getD b 0 * low)) y = max_m at hnb
  generalize hmin : max (min (x / (primes.getD b 0 * high)) y) (y / primes.getD b 0) = min_m
  have hyp : primes.getD b 0 ≤ y / primes.getD b 0 :=
    (Nat.le_div_iff_mul_le (by omega)).mpr hpp
  have hmin1 : 1 ≤ min_m := by
    rw [← hmin]
    exact le_trans (by omega) (le_max_right _ _)
  have hmax1 : 1 ≤ max_m := by omega
  rw [List.map_reverse, List.sum_reverse, sum_range'_eq]
  unfold easy_sum
  rw [← Finset.sum_filter, ← Finset.sum_filter]
  apply Finset.sum_congr _ (fun _ _ => rfl)
  ext m
  simp only [Finset.mem_filter, Finset.mem_Ico, Finset.mem_range]
  have hnum := num_ge_succ factors hfac m
  have F1 := idx_le_iff factors hfac min_m m hmin1
  have F2 := idx_le_iff factors hfac max_m m hmax1
  have F5 := quot_le_iff x (primes.getD b 0) (factors.get_number m) low (by omega) (by omega) hlow
  have F6 := quot_lt_iff x (primes.getD b 0) (factors.get_number m) high (by omega) (by omega)
    (by omega)
  have F3 : factors.get_number m ≤ max_m
      ↔ factors.get_number m ≤ x / (primes.getD b 0 * low) ∧ factors.get_number m ≤ y := by
    rw [← hmax]; exact le_min_iff
  have F4 : min_m < factors.get_number m
      ↔ (min (x / (primes.getD b 0 * high)) y < factors.get_number m
        ∧ y / primes.getD b 0 < factors.get_number m) := by
    rw [← hmin]; exact max_lt_iff
  have F7 : min (x / (primes.getD b 0 * high)) y < factors.get_number m
      ↔ (x / (primes.getD b 0 * high) < factors.get_number m ∨ y < factors.get_number m) :=
    min_lt_iff
  constructor
  · rintro ⟨⟨h1, h2⟩, h3⟩
    have hm1 : min_m < factors.get_number m := by
      by_contra hc
      have := F1.mpr (by omega)
      omega
    have hm2 : factors.get_number m ≤ max_m := F2.mp (by omega)
    obtain ⟨g1, g2⟩ := F3.mp hm2
    obtain ⟨g3, g4⟩ := F4.mp hm1
    refine ⟨by omega, h3, g4, g2, F5.mp g1, F6.mp ?_⟩
    rcases F7.mp g3 with g5 | g5
    · exact g5
    · omega
  · rintro ⟨_, h3, g4, g2, g1, g6⟩
    have hm2 : factors.get_number m ≤ max_m := F3.mpr ⟨F5.mpr g1, g2⟩
    have hm1 : min_m < factors.get_number m := F4.mpr ⟨F7.mpr (Or.inl (F6.mpr g6)), g4⟩
    have k2 := F2.mpr hm2
    have k1 : ¬ m ≤ factors.to_index min_m := fun hc => by
      have := F1.mp hc
      omega
    exact ⟨⟨by omega, by omega⟩, h3⟩

/-- The sum over the indices that the loop of the hard leaves runs through is the sum
over the hard leaves whose quotient lies in the segment. -/
theorem hard_list_sum (x y z : Nat) (pi primes : List Nat) (b low high : Nat)
    (hy : y < pi.length) (hpi : pi_ok pi) (hpr : primes_ok primes (Nat.primeCounting y))
    (hp : 2 ≤ primes.getD b 0) (hlow : 1 ≤ low) (hlh : low < high) :
    Finset.sum
        (Finset.range (Nat.primeCounting
          (min (min (x / (primes.getD b 0 * low)) y) (z / primes.getD b 0)) + 1))
        (fun l2 =>
          if max (max (min (x / (primes.getD b 0 * high)) y) (y / primes.getD b 0))
              (primes.getD b 0) < primes.getD l2 0 then
            -(-1 : Int)
              * (phi_spec (x / (primes.getD b 0 * primes.getD l2 0)) (sieve_level (b - 1)) : Int)
          else 0)
      = hard_sum x y z pi primes b low high := by
  generalize hv : min (min (x / (primes.getD b 0 * low)) y) (z / primes.getD b 0) = v
  generalize hm : max (max (min (x / (primes.getD b 0 * high)) y) (y / primes.getD b 0))
    (primes.getD b 0) = mhl
  have hvy : v ≤ y := by
    rw [← hv]
    exact le_trans (min_le_left _ _) (min_le_right _ _)
  unfold hard_sum
  rw [pi_tbl pi y y hpi hy (le_refl _), ← Finset.sum_filter, ← Finset.sum_filter]
  apply Finset.sum_congr _ (fun _ _ => rfl)
  ext l
  simp only [Finset.mem_filter, Finset.mem_range]
  have G1 : ∀ q, q ≤ v ↔ (q ≤ x / (primes.getD b 0 * low) ∧ q ≤ y) ∧ q ≤ z / primes.getD b 0 := by
    intro q
    rw [← hv, le_min_iff, le_min_iff]
  have G2 : ∀ q, mhl < q ↔ (min (x / (primes.getD b 0 * high)) y < q ∧ y / primes.getD b 0 < q)
      ∧ primes.getD b 0 < q := by
    intro q
    rw [← hm, max_lt_iff, max_lt_iff]
  have G3 : ∀ q, min (x / (primes.getD b 0 * high)) y < q
      ↔ (x / (primes.getD b 0 * high) < q ∨ y < q) := fun q => min_lt_iff
  constructor
  · rintro ⟨h1, h2⟩
    have hle : primes.getD l 0 ≤ v :=
      tbl_le_of_le_pi primes _ l v hpr (by omega) (Nat.monotone_primeCounting hvy)
    obtain ⟨⟨g1, g2⟩, g3⟩ := (G1 _).mp hle
    obtain ⟨⟨k1, k2⟩, k3⟩ := (G2 _).mp h2
    have hq1 : 1 ≤ primes.getD l 0 := by omega
    refine ⟨by have := Nat.monotone_primeCounting hvy; omega, k3, k2, g3,
      (quot_le_iff x _ _ low (by omega) hq1 hlow).mp g1,
      (quot_lt_iff x _ _ high (by omega) hq1 (by omega)).mp ?_⟩
    rcases (G3 _).mp k1 with k5 | k5
    · exact k5
    · omega
  · rintro ⟨h1, k3, k2, g3, g1, g6⟩
    have hq1 : 1 ≤ primes.getD l 0 := by omega
    have hl1 : 1 ≤ l := by
      by_contra hc
      have : l = 0 := by omega
      rw [this, hpr.2.1] at hq1
      omega
    have hly : primes.getD l 0 ≤ y :=
      tbl_le_of_le_pi primes _ l y hpr (by omega) (le_refl _)
    have hle : primes.getD l 0 ≤ v :=
      (G1 _).mpr ⟨⟨(quot_le_iff x _ _ low (by omega) hq1 hlow).mpr g1, hly⟩, g3⟩
    have hpil := tbl_pi primes _ l hpr (by omega : l ≤ Nat.primeCounting y)
    have := Nat.monotone_primeCounting hle
    refine ⟨by omega, (G2 _).mpr ⟨⟨(G3 _).mpr (Or.inl ?_), k2⟩, k3⟩⟩
    exact (quot_lt_iff x _ _ high (by omega) hq1 (by omega)).mpr g6

/-- The leaves that the body of the easy loop evaluates at the index `b`. -/
theorem easy_b_sum (x y z : Nat) (pi primes : List Nat) (factors : FactorTable)
    (low high b : Nat) (w w2 : S2Worker) (flag : Bool)
    (htab : s2_tables_ok y pi primes factors) (hb1 : 1 ≤ b)
    (hbs : b ≤ pi.getD (Nat.sqrt y) 0) (hlow : 1 ≤ low) (hlh : low < high)
    (h : easy_b x y factors primes low high b w = some (w2, flag)) :
    (flag = true → w2 = w ∧ seg_break x y z pi primes b low)
      ∧ (flag = false → spec_sum w2.leaves
          = spec_sum w.leaves + b_sum x y z pi primes factors b low high) := by
  obtain ⟨hy, hpi, hpr, hfac⟩ := htab
  have hbs2 := hbs
  rw [pi_tbl pi y _ hpi hy (Nat.sqrt_le_self y)] at hbs2
  have hbN : b ≤ Nat.primeCounting y :=
    le_trans hbs2 (Nat.monotone_primeCounting (Nat.sqrt_le_self y))
  have hp2 := (tbl_prime primes _ b hpr hb1 hbN).two_le
  have hsq : primes.getD b 0 ≤ Nat.sqrt y :=
    tbl_le_of_le_pi primes _ b _ hpr hbs2 (Nat.monotone_primeCounting (Nat.sqrt_le_self y))
  have hpp : primes.getD b 0 * primes.getD b 0 ≤ y :=
    le_trans (Nat.mul_le_mul hsq hsq) (Nat.sqrt_le y)
  unfold easy_b at h
  simp only [] at h
  by_cases hbr : primes.getD b 0 ≥ min (x / (primes.getD b 0 * low)) y
  · rw [if_pos hbr] at h
    cases h
    refine ⟨fun _ => ⟨rfl, ?_⟩, fun hc => by cases hc⟩
    unfold seg_break
    rw [if_pos hbs]
    exact hbr
  · rw [if_neg hbr] at h
    cases h1 : easy_leaves x low b (primes.getD b 0) factors
        (List.range'
          (factors.to_index (max (min (x / (primes.getD b 0 * high)) y) (y / primes.getD b 0)) + 1)
          (factors.to_index (min (x / (primes.getD b 0 * low)) y)
            - factors.to_index
                (max (min (x / (primes.getD b 0 * high)) y) (y / primes.getD b 0)))).reverse w with
    | none => rw [h1] at h; cases h
    | some w1 =>
      rw [h1] at h
      simp only [] at h
      cases h2 : finish_b primes low high b w1 with
      | none => rw [h2] at h; cases h
      | some w3 =>
        rw [h2] at h
        cases h
        refine ⟨(fun hc => by cases hc), fun _ => ?_⟩
        rw [finish_b_leaves primes low high b w1 w2 h2,
          easy_leaves_sum x low b (primes.getD b 0) factors _ w w1 h1,
          easy_list_sum x y primes factors b low high hfac hp2 hpp hlow hlh hbr]
        unfold b_sum
        rw [if_pos hbs]

/-- The leaves that the body of the hard loop evaluates at the index `b`. -/
theorem hard_b_sum (x y z : Nat) (pi primes : List Nat) (factors : FactorTable)
    (low high b : Nat) (w w2 : S2Worker) (flag : Bool)
    (htab : s2_tables_ok y pi primes factors) (hb1 : 1 ≤ b) (hbN : b ≤ Nat.primeCounting y)
    (hbs : ¬ b ≤ pi.getD (Nat.sqrt y) 0) (hlow : 1 ≤ low) (hlh : low < high)
    (h : hard_b x y z pi primes low high b w = some (w2, flag)) :
    (flag = true → w2 = w ∧ seg_break x y z pi primes b low)
      ∧ (flag = false → spec_sum w2.leaves
          = spec_sum w.leaves + b_sum x y z pi primes factors b low high) := by
  obtain ⟨hy, hpi, hpr, hfac⟩ := htab
  have hp2 := (tbl_prime primes _ b hpr hb1 hbN).two_le
  have hvy : min (min (x / (primes.getD b 0 * low)) y) (z / primes.getD b 0) ≤ y :=
    le_trans (min_le_left _ _) (min_le_right _ _)
  have hl := pi_tbl pi y _ hpi hy hvy
  unfold hard_b at h
  simp only [] at h
  rw [hl] at h
  by_cases hbr : primes.getD b 0 ≥ primes.getD (Nat.primeCounting
      (min (min (x / (primes.getD b 0 * low)) y) (z / primes.getD b 0))) 0
  · rw [if_pos hbr] at h
    cases h
    refine ⟨fun _ => ⟨rfl, ?_⟩, fun hc => by cases hc⟩
    unfold seg_break
    rw [if_neg hbs, hl]
    exact hbr
  · rw [if_neg hbr] at h
    cases h1 : hard_leaves x low b (primes.getD b 0)
        (max (max (min (x / (primes.getD b 0 * high)) y) (y / primes.getD b 0))
          (primes.getD b 0)) primes
        (Nat.primeCounting (min (min (x / (primes.getD b 0 * low)) y) (z / primes.getD b 0)))
        w with
    | none => rw [h1] at h; cases h
    | some w1 =>
      rw [h1] at h
      simp only [] at h
      cases h2 : finish_b primes low high b w1 with
      | none => rw [h2] at h; cases h
      | some w3 =>
        rw [h2] at h
        cases h
        refine ⟨(fun hc => by cases hc), fun _ => ?_⟩
        rw [finish_b_leaves primes low high b w1 w2 h2,
          hard_leaves_sum x low b (primes.getD b 0) _ primes _ w w1
            (fun l1 l2 h12 h2l => tbl_mono primes _ l1 l2 hpr h12
              (le_trans h2l (Nat.monotone_primeCounting hvy))) h1,
          hard_list_sum x y z pi primes b low high hy hpi hpr hp2 hlow hlh]
        unfold b_sum
        rw [if_neg hbs]

theorem ite_range_add (A B C : Prop) [Decidable A] [Decidable B] [Decidable C]
    (q lo mid hi : Nat) (t : Int) (h1 : lo ≤ mid) (h2 : mid ≤ hi) :
    (if A ∧ B ∧ C ∧ lo ≤ q ∧ q < mid then t else 0)
        + (if A ∧ B ∧ C ∧ mid ≤ q ∧ q < hi then t else 0)
      = if A ∧ B ∧ C ∧ lo ≤ q ∧ q < hi then t else 0 := by
  by_cases hP : A ∧ B ∧ C
  · obtain ⟨hA, hB, hC⟩ := hP
    by_cases hq : q < mid
    · by_cases hl : lo ≤ q
      · rw [if_pos ⟨hA, hB, hC, hl, hq⟩, if_neg (fun h => by omega),
          if_pos ⟨hA, hB, hC, hl, by omega⟩]
        ring
      · rw [if_neg (fun h => hl h.2.2.2.1), if_neg (fun h => by omega),
          if_neg (fun h => hl h.2.2.2.1)]
        ring
    · by_cases hh : q < hi
      · rw [if_neg (fun h => hq h.2.2.2.2), if_pos ⟨hA, hB, hC, by omega, hh⟩,
          if_pos ⟨hA, hB, hC, by omega, hh⟩]
        ring
      · rw [if_neg (fun h => hq h.2.2.2.2), if_neg (fun h => hh h.2.2.2.2),
          if_neg (fun h => hh h.2.2.2.2)]
        ring
  · rw [if_neg (fun h => hP ⟨h.1, h.2.1, h.2.2.1⟩), if_neg (fun h => hP ⟨h.1, h.2.1, h.2.2.1⟩),
      if_neg (fun h => hP ⟨h.1, h.2.1, h.2.2.1⟩)]
    ring

/-- The sum over the leaves of an index is additive in the range of the quotient. -/
theorem b_sum_add (x y z : Nat) (pi primes : List Nat) (factors : FactorTable)
    (b lo mid hi : Nat) (h1 : lo ≤ mid) (h2 : mid ≤ hi) :
    b_sum x y z pi primes factors b lo mid + b_sum x y z pi primes factors b mid hi
      = b_sum x y z pi primes factors b lo hi := by
  unfold b_sum
  split_ifs with hbs
  · unfold easy_sum
    rw [← Finset.sum_add_distrib]
    apply Finset.sum_congr rfl
    intro m _
    exact ite_range_add _ _ _ _ lo mid hi _ h1 h2
  · unfold hard_sum
    rw [← Finset.sum_add_distrib]
    apply Finset.sum_congr rfl
    intro l _
    exact ite_range_add _ _ _ _ lo mid hi _ h1 h2

/-- There is no leaf of the index `b` with the quotient in `[lo, hi)` when every such leaf
`n = primes[b] * q` leads to a contradiction. -/
theorem b_sum_zero (x y z : Nat) (pi primes : List Nat) (factors : FactorTable)
    (b lo hi : Nat) (htab : s2_tables_ok y pi primes factors) (hlpf : factors_lpf_ok factors)
    (hb1 : 1 ≤ b) (hbN : b ≤ Nat.primeCounting y)
    (H : ∀ q, primes.getD b 0 < q → q ≤ y → lo * (primes.getD b 0 * q) ≤ x →
      (¬ b ≤ pi.getD (Nat.sqrt y) 0 →
        ∃ l, 1 ≤ l ∧ l ≤ Nat.primeCounting y ∧ q = primes.getD l 0
          ∧ q ≤ z / primes.getD b 0) → False) :
    b_sum x y z pi primes factors b lo hi = 0 := by
  obtain ⟨hy, hpi, hpr, hfac⟩ := htab
  have hp2 := (tbl_prime primes _ b hpr hb1 hbN).two_le
  unfold b_sum
  split_ifs with hbs
  · have hbs2 := hbs
    rw [pi_tbl pi y _ hpi hy (Nat.sqrt_le_self y)] at hbs2
    have hsq : primes.getD b 0 ≤ Nat.sqrt y :=
      tbl_le_of_le_pi primes _ b _ hpr hbs2 (Nat.monotone_primeCounting (Nat.sqrt_le_self y))
    have hpp : primes.getD b 0 * primes.getD b 0 ≤ y :=
      le_trans (Nat.mul_le_mul hsq hsq) (Nat.sqrt_le y)
    have hyp : primes.getD b 0 ≤ y / primes.getD b 0 :=
      (Nat.le_div_iff_mul_le (by omega)).mpr hpp
    unfold easy_sum
    apply Finset.sum_eq_zero
    intro m _
    rw [if_neg]
    rintro ⟨g1, g2, g3, g4, g5⟩
    have hnum : primes.getD b 0 < factors.get_number m :=
      lt_of_lt_of_le g1 (hlpf m (by omega))
    apply H (factors.get_number m) hnum g3 _ (fun hn => absurd hbs hn)
    exact (Nat.le_div_iff_mul_le (Nat.mul_pos (by omega) (by omega))).mp g4
  · unfold hard_sum
    apply Finset.sum_eq_zero
    intro l hl
    rw [Finset.mem_range, pi_tbl pi y y hpi hy (le_refl _)] at hl
    rw [if_neg]
    rintro ⟨g1, g2, g3, g4, g5⟩
    have hl1 : 1 ≤ l := by
      by_contra hc
      have : l = 0 := by omega
      rw [this, hpr.2.1] at g1
      omega
    have hly : primes.getD l 0 ≤ y :=
      tbl_le_of_le_pi primes _ l y hpr (by omega) (le_refl _)
    apply H (primes.getD l 0) g1 hly _ (fun _ => ⟨l, hl1, by omega, rfl, g3⟩)
    exact (Nat.le_div_iff_mul_le (Nat.mul_pos (by omega) (by omega))).mp g4

theorem b_sum_empty (x y z : Nat) (pi primes : List Nat) (factors : FactorTable)
    (b lo hi : Nat) (h : hi ≤ lo) : b_sum x y z pi primes factors b lo hi = 0 := by
  unfold b_sum
  split_ifs with hbs
  · unfold easy_sum
    apply Finset.sum_eq_zero
    intro m _
    rw [if_neg]
    rintro ⟨g1, g2, g3, g4, g5⟩
    omega
  · unfold hard_sum
    apply Finset.sum_eq_zero
    intro m _
    rw [if_neg]
    rintro ⟨g1, g2, g3, g4, g5⟩
    omega

/-- When a segment that starts at `low` is left at the index `b0`, no index from `b0` on
has a leaf with the quotient `≥ low`. -/
theorem b_sum_zero_break (x y z : Nat) (pi primes : List Nat) (factors : FactorTable)
    (b0 b low lo hi : Nat) (htab : s2_tables_ok y pi primes factors)
    (hlpf : factors_lpf_ok factors) (hb0 : 1 ≤ b0) (hbb : b0 ≤ b)
    (hbN : b ≤ Nat.primeCounting y) (hlow : 1 ≤ low) (hlo : low ≤ lo)
    (hbr : seg_break x y z pi primes b0 low) :
    b_sum x y z pi primes factors b lo hi = 0 := by
  have htab2 := htab
  obtain ⟨hy, hpi, hpr, hfac⟩ := htab
  have hp0 := (tbl_prime primes _ b0 hpr hb0 (by omega)).two_le
  have hpp : primes.getD b0 0 ≤ primes.getD b 0 := tbl_mono primes _ b0 b hpr hbb hbN
  apply b_sum_zero x y z pi primes factors b lo hi htab2 hlpf (by omega) hbN
  intro q hq hqy hx hhard
  have hmul : (primes.getD b0 0 + 1) * (primes.getD b0 0 * low) ≤ x := by
    calc (primes.getD b0 0 + 1) * (primes.getD b0 0 * low)
        ≤ q * (primes.getD b 0 * lo) :=
          Nat.mul_le_mul (by omega) (Nat.mul_le_mul hpp hlo)
      _ = lo * (primes.getD b 0 * q) := by ring
      _ ≤ x := hx
  have hdiv : primes.getD b0 0 + 1 ≤ x / (primes.getD b0 0 * low) :=
    (Nat.le_div_iff_mul_le (Nat.mul_pos (by omega) (by omega))).mpr hmul
  unfold seg_break at hbr
  split_ifs at hbr with hbs0
  · have : primes.getD b0 0 < min (x / (primes.getD b0 0 * low)) y :=
      lt_min (by omega) (by omega)
    omega
  · have hnb : ¬ b ≤ pi.getD (Nat.sqrt y) 0 := by omega
    obtain ⟨l, hl1, hlN, hql, hqz⟩ := hhard hnb
    generalize hv : min (min (x / (primes.getD b0 0 * low)) y) (z / primes.getD b0 0) = v at hbr
    have hvy : v ≤ y := by
      rw [← hv]
      exact le_trans (min_le_left _ _) (min_le_right _ _)
    rw [pi_tbl pi y v hpi hy hvy] at hbr
    have hq0 : q ≤ x / (primes.getD b0 0 * low) := by
      rw [Nat.le_div_iff_mul_le (Nat.mul_pos (by omega) (by omega))]
      calc q * (primes.getD b0 0 * low)
          ≤ q * (primes.getD b 0 * lo) :=
            Nat.mul_le_mul (le_refl _) (Nat.mul_le_mul hpp hlo)
        _ = lo * (primes.getD b 0 * q) := by ring
        _ ≤ x := hx
    have hqv : q ≤ v := by
      rw [← hv]
      refine le_min (le_min hq0 hqy) ?_
      exact le_trans hqz (Nat.div_le_div_left hpp (by omega))
    have hpil := tbl_pi primes _ l hpr hlN
    rw [← hql] at hpil
    have hlv : l ≤ Nat.primeCounting v := by
      rw [← hpil]
      exact Nat.monotone_primeCounting hqv
    have := tbl_mono primes _ l _ hpr hlv (Nat.monotone_primeCounting hvy)
    omega

/-- An index above `pi_max` of the worker that starts at `low_t` has no leaf with the
quotient `≥ low_t`. -/
theorem b_sum_zero_pimax (x y z : Nat) (pi primes : List Nat) (factors : FactorTable)
    (b low_t lo hi : Nat) (htab : s2_tables_ok y pi primes factors)
    (hlpf : factors_lpf_ok factors) (hb1 : 1 ≤ b)
    (hbB : b ≤ pi.getD (min (Nat.sqrt z) y) 0) (hlow : 1 ≤ low_t) (hlo : low_t ≤ lo)
    (hgt : pi_max_at x y z pi low_t < b) :
    b_sum x y z pi primes factors b lo hi = 0 := by
  have htab2 := htab
  obtain ⟨hy, hpi, hpr, hfac⟩ := htab
  rw [pi_tbl pi y _ hpi hy (min_le_right _ _)] at hbB
  have hmy : Nat.primeCounting (min (Nat.sqrt z) y) ≤ Nat.primeCounting y :=
    Nat.monotone_primeCounting (min_le_right _ _)
  have hbN : b ≤ Nat.primeCounting y := le_trans hbB hmy
  have hp2 := (tbl_prime primes _ b hpr hb1 hbN).two_le
  have hpm : primes.getD b 0 ≤ min (Nat.sqrt z) y := tbl_le_of_le_pi primes _ b _ hpr hbB hmy
  apply b_sum_zero x y z pi primes factors b lo hi htab2 hlpf hb1 hbN
  intro q hq hqy hx _
  have hmul : primes.getD b 0 * primes.getD b 0 * low_t ≤ x := by
    calc primes.getD b 0 * primes.getD b 0 * low_t
        ≤ primes.getD b 0 * q * lo :=
          Nat.mul_le_mul (Nat.mul_le_mul (le_refl _) (by omega)) hlo
      _ = lo * (primes.getD b 0 * q) := by ring
      _ ≤ x := hx
  have hsq : primes.getD b 0 ≤ Nat.sqrt (x / low_t) := by
    rw [Nat.le_sqrt, Nat.le_div_iff_mul_le (by omega)]
    exact hmul
  have hle : primes.getD b 0 ≤ min (min (Nat.sqrt (x / low_t)) y) (Nat.sqrt z) :=
    le_min (le_min hsq (le_trans hpm (min_le_right _ _))) (le_trans hpm (min_le_left _ _))
  have hvy : min (min (Nat.sqrt (x / low_t)) y) (Nat.sqrt z) ≤ y :=
    le_trans (min_le_left _ _) (min_le_right _ _)
  unfold pi_max_at at hgt
  rw [pi_tbl pi y _ hpi hy hvy] at hgt
  have := Nat.monotone_primeCounting hle
  rw [tbl_pi primes _ b hpr hbN] at this
  omega

theorem total_sum_add (x y z c : Nat) (pi primes : List Nat) (factors : FactorTable)
    (lo mid hi : Nat) (h1 : lo ≤ mid) (h2 : mid ≤ hi) :
    total_sum x y z c pi primes factors lo mid + total_sum x y z c pi primes factors mid hi
      = total_sum x y z c pi primes factors lo hi := by
  unfold total_sum
  rw [← Finset.sum_add_distrib]
  apply Finset.sum_congr rfl
  intro b _
  exact b_sum_add x y z pi primes factors b lo mid hi h1 h2

theorem total_sum_empty (x y z c : Nat) (pi primes : List Nat) (factors : FactorTable)
    (lo hi : Nat) (h : hi ≤ lo) : total_sum x y z c pi primes factors lo hi = 0 := by
  unfold total_sum
  apply Finset.sum_eq_zero
  intro b _
  exact b_sum_empty x y z pi primes factors b lo hi h

/-- The leaves that a loop over the indices `i + 1, ..., i + n` evaluates. -/
theorem run_bs_sum (x y z : Nat) (pi primes : List Nat) (factors : FactorTable)
    (low high lo hi : Nat) (body : Nat → S2Worker → Option (S2Worker × Bool))
    (hbody : ∀ b w w2 flag, lo < b → b ≤ hi → body b w = some (w2, flag) →
      (flag = true → w2 = w ∧ seg_break x y z pi primes b low)
        ∧ (flag = false → spec_sum w2.leaves
            = spec_sum w.leaves + b_sum x y z pi primes factors b low high)) :
    ∀ (n i : Nat) (w w2 : S2Worker) (flag : Bool), lo ≤ i → i + n ≤ hi →
      run_bs body (List.range' (i + 1) n) w = some (w2, flag) →
      ∃ i2, i ≤ i2 ∧ i2 ≤ i + n
        ∧ spec_sum w2.leaves = spec_sum w.leaves
            + Finset.sum (Finset.Ioc i i2) (fun b => b_sum x y z pi primes factors b low high)
        ∧ (flag = true → seg_break x y z pi primes (i2 + 1) low ∧ i2 < i + n)
        ∧ (flag = false → i2 = i + n) := by
  intro n
  induction n with
  | zero =>
    intro i w w2 flag _ _ h
    simp only [List.range'_zero, run_bs] at h
    cases h
    exact ⟨i, le_refl _, le_refl _, by simp, (fun hc => by cases hc), fun _ => rfl⟩
  | succ n ih =>
    intro i w w2 flag hlo hhi h
    simp only [List.range'_succ, run_bs] at h
    cases hb : body (i + 1) w with
    | none => rw [hb] at h; cases h
    | some r =>
      obtain ⟨w1, fl⟩ := r
      rw [hb] at h
      obtain ⟨hb1, hb2⟩ := hbody (i + 1) w w1 fl (by omega) (by omega) hb
      cases fl with
      | true =>
        simp only [] at h
        cases h
        obtain ⟨hw, hbr⟩ := hb1 rfl
        subst hw
        exact ⟨i, le_refl _, by omega, by simp, fun _ => ⟨hbr, by omega⟩,
          fun hc => by cases hc⟩
      | false =>
        simp only [] at h
        obtain ⟨i2, g1, g2, g3, g4, g5⟩ := ih (i + 1) w1 w2 flag (by omega) (by omega) h
        refine ⟨i2, by omega, by omega, ?_, fun hf => ⟨(g4 hf).1, by have := (g4 hf).2; omega⟩,
          fun hf => by have := g5 hf; omega⟩
        rw [g3, hb2 rfl, ← Finset.sum_Ioc_consecutive _ (Nat.le_succ i) g1,
          Nat.Ioc_succ_singleton, Finset.sum_singleton]
        ring

theorem sum_Ioc_zero (f : Nat → Int) (a b : Nat) (h : ∀ i, a < i → i ≤ b → f i = 0) :
    Finset.sum (Finset.Ioc a b) f = 0 := by
  apply Finset.sum_eq_zero
  intro i hi
  rw [Finset.mem_Ioc] at hi
  exact h i hi.1 hi.2

/-- The leaves that one segment evaluates are all the leaves with the quotient in the
segment. -/
theorem process_segment_sum (x y z c : Nat) (pi primes : List Nat) (factors : FactorTable)
    (pi_max low_t low high : Nat) (w w2 : S2Worker)
    (htab : s2_tables_ok y pi primes factors) (hlpf : factors_lpf_ok factors)
    (hpmax : pi_max = pi_max_at x y z pi low_t)
    (hlt1 : 1 ≤ low_t) (hlt : low_t ≤ low) (hlh : low < high)
    (h : process_segment x y z c factors pi primes (pi.getD (Nat.sqrt y) 0) pi_max low high w
      = some w2) :
    spec_sum w2.leaves = spec_sum w.leaves + total_sum x y z c pi primes factors low high := by
  have htab2 := htab
  obtain ⟨hy, hpi, hpr, hfac⟩ := htab
  have hpm : pi_max ≤ Nat.primeCounting y := by
    rw [hpmax]; exact pi_max_at_le x y z pi low_t hpi hy
  have hpB : pi_max ≤ pi.getD (min (Nat.sqrt z) y) 0 := by
    rw [hpmax]; exact pi_max_at_le_total x y z pi low_t hpi hy
  have hBN : pi.getD (min (Nat.sqrt z) y) 0 ≤ Nat.primeCounting y := by
    rw [pi_tbl pi y _ hpi hy (min_le_right _ _)]
    exact Nat.monotone_primeCounting (min_le_right _ _)
  -- no leaves above the place where the segment is left, nor above `pi_max`
  have hZ1 : ∀ i, c ≤ i → seg_break x y z pi primes (i + 1) low →
      Finset.sum (Finset.Ioc i (pi.getD (min (Nat.sqrt z) y) 0))
        (fun b => b_sum x y z pi primes factors b low high) = 0 := by
    intro i _ hbr
    apply sum_Ioc_zero
    intro b h1 h2
    exact b_sum_zero_break x y z pi primes factors (i + 1) b low low high htab2 hlpf (by omega)
      (by omega) (by omega) (by omega) (le_refl _) hbr
  have hZ2 : ∀ i, pi_max ≤ i →
      Finset.sum (Finset.Ioc i (pi.getD (min (Nat.sqrt z) y) 0))
        (fun b => b_sum x y z pi primes factors b low high) = 0 := by
    intro i hi
    apply sum_Ioc_zero
    intro b h1 h2
    exact b_sum_zero_pimax x y z pi primes factors b low_t low high htab2 hlpf (by omega) h2
      hlt1 hlt (by rw [← hpmax]; omega)
  unfold process_segment at h
  simp only [] at h
  unfold total_sum
  by_cases hcm : c ≤ pi_max
  · rw [if_pos hcm] at h
    cases hsp : small_primes primes low high (List.range' 2 (c + 1 - 2))
        (sieve_fill w.sieve.length low) w.next with
    | none => rw [hsp] at h; cases h
    | some r =>
      obtain ⟨sieve2, next2⟩ := r
      rw [hsp] at h
      simp only [] at h
      cases he : run_bs (easy_b x y factors primes low high)
          (List.range' (c + 1) (min (pi.getD (Nat.sqrt y) 0) pi_max + 1 - (c + 1)))
          { w with sieve := sieve2, counters := sieve2, next := next2 } with
      | none => rw [he] at h; cases h
      | some r2 =>
        obtain ⟨w3, fl⟩ := r2
        rw [he] at h
        obtain ⟨i2, g1, g2, g3, g4, g5⟩ :=
          run_bs_sum x y z pi primes factors low high c
            (max c (min (pi.getD (Nat.sqrt y) 0) pi_max)) (easy_b x y factors primes low high)
            (fun b w0 w1 fl0 h1 h2 h3 => easy_b_sum x y z pi primes factors low high b w0 w1 fl0
              htab2 (by omega) (by omega) (by omega) hlh h3)
            _ c _ w3 fl (le_refl _) (by omega) he
        have hi2B : i2 ≤ pi.getD (min (Nat.sqrt z) y) 0 := by omega
        cases fl with
        | true =>
          simp only [] at h
          cases h
          rw [g3, ← Finset.sum_Ioc_consecutive _ g1 hi2B, hZ1 i2 g1 (g4 rfl).1]
          show _ = spec_sum w.leaves + _
          ring
        | false =>
          simp only [] at h
          have hi2 := g5 rfl
          have hb2 : max (c + 1) (min (pi.getD (Nat.sqrt y) 0) pi_max + 1) = i2 + 1 := by omega
          rw [hb2] at h
          cases hh : run_bs (hard_b x y z pi primes low high)
              (List.range' (i2 + 1) (pi_max + 1 - (i2 + 1))) w3 with
          | none => rw [hh] at h; cases h
          | some r3 =>
            obtain ⟨w4, fl3⟩ := r3
            rw [hh] at h
            simp only [] at h
            cases h
            obtain ⟨i3, k1, k2, k3, k4, k5⟩ :=
              run_bs_sum x y z pi primes factors low high i2 pi_max
                (hard_b x y z pi primes low high)
                (fun b w0 w1 fl0 h1 h2 h3 => hard_b_sum x y z pi primes factors low high b w0 w1
                  fl0 htab2 (by omega) (by omega) (by omega) (by omega) hlh h3)
                _ i2 w3 w2 fl3 (le_refl _) (by omega) hh
            have hi3B : i3 ≤ pi.getD (min (Nat.sqrt z) y) 0 := by omega
            have hzero : Finset.sum (Finset.Ioc i3 (pi.getD (min (Nat.sqrt z) y) 0))
                (fun b => b_sum x y z pi primes factors b low high) = 0 := by
              cases fl3 with
              | true => exact hZ1 i3 (by omega) (k4 rfl).1
              | false => exact hZ2 i3 (by have := k5 rfl; omega)
            rw [k3, g3, ← Finset.sum_Ioc_consecutive _ g1 hi2B,
              ← Finset.sum_Ioc_consecutive _ k1 hi3B, hzero]
            show _ = spec_sum w.leaves + _
            ring
  · rw [if_neg hcm] at h
    simp only [] at h
    have h1 : min (pi.getD (Nat.sqrt y) 0) pi_max + 1 - (c + 1) = 0 := by omega
    have h2 : pi_max + 1 - max (c + 1) (min (pi.getD (Nat.sqrt y) 0) pi_max + 1) = 0 := by omega
    rw [h1, h2] at h
    simp only [List.range'_zero, run_bs] at h
    cases h
    rw [hZ2 c (by omega)]
    ring

/-- The leaves that the segments of a worker evaluate from `low` on. -/
theorem segment_loop_sum (x y z c : Nat) (pi primes : List Nat) (factors : FactorTable)
    (S pi_max low_t limit : Nat)
    (htab : s2_tables_ok y pi primes factors) (hlpf : factors_lpf_ok factors)
    (hpmax : pi_max = pi_max_at x y z pi low_t) (hlt1 : 1 ≤ low_t) (hS : 1 ≤ S) :
    ∀ (fuel low : Nat) (w w2 : S2Worker), low_t ≤ low →
      segment_loop x y z c factors pi primes (pi.getD (Nat.sqrt y) 0) pi_max S limit fuel low w
        = some w2 →
      spec_sum w2.leaves
        = spec_sum w.leaves + total_sum x y z c pi primes factors (min low limit) limit := by
  intro fuel
  induction fuel with
  | zero =>
    intro low w w2 _ h
    simp only [segment_loop] at h
    split_ifs at h with hl
    cases h
    rw [total_sum_empty _ _ _ _ _ _ _ _ _ (by omega)]
    ring
  | succ fuel ih =>
    intro low w w2 hlt h
    simp only [segment_loop] at h
    by_cases hl : low < limit
    · rw [if_pos hl] at h
      cases hp : process_segment x y z c factors pi primes (pi.getD (Nat.sqrt y) 0) pi_max low
          (min (low + S) limit) w with
      | none => rw [hp] at h; cases h
      | some w1 =>
        rw [hp] at h
        simp only [] at h
        rw [ih (low + S) w1 w2 (by omega) h,
          process_segment_sum x y z c pi primes factors pi_max low_t low (min (low + S) limit) w w1
            htab hlpf hpmax hlt1 hlt (by omega) hp,
          min_eq_left (by omega : low ≤ limit), add_assoc,
          total_sum_add _ _ _ _ _ _ _ _ _ _ (by omega) (by omega)]
    · rw [if_neg hl] at h
      cases h
      rw [total_sum_empty _ _ _ _ _ _ _ _ _ (by omega)]
      ring

/-- The leaves that a worker evaluates are all the leaves with the quotient in its range. -/
theorem S2_sieve_thread_sum (x y z c S K t low0 limit : Nat) (factors : FactorTable)
    (pi primes : List Nat) (w : S2Worker)
    (htab : s2_tables_ok y pi primes factors) (hlpf : factors_lpf_ok factors)
    (hlow0 : 1 ≤ low0) (hS : 1 ≤ S)
    (h : S2_sieve_thread x y z c S K t low0 limit factors pi primes = some w) :
    spec_sum w.leaves
      = total_sum x y z c pi primes factors (min (low0 + S * K * t) limit)
          (min (low0 + S * K * (t + 1)) limit) := by
  unfold S2_sieve_thread at h
  simp only [isqrt_eq] at h
  have hs := segment_loop_sum x y z c pi primes factors S
    (pi_max_at x y z pi (low0 + S * K * t)) (low0 + S * K * t)
    (min (low0 + S * K * t + S * K) limit) htab hlpf rfl (by omega) hS K (low0 + S * K * t) _ w
    (le_refl _) h
  rw [hs]
  have e1 : low0 + S * K * (t + 1) = low0 + S * K * t + S * K := by ring
  have e2 : min (low0 + S * K * t) (min (low0 + S * K * t + S * K) limit)
      = min (low0 + S * K * t) limit := by omega
  rw [e1, e2]
  show spec_sum [] + _ = _
  simp [spec_sum]

/-- The leaves that the workers `t, ..., t + n - 1` of a pass evaluate. -/
theorem run_threads_sum (x y z c S K low0 limit : Nat) (factors : FactorTable)
    (pi primes : List Nat) (htab : s2_tables_ok y pi primes factors)
    (hlpf : factors_lpf_ok factors) (hlow0 : 1 ≤ low0) (hS : 1 ≤ S) :
    ∀ (n t : Nat) (st st2 : S2State),
      run_threads x y z c S K low0 limit factors pi primes (List.range' t n) st = some st2 →
      spec_sum st2.leaves
        = spec_sum st.leaves
          + total_sum x y z c pi primes factors (min (low0 + S * K * t) limit)
              (min (low0 + S * K * (t + n)) limit) := by
  intro n
  induction n with
  | zero =>
    intro t st st2 h
    simp only [List.range'_zero, run_threads] at h
    cases h
    rw [Nat.add_zero, total_sum_empty _ _ _ _ _ _ _ _ _ (le_refl _)]
    ring
  | succ n ih =>
    intro t st st2 h
    simp only [List.range'_succ, run_threads] at h
    cases hw : S2_sieve_thread x y z c S K t low0 limit factors pi primes with
    | none => rw [hw] at h; cases h
    | some w =>
      rw [hw] at h
      simp only [] at h
      split_ifs at h with hg
      rw [ih (t + 1) _ st2 h]
      show spec_sum (st.leaves ++ _) + _ = _
      rw [spec_sum_append, spec_sum_adjust,
        S2_sieve_thread_sum x y z c S K t low0 limit factors pi primes w htab hlpf hlow0 hS hw,
        add_assoc, total_sum_add, show t + 1 + n = t + (n + 1) by omega]
      · apply min_le_min _ (le_refl _)
        have := Nat.mul_le_mul_left (S * K) (show t ≤ t + 1 by omega)
        omega
      · apply min_le_min _ (le_refl _)
        have := Nat.mul_le_mul_left (S * K) (show t + 1 ≤ t + 1 + n by omega)
        omega

/-- The leaves that the outer loop evaluates from `low` on. -/
theorem s2_loop_sum (x y z c limit : Nat) (factors : FactorTable) (pi primes : List Nat)
    (balance : Nat → Nat × Nat) (htab : s2_tables_ok y pi primes factors)
    (hlpf : factors_lpf_ok factors) :
    ∀ (fuel k low threads S K : Nat) (st st2 : S2State), 1 ≤ low →
      s2_loop x y z c limit factors pi primes balance fuel k low threads S K st = some st2 →
      spec_sum st2.leaves
        = spec_sum st.leaves + total_sum x y z c pi primes factors (min low limit) limit := by
  intro fuel
  induction fuel with
  | zero =>
    intro k low threads S K st st2 _ h
    simp only [s2_loop] at h
    split_ifs at h with hl
    cases h
    rw [total_sum_empty _ _ _ _ _ _ _ _ _ (by omega)]
    ring
  | succ fuel ih =>
    intro k low threads S K st st2 hlow h
    simp only [s2_loop] at h
    by_cases hl : low < limit
    · rw [if_pos hl] at h
      by_cases hS : S = 0
      · rw [if_pos hS] at h
        cases h
      · rw [if_neg hS] at h
        generalize hT : in_between 1 threads (ceil_div (limit - low) S) = T at h
        generalize hK : in_between 1 K (ceil_div (ceil_div (limit - low) S) T) = K2 at h
        cases hr : run_threads x y z c S K2 low limit factors pi primes (List.range T) st with
        | none => rw [hr] at h; cases h
        | some st1 =>
          rw [hr] at h
          simp only [] at h
          rw [List.range_eq_range'] at hr
          have h1 := run_threads_sum x y z c S K2 low limit factors pi primes htab hlpf hlow
            (by omega) T 0 st st1 hr
          have h2 := ih (k + 1) (low + K2 * T * S) T (balance k).1 (balance k).2 st1 st2
            (by omega) h
          have e1 : low + S * K2 * (0 + T) = low + K2 * T * S := by ring
          rw [Nat.mul_zero, Nat.add_zero, e1] at h1
          rw [h2, h1, add_assoc, total_sum_add]
          · exact min_le_min (by omega) (le_refl _)
          · exact min_le_right _ _
    · rw [if_neg hl] at h
      cases h
      rw [total_sum_empty _ _ _ _ _ _ _ _ _ (by omega)]
      ring

/-- The value of `S2_sieve` is the sum of the terms of all the special leaves, whatever
the number of threads and the segment sizes are. -/
theorem S2_sieve_value (x y z c : Nat) (pi primes : List Nat) (factors : FactorTable)
    (threads mss : Nat) (balance : Nat → Nat × Nat)
    (htab : s2_tables_ok y pi primes factors) (hlpf : factors_lpf_ok factors)
    (hmss : 1 ≤ mss) (hbal : ∀ k, 1 ≤ (balance k).1) :
    ∃ st, S2_sieve x y z c pi primes factors threads mss balance = some st
      ∧ st.s2 = total_sum x y z c pi primes factors 1 (z + 1) := by
  obtain ⟨st, e, h1, h2⟩ := S2_sieve_spec x y z c pi primes factors threads mss balance htab
    hmss hbal
  refine ⟨st, e, ?_⟩
  rw [h1, leaf_sum_eq_spec_sum st.leaves (fun e he => (h2 e he).2)]
  unfold S2_sieve at e
  have := s2_loop_sum x y z c (z + 1) factors pi primes balance htab hlpf (z + 1) 0 1 threads
    mss 1 _ st (le_refl _) e
  rw [this, min_eq_left (show 1 ≤ z + 1 by omega)]
  show spec_sum [] + _ = _
  simp [spec_sum]

/-! ## The claims about `Sieve` -/

/-- C1, as amended: for a sieve constructed with `start = low` (segment size below `2^36`),
`3 ≤ c ≤ 9` and `low < high ≤ low + segment_size()` with `high < 2^63`, after
`pre_sieve(c, low, high)` followed by one `cross_off` per prime `p ≥ 7` (`p < 2^32`) of a list,
at the consecutive new wheel indices `c + 1, c + 2, ...`, the integers whose bits are live are
exactly the integers of `[low, high)` coprime to each of `primes[1..=c]` and to each crossed-off
prime. -/
theorem pre_sieve_cross_off_live (low seg ws c high : Nat) (ps : List Nat) (st0 : Sieve)
    (hnew : Sieve.new low seg ws = some st0) (hseg : seg < 2 ^ 36)
    (hc3 : 3 ≤ c) (hc9 : c ≤ 9) (hlt : low < high) (hcover : high ≤ low + segment_size st0)
    (h63 : high < 2 ^ 63) (hps : ∀ p ∈ ps, p.Prime ∧ 7 ≤ p ∧ p < 2 ^ 32) :
    ∃ st1 st2, pre_sieve st0 c low high = some st1
      ∧ cross_off_list st1 (c + 1) ps = some st2
      ∧ ∀ n, (is_live st2 n = true
          ↔ low ≤ n ∧ n < high
            ∧ (∀ i, 1 ≤ i → i ≤ c → Nat.Coprime n (sieve_primes.getD i 0))
            ∧ ∀ p ∈ ps, Nat.Coprime n p) :=
  pre_sieve_cross_off_live_aux low seg ws c high ps st0 hnew hseg hc3 hc9 hlt hcover h63 hps

/-- C1, witness: a sieve over `[0, 240)`, `pre_sieve(4, 0, 240)`, then `cross_off(5, 11)`. -/
theorem pre_sieve_cross_off_live_witness :
    Sieve.new 0 240 10 = some ⟨0, List.replicate 8 0, List.replicate 4 ⟨0, 0⟩⟩
      ∧ 240 < 2 ^ 36 ∧ 3 ≤ 4 ∧ 4 ≤ 9 ∧ 0 < 240
      ∧ 240 ≤ 0 + segment_size ⟨0, List.replicate 8 0, List.replicate 4 ⟨0, 0⟩⟩
      ∧ 240 < 2 ^ 63 ∧ (∀ p ∈ [11], p.Prime ∧ 7 ≤ p ∧ p < 2 ^ 32)
      ∧ ∃ st1 st2, pre_sieve ⟨0, List.replicate 8 0, List.replicate 4 ⟨0, 0⟩⟩ 4 0 240 = some st1
        ∧ cross_off_list st1 (4 + 1) [11] = some st2
        ∧ ∀ n, (is_live st2 n = true
            ↔ 0 ≤ n ∧ n < 240
              ∧ (∀ i, 1 ≤ i → i ≤ 4 → Nat.Coprime n (sieve_primes.getD i 0))
              ∧ ∀ p ∈ [11], Nat.Coprime n p) :=
  have h8 : ∀ p ∈ [11], Nat.Prime p ∧ 7 ≤ p ∧ p < 2 ^ 32 := by
    intro p hp
    rw [List.mem_singleton] at hp
    subst hp
    exact ⟨by norm_num, by norm_num, by norm_num⟩
  ⟨by decide, by norm_num, by norm_num, by norm_num, by norm_num, by decide, by norm_num, h8,
    pre_sieve_cross_off_live 0 240 10 4 240 [11] ⟨0, List.replicate 8 0, List.replicate 4 ⟨0, 0⟩⟩
      (by decide) (by norm_num) (by norm_num) (by norm_num) (by norm_num) (by decide)
      (by norm_num) h8⟩

set_option maxRecDepth 100000 in
/-- C1, counterexample: after `pre_sieve(3, 0, 480)` and the sequence `cross_off(4, 7)`,
`cross_off(4, 7)` the integer 17 of `[0, 480)` is coprime to 2, 3, 5 and 7, yet its bit is
not live: the second call resumes from the wheel entry saved for the next segment. -/
theorem pre_sieve_cross_off_twice :
    twice_crossed.map (fun st => is_live st 17) = some false
      ∧ 0 ≤ 17 ∧ 17 < 480
      ∧ (∀ i, 1 ≤ i → i ≤ 3 → Nat.Coprime 17 (sieve_primes.getD i 0)) ∧ Nat.Coprime 17 7 := by
  refine ⟨by decide, by norm_num, by norm_num, ?_, by norm_num⟩
  intro i h1 h3
  interval_cases i <;> decide

/-- C2: for a sieve with `start` divisible by 30 and fewer than `2^32` bytes, and a prime
`p ≥ 7` below `2^32` (with `start + 6p < 2^64`) whose wheel entry `i` is created by this call,
`cross_off(i, p)` returns, keeps the length of the byte array, and afterwards a bit is live
exactly when it was live before and the integer it represents is not a multiple of `p`. -/
theorem cross_off_clears_multiples (st : Sieve) (i p : Nat) (hstart : st.start_ % 30 = 0)
    (hp : p.Prime) (hp7 : 7 ≤ p) (hp32 : p < 2 ^ 32) (h64 : st.start_ + 6 * p < 2 ^ 64)
    (hi : i = st.wheel_.length) (hlen : st.sieve_.length < 2 ^ 32) :
    ∃ cnt st2, cross_off st i p = some (cnt, st2) ∧ st2.start_ = st.start_
      ∧ st2.sieve_.length = st.sieve_.length
      ∧ ∀ j, (live_bit st2.sieve_ j = true
          ↔ live_bit st.sieve_ j = true ∧ ¬ p ∣ st.start_ + word_offset j) := by
  obtain ⟨cnt, st2, h1, h2, h3, _, h5⟩ := cross_off_prime st i p hstart hp hp7 hp32 h64 hi hlen
  exact ⟨cnt, st2, h1, h2, h3, h5⟩

/-- C2, witness: `cross_off(4, 7)` on a full sieve of 8 bytes starting at 30. -/
theorem cross_off_clears_multiples_witness :
    30 % 30 = 0 ∧ Nat.Prime 7 ∧ 7 ≤ 7 ∧ 7 < 2 ^ 32 ∧ 30 + 6 * 7 < 2 ^ 64
      ∧ 4 = (List.replicate 4 (⟨0, 0⟩ : Wheel)).length ∧ (List.replicate 8 255).length < 2 ^ 32
      ∧ ∃ cnt st2, cross_off ⟨30, List.replicate 8 255, List.replicate 4 ⟨0, 0⟩⟩ 4 7
            = some (cnt, st2) ∧ st2.start_ = 30
        ∧ st2.sieve_.length = (List.replicate 8 255).length
        ∧ ∀ j, (live_bit st2.sieve_ j = true
            ↔ live_bit (List.replicate 8 255) j = true ∧ ¬ 7 ∣ 30 + word_offset j) :=
  ⟨by norm_num, by norm_num, by norm_num, by norm_num, by norm_num, by decide, by decide,
    cross_off_clears_multiples ⟨30, List.replicate 8 255, List.replicate 4 ⟨0, 0⟩⟩ 4 7
      (by norm_num) (by norm_num) (by norm_num) (by norm_num) (by norm_num) (by decide)
      (by decide)⟩

/-- C3: for every sieve state and every call `cross_off(i, p)` that the source can execute
(`i ≤ wheel_.size()`, `p > 0`), the call returns, and the returned count plus the number of
1 bits after the call is the number of 1 bits before it. -/
theorem cross_off_count (st : Sieve) (i p : Nat) (hi : i ≤ st.wheel_.length) (hp : 0 < p) :
    ∃ cnt st2, cross_off st i p = some (cnt, st2)
      ∧ cnt + popcount_bytes st2.sieve_ = popcount_bytes st.sieve_ :=
  cross_off_count_aux st i p hi hp

/-- C3, witness: `cross_off(4, 7)` on a sieve of 8 bytes with some bits already dead. -/
theorem cross_off_count_witness :
    4 ≤ (List.replicate 4 (⟨0, 0⟩ : Wheel)).length ∧ 0 < 7
      ∧ ∃ cnt st2, cross_off ⟨0, [253, 0, 255, 17, 255, 255, 1, 255], List.replicate 4 ⟨0, 0⟩⟩ 4 7
            = some (cnt, st2)
        ∧ cnt + popcount_bytes st2.sieve_ = popcount_bytes [253, 0, 255, 17, 255, 255, 1, 255] :=
  ⟨by decide, by norm_num,
    cross_off_count ⟨0, [253, 0, 255, 17, 255, 255, 1, 255], List.replicate 4 ⟨0, 0⟩⟩ 4 7
      (by decide) (by norm_num)⟩

/-- C9: for every sieve state (the byte array a whole number of 64-bit words) and every
`start ≤ stop < segment_size()`, `count(start, stop)` is the number of live bits whose
represented offset lies in `[start, stop]`; and `count` returns 0 whenever `start > stop`. -/
theorem count_live_bits (st : Sieve) (start stop : Nat) (hlen : st.sieve_.length % 8 = 0) :
    (start ≤ stop → stop < segment_size st → count st start stop = live_count st.sieve_ start stop)
      ∧ (stop < start → count st start stop = 0) := by
  constructor
  · intro h1 h2
    exact count_eq_live_count st start stop hlen h1 h2
  · intro h
    unfold count
    rw [if_pos h]

/-- C9, witness: a sieve of 16 bytes, `count(10, 300)` and `count(5, 4)`. -/
theorem count_live_bits_witness :
    (List.replicate 16 255).length % 8 = 0
      ∧ (10 ≤ 300 → 300 < segment_size ⟨0, List.replicate 16 255, []⟩ →
          count ⟨0, List.replicate 16 255, []⟩ 10 300 = live_count (List.replicate 16 255) 10 300)
      ∧ (4 < 5 → count ⟨0, List.replicate 16 255, []⟩ 5 4 = 0) :=
  ⟨by decide, count_live_bits ⟨0, List.replicate 16 255, []⟩ 10 300 (by decide) |>.1,
    count_live_bits ⟨0, List.replicate 16 255, []⟩ 5 4 (by decide) |>.2⟩

/-- C10: for every sieve state (the byte array a whole number of 64-bit words) and all
`a ≤ b < c < segment_size()`, `count(a, b) + count(b + 1, c) = count(a, c)`. -/
theorem count_additive (st : Sieve) (a b c : Nat) (hlen : st.sieve_.length % 8 = 0)
    (hab : a ≤ b) (hbc : b < c) (hc : c < segment_size st) :
    count st a b + count st (b + 1) c = count st a c := by
  rw [count_eq_live_count st a b hlen hab (by omega),
    count_eq_live_count st (b + 1) c hlen (by omega) hc,
    count_eq_live_count st a c hlen (by omega) hc]
  exact live_count_split st.sieve_ a b c hab hbc

/-- C10, witness: a sieve of 16 bytes and `a = 3`, `b = 200`, `c = 470`. -/
theorem count_additive_witness :
    (List.replicate 16 255).length % 8 = 0 ∧ 3 ≤ 200 ∧ 200 < 470
      ∧ 470 < segment_size ⟨0, List.replicate 16 255, []⟩
      ∧ count ⟨0, List.replicate 16 255, []⟩ 3 200 + count ⟨0, List.replicate 16 255, []⟩ (200 + 1) 470
          = count ⟨0, List.replicate 16 255, []⟩ 3 470 :=
  ⟨by decide, by norm_num, by norm_num, by decide,
    count_additive ⟨0, List.replicate 16 255, []⟩ 3 200 470 (by decide) (by norm_num) (by norm_num)
      (by decide)⟩

/-! ## The claims about `PhiCache`, `phi_vector` and `pi_lehmer` -/

theorem cache_ok_empty : cache_ok empty_cache := by
  intro a x h
  exfalso
  apply h
  unfold empty_cache
  have : (List.replicate MAX_A ([] : List Nat)).getD a [] = [] := by
    simp only [List.getD_eq_getElem?_getD, List.getElem?_replicate]
    split_ifs <;> rfl
  rw [this]
  rfl

theorem phi_spec_zero_right (x : Nat) : phi_spec x 0 = x := by
  unfold phi_spec
  rw [Finset.filter_true_of_mem]
  · simp
  · intro n hn
    have h1 := (Finset.mem_Icc.mp hn).1
    rw [is_rough_iff 0 n h1]
    intro q hq _
    have := Nat.monotone_primeCounting hq.two_le
    have h2 : Nat.primeCounting 2 = 1 := by decide
    omega

theorem ref_tiny_ok : tiny_ok ref_tiny :=
  ⟨fun _ _ _ => rfl, fun _ => ⟨min_le_left _ _, min_le_right _ _⟩⟩

set_option maxRecDepth 100000 in
theorem ref_primes_ok : primes_ok ref_primes 21 := by
  refine ⟨by decide, by decide, ?_⟩
  intro i h1 h2
  interval_cases i <;> exact ⟨by norm_num [ref_primes], by decide⟩

theorem ref_pi_ok : pi_ok ref_pi := by
  intro n hn
  unfold ref_pi at hn ⊢
  simp only [List.length_map, List.length_range] at hn
  simp [List.getD_eq_getElem?_getD, List.getElem?_map, List.getElem?_range hn]

/-- C4, as amended: for all `1 ≤ x ≤ 10^4` and `0 ≤ a ≤ 20`, with `primes` the true 1-based
prime list (`primes[0] = 0`, indices up to 21), `pi` the true prime-counting table with more
than 100 entries and PhiTiny meeting its contract, `PhiCache::phi<+1>(x, a)` called on an empty
cache returns `phi(x, a)`. -/
theorem phi_cache_correct (tiny : PhiTiny) (primes pi : List Nat) (x a : Nat)
    (htiny : tiny_ok tiny) (hprimes : primes_ok primes 21) (hpi : pi_ok pi)
    (hpilen : 100 < pi.length) (hx1 : 1 ≤ x) (hx : x ≤ 10 ^ 4) (ha : a ≤ 20) :
    ∃ cache2, phi_call tiny primes pi empty_cache 1 x a = some ((phi_spec x a : Int), cache2) := by
  have hsq : Nat.sqrt x < 101 := Nat.sqrt_lt'.mpr (by omega)
  obtain ⟨cache2, h, _⟩ := phi_correct tiny primes pi 21 htiny hprimes hpi (a + 1) empty_cache 1
    x a (by omega) (by omega) hx1 (by omega) (Or.inl rfl) cache_ok_empty
  exact ⟨cache2, by rw [phi_call, h, one_mul]⟩

/-- C4, witness: `x = 100`, `a = 10` with the reference tables. -/
theorem phi_cache_correct_witness :
    tiny_ok ref_tiny ∧ primes_ok ref_primes 21 ∧ pi_ok ref_pi ∧ 100 < ref_pi.length
      ∧ 1 ≤ 100 ∧ 100 ≤ 10 ^ 4 ∧ 10 ≤ 20
      ∧ ∃ cache2, phi_call ref_tiny ref_primes ref_pi empty_cache 1 100 10
          = some ((phi_spec 100 10 : Int), cache2) :=
  ⟨ref_tiny_ok, ref_primes_ok, ref_pi_ok, by decide, by norm_num, by norm_num, by norm_num,
    phi_cache_correct ref_tiny ref_primes ref_pi 100 10 ref_tiny_ok ref_primes_ok ref_pi_ok
      (by decide) (by norm_num) (by norm_num) (by norm_num)⟩

/-- C4, counterexample: at `x = 0`, `a = 1` the call on an empty cache returns `SIGN = 1`
(the branch `x <= prime(a)`), while `phi(0, 1) = 0`. -/
theorem phi_cache_zero :
    (phi_call ref_tiny ref_primes ref_pi empty_cache 1 0 1).map Prod.fst = some 1
      ∧ phi_spec 0 1 = 0 := by
  constructor
  · decide
  · decide

/-- C5, the code at the failing input `x = 100`, `a = 3`: `phi_vector` returns
`[-1, -1, -1, -1]`, so `v[1] = -1`, while `phi(100, 0) = 100`. -/
theorem phi_vector_small_a :
    phi_vector ref_tiny ref_primes ref_pi 100 3 = some [-1, -1, -1, -1]
      ∧ phi_spec 100 (1 - 1) = 100 := by
  constructor
  · decide
  · exact phi_spec_zero_right 100

/-- C8: for every `x`, `pi_lehmer(x, threads)` is the number of primes `≤ x` (0 when
`x < 2`), provided `pi_meissel(y) = π(y)`, `phi(x, a)` is the `phi` of the glossary, and
`P2_lehmer(x, a)` and `P3(x, a)` count the integers `≤ x` that are products of exactly two,
respectively three, primes all greater than the `a`-th prime. -/
theorem pi_lehmer_correct (pi_meissel : Int → Int → Int) (phi P2_lehmer P3 : Int → Int → Int → Int)
    (x threads : Int)
    (hm : ∀ y : Nat, pi_meissel y 1 = Nat.primeCounting y)
    (hphi : ∀ (n a : Nat) (t : Int), phi n a t = phi_spec n a)
    (hP2 : ∀ (n a : Nat) (t : Int), P2_lehmer n a t = pk_spec 2 n a)
    (hP3 : ∀ (n a : Nat) (t : Int), P3 n a t = pk_spec 3 n a) :
    pi_lehmer pi_meissel phi P2_lehmer P3 x threads = Nat.primeCounting x.toNat
      ∧ (x < 2 → pi_lehmer pi_meissel phi P2_lehmer P3 x threads = 0) := by
  unfold pi_lehmer
  by_cases hx : x < 2
  · rw [if_pos hx]
    refine ⟨?_, fun _ => rfl⟩
    have h01 : x.toNat = 0 ∨ x.toNat = 1 := by omega
    rcases h01 with h | h <;> rw [h] <;> decide
  · rw [if_neg hx]
    refine ⟨?_, fun h => absurd h hx⟩
    obtain ⟨n, rfl⟩ := Int.eq_ofNat_of_zero_le (show 0 ≤ x by omega)
    have hn : 2 ≤ n := by omega
    simp only [iroot4, Int.toNat_ofNat, hm, hphi, hP2, hP3]
    have hL := lehmer_formula n hn
    have hmono : Nat.primeCounting (Nat.sqrt (Nat.sqrt n)) ≤ Nat.primeCounting n :=
      Nat.monotone_primeCounting (iroot4_spec n).1
    rw [hL]
    push_cast [Nat.cast_sub hmono]
    ring

/-- C8, witness: `x = 100` with the counts of the glossary as collaborators. -/
theorem pi_lehmer_correct_witness :
    (∀ y : Nat, (fun (y _ : Int) => (Nat.primeCounting y.toNat : Int)) y 1 = Nat.primeCounting y)
      ∧ (∀ (n a : Nat) (t : Int),
          (fun (n a _ : Int) => (phi_spec n.toNat a.toNat : Int)) n a t = phi_spec n a)
      ∧ (∀ (n a : Nat) (t : Int),
          (fun (n a _ : Int) => (pk_spec 2 n.toNat a.toNat : Int)) n a t = pk_spec 2 n a)
      ∧ (∀ (n a : Nat) (t : Int),
          (fun (n a _ : Int) => (pk_spec 3 n.toNat a.toNat : Int)) n a t = pk_spec 3 n a)
      ∧ (pi_lehmer (fun (y _ : Int) => (Nat.primeCounting y.toNat : Int))
            (fun (n a _ : Int) => (phi_spec n.toNat a.toNat : Int))
            (fun (n a _ : Int) => (pk_spec 2 n.toNat a.toNat : Int))
            (fun (n a _ : Int) => (pk_spec 3 n.toNat a.toNat : Int)) 100 1
          = Nat.primeCounting (100 : Int).toNat
        ∧ ((100 : Int) < 2 →
            pi_lehmer (fun (y _ : Int) => (Nat.primeCounting y.toNat : Int))
              (fun (n a _ : Int) => (phi_spec n.toNat a.toNat : Int))
              (fun (n a _ : Int) => (pk_spec 2 n.toNat a.toNat : Int))
              (fun (n a _ : Int) => (pk_spec 3 n.toNat a.toNat : Int)) 100 1 = 0)) :=
  ⟨fun _ => by simp, fun _ _ _ => by simp, fun _ _ _ => by simp, fun _ _ _ => by simp,
    pi_lehmer_correct _ _ _ _ 100 1 (fun _ => by simp) (fun _ _ _ => by simp)
      (fun _ _ _ => by simp) (fun _ _ _ => by simp)⟩

/-! ## The claims about `S2_sieve` -/

theorem primes_ok_mono (primes : List Nat) (N M : Nat) (hM : M ≤ N) (h : primes_ok primes N) :
    primes_ok primes M :=
  ⟨by have := h.1; omega, h.2.1, fun i h1 h2 => h.2.2 i h1 (by omega)⟩

theorem ref_factors_ok : factors_ok ref_factors := by
  refine ⟨fun i j hij => ?_, le_refl _, fun n hn => ?_⟩
  · show i + 1 < j + 1
    omega
  · show n - 1 + 1 ≤ n ∧ n < n - 1 + 1 + 1
    omega

theorem ref_factors_lpf_ok : factors_lpf_ok ref_factors := by
  intro m hm
  have hm1 : 1 ≤ m := by
    have : 1 < m + 1 := hm
    omega
  show ([65535, 2, 3, 2, 5, 2, 7, 2, 3, 2, 11, 2, 13, 2, 3, 2, 17, 2, 19, 2] : List Nat).getD m 0
    ≤ m + 1
  by_cases h : m < 20
  · interval_cases m <;> decide
  · rw [List.getD_eq_default _ _ (by simp only [List.length_cons, List.length_nil]; omega)]
    omega

theorem ref_tables_ok (y : Nat) (hy : y ≤ 78) : s2_tables_ok y ref_pi ref_primes ref_factors := by
  refine ⟨?_, ref_pi_ok, primes_ok_mono ref_primes 21 _ ?_ ref_primes_ok, ref_factors_ok⟩
  · simp only [ref_pi, List.length_map, List.length_range]
    omega
  · have h78 : Nat.primeCounting 78 = 21 := by decide
    have := Nat.monotone_primeCounting hy
    omega

/-- C6, as amended: for `c ≥ 1`, with `pi` the prime-counting table up to `y`, `primes` the
list of the primes up to the index `π(y)`, `factors` within the contract of FactorTable and
positive segment sizes, `S2_sieve` returns; for every special leaf `n = primes[b] * m` it
evaluates, the value used for it (the carried `phi_total[b]` plus the worker's `phi[b]`
plus `cnt_query(counters, x / n - low)`) is `phi(x / n, b - 1)`, the number of the integers
in `[1, x / n]` not divisible by any of the first `b - 1` primes; and the value returned is
the sum over the evaluated leaves of `-mu * phi(x / n, b - 1)`. -/
theorem S2_sieve_leaf_values (x y z c : Nat) (pi primes : List Nat) (factors : FactorTable)
    (threads mss : Nat) (balance : Nat → Nat × Nat) (hc : 1 ≤ c) (hy : y < pi.length)
    (hpi : pi_ok pi) (hpr : primes_ok primes (Nat.primeCounting y))
    (hfac : factors_ok factors) (hmss : 1 ≤ mss) (hbal : ∀ k, 1 ≤ (balance k).1) :
    ∃ st, S2_sieve x y z c pi primes factors threads mss balance = some st
      ∧ (∀ e ∈ st.leaves, e.value = (phi_spec e.xn (e.b - 1) : Int))
      ∧ st.s2 = (st.leaves.map (fun e => -e.mu * (phi_spec e.xn (e.b - 1) : Int))).sum := by
  obtain ⟨st, e, h1, h2⟩ := S2_sieve_spec x y z c pi primes factors threads mss balance
    ⟨hy, hpi, hpr, hfac⟩ hmss hbal
  have hv : ∀ e ∈ st.leaves, e.value = (phi_spec e.xn (e.b - 1) : Int) := by
    intro e he
    obtain ⟨g1, g2⟩ := h2 e he
    rw [g2]
    have : sieve_level (e.b - 1) = e.b - 1 := by unfold sieve_level; omega
    rw [this]
  refine ⟨st, e, hv, ?_⟩
  rw [h1]
  unfold leaf_sum
  congr 1
  apply List.map_congr_left
  intro e he
  rw [hv e he]

/-- C6, witness: `x = 100`, `y = 5`, `z = 20`, `c = 1` with the reference tables, 3 threads
and growing segment sizes. -/
theorem S2_sieve_leaf_values_witness :
    1 ≤ 1 ∧ 5 < ref_pi.length ∧ pi_ok ref_pi ∧ primes_ok ref_primes (Nat.primeCounting 5)
      ∧ factors_ok ref_factors ∧ 1 ≤ 7 ∧ (∀ k, 1 ≤ ((fun k => (7 + k, 2)) k : Nat × Nat).1)
      ∧ ∃ st, S2_sieve 100 5 20 1 ref_pi ref_primes ref_factors 3 7 (fun k => (7 + k, 2))
          = some st
        ∧ (∀ e ∈ st.leaves, e.value = (phi_spec e.xn (e.b - 1) : Int))
        ∧ st.s2
          = (st.leaves.map (fun e => -e.mu * (phi_spec e.xn (e.b - 1) : Int))).sum :=
  ⟨le_refl _, (ref_tables_ok 5 (by norm_num)).1, ref_pi_ok, (ref_tables_ok 5 (by norm_num)).2.2.1,
    ref_factors_ok, by norm_num, fun k => Nat.le_add_right_of_le (by norm_num),
    S2_sieve_leaf_values 100 5 20 1 ref_pi ref_primes ref_factors 3 7 (fun k => (7 + k, 2))
      (le_refl _) (ref_tables_ok 5 (by norm_num)).1 ref_pi_ok
      (ref_tables_ok 5 (by norm_num)).2.2.1 ref_factors_ok (by norm_num)
      (fun k => Nat.le_add_right_of_le (by norm_num))⟩

set_option maxRecDepth 100000 in
/-- C6, counterexample: at `c = 0` (`x = 20`, `y = 4`, `z = 5`, one thread, segments of 5)
the leaf `n = primes[1] * 3 = 6` is evaluated with the value 2, the number of the odd
integers in `[1, 3]`, while `phi(20 / 6, 1 - 1) = phi(3, 0) = 3`: a filled segment holds the
odd numbers only. -/
theorem S2_sieve_leaf_c_zero :
    S2_sieve 20 4 5 0 ref_pi ref_primes ref_factors 1 5 (fun _ => (5, 1))
        = some ⟨2, [0, 3], [⟨1, -1, 3, 2⟩]⟩
      ∧ 20 / (ref_primes.getD 1 0 * ref_factors.get_number 2) = 3
      ∧ phi_spec 3 (1 - 1) = 3 := by
  refine ⟨by decide, by decide, by decide⟩

/-- C7: for fixed `x, y, z, c` and tables within their contracts (`pi` the prime-counting
table up to `y`, `primes` the list of the primes up to the index `π(y)`, `factors` within
the contract of FactorTable), `S2_sieve` returns the same value for every number of
threads and every schedule of segment sizes and segments per thread (sizes `≥ 1`): the
value is the sum of `-mu * phi(x / n, b - 1)` over all the special leaves with the
quotient in `[1, z]`, in which no schedule appears. In particular the workers of a pass
with the carry-over give what one worker gives on the union of their ranges. -/
theorem S2_sieve_schedule_independent (x y z c : Nat) (pi primes : List Nat)
    (factors : FactorTable) (threads1 mss1 : Nat) (balance1 : Nat → Nat × Nat)
    (threads2 mss2 : Nat) (balance2 : Nat → Nat × Nat) (hy : y < pi.length) (hpi : pi_ok pi)
    (hpr : primes_ok primes (Nat.primeCounting y)) (hfac : factors_ok factors)
    (hlpf : factors_lpf_ok factors) (hmss1 : 1 ≤ mss1) (hbal1 : ∀ k, 1 ≤ (balance1 k).1)
    (hmss2 : 1 ≤ mss2) (hbal2 : ∀ k, 1 ≤ (balance2 k).1) :
    ∃ st1 st2, S2_sieve x y z c pi primes factors threads1 mss1 balance1 = some st1
      ∧ S2_sieve x y z c pi primes factors threads2 mss2 balance2 = some st2
      ∧ st1.s2 = st2.s2
      ∧ st1.s2 = total_sum x y z c pi primes factors 1 (z + 1) := by
  obtain ⟨st1, e1, h1⟩ := S2_sieve_value x y z c pi primes factors threads1 mss1 balance1
    ⟨hy, hpi, hpr, hfac⟩ hlpf hmss1 hbal1
  obtain ⟨st2, e2, h2⟩ := S2_sieve_value x y z c pi primes factors threads2 mss2 balance2
    ⟨hy, hpi, hpr, hfac⟩ hlpf hmss2 hbal2
  exact ⟨st1, st2, e1, e2, by rw [h1, h2], h1⟩

/-- C7, witness: `x = 1000`, `y = 10`, `z = 100`, `c = 1` with the reference tables: 4
threads with growing segments against 1 thread with segments of 50. -/
theorem S2_sieve_schedule_independent_witness :
    10 < ref_pi.length ∧ pi_ok ref_pi ∧ primes_ok ref_primes (Nat.primeCounting 10)
      ∧ factors_ok ref_factors ∧ factors_lpf_ok ref_factors
      ∧ 1 ≤ 7 ∧ (∀ k, 1 ≤ ((fun k => (7 + k, 1 + k)) k : Nat × Nat).1)
      ∧ 1 ≤ 50 ∧ (∀ k : Nat, 1 ≤ ((fun (_ : Nat) => ((50, 1) : Nat × Nat)) k).1)
      ∧ ∃ st1 st2,
        S2_sieve 1000 10 100 1 ref_pi ref_primes ref_factors 4 7 (fun k => (7 + k, 1 + k))
            = some st1
          ∧ S2_sieve 1000 10 100 1 ref_pi ref_primes ref_factors 1 50 (fun _ => (50, 1))
            = some st2
          ∧ st1.s2 = st2.s2
          ∧ st1.s2 = total_sum 1000 10 100 1 ref_pi ref_primes ref_factors 1 (100 + 1) :=
  ⟨(ref_tables_ok 10 (by norm_num)).1, ref_pi_ok, (ref_tables_ok 10 (by norm_num)).2.2.1,
    ref_factors_ok, ref_factors_lpf_ok, by norm_num,
    fun k => Nat.le_add_right_of_le (by norm_num), by norm_num, fun _ => by norm_num,
    S2_sieve_schedule_independent 1000 10 100 1 ref_pi ref_primes ref_factors 4 7
      (fun k => (7 + k, 1 + k)) 1 50 (fun _ => (50, 1)) (ref_tables_ok 10 (by norm_num)).1
      ref_pi_ok (ref_tables_ok 10 (by norm_num)).2.2.1 ref_factors_ok ref_factors_lpf_ok
      (by norm_num) (fun k => Nat.le_add_right_of_le (by norm_num)) (by norm_num)
      (fun _ => by norm_num)⟩

/-! ### The size of the byte array -/

theorem get_segment_size_multiple (size : Nat) (h : size % 240 = 0) :
    get_segment_size size = max 240 size := by
  unfold get_segment_size
  have : max 240 size % 240 = 0 := by
    rcases le_total 240 size with h1 | h1
    · rw [max_eq_right h1]; exact h
    · rw [max_eq_left h1]
  simp only [this, ne_eq, not_true_eq_false, if_false]

/-- The function `get_segment_size` rounds `max(240, size)` up to a multiple of 240, as
long as the result fits in 64 bits. -/
theorem get_segment_size_spec (size : Nat) (h : size ≤ 2 ^ 64 - 16) :
    get_segment_size size % 240 = 0 ∧ max 240 size ≤ get_segment_size size
      ∧ get_segment_size size < max 240 size + 240 ∧ get_segment_size size ≤ 2 ^ 64 - 16 := by
  unfold get_segment_size
  have hm : max 240 size ≤ 2 ^ 64 - 16 := max_le (by norm_num) h
  have hm2 : 240 ≤ max 240 size := le_max_left _ _
  generalize max 240 size = s at hm hm2
  simp only
  split_ifs with hr
  · have hlt : s + (240 - s % 240) < 2 ^ 64 := by omega
    rw [Nat.mod_eq_of_lt hlt]
    omega
  · omega

theorem resize_length (bytes : List Nat) (n : Nat) : (resize bytes n).length = n := by
  unfold resize
  simp
  omega

theorem set_sieve_size_length (st : Sieve) (size : Nat) :
    (set_sieve_size st size).sieve_.length = get_segment_size size / 30 := by
  unfold set_sieve_size
  simp only
  exact resize_length _ _

/-! ### The sign of `PhiCache::phi` -/

theorem update_cache_neg (cache : List (List Nat)) (x a : Nat) (sum : Int) :
    update_cache cache x a (-sum) = update_cache cache x a sum := by
  unfold update_cache
  rw [Int.natAbs_neg]

theorem phi_step_neg (primes pi : List Nat)
    (recur : List (List Nat) → Int → Nat → Nat → Option (Int × List (List Nat)))
    (hrec : ∀ cache s x a, recur cache (-s) x a = (recur cache s x a).map (fun r => (-r.1, r.2)))
    (sign : Int) (x : Nat) (acc : Option (Int × List (List Nat))) (i : Nat) :
    phi_step primes pi recur (-sign) x (acc.map (fun r => (-r.1, r.2))) i
      = (phi_step primes pi recur sign x acc i).map (fun r => (-r.1, r.2)) := by
  cases acc with
  | none => rfl
  | some r =>
    obtain ⟨sum, cache1⟩ := r
    simp only [Option.map_some', phi_step]
    by_cases h0 : primes.getD (i + 1) 0 = 0
    · rw [if_pos h0, if_pos h0]
      rfl
    · rw [if_neg h0, if_neg h0]
      by_cases hp : is_pix primes pi (x / primes.getD (i + 1) 0) i = true
      · rw [if_pos hp, if_pos hp]
        simp only [Option.map_some', Option.some.injEq, Prod.mk.injEq, and_true]
        ring
      · rw [if_neg hp, if_neg hp, neg_neg, hrec cache1 sign]
        cases recur cache1 sign (x / primes.getD (i + 1) 0) i with
        | none => rfl
        | some r2 =>
          obtain ⟨v, cache2⟩ := r2
          simp only [Option.map_some', Option.some.injEq, Prod.mk.injEq, and_true]
          ring

theorem phi_fold_neg (primes pi : List Nat)
    (recur : List (List Nat) → Int → Nat → Nat → Option (Int × List (List Nat)))
    (hrec : ∀ cache s x a, recur cache (-s) x a = (recur cache s x a).map (fun r => (-r.1, r.2)))
    (sign : Int) (x : Nat) (l : List Nat) :
    ∀ acc : Option (Int × List (List Nat)),
      l.foldl (phi_step primes pi recur (-sign) x) (acc.map (fun r => (-r.1, r.2)))
        = (l.foldl (phi_step primes pi recur sign x) acc).map (fun r => (-r.1, r.2)) := by
  induction l with
  | nil => intro acc; rfl
  | cons i l ih =>
    intro acc
    rw [List.foldl_cons, List.foldl_cons, phi_step_neg primes pi recur hrec, ih]

theorem phi_neg (tiny : PhiTiny) (primes pi : List Nat) :
    ∀ (fuel : Nat) (cache : List (List Nat)) (sign : Int) (x a : Nat),
      PhiCache.phi tiny primes pi fuel cache (-sign) x a
        = (PhiCache.phi tiny primes pi fuel cache sign x a).map (fun r => (-r.1, r.2)) := by
  intro fuel
  induction fuel with
  | zero => intro cache sign x a; rfl
  | succ fuel ih =>
    intro cache sign x a
    simp only [PhiCache.phi]
    by_cases h1 : x ≤ primes.getD a 0
    · rw [if_pos h1, if_pos h1]; rfl
    rw [if_neg h1, if_neg h1]
    by_cases h2 : a ≤ tiny.max_a
    · rw [if_pos h2, if_pos h2]
      simp only [Option.map_some', Option.some.injEq, Prod.mk.injEq, and_true]
      ring
    rw [if_neg h2, if_neg h2]
    by_cases h3 : is_pix primes pi x a = true
    · rw [if_pos h3, if_pos h3]
      simp only [Option.map_some', Option.some.injEq, Prod.mk.injEq, and_true]
      ring
    rw [if_neg h3, if_neg h3]
    by_cases h4 : is_cached cache x a = true
    · rw [if_pos h4, if_pos h4]
      simp only [Option.map_some', Option.some.injEq, Prod.mk.injEq, and_true]
      ring
    rw [if_neg h4, if_neg h4]
    generalize hps : (if Nat.sqrt x < pi.length ∧ Nat.sqrt x < primes.getD a 0
      then pi.getD (Nat.sqrt x) 0 else a) = ps
    have hsum : (some ((((ps : Int) - a) * -sign + (tiny.phi_tiny x (tiny.get_c (Nat.sqrt x)) : Int) * -sign, cache))
        : Option (Int × List (List Nat)))
        = (some ((((ps : Int) - a) * sign + (tiny.phi_tiny x (tiny.get_c (Nat.sqrt x)) : Int) * sign, cache))).map
            (fun r => (-r.1, r.2)) := by
      simp only [Option.map_some', Option.some.injEq, Prod.mk.injEq, and_true]
      ring
    rw [hsum, phi_fold_neg primes pi _ (ih) sign x]
    cases (List.range' (tiny.get_c (Nat.sqrt x)) (ps - tiny.get_c (Nat.sqrt x))).foldl
        (phi_step primes pi (PhiCache.phi tiny primes pi fuel) sign x)
        (some (((ps : Int) - a) * sign + (tiny.phi_tiny x (tiny.get_c (Nat.sqrt x)) : Int) * sign, cache)) with
    | none => rfl
    | some r =>
      obtain ⟨sum, cache3⟩ := r
      simp only [Option.map_some', update_cache_neg]

/-! ### The decimal output of a 128-bit number -/

theorem digit_loop_spec : ∀ (fuel n : Nat) (str : List Nat), (Nat.digits 10 n).length ≤ fuel →
    digit_loop fuel n str = some (str ++ (Nat.digits 10 n).map (fun d => 48 + d)) := by
  intro fuel
  induction fuel with
  | zero =>
    intro n str h
    have hn : n = 0 := by
      have := List.length_eq_zero.mp (Nat.le_zero.mp h)
      exact Nat.digits_eq_nil_iff_eq_zero.mp this
    subst hn
    simp [digit_loop]
  | succ fuel ih =>
    intro n str h
    unfold digit_loop
    by_cases hn : n > 0
    · rw [if_pos hn]
      have hd : Nat.digits 10 n = (n % 10) :: Nat.digits 10 (n / 10) :=
        Nat.digits_def' (by norm_num) hn
      rw [hd] at h ⊢
      simp only [List.length_cons] at h
      rw [ih (n / 10) _ (by omega)]
      have h256 : (48 + n % 10) % 256 = 48 + n % 10 := by omega
      rw [h256]
      simp
    · rw [if_neg hn]
      have : n = 0 := by omega
      subst this
      simp

theorem digits_128 (n : Nat) (hn : n < 2 ^ 128) : (Nat.digits 10 n).length ≤ 40 := by
  by_cases h0 : n = 0
  · subst h0
    simp
  · have h1 := Nat.base_pow_length_digits_le 10 n (by norm_num) h0
    by_contra hcon
    have h2 : 10 ^ 41 ≤ 10 ^ (Nat.digits 10 n).length :=
      Nat.pow_le_pow_right (by norm_num) (by omega)
    have h3 : (10 : Nat) * 2 ^ 128 < 10 ^ 41 := by norm_num
    omega

theorem decimal_value_digits (L : List Nat) :
    decimal_value ((L.map (fun d => 48 + d)).reverse) = Nat.ofDigits 10 L := by
  unfold decimal_value
  induction L with
  | nil => rfl
  | cons d L ih =>
    simp only [List.map_cons, List.reverse_cons, List.foldl_append, List.foldl_cons,
      List.foldl_nil, Nat.ofDigits_cons]
    rw [ih]
    omega

theorem ostream_u128_spec (n : Nat) (hn : n < 2 ^ 128) :
    ostream_u128 n = some (if n = 0 then [48]
      else ((Nat.digits 10 n).map (fun d => 48 + d)).reverse) := by
  unfold ostream_u128
  rw [Nat.mod_eq_of_lt hn, digit_loop_spec 40 n [] (digits_128 n hn)]
  simp only [List.nil_append]
  by_cases h0 : n = 0
  · subst h0
    simp
  · rw [if_neg h0]
    have hne : Nat.digits 10 n ≠ [] := fun h => h0 (Nat.digits_eq_nil_iff_eq_zero.mp h)
    have : ((Nat.digits 10 n).map (fun d => 48 + d)).isEmpty = false := by
      cases hd : Nat.digits 10 n with
      | nil => exact absurd hd hne
      | cons a l => rfl
    rw [this]
    simp

theorem ostream_u128_canonical_aux (n : Nat) (hn : n < 2 ^ 128) :
    ∃ s, ostream_u128 n = some s ∧ (n = 0 → s = [48])
      ∧ (0 < n → s = ((Nat.digits 10 n).map (fun d => 48 + d)).reverse ∧ s.head? ≠ some 48)
      ∧ (∀ c ∈ s, 48 ≤ c ∧ c ≤ 57) ∧ decimal_value s = n := by
  rw [ostream_u128_spec n hn]
  by_cases h0 : n = 0
  · subst h0
    refine ⟨[48], by simp, fun _ => rfl, fun h => absurd h (by omega), ?_, by decide⟩
    intro c hc
    simp only [List.mem_singleton] at hc
    omega
  · rw [if_neg h0]
    have hne : Nat.digits 10 n ≠ [] := fun h => h0 (Nat.digits_eq_nil_iff_eq_zero.mp h)
    refine ⟨_, rfl, fun h => absurd h h0, fun _ => ⟨rfl, ?_⟩, ?_, ?_⟩
    · have hlast := Nat.getLast_digit_ne_zero 10 h0
      rw [List.head?_reverse, List.getLast?_map, List.getLast?_eq_getLast _ hne]
      simp only [Option.map_some', ne_eq, Option.some.injEq]
      omega
    · intro c hc
      simp only [List.mem_reverse, List.mem_map] at hc
      obtain ⟨d, hd, rfl⟩ := hc
      have := Nat.digits_lt_base (by norm_num : 1 < 10) hd
      omega
    · rw [decimal_value_digits, Nat.ofDigits_digits]

/-! ### Sequences of calls on one cache -/

theorem phi_call_value (tiny : PhiTiny) (primes pi : List Nat) (N : Nat) (htiny : tiny_ok tiny)
    (hprimes : primes_ok primes N) (hpi : pi_ok pi) (cache : List (List Nat)) (sign : Int)
    (x a : Nat) (ha : a + 1 ≤ N) (hsq : Nat.sqrt x < pi.length) (hsign : sign = 1 ∨ sign = -1)
    (hc : cache_ok cache) :
    ∃ cache2, phi_call tiny primes pi cache sign x a
        = some (if x = 0 then sign else sign * (phi_spec x a : Int), cache2)
      ∧ cache_ok cache2 := by
  by_cases hx : x = 0
  · subst hx
    refine ⟨cache, ?_, hc⟩
    unfold phi_call PhiCache.phi
    rw [if_pos (Nat.zero_le _), if_pos rfl]
  · rw [if_neg hx]
    exact phi_correct tiny primes pi N htiny hprimes hpi (a + 1) cache sign x a (by omega) ha
      (by omega) hsq hsign hc

theorem phi_calls_spec (tiny : PhiTiny) (primes pi : List Nat) (N : Nat) (htiny : tiny_ok tiny)
    (hprimes : primes_ok primes N) (hpi : pi_ok pi) :
    ∀ (calls : List (Int × Nat × Nat)) (cache : List (List Nat)),
      (∀ c ∈ calls, (c.1 = 1 ∨ c.1 = -1) ∧ c.2.2 + 1 ≤ N ∧ Nat.sqrt c.2.1 < pi.length) →
      cache_ok cache →
      phi_calls tiny primes pi calls cache
        = some (calls.map (fun c => if c.2.1 = 0 then c.1 else c.1 * (phi_spec c.2.1 c.2.2 : Int))) := by
  intro calls
  induction calls with
  | nil => intro cache _ _; rfl
  | cons c rest ih =>
    intro cache hcalls hc
    obtain ⟨h1, h2, h3⟩ := hcalls c (List.mem_cons_self _ _)
    obtain ⟨cache2, hcall, hc2⟩ := phi_call_value tiny primes pi N htiny hprimes hpi cache c.1
      c.2.1 c.2.2 h2 h3 h1 hc
    unfold phi_calls
    rw [hcall]
    simp only
    rw [ih cache2 (fun c' hc' => hcalls c' (List.mem_cons_of_mem _ hc')) hc2]
    rfl

theorem phi_fresh_spec (tiny : PhiTiny) (primes pi : List Nat) (N : Nat) (htiny : tiny_ok tiny)
    (hprimes : primes_ok primes N) (hpi : pi_ok pi) :
    ∀ (calls : List (Int × Nat × Nat)),
      (∀ c ∈ calls, (c.1 = 1 ∨ c.1 = -1) ∧ c.2.2 + 1 ≤ N ∧ Nat.sqrt c.2.1 < pi.length) →
      phi_fresh tiny primes pi calls
        = some (calls.map (fun c => if c.2.1 = 0 then c.1 else c.1 * (phi_spec c.2.1 c.2.2 : Int))) := by
  intro calls
  induction calls with
  | nil => intro _; rfl
  | cons c rest ih =>
    intro hcalls
    obtain ⟨h1, h2, h3⟩ := hcalls c (List.mem_cons_self _ _)
    obtain ⟨cache2, hcall, hc2⟩ := phi_call_value tiny primes pi N htiny hprimes hpi empty_cache
      c.1 c.2.1 c.2.2 h2 h3 h1 cache_ok_empty
    unfold phi_fresh
    rw [hcall]
    simp only
    rw [ih (fun c' hc' => hcalls c' (List.mem_cons_of_mem _ hc'))]
    rfl

/-! ### The crossing-off stays inside the segment -/

theorem cum_bounds (c j : Nat) (hc : c < 8) (hj : j < 8) :
    cum_factor c j ≤ 28 ∧ cum_carry c j ≤ cum_carry c 7 := by
  interval_cases c <;> interval_cases j <;> decide

theorem wheel_inv_lt (start p c s w n : Nat) (h : wheel_inv start p c s w n) :
    p * word_offset n < start + 30 * (s + 1) := by
  have hb := bit_offsets_bounds (case_bit w) (case_bit_lt w)
  have := h.2
  omega

theorem wheel_inv_unique (start p c s w n n' : Nat) (hp : 0 < p)
    (h : wheel_inv start p c s w n) (h' : wheel_inv start p c s w n') : n = n' := by
  have e : p * word_offset n = p * word_offset n' := by rw [← h.2, ← h'.2]
  exact word_offset_strictMono.injective (Nat.eq_of_mul_eq_mul_left hp e)

theorem cross_loop_inside (start p k c send : Nat) (hp : p = 30 * k + bit_offsets.getD c 0)
    (hc : c < 8) :
    ∀ (fuel : Nat) (bytes : List Nat) (cnt s n : Nat) (r : List Nat × Nat × Nat),
      n % 8 = 0 → wheel_inv start p c s (8 * c) n →
      cross_loop k send c fuel bytes cnt s = some r →
      ∃ n', n ≤ n' ∧ n' % 8 = 0 ∧ wheel_inv start p c r.2.2 (8 * c) n'
        ∧ ∀ m, n ≤ m → m < n' → p * word_offset m < start + 30 * send := by
  intro fuel
  induction fuel with
  | zero => intro bytes cnt s n r _ _ h; simp [cross_loop] at h
  | succ fuel ih =>
    intro bytes cnt s n r hn hinv h
    simp only [cross_loop] at h
    split_ifs at h with hg
    · have hinv2 := loop_iter_inv start p k c s n hp hc hn hinv
      obtain ⟨n', h1, h2, h3, h4⟩ := ih _ _ _ (n + 8) r (by omega) hinv2 h
      refine ⟨n', by omega, h2, h3, ?_⟩
      intro m hm1 hm2
      by_cases hm : m < n + 8
      · have hiter := wheel_inv_iter start p k c s n hp hc hn hinv (m - n) (by omega)
        have e1 : n + (m - n) = m := by omega
        rw [e1] at hiter
        have hlt := wheel_inv_lt _ _ _ _ _ _ hiter
        obtain ⟨b1, b2⟩ := cum_bounds c (m - n) hc (by omega)
        rw [(loop_row_eq c hc).1] at hg
        simp only at hg
        have : k * cum_factor c (m - n) ≤ k * 28 := Nat.mul_le_mul_left _ b1
        omega
      · exact h4 m (by omega) hm2
    · cases h
      exact ⟨n, le_refl _, hn, hinv, fun m h1 h2 => by omega⟩

theorem cross_run_inside (start p k c send : Nat) (hp : p = 30 * k + bit_offsets.getD c 0)
    (hc : c < 8) :
    ∀ (fuel : Nat) (bytes : List Nat) (cnt s w n : Nat) (r : List Nat × Nat × Nat × Nat),
      wheel_inv start p c s w n → s < send →
      cross_run k send fuel bytes cnt s w = some r →
      ∃ n', n < n' ∧ wheel_inv start p c r.2.2.1 r.2.2.2 n'
        ∧ ∀ m, n ≤ m → m < n' → p * word_offset m < start + 30 * send := by
  intro fuel
  induction fuel with
  | zero => intro bytes cnt s w n r _ _ h; simp [cross_run] at h
  | succ fuel ih =>
    intro bytes cnt s w n r hinv hs h
    have hstep := wheel_inv_step start p k c s w n hp hc hinv
    have hw := hinv.1
    have hfirst : p * word_offset n < start + 30 * send := by
      have := wheel_inv_lt _ _ _ _ _ _ hinv
      omega
    simp only [cross_run] at h
    change (if w % 8 = 7 then _ else _) = some r at h
    split_ifs at h with h7 hs1
    · have e7 : 8 * c + (n + 1) % 8 = w - 7 := by omega
      have e8 : w - 7 = 8 * c := by omega
      have e9 : w / 8 = c := by omega
      rw [e7, e8] at hstep
      rw [e9] at h
      split at h
      · cases h
      · rename_i bytes2 cnt2 s2 hloop
        obtain ⟨n1, h1, h2, h3, h4⟩ := cross_loop_inside start p k c send hp hc _ _ _ _ (n + 1) _
          (by omega) hstep hloop
        simp only at h3 h4
        split_ifs at h with hs2
        · cases h
          refine ⟨n1, by omega, by rw [e8]; exact h3, ?_⟩
          intro m hm1 hm2
          by_cases hm : m = n
          · subst hm; exact hfirst
          · exact h4 m (by omega) hm2
        · rw [e8] at h
          obtain ⟨n2, g1, g2, g4⟩ := ih _ _ _ _ n1 r h3 (by omega) h
          refine ⟨n2, by omega, g2, ?_⟩
          intro m hm1 hm2
          by_cases hm : m = n
          · subst hm; exact hfirst
          · by_cases hm' : m < n1
            · exact h4 m (by omega) hm'
            · exact g4 m (by omega) hm2
    · cases h
      have e7 : 8 * c + (n + 1) % 8 = w + 1 := by omega
      rw [e7] at hstep
      refine ⟨n + 1, by omega, hstep, ?_⟩
      intro m hm1 hm2
      have : m = n := by omega
      subst this; exact hfirst
    · have e7 : 8 * c + (n + 1) % 8 = w + 1 := by omega
      rw [e7] at hstep
      obtain ⟨n2, g1, g2, g4⟩ := ih _ _ _ _ (n + 1) r hstep
        (by unfold case_factor case_carry; omega) h
      refine ⟨n2, by omega, g2, ?_⟩
      intro m hm1 hm2
      by_cases hm : m = n
      · subst hm; exact hfirst
      · exact g4 m (by omega) hm2

/-! ### One call of `cross_off` on the next segment -/

theorem coprime_30_iff (n : Nat) :
    Nat.Coprime n 30 ↔ n % 2 ≠ 0 ∧ n % 3 ≠ 0 ∧ n % 5 ≠ 0 := by
  have e : (30 : Nat) = 2 * (3 * 5) := by norm_num
  rw [e, Nat.coprime_mul_iff_right, Nat.coprime_mul_iff_right,
    coprime_prime_iff n 2 Nat.prime_two, coprime_prime_iff n 3 Nat.prime_three,
    coprime_prime_iff n 5 Nat.prime_five, Nat.dvd_iff_mod_eq_zero, Nat.dvd_iff_mod_eq_zero,
    Nat.dvd_iff_mod_eq_zero]

theorem class_coprime (p c : Nat) (hc : c < 8) (hpc : p % 30 = bit_offsets.getD c 0) :
    Nat.Coprime p 30 := by
  rw [coprime_30_iff]
  have e2 : p % 30 % 2 = p % 2 := Nat.mod_mod_of_dvd p (by norm_num)
  have e3 : p % 30 % 3 = p % 3 := Nat.mod_mod_of_dvd p (by norm_num)
  have e5 : p % 30 % 5 = p % 5 := Nat.mod_mod_of_dvd p (by norm_num)
  rw [← e2, ← e3, ← e5, hpc]
  interval_cases c <;> decide

theorem word_offset_coprime (n : Nat) : Nat.Coprime (word_offset n) 30 := by
  have h := (exists_bit_iff 0 (word_offset n) (by norm_num)).mp ⟨n, by omega⟩
  rw [coprime_30_iff]
  exact h.2

theorem wheel_ok_target (L p c : Nat) (wh : Wheel) (hL : L % 30 = 0) (hc : c < 8)
    (hpc : p % 30 = bit_offsets.getD c 0) (hok : wheel_ok L p c wh) :
    wh.index / 8 = c ∧ wh.index ≤ 63 ∧ p ∣ wheel_target L wh
      ∧ Nat.Coprime (wheel_target L wh) 30 ∧ L ≤ wheel_target L wh
      ∧ ∀ m', p ∣ m' → Nat.Coprime m' 30 → L ≤ m' → wheel_target L wh ≤ m' := by
  obtain ⟨n, hinv, hmin⟩ := hok
  have htar : wheel_target L wh = p * word_offset n := by
    unfold wheel_target
    have := hinv.2
    omega
  have hw := hinv.1
  refine ⟨by omega, by omega, ?_, ?_, ?_, ?_⟩
  · rw [htar]; exact Dvd.intro _ rfl
  · rw [htar]
    exact Nat.Coprime.mul (class_coprime p c hc hpc) (word_offset_coprime n)
  · unfold wheel_target; omega
  · intro m' hdvd hcop hle
    rw [coprime_30_iff] at hcop
    obtain ⟨j, hj⟩ := (exists_bit_iff L m' hL).mpr ⟨hle, hcop⟩
    rw [hj] at hdvd
    obtain ⟨m, hm1, hm2⟩ := (dvd_iff_word_offset L p c n hL hc hpc hmin j).mp hdvd
    rw [htar, hj, hm2]
    exact Nat.mul_le_mul_left _ (word_offset_strictMono.monotone hm1)

theorem word_offset_gap (n : Nat) : word_offset (n + 1) ≤ word_offset n + 6 := by
  rw [word_offset_succ]
  have : case_factor (n % 8) ≤ 6 := by
    have ht : n % 8 < 8 := Nat.mod_lt _ (by norm_num)
    generalize n % 8 = t at ht
    unfold case_factor
    interval_cases t <;> decide
  omega

theorem cross_off_wheel_step (st : Sieve) (i p c L : Nat) (wh : Wheel) (hL : L % 30 = 0)
    (hc : c < 8) (hpc : p % 30 = bit_offsets.getD c 0) (hp32 : p < 2 ^ 32)
    (hlen : st.sieve_.length < 2 ^ 32) (hget : st.wheel_.get? i = some wh)
    (hok : wheel_ok L p c wh) :
    ∃ cnt wh2 bytes, cross_off_wheel st i p
        = some (cnt, { st with sieve_ := bytes, wheel_ := st.wheel_.set i wh2 })
      ∧ bytes.length = st.sieve_.length ∧ wheel_ok (L + 30 * st.sieve_.length) p c wh2
      ∧ ∀ j, (live_bit bytes j = true
          ↔ live_bit st.sieve_ j = true ∧ ¬ p ∣ L + word_offset j) := by
  obtain ⟨n, hinv, hmin⟩ := hok
  have hdvd := dvd_iff_word_offset L p c n hL hc hpc hmin
  have hk : p = 30 * (p / 30) + bit_offsets.getD c 0 := by omega
  have hmono := word_offset_strictMono
  have hp0 : 0 < p := by
    have := bit_offsets_bounds c hc
    omega
  have hw := hinv.1
  unfold cross_off_wheel
  simp only [hget, Nat.mod_eq_of_lt hlen]
  split_ifs with h1 h2
  · refine ⟨0, ⟨wh.multiple - st.sieve_.length, wh.index⟩, st.sieve_, rfl, rfl, ?_, ?_⟩
    · refine ⟨n, ⟨hw, ?_⟩, fun m hm => le_trans (hmin m hm) (by omega)⟩
      have := hinv.2
      simp only
      omega
    · intro j
      constructor
      · intro hl
        refine ⟨hl, ?_⟩
        rw [hdvd j]
        rintro ⟨m, hm1, hm2⟩
        have hj := word_offset_lt_of_bit _ j (live_bit_lt _ _ hl)
        have hmm : word_offset n ≤ word_offset m := hmono.monotone hm1
        have : p * word_offset n ≤ p * word_offset m := Nat.mul_le_mul_left _ hmm
        have := hinv.2
        omega
      · rintro ⟨hl, _⟩; exact hl
  · obtain ⟨r, hr⟩ := cross_run_some (p / 30) st.sieve_.length
      (8 * (st.sieve_.length - wh.multiple) + 8) st.sieve_ 0 wh.multiple wh.index h2 (by omega)
      (by omega)
    obtain ⟨_, hlen2⟩ := cross_run_popcount _ _ _ _ _ _ _ r hr
    obtain ⟨n1, g1, g2, g3, g4⟩ := cross_run_spec L p (p / 30) c st.sieve_.length hk hc
      _ _ _ _ _ n r hinv hr
    obtain ⟨n1', f1, f2, f3⟩ := cross_run_inside L p (p / 30) c st.sieve_.length hk hc
      _ _ _ _ _ n r hinv (by omega) hr
    have hnn : n1 = n1' := wheel_inv_unique _ _ _ _ _ _ _ hp0 g2 f2
    subst hnn
    rw [hr]
    obtain ⟨b2, c2, s2, w2⟩ := r
    simp only at g2 g3 g4 f3 hlen2 ⊢
    -- the pointer difference fits in 32 bits
    have hlast := f3 (n1 - 1) (by omega) (by omega)
    have hgap := word_offset_gap (n1 - 1)
    have e1 : n1 - 1 + 1 = n1 := by omega
    rw [e1] at hgap
    have hmul : p * word_offset n1 ≤ p * word_offset (n1 - 1) + 6 * p := by
      calc p * word_offset n1 ≤ p * (word_offset (n1 - 1) + 6) := Nat.mul_le_mul_left _ hgap
        _ = p * word_offset (n1 - 1) + 6 * p := by ring
    have hs2 : s2 - st.sieve_.length < 2 ^ 32 := by
      have := g2.2
      omega
    have hdiff : ptr_diff32 s2 st.sieve_.length = s2 - st.sieve_.length := by
      unfold ptr_diff32
      have e : ((s2 : Int) - (st.sieve_.length : Int)) = ((s2 - st.sieve_.length : Nat) : Int) := by
        omega
      rw [e]
      have : (((s2 - st.sieve_.length : Nat) : Int) % (2 ^ 32 : Int))
          = (((s2 - st.sieve_.length) % 2 ^ 32 : Nat) : Int) := by
        push_cast
        rfl
      rw [this, Int.toNat_ofNat, Nat.mod_eq_of_lt hs2]
    refine ⟨c2, ⟨s2 - st.sieve_.length, w2⟩, b2, by rw [hdiff], hlen2, ?_, ?_⟩
    · refine ⟨n1, ⟨g2.1, ?_⟩, ?_⟩
      · have := g2.2
        simp only
        omega
      · intro m hm
        by_cases hmn : m < n
        · exact le_trans (hmin m hmn) (by omega)
        · exact le_of_lt (f3 m (by omega) hm)
    · intro j
      rw [g4 j, hdvd j]
      constructor
      · rintro ⟨hl, ha⟩
        refine ⟨hl, ?_⟩
        rintro ⟨m, hm1, hm2⟩
        apply ha
        refine ⟨m, hm1, ?_, hm2⟩
        by_contra hge
        have hj := word_offset_lt_of_bit _ j (live_bit_lt _ _ hl)
        have hmm : word_offset n1 ≤ word_offset m := hmono.monotone (not_lt.mp hge)
        have : p * word_offset n1 ≤ p * word_offset m := Nat.mul_le_mul_left _ hmm
        have := g2.2
        omega
      · rintro ⟨hl, ha⟩
        refine ⟨hl, ?_⟩
        rintro ⟨m, hm1, _, hm3⟩
        exact ha ⟨m, hm1, hm3⟩
  · exfalso
    omega

/-! ### The calls of `cross_off` on successive segments -/

theorem cross_off_segments_run (p c S i : Nat) (hc : c < 8)
    (hpc : p % 30 = bit_offsets.getD c 0) (hp32 : p < 2 ^ 32) (hS : S < 2 ^ 32) :
    ∀ (segs : List (List Nat)) (st : Sieve) (L : Nat) (wh : Wheel), L % 30 = 0 →
      st.wheel_.get? i = some wh → wheel_ok L p c wh → (∀ seg ∈ segs, seg.length = S) →
      ∃ outs st2 wh2, cross_off_segments st i p segs = some (outs, st2)
        ∧ outs.length = segs.length ∧ st2.start_ = st.start_
        ∧ st2.wheel_.get? i = some wh2 ∧ wheel_ok (L + 30 * S * segs.length) p c wh2
        ∧ ∀ k seg, segs.get? k = some seg →
            ∃ out, outs.get? k = some out ∧ out.length = S
              ∧ ∀ j, (live_bit out j = true
                  ↔ live_bit seg j = true ∧ ¬ p ∣ L + 30 * S * k + word_offset j) := by
  intro segs
  induction segs with
  | nil =>
    intro st L wh _ hget hok _
    refine ⟨[], st, wh, rfl, rfl, rfl, hget, by simpa using hok, ?_⟩
    intro k seg hk
    simp at hk
  | cons seg rest ih =>
    intro st L wh hL hget hok hall
    have hseg : seg.length = S := hall seg (List.mem_cons_self _ _)
    have hi : i < st.wheel_.length := by
      by_contra hcon
      rw [List.get?_eq_none.mpr (by omega)] at hget
      cases hget
    obtain ⟨cnt, wh2, bytes, hstep, hlen, hok2, hlive⟩ := cross_off_wheel_step
      { st with sieve_ := seg } i p c L wh hL hc hpc hp32 (by simp only; omega) hget hok
    simp only at hstep hlen hok2 hlive
    have hco : cross_off { st with sieve_ := seg } i p
        = some (cnt, { st with sieve_ := bytes, wheel_ := st.wheel_.set i wh2 }) := by
      unfold cross_off
      rw [if_neg (by simp only; omega)]
      exact hstep
    have hget2 : ({ st with sieve_ := bytes, wheel_ := st.wheel_.set i wh2 } : Sieve).wheel_.get? i
        = some wh2 := by
      simp only [List.get?_eq_getElem?]
      rw [List.getElem?_set_self hi]
    rw [hseg] at hok2
    obtain ⟨outs, st2, wh3, hrun, holen, hstart, hget3, hok3, hsegs⟩ := ih
      { st with sieve_ := bytes, wheel_ := st.wheel_.set i wh2 } (L + 30 * S) wh2 (by omega)
      hget2 hok2 (fun s hs => hall s (List.mem_cons_of_mem _ hs))
    refine ⟨bytes :: outs, st2, wh3, ?_, by simp [holen], hstart, hget3, ?_, ?_⟩
    · simp only [cross_off_segments, hco, hrun]
    · have e : L + 30 * S + 30 * S * rest.length = L + 30 * S * (seg :: rest).length := by
        simp only [List.length_cons]; ring
      rw [← e]; exact hok3
    · intro k sg hk
      cases k with
      | zero =>
        simp only [List.get?_cons_zero, Option.some.injEq] at hk
        subst hk
        refine ⟨bytes, rfl, by omega, ?_⟩
        intro j
        rw [hlive j]
        simp
      | succ k =>
        simp only [List.get?_cons_succ] at hk
        obtain ⟨out, ho1, ho2, ho3⟩ := hsegs k sg hk
        refine ⟨out, by simpa using ho1, ho2, ?_⟩
        intro j
        rw [ho3 j]
        have e : L + 30 * S + 30 * S * k = L + 30 * S * (k + 1) := by ring
        rw [e]

theorem add_wheel_sieve (st : Sieve) (p : Nat) (seg : List Nat) (st1 : Sieve)
    (h : add_wheel st p = some st1) :
    add_wheel { st with sieve_ := seg } p = some { st1 with sieve_ := seg } := by
  unfold add_wheel at h ⊢
  split_ifs at h ⊢ with hp
  simp only [Option.some.injEq] at h ⊢
  rw [← h]

theorem cross_off_segments_first (st st1 : Sieve) (i p : Nat) (hi : i = st.wheel_.length)
    (hadd : add_wheel st p = some st1) (hlen : st1.wheel_.length = st.wheel_.length + 1)
    (seg : List Nat) (rest : List (List Nat)) :
    cross_off_segments st i p (seg :: rest) = cross_off_segments st1 i p (seg :: rest) := by
  have h1 : cross_off { st with sieve_ := seg } i p = cross_off { st1 with sieve_ := seg } i p := by
    unfold cross_off
    rw [if_pos (by simp only; omega), if_neg (by simp only; omega),
      add_wheel_sieve st p seg st1 hadd]
  simp only [cross_off_segments, h1]

theorem cross_off_segments_spec (st : Sieve) (i p S : Nat) (segs : List (List Nat))
    (hstart : st.start_ % 30 = 0) (hp : p.Prime) (hp7 : 7 ≤ p) (hp32 : p < 2 ^ 32)
    (h64 : st.start_ + 6 * p < 2 ^ 64) (hi : i = st.wheel_.length) (hS : S < 2 ^ 32)
    (hne : segs ≠ []) (hall : ∀ seg ∈ segs, seg.length = S) :
    ∃ outs st2 wh, cross_off_segments st i p segs = some (outs, st2)
      ∧ outs.length = segs.length
      ∧ (∀ k seg, segs.get? k = some seg →
          ∃ out, outs.get? k = some out ∧ out.length = S
            ∧ ∀ j, (live_bit out j = true
                ↔ live_bit seg j = true ∧ ¬ p ∣ st.start_ + 30 * S * k + word_offset j))
      ∧ st2.wheel_.get? i = some wh
      ∧ wh.index / 8 = wheel_offsets.getD (p % 30) 0 / 8 ∧ wh.index ≤ 63
      ∧ p ∣ wheel_target (st.start_ + 30 * S * segs.length) wh
      ∧ Nat.Coprime (wheel_target (st.start_ + 30 * S * segs.length) wh) 30
      ∧ st.start_ + 30 * S * segs.length ≤ wheel_target (st.start_ + 30 * S * segs.length) wh
      ∧ ∀ m, p ∣ m → Nat.Coprime m 30 → st.start_ + 30 * S * segs.length ≤ m →
          wheel_target (st.start_ + 30 * S * segs.length) wh ≤ m := by
  obtain ⟨c, hc, hpc⟩ := prime_class p hp hp7
  obtain ⟨mult, n0, hadd, hinv, hmin⟩ := add_wheel_inv st p c hstart hc hpc h64 hp32
  cases segs with
  | nil => exact absurd rfl hne
  | cons seg rest =>
    rw [cross_off_segments_first st _ i p hi hadd (by simp) seg rest]
    obtain ⟨outs, st2, wh2, hrun, holen, _, hget2, hok2, hsegs⟩ := cross_off_segments_run p c S i
      hc hpc hp32 hS (seg :: rest) { st with wheel_ := st.wheel_ ++ [⟨mult, 8 * c + n0 % 8⟩] }
      st.start_ ⟨mult, 8 * c + n0 % 8⟩ hstart (by rw [hi]; simp) ⟨n0, hinv, hmin⟩ hall
    have hE : (st.start_ + 30 * S * (seg :: rest).length) % 30 = 0 := by
      rw [Nat.mul_assoc]
      omega
    obtain ⟨t1, t2, t3, t4, t5, t6⟩ := wheel_ok_target _ p c wh2 hE hc hpc hok2
    refine ⟨outs, st2, wh2, hrun, holen, hsegs, hget2, ?_, t2, t3, t4, t5, t6⟩
    rw [hpc, wheel_offsets_class c hc, t1]
    omega

/-! ### The wheel entry made by `add_wheel` -/

theorem add_wheel_entry (st : Sieve) (p : Nat) (hstart : st.start_ % 30 = 0)
    (hp : Nat.Coprime p 30) (hp32 : p < 2 ^ 32) (h64 : st.start_ + 6 * p < 2 ^ 64) :
    ∃ m, add_wheel st p = some { st with wheel_ := st.wheel_ ++
          [⟨(m - st.start_) / 30, wheel_offsets.getD (p % 30) 0
              + (wheel_init.getD ((st.start_ / p + 1) % 30) (0, 0)).2⟩] }
      ∧ p ∣ m ∧ st.start_ < m ∧ Nat.Coprime m 30
      ∧ (∀ m', p ∣ m' → st.start_ < m' → Nat.Coprime m' 30 → m ≤ m')
      ∧ bit_offsets.getD (wheel_init.getD ((st.start_ / p + 1) % 30) (0, 0)).2 0
          = (m / p) % 30 := by
  obtain ⟨c, hc, hpc⟩ := residue_of_coprime p ((coprime_30_iff p).mp hp).1
    ((coprime_30_iff p).mp hp).2.1 ((coprime_30_iff p).mp hp).2.2
  have hp0 : 0 < p := by
    have := bit_offsets_bounds c hc
    omega
  obtain ⟨mult, n0, hadd, hinv, hmin⟩ := add_wheel_inv st p c hstart hc hpc h64 hp32
  obtain ⟨hf5, hix, hsum, hless⟩ := wheel_init_facts ((st.start_ / p + 1) % 30)
    (Nat.mod_lt _ (by norm_num))
  -- the index written by the source
  have hdef : ∃ mult', add_wheel st p = some { st with wheel_ := st.wheel_ ++
      [⟨mult', ((wheel_init.getD ((st.start_ / p + 1) % 30) (0, 0)).2
          + wheel_offsets.getD (p % 30) 0) % 2 ^ 32⟩] } := by
    have hQle : st.start_ / p ≤ st.start_ := Nat.div_le_self _ _
    have hQmod : (st.start_ / p + 1) % 2 ^ 64 = st.start_ / p + 1 := by
      apply Nat.mod_eq_of_lt; omega
    unfold add_wheel
    rw [if_neg (by omega)]
    simp only [hQmod]
    exact ⟨_, rfl⟩
  obtain ⟨mult', hdef⟩ := hdef
  have hidx : 8 * c + n0 % 8 = ((wheel_init.getD ((st.start_ / p + 1) % 30) (0, 0)).2
      + wheel_offsets.getD (p % 30) 0) % 2 ^ 32 := by
    rw [hadd] at hdef
    simp only [Option.some.injEq, Sieve.mk.injEq, List.append_cancel_left_eq, List.cons.injEq,
      Wheel.mk.injEq, and_true, true_and] at hdef
    exact hdef.2
  rw [hpc, wheel_offsets_class c hc] at hidx
  have hix8 : n0 % 8 = (wheel_init.getD ((st.start_ / p + 1) % 30) (0, 0)).2 := by omega
  have hok : wheel_ok st.start_ p c ⟨mult, 8 * c + n0 % 8⟩ := ⟨n0, hinv, hmin⟩
  obtain ⟨_, _, t3, t4, t5, t6⟩ := wheel_ok_target st.start_ p c _ hstart hc hpc hok
  have htar : wheel_target st.start_ ⟨mult, 8 * c + n0 % 8⟩ = p * word_offset n0 := by
    exact hinv.2
  have hb := bit_offsets_bounds (case_bit (8 * c + n0 % 8)) (case_bit_lt _)
  have hm : p * word_offset n0 = st.start_ + 30 * mult
      + bit_offsets.getD (case_bit (8 * c + n0 % 8)) 0 := hinv.2.symm
  rw [htar] at t3 t4 t5 t6
  refine ⟨p * word_offset n0, ?_, t3, by omega, t4, fun m' h1 h2 h3 => t6 m' h1 h3 (by omega), ?_⟩
  · rw [hadd, hpc, wheel_offsets_class c hc, ← hix8]
    have e : (p * word_offset n0 - st.start_) / 30 = mult := by omega
    rw [e]
  · rw [Nat.mul_div_cancel_left _ hp0, ← hix8]
    have hb2 := bit_offsets_bounds (n0 % 8) (Nat.mod_lt _ (by norm_num))
    unfold word_offset
    omega

/-! ### The length of the byte array -/

theorem and_word_length (bytes : List Nat) (j mask : Nat) :
    (and_word bytes j mask).length = bytes.length := by
  unfold and_word
  have : ∀ (l : List Nat) (bs : List Nat),
      (l.foldl (fun bs t => bs.set (8 * j + t)
        (bs.getD (8 * j + t) 0 &&& ((mask >>> (8 * t)) % 256))) bs).length = bs.length := by
    intro l
    induction l with
    | nil => intro bs; rfl
    | cons t l ih => intro bs; rw [List.foldl_cons, ih]; simp
  exact this _ _

theorem get_segment_size_words (size : Nat) (h1 : 1 ≤ size) (h : size ≤ 2 ^ 64 - 16) :
    get_segment_size size / 30 = 8 * ((size - 1) / 240 + 1) := by
  unfold get_segment_size
  simp only
  split_ifs with hm
  · have : max 240 size + (240 - max 240 size % 240) < 2 ^ 64 := by omega
    rw [Nat.mod_eq_of_lt this]
    omega
  · omega

theorem pre_sieve_fill_length (st : Sieve) (low high : Nat) (hlt : low < high)
    (h64 : high < 2 ^ 64) (hlen8 : st.sieve_.length % 8 = 0) (hseg : segment_size st < 2 ^ 64) :
    ∃ st3, pre_sieve_fill st low high = some st3 ∧ st3.start_ = st.start_
      ∧ st3.wheel_ = st.wheel_
      ∧ st3.sieve_.length = (if high - low < segment_size st
          then get_segment_size (high - low) / 30 else st.sieve_.length) := by
  unfold segment_size at hseg ⊢
  have hsize : (high + 2 ^ 64 - low) % 2 ^ 64 = high - low := by omega
  unfold pre_sieve_fill
  simp only [hsize, segment_size, List.length_map]
  generalize hsz : high - low = size at *
  have hpos : 1 ≤ size := by omega
  have hback : (size + 2 ^ 64 - 1) % 2 ^ 64 = size - 1 := by omega
  by_cases hshort : size < st.sieve_.length * 30
  · rw [if_pos hshort, if_pos hshort]
    have hgs := get_segment_size_words size hpos (by omega)
    have hl2 : (set_sieve_size { st with sieve_ := st.sieve_.map (fun _ => 0xff) } size).sieve_.length
        = get_segment_size size / 30 := set_sieve_size_length _ _
    rw [hback, if_pos (by rw [hl2, hgs]; omega)]
    refine ⟨_, rfl, rfl, rfl, ?_⟩
    simp only
    rw [and_word_length, hl2]
  · rw [if_neg hshort, if_neg hshort]
    exact ⟨_, rfl, rfl, rfl, by simp⟩

theorem cross_off_wheel_frame (st1 : Sieve) (i p : Nat) (r : Nat × Sieve)
    (h : cross_off_wheel st1 i p = some r) :
    r.2.start_ = st1.start_ ∧ r.2.sieve_.length = st1.sieve_.length
      ∧ r.2.wheel_.length = st1.wheel_.length ∧ i < st1.wheel_.length := by
  have hi : i < st1.wheel_.length := by
    by_contra hcon
    unfold cross_off_wheel at h
    rw [List.get?_eq_none.mpr (by omega)] at h
    cases h
  unfold cross_off_wheel at h
  rw [List.get?_eq_get hi] at h
  simp only at h
  split_ifs at h with h1 h2
  · cases h
    exact ⟨rfl, rfl, by simp, hi⟩
  · split at h
    · cases h
    · rename_i bytes cnt s w hrun
      cases h
      obtain ⟨_, hlen⟩ := cross_run_popcount _ _ _ _ _ _ _ _ hrun
      exact ⟨rfl, hlen, by simp, hi⟩
  · cases h
    exact ⟨rfl, rfl, by simp, hi⟩

theorem cross_off_frame (st : Sieve) (i p : Nat) (r : Nat × Sieve)
    (h : cross_off st i p = some r) :
    r.2.start_ = st.start_ ∧ r.2.sieve_.length = st.sieve_.length
      ∧ st.wheel_.length ≤ r.2.wheel_.length ∧ i < r.2.wheel_.length := by
  unfold cross_off at h
  split_ifs at h with hi
  · by_cases hp : p = 0
    · simp [add_wheel, hp] at h
    · obtain ⟨wh, hwh⟩ := add_wheel_some st p (by omega)
      rw [hwh] at h
      simp only at h
      obtain ⟨f1, f2, f3, f4⟩ := cross_off_wheel_frame _ i p r h
      simp only [List.length_append, List.length_singleton] at f1 f2 f3 f4
      exact ⟨f1, f2, by omega, by omega⟩
  · obtain ⟨f1, f2, f3, f4⟩ := cross_off_wheel_frame _ i p r h
    exact ⟨f1, f2, by omega, by omega⟩

theorem pre_sieve_loop_frame (n : Nat) :
    ∀ (st : Sieve) (a : Nat), 4 ≤ a → a + n ≤ 10 → a ≤ st.wheel_.length →
      ∃ st2, pre_sieve_loop st (List.range' a n) = some st2 ∧ st2.start_ = st.start_
        ∧ st2.sieve_.length = st.sieve_.length ∧ st.wheel_.length ≤ st2.wheel_.length := by
  induction n with
  | zero =>
    intro st a _ _ _
    exact ⟨st, rfl, rfl, rfl, le_refl _⟩
  | succ n ih =>
    intro st a h4 h10 ha
    obtain ⟨p, hget, hp, hp7, _⟩ := sieve_primes_facts a h4 (by omega)
    obtain ⟨cnt, st1, hco, _⟩ := cross_off_count_aux st a p ha (by omega)
    obtain ⟨f1, f2, f3, f4⟩ := cross_off_frame st a p _ hco
    simp only at f1 f2 f3 f4
    obtain ⟨st2, g0, g1, g2, g3⟩ := ih st1 (a + 1) (by omega) (by omega) (by omega)
    refine ⟨st2, ?_, by rw [g1, f1], by rw [g2, f2], by omega⟩
    rw [List.range'_succ]
    simp only [pre_sieve_loop, hget, hco]
    exact g0

theorem pre_sieve_size (st : Sieve) (c low high : Nat) (hinv : sieve_inv st) (hc : c ≤ 9)
    (hlt : low < high) (h64 : high < 2 ^ 64) :
    ∃ st2, pre_sieve st c low high = some st2 ∧ sieve_inv st2
      ∧ st2.sieve_.length = (if high - low < segment_size st
          then get_segment_size (high - low) / 30 else st.sieve_.length)
      ∧ (high - low < segment_size st → high - low ≤ segment_size st2) := by
  obtain ⟨hpos, hlen8, hseg, hwheel⟩ := hinv
  obtain ⟨st3, hfill, e1, e2, e3⟩ := pre_sieve_fill_length st low high hlt h64 hlen8 hseg
  obtain ⟨st2, hloop, g1, g2, g3⟩ := pre_sieve_loop_frame (c + 1 - 4) st3 4 (le_refl _)
    (by omega) (by rw [e2]; exact hwheel)
  have hlen : st2.sieve_.length = (if high - low < segment_size st
      then get_segment_size (high - low) / 30 else st.sieve_.length) := by rw [g2, e3]
  have e2' : st3.wheel_.length = st.wheel_.length := by rw [e2]
  refine ⟨st2, ?_, ?_, hlen, ?_⟩
  · unfold pre_sieve
    rw [hfill]
    simp only
    rw [if_pos (by simp [sieve_primes]; omega)]
    exact hloop
  · unfold sieve_inv segment_size at *
    by_cases hshort : high - low < st.sieve_.length * 30
    · rw [if_pos hshort] at hlen
      have hgs := get_segment_size_words (high - low) (by omega) (by omega)
      refine ⟨by omega, by omega, by omega, by omega⟩
    · rw [if_neg hshort] at hlen
      refine ⟨by omega, by omega, by omega, by omega⟩
  · intro hshort
    unfold segment_size at *
    rw [if_pos hshort] at hlen
    have hgs := get_segment_size_words (high - low) (by omega) (by omega)
    omega

theorem sieve_new_inv (start seg ws : Nat) (hstart : start % 30 = 0) (hseg : seg % 240 = 0)
    (hseg64 : seg < 2 ^ 64) :
    ∃ st, Sieve.new start seg ws = some st ∧ sieve_inv st := by
  have hnew : Sieve.new start seg ws = some (set_sieve_size
      { start_ := start, sieve_ := [], wheel_ := List.replicate 4 ⟨0, 0⟩ } seg) := by
    unfold Sieve.new
    rw [if_pos ⟨hstart, hseg⟩]
  obtain ⟨_, _, f3, f4, f5⟩ := sieve_new_facts start seg ws _ hnew
  refine ⟨_, hnew, ?_, f5, ?_, by omega⟩
  · rw [f4]
    have : 240 ≤ max 240 seg := le_max_left _ _
    omega
  · unfold segment_size
    rw [f4]
    have : max 240 seg < 2 ^ 64 := max_lt (by norm_num) hseg64
    omega

/-! ### A prime-counting table shorter than `sqrt(x)` -/

theorem phi_eval_eq (tiny : PhiTiny) (primes pi : List Nat) :
    ∀ (fuel : Nat) (cache : List (List Nat)) (sign : Int) (x a : Nat),
      PhiCache.phi tiny primes pi fuel cache sign x a
        = phi_eval tiny primes pi fuel cache sign x a := by
  intro fuel
  induction fuel with
  | zero => intro cache sign x a; rfl
  | succ fuel ih =>
    intro cache sign x a
    have hf : PhiCache.phi tiny primes pi fuel = phi_eval tiny primes pi fuel := by
      funext cache sign x a
      exact ih cache sign x a
    simp only [PhiCache.phi, phi_eval, hf, isqrt_eq]

theorem update_cache_length (cache : List (List Nat)) (x a : Nat) (sum : Int) :
    (update_cache cache x a sum).length = cache.length := by
  unfold update_cache
  split_ifs <;> simp

theorem update_cache_hit (cache : List (List Nat)) (x a : Nat) (sum : Int)
    (ha : a < cache.length) (hx : x ≤ 65535) :
    x < ((update_cache cache x a sum).getD a []).length
      ∧ ((update_cache cache x a sum).getD a []).getD x 0 = sum.natAbs % 65536 := by
  unfold update_cache
  rw [if_pos ⟨ha, hx⟩]
  have hrow : ∀ (r : List Nat), (cache.set a r).getD a [] = r := by
    intro r
    simp [List.getD_eq_getElem?_getD, List.getElem?_set, ha]
  simp only [hrow, List.length_set]
  by_cases hlen : x ≥ (cache.getD a []).length
  · simp only [hlen, if_true]
    have : x < (resize (cache.getD a []) (x + 1)).length := by
      rw [resize_length]; omega
    exact ⟨this, set_getD_self _ _ _ this⟩
  · simp only [hlen, if_false]
    have : x < (cache.getD a []).length := by omega
    exact ⟨this, set_getD_self _ _ _ this⟩

theorem phi_step_length (primes pi : List Nat)
    (recur : List (List Nat) → Int → Nat → Nat → Option (Int × List (List Nat)))
    (hrec : ∀ cache s x a r, recur cache s x a = some r → r.2.length = cache.length)
    (sign : Int) (x n : Nat) (acc : Option (Int × List (List Nat))) (i : Nat)
    (hacc : ∀ r0, acc = some r0 → r0.2.length = n) :
    ∀ r, phi_step primes pi recur sign x acc i = some r → r.2.length = n := by
  intro r h
  cases acc with
  | none => simp [phi_step] at h
  | some r0 =>
    obtain ⟨sum, cache1⟩ := r0
    have h0 : cache1.length = n := hacc _ rfl
    simp only [phi_step] at h
    split_ifs at h with hz hp
    · cases h; exact h0
    · split at h
      · cases h
      · rename_i v cache2 hr
        cases h
        have := hrec _ _ _ _ _ hr
        simp only at this ⊢
        omega

theorem phi_fold_length (primes pi : List Nat)
    (recur : List (List Nat) → Int → Nat → Nat → Option (Int × List (List Nat)))
    (hrec : ∀ cache s x a r, recur cache s x a = some r → r.2.length = cache.length)
    (sign : Int) (x n : Nat) (l : List Nat) :
    ∀ (acc : Option (Int × List (List Nat))), (∀ r0, acc = some r0 → r0.2.length = n) →
      ∀ r, l.foldl (phi_step primes pi recur sign x) acc = some r → r.2.length = n := by
  induction l with
  | nil =>
    intro acc hacc r h
    exact hacc r h
  | cons i l ih =>
    intro acc hacc r h
    rw [List.foldl_cons] at h
    exact ih _ (phi_step_length primes pi recur hrec sign x n acc i hacc) r h

theorem phi_cache_length (tiny : PhiTiny) (primes pi : List Nat) :
    ∀ (fuel : Nat) (cache : List (List Nat)) (sign : Int) (x a : Nat)
      (r : Int × List (List Nat)),
      PhiCache.phi tiny primes pi fuel cache sign x a = some r → r.2.length = cache.length := by
  intro fuel
  induction fuel with
  | zero => intro cache sign x a r h; simp [PhiCache.phi] at h
  | succ fuel ih =>
    intro cache sign x a r h
    simp only [PhiCache.phi] at h
    generalize (if Nat.sqrt x < pi.length ∧ Nat.sqrt x < primes.getD a 0
      then pi.getD (Nat.sqrt x) 0 else a) = ps at h
    split_ifs at h with h1 h2 h3 h4
    · cases h; rfl
    · cases h; rfl
    · cases h; rfl
    · cases h; rfl
    · split at h
      · cases h
      · rename_i sum cache3 hfold
        cases h
        have := phi_fold_length primes pi _ ih sign x cache.length _ _
          (fun r0 hr0 => by cases hr0; rfl) _ hfold
        simp only at this ⊢
        rw [update_cache_length, this]

/-- A call that reaches the recursive sum leaves an entry for `(x, a)`: a repeated call
finds it and returns the stored magnitude times SIGN. -/
theorem phi_repeat (tiny : PhiTiny) (primes pi : List Nat) (fuel : Nat)
    (cache : List (List Nat)) (sign : Int) (x a : Nat) (v : Int) (cache1 : List (List Nat))
    (h : PhiCache.phi tiny primes pi (fuel + 1) cache sign x a = some (v, cache1))
    (h1 : ¬ x ≤ primes.getD a 0) (h2 : ¬ a ≤ tiny.max_a) (h3 : is_pix primes pi x a = false)
    (h4 : is_cached cache x a = false) (ha : a < cache.length) (hx : x ≤ 65535)
    (hv : v.natAbs % 65536 ≠ 0) :
    PhiCache.phi tiny primes pi (fuel + 1) cache1 sign x a
      = some (((v.natAbs % 65536 : Nat) : Int) * sign, cache1) := by
  simp only [PhiCache.phi, if_neg h1, if_neg h2, h3, h4, Bool.false_eq_true, if_false] at h
  split at h
  · cases h
  · rename_i sum cache3 hfold
    simp only [Option.some.injEq, Prod.mk.injEq] at h
    obtain ⟨hsum, hc1⟩ := h
    subst hsum
    have hlen3 : cache3.length = cache.length :=
      phi_fold_length primes pi _ (phi_cache_length tiny primes pi fuel) sign x cache.length _ _
        (fun r0 hr0 => by cases hr0; rfl) _ hfold
    obtain ⟨g1, g2⟩ := update_cache_hit cache3 x a sum (by omega) hx
    rw [hc1] at g1 g2
    have hcached : is_cached cache1 x a = true := by
      unfold is_cached
      have hl : cache1.length = cache.length := by
        rw [← hc1, update_cache_length, hlen3]
      simp only [Bool.and_eq_true, decide_eq_true_eq]
      exact ⟨⟨by omega, g1⟩, by rw [g2]; exact hv⟩
    simp only [PhiCache.phi, if_neg h1, if_neg h2, h3, hcached, Bool.false_eq_true, if_false,
      if_true, g2]

set_option maxRecDepth 100000 in
theorem ref_primes_ok_all : primes_ok ref_primes 22 := by
  refine ⟨by decide, by decide, ?_⟩
  intro i h1 h2
  interval_cases i <;> exact ⟨by norm_num [ref_primes], by decide⟩

theorem phi_rec_spec : ∀ (a : Nat), a ≤ 22 → ∀ x, phi_rec x a = phi_spec x a := by
  intro a
  induction a with
  | zero =>
    intro _ x
    rw [phi_spec_zero_right]
    rfl
  | succ a ih =>
    intro ha x
    have hP := tbl_prime ref_primes 22 (a + 1) ref_primes_ok_all (by omega) ha
    have hPpi := tbl_pi ref_primes 22 (a + 1) ref_primes_ok_all ha
    have hrec := phi_spec_rec x a _ hP hPpi
    show phi_rec x a - phi_rec (x / ref_primes.getD (a + 1) 0) a = _
    rw [ih (by omega) x, ih (by omega)]
    omega

theorem rec_tiny_ok : tiny_ok rec_tiny := by
  refine ⟨fun x a ha => phi_rec_spec a (le_trans ha (by decide)) x, ?_⟩
  intro y
  show (if y < 13 then ([0, 0, 1, 2, 2, 3, 3, 4, 4, 4, 4, 5, 5] : List Nat).getD y 0 else 6) ≤ 6
    ∧ (if y < 13 then ([0, 0, 1, 2, 2, 3, 3, 4, 4, 4, 4, 5, 5] : List Nat).getD y 0 else 6)
      ≤ Nat.primeCounting y
  by_cases hy : y < 13
  · rw [if_pos hy]
    interval_cases y <;> exact ⟨by decide, by decide⟩
  · rw [if_neg hy]
    refine ⟨le_refl _, ?_⟩
    have h13 : Nat.primeCounting 13 = 6 := by decide
    have := Nat.monotone_primeCounting (not_lt.mp hy)
    omega

theorem short_pi_ok : pi_ok short_pi := by
  intro n hn
  have h8 : n < 8 := hn
  interval_cases n <;> decide

set_option maxRecDepth 1000000 in
theorem short_pi_first_call :
    (phi_call rec_tiny ref_primes short_pi empty_cache 1 3904 21).map Prod.fst = some (-1) := by
  unfold phi_call
  rw [phi_eval_eq]
  decide!

theorem phi_calls_cons (tiny : PhiTiny) (primes pi : List Nat) (s : Int) (x a : Nat)
    (rest : List (Int × Nat × Nat)) (cache cache1 : List (List Nat)) (v : Int) (vs : List Int)
    (h1 : phi_call tiny primes pi cache s x a = some (v, cache1))
    (h2 : phi_calls tiny primes pi rest cache1 = some vs) :
    phi_calls tiny primes pi ((s, x, a) :: rest) cache = some (v :: vs) := by
  rw [phi_calls, h1]
  simp only
  rw [h2]

theorem phi_fresh_cons (tiny : PhiTiny) (primes pi : List Nat) (s : Int) (x a : Nat)
    (rest : List (Int × Nat × Nat)) (cache1 : List (List Nat)) (v : Int) (vs : List Int)
    (h1 : phi_call tiny primes pi empty_cache s x a = some (v, cache1))
    (h2 : phi_fresh tiny primes pi rest = some vs) :
    phi_fresh tiny primes pi ((s, x, a) :: rest) = some (v :: vs) := by
  rw [phi_fresh, h1]
  simp only
  rw [h2]

/-- With true tables, but a prime-counting table of 8 entries, shorter than
`sqrt(3904) = 62`: `phi<1>(3904, 21)` on an empty cache returns -1, while `phi(3904, 21)`
is positive; the cache then holds the magnitude 1, and the same call repeated on the same
object returns 1. The contract `pi.size() > sqrt(x)` is needed for the value and for the
transparency of the cache. -/
theorem phi_cache_short_pi_table :
    tiny_ok rec_tiny ∧ primes_ok ref_primes 22 ∧ pi_ok short_pi
      ∧ phi_calls rec_tiny ref_primes short_pi [(1, 3904, 21), (1, 3904, 21)] empty_cache
        = some [-1, 1]
      ∧ phi_fresh rec_tiny ref_primes short_pi [(1, 3904, 21), (1, 3904, 21)] = some [-1, -1]
      ∧ 1 ≤ phi_spec 3904 21 := by
  obtain ⟨⟨v, cache1⟩, hcall, hv⟩ := Option.map_eq_some'.mp short_pi_first_call
  simp only at hv
  subst hv
  have h1 : ¬ 3904 ≤ ref_primes.getD 21 0 := by decide
  have h2 : ¬ 21 ≤ rec_tiny.max_a := by decide
  have h3 : is_pix ref_primes short_pi 3904 21 = false := by decide
  have h4 : is_cached empty_cache 3904 21 = false := by decide
  have ha : 21 < empty_cache.length := by decide
  have hrep := phi_repeat rec_tiny ref_primes short_pi 21 empty_cache 1 3904 21 (-1) cache1
    hcall h1 h2 h3 h4 ha (by norm_num) (by decide)
  have hcall2 : phi_call rec_tiny ref_primes short_pi cache1 1 3904 21 = some (1, cache1) :=
    hrep
  exact ⟨rec_tiny_ok, ref_primes_ok_all, short_pi_ok,
    phi_calls_cons _ _ _ _ _ _ _ _ _ _ _ hcall (phi_calls_cons _ _ _ _ _ _ _ _ _ _ _ hcall2 rfl),
    phi_fresh_cons _ _ _ _ _ _ _ _ _ _ hcall (phi_fresh_cons _ _ _ _ _ _ _ _ _ _ hcall rfl),
    phi_spec_pos 3904 21 (by norm_num)⟩

/-! ### The least odd multiple and the crossing-off of S2_sieve.cpp -/

/-- For an odd `p` the relation `next_ok` says that `nm` is the least odd multiple of `p`
that is `≥ pos`. -/
theorem next_ok_iff_least (p pos nm : Nat) (hp : p % 2 = 1) :
    next_ok p pos nm ↔ least_odd_multiple p pos nm := by
  have hp1 : 1 ≤ p := by omega
  constructor
  · rintro ⟨hd, hpos, hodd⟩
    obtain ⟨ho, hlt⟩ := hodd hp
    refine ⟨hd, ho, hpos, ?_⟩
    intro m hdm hom hpm
    by_contra hcon
    have hlt2 : m < nm := by omega
    have h1 : p ∣ nm - m := Nat.dvd_sub' hd hdm
    have h2 : 2 ∣ nm - m := by omega
    have h3 : 2 * p ∣ nm - m :=
      Nat.Coprime.mul_dvd_of_dvd_of_dvd (odd_coprime_two p hp) h2 h1
    have h4 : 2 * p ≤ nm - m := Nat.le_of_dvd (by omega) h3
    omega
  · rintro ⟨hd, ho, hpos, hmin⟩
    refine ⟨hd, hpos, fun _ => ⟨ho, ?_⟩⟩
    obtain ⟨g1, g2⟩ := ceil_div_mul pos p hp1
    by_cases hq : (ceil_div pos p * p) % 2 = 1
    · have := hmin (ceil_div pos p * p) (Dvd.intro_left _ rfl) hq g1
      omega
    · have hm : p ∣ ceil_div pos p * p + p :=
        Dvd.dvd.add (Dvd.intro_left _ rfl) (dvd_refl p)
      have := hmin (ceil_div pos p * p + p) hm (by omega) (by omega)
      omega

/-- The entry `b` of `generate_next_multiples` is the least odd multiple of an odd
`primes[b]` that is `≥ low`. -/
theorem generate_next_multiples_least (low size : Nat) (primes : List Nat) (b : Nat)
    (hb1 : 1 ≤ b) (hb : b < size) (hodd : primes.getD b 0 % 2 = 1) :
    least_odd_multiple (primes.getD b 0) low
      ((generate_next_multiples low size primes).getD b 0) :=
  (next_ok_iff_least _ _ _ hodd).mp
    (generate_next_multiples_ok low size primes b hb1 hb (by omega))

/-- The sieve and `next_multiple` that `cross_off` leaves do not depend on the counters:
they are those of the loop that only unsets the bits. -/
theorem cross_off_with_unset {C : Type} (upd : C → Nat → C) (prime low high : Nat) :
    ∀ (fuel k : Nat) (sieve : List Bool) (counters : C),
      (cross_off_with upd prime low high fuel k sieve counters).map (fun r => (r.1, r.2.1))
        = unset_loop prime low high fuel k sieve := by
  intro fuel
  induction fuel with
  | zero => intro k sieve counters; rfl
  | succ fuel ih =>
    intro k sieve counters
    simp only [cross_off_with, unset_loop]
    split_ifs with h1 h2 h3
    · rfl
    · exact ih _ _ _
    · rw [ih]
      have : sieve.set (k - low) false = sieve :=
        set_false_of_false sieve _ (by simpa using h3)
      rw [this]
    · rfl

/-- The function `s2_cross_off` is `cross_off_with` over the counters that are the list
of the bits they count. -/
theorem s2_cross_off_eq_with (prime low high : Nat) :
    ∀ (fuel k : Nat) (sieve counters : List Bool),
      s2_cross_off prime low high fuel k sieve counters
        = cross_off_with (fun (c : List Bool) pos => c.set pos false) prime low high fuel k
            sieve counters := by
  intro fuel
  induction fuel with
  | zero => intro k sieve counters; rfl
  | succ fuel ih =>
    intro k sieve counters
    simp only [cross_off_with, s2_cross_off]
    split_ifs with h1 h2 h3
    · rfl
    · exact ih _ _ _
    · exact ih _ _ _
    · rfl

/-- One call of `cross_off` over any counters, entered with the least odd multiple of the
odd `prime` that is `≥ low`: it returns, leaves the least odd multiple `≥ high`, and the
bits it clears are those of the odd multiples of `prime` in `[low, high)`. -/
theorem cross_off_with_odd {C : Type} (upd : C → Nat → C) (prime low high nm fuel : Nat)
    (sieve : List Bool) (counters : C) (hp : prime % 2 = 1) (hlh : low ≤ high)
    (hnm : least_odd_multiple prime low nm) (hfuel : high - nm < fuel) :
    ∃ k2 sieve2 counters2,
      cross_off_with upd prime low high fuel nm sieve counters = some (k2, sieve2, counters2)
        ∧ least_odd_multiple prime high k2 ∧ sieve2.length = sieve.length
        ∧ ∀ i, (sieve2.getD i false = true
            ↔ sieve.getD i false = true
              ∧ ¬ (low + i < high ∧ prime ∣ low + i ∧ (low + i) % 2 = 1)) := by
  have hn : next_ok prime low nm := (next_ok_iff_least _ _ _ hp).mpr hnm
  obtain ⟨k2, sieve2, e, hl, g1, g2, g3, g4, g5⟩ :=
    unset_loop_spec prime low high (by omega) fuel nm sieve hn.2.1 hfuel
  have hmap := cross_off_with_unset upd prime low high fuel nm sieve counters
  rw [e] at hmap
  cases hc : cross_off_with upd prime low high fuel nm sieve counters with
  | none => rw [hc] at hmap; simp at hmap
  | some r =>
    rw [hc] at hmap
    simp only [Option.map_some', Option.some.injEq, Prod.mk.injEq] at hmap
    obtain ⟨r1, r2, r3⟩ := r
    simp only at hmap
    obtain ⟨rfl, rfl⟩ := hmap
    refine ⟨r1, r2, r3, rfl,
      (next_ok_iff_least _ _ _ hp).mp (next_ok_advance _ _ _ _ _ hn hlh g1 g2 g3 g4), hl, ?_⟩
    intro i
    rw [g5 i]
    constructor
    · rintro ⟨hs, hnot⟩
      refine ⟨hs, fun hc2 => hnot ⟨hc2.1, ?_⟩⟩
      exact (next_ok_progression _ _ _ _ hp hn (by omega)).mpr hc2.2
    · rintro ⟨hs, hnot⟩
      refine ⟨hs, fun hc2 => hnot ⟨hc2.1, ?_⟩⟩
      exact (next_ok_progression _ _ _ _ hp hn (by omega)).mp hc2.2

/-- The loop that only unsets the bits, entered with the least odd multiple of the odd
`prime` that is `≥ low`. -/
theorem unset_loop_odd (prime low high nm fuel : Nat) (sieve : List Bool)
    (hp : prime % 2 = 1) (hlh : low ≤ high) (hnm : least_odd_multiple prime low nm)
    (hfuel : high - nm < fuel) :
    ∃ k2 sieve2, unset_loop prime low high fuel nm sieve = some (k2, sieve2)
      ∧ least_odd_multiple prime high k2 ∧ sieve2.length = sieve.length
      ∧ ∀ i, (sieve2.getD i false = true
          ↔ sieve.getD i false = true
            ∧ ¬ (low + i < high ∧ prime ∣ low + i ∧ (low + i) % 2 = 1)) := by
  obtain ⟨k2, sieve2, c2, e, h1, h2, h3⟩ :=
    cross_off_with_odd (fun (c : Unit) _ => c) prime low high nm fuel sieve () hp hlh hnm hfuel
  have hmap := cross_off_with_unset (fun (c : Unit) _ => c) prime low high fuel nm sieve ()
  rw [e] at hmap
  exact ⟨k2, sieve2, hmap.symm, h1, h2, h3⟩

/-- The small-prime loop over the indices `i, ..., i + n - 1`, each entered with the least
odd multiple of the odd `primes[j]` that is `≥ low`: it returns, leaves for each index the
least odd multiple `≥ high`, changes no other entry of `next`, and the bits it clears are
those of the odd multiples of these primes in `[low, high)`. -/
theorem small_primes_least (primes : List Nat) (low high : Nat) (hlh : low ≤ high) :
    ∀ (n i : Nat) (sieve : List Bool) (next : List Nat), i + n ≤ next.length →
      (∀ j, i ≤ j → j < i + n →
        primes.getD j 0 % 2 = 1 ∧ least_odd_multiple (primes.getD j 0) low (next.getD j 0)) →
      ∃ sieve2 next2,
        small_primes primes low high (List.range' i n) sieve next = some (sieve2, next2)
          ∧ sieve2.length = sieve.length ∧ next2.length = next.length
          ∧ (∀ j, j < i ∨ i + n ≤ j → next2.getD j 0 = next.getD j 0)
          ∧ (∀ j, i ≤ j → j < i + n →
              least_odd_multiple (primes.getD j 0) high (next2.getD j 0))
          ∧ ∀ k, (sieve2.getD k false = true
              ↔ sieve.getD k false = true
                ∧ ¬ (low + k < high ∧ (low + k) % 2 = 1
                      ∧ ∃ j, i ≤ j ∧ j < i + n ∧ primes.getD j 0 ∣ low + k)) := by
  intro n
  induction n with
  | zero =>
    intro i sieve next _ _
    refine ⟨sieve, next, rfl, rfl, rfl, fun _ _ => rfl, fun j h1 h2 => by omega, ?_⟩
    intro k
    constructor
    · intro hs
      refine ⟨hs, ?_⟩
      rintro ⟨_, _, j, h1, h2, _⟩
      omega
    · exact fun h => h.1
  | succ n ih =>
    intro i sieve next hlen hnext
    obtain ⟨hodd, hleast⟩ := hnext i (le_refl _) (by omega)
    obtain ⟨k2, sieve1, e1, hn1, hl1, hs1⟩ :=
      unset_loop_odd (primes.getD i 0) low high (next.getD i 0) (high - next.getD i 0 + 1)
        sieve hodd hlh hleast (by omega)
    have hnext1 : ∀ j, i + 1 ≤ j → j < i + 1 + n →
        primes.getD j 0 % 2 = 1
          ∧ least_odd_multiple (primes.getD j 0) low ((next.set i k2).getD j 0) := by
      intro j h1 h2
      rw [getD_set_nat, if_neg (by omega)]
      exact hnext j (by omega) (by omega)
    obtain ⟨sieve2, next2, e2, hl2, hnl2, hfr, hn2, hs2⟩ :=
      ih (i + 1) sieve1 (next.set i k2) (by simp; omega) hnext1
    refine ⟨sieve2, next2, ?_, by rw [hl2, hl1], by rw [hnl2]; simp, ?_, ?_, ?_⟩
    · simp only [List.range'_succ, small_primes, e1]
      exact e2
    · intro j hj
      rw [hfr j (by omega), getD_set_nat, if_neg (by omega)]
    · intro j h1 h2
      by_cases hji : j = i
      · subst hji
        rw [hfr j (by omega), getD_set_nat, if_pos ⟨rfl, by omega⟩]
        exact hn1
      · exact hn2 j (by omega) (by omega)
    · intro k
      rw [hs2 k, hs1 k]
      constructor
      · rintro ⟨⟨hs, hnot1⟩, hnot2⟩
        refine ⟨hs, ?_⟩
        rintro ⟨hlt, ho, j, hj1, hj2, hd⟩
        by_cases hji : j = i
        · subst hji
          exact hnot1 ⟨hlt, hd, ho⟩
        · exact hnot2 ⟨hlt, ho, j, by omega, by omega, hd⟩
      · rintro ⟨hs, hnot⟩
        refine ⟨⟨hs, ?_⟩, ?_⟩
        · rintro ⟨hlt, hd, ho⟩
          exact hnot ⟨hlt, ho, i, le_refl _, by omega, hd⟩
        · rintro ⟨hlt, ho, j, hj1, hj2, hd⟩
          exact hnot ⟨hlt, ho, j, by omega, by omega, hd⟩

/-! ### The calls of `cnt_update` -/

/-- A run of `cross_off` over any counters is the run that logs its calls of
`cnt_update`, the logged calls then made on the counters in order. -/
theorem cross_off_with_log {C : Type} (upd : C → Nat → C) (prime low high : Nat) :
    ∀ (fuel k : Nat) (sieve : List Bool) (counters : C) (acc : List Nat),
      cross_off_with upd prime low high fuel k sieve (acc.foldl upd counters)
        = (cross_off_with (fun (ups : List Nat) pos => ups ++ [pos]) prime low high fuel k
            sieve acc).map (fun r => (r.1, r.2.1, r.2.2.foldl upd counters)) := by
  intro fuel
  induction fuel with
  | zero => intro k sieve counters acc; rfl
  | succ fuel ih =>
    intro k sieve counters acc
    simp only [cross_off_with]
    split_ifs with h1 h2 h3
    · rfl
    · rw [← ih]
      simp only [List.foldl_append, List.foldl_cons, List.foldl_nil]
    · exact ih _ _ _ _
    · rfl

/-- The positions logged by a run of `cross_off` that starts with the log `acc`: the log
only grows, every new position is one whose bit was set before and is unset after, no
position is logged twice, and every bit that changes is logged. -/
theorem cross_off_log_spec (prime low high : Nat) (hp : 1 ≤ prime) :
    ∀ (fuel k : Nat) (sieve : List Bool) (acc : List Nat), low ≤ k → high - k < fuel →
      ∃ k2 sieve2 new,
        cross_off_with (fun (ups : List Nat) pos => ups ++ [pos]) prime low high fuel k sieve acc
            = some (k2, sieve2, acc ++ new)
          ∧ new.Nodup ∧ (∀ i ∈ new, k ≤ low + i)
          ∧ (∀ i, i ∈ new ↔ (sieve.getD i false = true ∧ sieve2.getD i false = false))
          ∧ ∀ i, sieve2.getD i false = true → sieve.getD i false = true := by
  intro fuel
  induction fuel with
  | zero => intro k sieve acc _ h; omega
  | succ fuel ih =>
    intro k sieve acc hk hf
    simp only [cross_off_with]
    by_cases h1 : k < high
    · rw [if_pos h1, if_neg (by omega)]
      by_cases h3 : sieve.getD (k - low) false = true
      · rw [if_pos h3]
        obtain ⟨k2, sieve2, new, e, hnd, hge, hiff, hmono⟩ :=
          ih (k + prime * 2) (sieve.set (k - low) false) (acc ++ [k - low]) (by omega)
            (by omega)
        have hnot : k - low ∉ new := by
          intro hmem
          have := hge _ hmem
          omega
        have hcl : sieve2.getD (k - low) false = false := by
          by_contra hc
          have := hmono (k - low) (by simpa using hc)
          rw [set_false_getD] at this
          simp at this
        refine ⟨k2, sieve2, (k - low) :: new, ?_, List.nodup_cons.mpr ⟨hnot, hnd⟩, ?_, ?_, ?_⟩
        · rw [e]; simp
        · intro i hi
          rcases List.mem_cons.mp hi with rfl | hi
          · omega
          · have := hge i hi; omega
        · intro i
          rw [List.mem_cons, hiff i, set_false_getD]
          by_cases hik : i = k - low
          · rw [hik]
            exact ⟨fun _ => ⟨h3, hcl⟩, fun _ => Or.inl rfl⟩
          · have hd : decide (i = k - low) = false := by simp [hik]
            rw [hd]
            simp [hik]
        · intro i hi
          have := hmono i hi
          rw [set_false_getD] at this
          simp only [Bool.and_eq_true] at this
          exact this.1
      · rw [if_neg h3]
        obtain ⟨k2, sieve2, new, e, hnd, hge, hiff, hmono⟩ :=
          ih (k + prime * 2) sieve acc (by omega) (by omega)
        exact ⟨k2, sieve2, new, e, hnd, fun i hi => by have := hge i hi; omega, hiff, hmono⟩
    · rw [if_neg h1]
      refine ⟨k, sieve, [], by simp, List.nodup_nil, fun i hi => by simp at hi, ?_,
        fun i hi => hi⟩
      intro i
      constructor
      · intro hi; simp at hi
      · rintro ⟨h1, h2⟩
        rw [h1] at h2
        exact absurd h2 (by simp)

/-- Clearing a set bit takes one off the count of every query that includes it. -/
theorem cnt_query_set_false (sieve : List Bool) (i j : Nat)
    (h : sieve.getD i false = true) :
    (cnt_query (sieve.set i false) j : Int)
      = (cnt_query sieve j : Int) - (if i ≤ j then 1 else 0) := by
  rw [cnt_query_eq_card, cnt_query_eq_card]
  by_cases hij : i ≤ j
  · rw [if_pos hij]
    have hmem : i ∈ (Finset.range (j + 1)).filter (fun t => sieve.getD t false = true) := by
      simp only [Finset.mem_filter, Finset.mem_range]
      exact ⟨by omega, h⟩
    have heq : (Finset.range (j + 1)).filter (fun t => (sieve.set i false).getD t false = true)
        = ((Finset.range (j + 1)).filter (fun t => sieve.getD t false = true)).erase i := by
      ext t
      simp only [Finset.mem_filter, Finset.mem_range, Finset.mem_erase, set_false_getD,
        Bool.and_eq_true, Bool.not_eq_true', decide_eq_false_iff_not]
      tauto
    rw [heq, Finset.card_erase_of_mem hmem]
    have hpos : 1 ≤ ((Finset.range (j + 1)).filter (fun t => sieve.getD t false = true)).card :=
      Finset.card_pos.mpr ⟨i, hmem⟩
    omega
  · rw [if_neg hij]
    have heq : (Finset.range (j + 1)).filter (fun t => (sieve.set i false).getD t false = true)
        = (Finset.range (j + 1)).filter (fun t => sieve.getD t false = true) := by
      ext t
      simp only [Finset.mem_filter, Finset.mem_range, set_false_getD,
        Bool.and_eq_true, Bool.not_eq_true', decide_eq_false_iff_not]
      constructor
      · rintro ⟨h1, h2, _⟩; exact ⟨h1, h2⟩
      · rintro ⟨h1, h2⟩; exact ⟨h1, h2, by omega⟩
    rw [heq]
    simp

/-- A run of `cross_off` over the counters seen through their queries keeps them equal to
the counts of the set bits. -/
theorem cross_off_counts (prime low high : Nat) (hp : 1 ≤ prime) (S : Nat) :
    ∀ (fuel k : Nat) (sieve : List Bool) (q : Nat → Int), low ≤ k → high - k < fuel →
      (∀ j, j < S → q j = (cnt_query sieve j : Int)) →
      ∃ k2 sieve2 q2, cross_off_with cnt_update prime low high fuel k sieve q
          = some (k2, sieve2, q2)
        ∧ ∀ j, j < S → q2 j = (cnt_query sieve2 j : Int) := by
  intro fuel
  induction fuel with
  | zero => intro k sieve q _ h; omega
  | succ fuel ih =>
    intro k sieve q hk hf hq
    simp only [cross_off_with]
    by_cases h1 : k < high
    · rw [if_pos h1, if_neg (by omega)]
      by_cases h3 : sieve.getD (k - low) false = true
      · rw [if_pos h3]
        apply ih _ _ _ (by omega) (by omega)
        intro j hj
        rw [cnt_query_set_false sieve (k - low) j h3]
        unfold cnt_update
        rw [hq j hj]
        split_ifs <;> simp
      · rw [if_neg h3]
        exact ih _ _ _ (by omega) (by omega) hq
    · rw [if_neg h1]
      exact ⟨k, sieve, q, rfl, hq⟩

/-- The small-prime loop `for (i = 2; i <= c; i++)` of a segment. -/
theorem small_primes_segment (primes : List Nat) (low high c : Nat) (sieve : List Bool)
    (next : List Nat) (hlh : low ≤ high) (hc : c < next.length)
    (hnext : ∀ j, 2 ≤ j → j ≤ c →
      primes.getD j 0 % 2 = 1 ∧ least_odd_multiple (primes.getD j 0) low (next.getD j 0)) :
    ∃ sieve2 next2,
      small_primes primes low high (List.range' 2 (c + 1 - 2)) sieve next = some (sieve2, next2)
        ∧ sieve2.length = sieve.length ∧ next2.length = next.length
        ∧ (∀ j, j < 2 ∨ c < j → next2.getD j 0 = next.getD j 0)
        ∧ (∀ j, 2 ≤ j → j ≤ c → least_odd_multiple (primes.getD j 0) high (next2.getD j 0))
        ∧ ∀ k, (sieve2.getD k false = true
            ↔ sieve.getD k false = true
              ∧ ¬ (low + k < high ∧ (low + k) % 2 = 1
                    ∧ ∃ j, 2 ≤ j ∧ j ≤ c ∧ primes.getD j 0 ∣ low + k)) := by
  by_cases hc2 : 2 ≤ c
  · obtain ⟨sieve2, next2, e, h1, h2, h3, h4, h5⟩ :=
      small_primes_least primes low high hlh (c + 1 - 2) 2 sieve next (by omega)
        (fun j hj1 hj2 => hnext j hj1 (by omega))
    refine ⟨sieve2, next2, e, h1, h2, fun j hj => h3 j (by omega),
      fun j hj1 hj2 => h4 j hj1 (by omega), ?_⟩
    intro k
    rw [h5 k]
    constructor
    · rintro ⟨hs, hnot⟩
      refine ⟨hs, ?_⟩
      rintro ⟨g1, g2, j, g3, g4, g5⟩
      exact hnot ⟨g1, g2, j, g3, by omega, g5⟩
    · rintro ⟨hs, hnot⟩
      refine ⟨hs, ?_⟩
      rintro ⟨g1, g2, j, g3, g4, g5⟩
      exact hnot ⟨g1, g2, j, g3, by omega, g5⟩
  · have h0 : c + 1 - 2 = 0 := by omega
    rw [h0]
    refine ⟨sieve, next, rfl, rfl, rfl, fun _ _ => rfl, fun j h1 h2 => by omega, ?_⟩
    intro k
    constructor
    · intro hs
      refine ⟨hs, ?_⟩
      rintro ⟨_, _, j, h1, h2, _⟩
      omega
    · exact fun h => h.1

/-- One call of `cross_off` and its calls of `cnt_update`: a position is passed to
`cnt_update` exactly when its bit changes from set to unset, and no position is passed
twice; the run over any counters makes these calls in order, and counters that answer
each query with the number of the set bits up to it before the call do so after it. -/
theorem cross_off_updates_spec (prime low high fuel k : Nat) (sieve : List Bool)
    (hp : 1 ≤ prime) (hk : low ≤ k) (hfuel : high - k < fuel) :
    ∃ k2 sieve2 ups, cross_off_updates prime low high fuel k sieve = some (k2, sieve2, ups)
      ∧ ups.Nodup
      ∧ (∀ i, i ∈ ups ↔ (sieve.getD i false = true ∧ sieve2.getD i false = false))
      ∧ (∀ counters : List Bool,
          s2_cross_off prime low high fuel k sieve counters
            = some (k2, sieve2, ups.foldl (fun c pos => c.set pos false) counters))
      ∧ ∀ q : Nat → Int, (∀ j, j < sieve.length → q j = (cnt_query sieve j : Int)) →
          cross_off_with cnt_update prime low high fuel k sieve q
              = some (k2, sieve2, ups.foldl cnt_update q)
            ∧ ∀ j, j < sieve.length → (ups.foldl cnt_update q) j = (cnt_query sieve2 j : Int) := by
  obtain ⟨k2, sieve2, new, e, hnd, _, hiff, _⟩ :=
    cross_off_log_spec prime low high hp fuel k sieve [] hk hfuel
  rw [List.nil_append] at e
  refine ⟨k2, sieve2, new, e, hnd, hiff, ?_, ?_⟩
  · intro counters
    have h := cross_off_with_log (fun (c : List Bool) pos => c.set pos false) prime low high fuel
      k sieve counters []
    rw [e] at h
    rw [s2_cross_off_eq_with]
    exact h
  · intro q hq
    have h := cross_off_with_log cnt_update prime low high fuel k sieve q []
    rw [e] at h
    simp only [List.foldl_nil, Option.map_some'] at h
    refine ⟨h, ?_⟩
    obtain ⟨k3, sieve3, q3, e3, hq3⟩ :=
      cross_off_counts prime low high hp sieve.length fuel k sieve q hk hfuel hq
    rw [h] at e3
    simp only [Option.some.injEq, Prod.mk.injEq] at e3
    obtain ⟨_, rfl, rfl⟩ := e3
    exact hq3

/-! ### The bytes touched by `Sieve::cross_off` -/

/-- In every unrolled loop the offsets `prime * f + o` of the body lines are at most the
offset `prime * 28 + g` that the loop condition tests. -/
theorem loop_row_offsets (c : Nat) :
    ∀ e ∈ (loop_table.getD c (0, [], 0)).2.1,
      e.2.1 ≤ 28 ∧ e.2.2 ≤ (loop_table.getD c (0, [], 0)).1 := by
  rcases Nat.lt_or_ge c 8 with h | h
  · interval_cases c <;> decide
  · rw [List.getD_eq_default _ _ (by simpa [loop_table] using h)]
    simp

/-- The loop `cross_loop_touched` follows the control of `cross_loop`: both give `none`
together and leave the same `s`. -/
theorem cross_loop_touched_eq (k send c : Nat) :
    ∀ (fuel : Nat) (bytes : List Nat) (cnt s : Nat),
      (cross_loop k send c fuel bytes cnt s).map (fun r => r.2.2)
        = (cross_loop_touched k send c fuel s).map (fun r => r.2) := by
  intro fuel
  induction fuel with
  | zero => intro bytes cnt s; rfl
  | succ fuel ih =>
    intro bytes cnt s
    simp only [cross_loop, cross_loop_touched]
    split_ifs with h
    · rw [ih]
      cases cross_loop_touched k send c fuel
        (s + k * 30 + (loop_table.getD c (0, [], 0)).2.2) with
      | none => rfl
      | some r => rfl
    · rfl

/-- Every byte index an unrolled loop touches is below `sieve_end`. -/
theorem cross_loop_touched_lt (k send c : Nat) :
    ∀ (fuel s : Nat) (r : List Nat × Nat), cross_loop_touched k send c fuel s = some r →
      ∀ j ∈ r.1, j < send := by
  intro fuel
  induction fuel with
  | zero => intro s r h; simp [cross_loop_touched] at h
  | succ fuel ih =>
    intro s r h
    simp only [cross_loop_touched] at h
    split_ifs at h with hc
    · cases hrec : cross_loop_touched k send c fuel
        (s + k * 30 + (loop_table.getD c (0, [], 0)).2.2) with
      | none => rw [hrec] at h; simp at h
      | some r2 =>
        rw [hrec] at h
        simp only [Option.some.injEq] at h
        subst h
        intro j hj
        rcases List.mem_append.mp hj with hj | hj
        · unfold loop_body_touched at hj
          obtain ⟨e, he, rfl⟩ := List.mem_map.mp hj
          obtain ⟨h1, h2⟩ := loop_row_offsets c e he
          have : k * e.2.1 ≤ k * 28 := Nat.mul_le_mul_left k h1
          omega
        · exact ih _ r2 hrec j hj
    · simp only [Option.some.injEq] at h
      subst h
      intro j hj
      simp at hj

/-- The run `cross_run_touched` follows the control of `cross_run`: both give `none`
together. -/
theorem cross_run_touched_some (k send : Nat) :
    ∀ (fuel : Nat) (bytes : List Nat) (cnt s w : Nat),
      (cross_run k send fuel bytes cnt s w).isSome
        = (cross_run_touched k send fuel s w).isSome := by
  intro fuel
  induction fuel with
  | zero => intro bytes cnt s w; rfl
  | succ fuel ih =>
    intro bytes cnt s w
    simp only [cross_run, cross_run_touched]
    split_ifs with h7 h1
    · have hl := cross_loop_touched_eq k send (w / 8)
        (send - (s + k * (case_table.getD w (0, 0, 0)).2.1 + (case_table.getD w (0, 0, 0)).2.2)
          + 1)
        (unset_bit (case_table.getD w (0, 0, 0)).1 bytes s).1
        (cnt + (unset_bit (case_table.getD w (0, 0, 0)).1 bytes s).2)
        (s + k * (case_table.getD w (0, 0, 0)).2.1 + (case_table.getD w (0, 0, 0)).2.2)
      cases hA : cross_loop k send (w / 8)
        (send - (s + k * (case_table.getD w (0, 0, 0)).2.1 + (case_table.getD w (0, 0, 0)).2.2)
          + 1)
        (unset_bit (case_table.getD w (0, 0, 0)).1 bytes s).1
        (cnt + (unset_bit (case_table.getD w (0, 0, 0)).1 bytes s).2)
        (s + k * (case_table.getD w (0, 0, 0)).2.1 + (case_table.getD w (0, 0, 0)).2.2) with
      | none =>
        rw [hA] at hl
        cases hB : cross_loop_touched k send (w / 8)
          (send - (s + k * (case_table.getD w (0, 0, 0)).2.1
            + (case_table.getD w (0, 0, 0)).2.2) + 1)
          (s + k * (case_table.getD w (0, 0, 0)).2.1 + (case_table.getD w (0, 0, 0)).2.2) with
        | none => rfl
        | some rB => rw [hB] at hl; simp at hl
      | some rA =>
        rw [hA] at hl
        cases hB : cross_loop_touched k send (w / 8)
          (send - (s + k * (case_table.getD w (0, 0, 0)).2.1
            + (case_table.getD w (0, 0, 0)).2.2) + 1)
          (s + k * (case_table.getD w (0, 0, 0)).2.1 + (case_table.getD w (0, 0, 0)).2.2) with
        | none => rw [hB] at hl; simp at hl
        | some rB =>
          rw [hB] at hl
          simp only [Option.map_some', Option.some.injEq] at hl
          obtain ⟨b2, c2, s2⟩ := rA
          obtain ⟨tr, s3⟩ := rB
          simp only at hl
          subst hl
          simp only
          split_ifs with hs
          · rfl
          · rw [ih]
            cases cross_run_touched k send fuel s2 (w - 7) with
            | none => rfl
            | some t => rfl
    · rfl
    · rw [ih]
      cases cross_run_touched k send fuel
        (s + k * (case_table.getD w (0, 0, 0)).2.1 + (case_table.getD w (0, 0, 0)).2.2)
        (w + 1) with
      | none => rfl
      | some t => rfl

/-- Every byte index a run of the `switch` touches is below `sieve_end`, when the entry
byte is. -/
theorem cross_run_touched_lt (k send : Nat) :
    ∀ (fuel s w : Nat) (tr : List Nat), s < send → cross_run_touched k send fuel s w = some tr →
      ∀ j ∈ tr, j < send := by
  intro fuel
  induction fuel with
  | zero => intro s w tr _ h; simp [cross_run_touched] at h
  | succ fuel ih =>
    intro s w tr hs h
    simp only [cross_run_touched] at h
    split_ifs at h with h7 h1
    · cases hB : cross_loop_touched k send (w / 8)
        (send - (s + k * (case_table.getD w (0, 0, 0)).2.1
          + (case_table.getD w (0, 0, 0)).2.2) + 1)
        (s + k * (case_table.getD w (0, 0, 0)).2.1 + (case_table.getD w (0, 0, 0)).2.2) with
      | none => rw [hB] at h; simp at h
      | some rB =>
        rw [hB] at h
        obtain ⟨tr1, s2⟩ := rB
        have hloop := cross_loop_touched_lt k send (w / 8) _ _ _ hB
        simp only at h
        split_ifs at h with hs2
        · simp only [Option.some.injEq] at h
          subst h
          intro j hj
          rcases List.mem_cons.mp hj with rfl | hj
          · exact hs
          · exact hloop j hj
        · cases hC : cross_run_touched k send fuel s2 (w - 7) with
          | none => rw [hC] at h; simp at h
          | some tr2 =>
            rw [hC] at h
            simp only [Option.some.injEq] at h
            subst h
            intro j hj
            rcases List.mem_cons.mp hj with rfl | hj
            · exact hs
            · rcases List.mem_append.mp hj with hj | hj
              · exact hloop j hj
              · exact ih s2 (w - 7) tr2 (by omega) hC j hj
    · simp only [Option.some.injEq] at h
      subst h
      intro j hj
      simp only [List.mem_singleton] at hj
      omega
    · cases hC : cross_run_touched k send fuel
        (s + k * (case_table.getD w (0, 0, 0)).2.1 + (case_table.getD w (0, 0, 0)).2.2)
        (w + 1) with
      | none => rw [hC] at h; simp at h
      | some tr2 =>
        rw [hC] at h
        simp only [Option.some.injEq] at h
        subst h
        intro j hj
        rcases List.mem_cons.mp hj with rfl | hj
        · exact hs
        · exact ih _ (w + 1) tr2 (by omega) hC j hj

/-- The part of `cross_off` after `add_wheel`: it returns, and every byte index it touches
is below `sieve_end` and inside the byte array. -/
theorem cross_off_wheel_touched_lt (st1 : Sieve) (i p : Nat) (hi : i < st1.wheel_.length) :
    ∃ tr, cross_off_wheel_touched st1 i p = some tr
      ∧ ∀ j ∈ tr, j < st1.sieve_.length % 2 ^ 32 ∧ j < st1.sieve_.length := by
  have hmod : st1.sieve_.length % 2 ^ 32 ≤ st1.sieve_.length := Nat.mod_le _ _
  unfold cross_off_wheel_touched
  rw [List.get?_eq_get hi]
  simp only
  split_ifs with h1 h2
  · exact ⟨[], rfl, fun j hj => by simp at hj⟩
  · obtain ⟨r, hr⟩ := cross_run_some (p / 30) (st1.sieve_.length % 2 ^ 32)
      (8 * (st1.sieve_.length % 2 ^ 32 - (st1.wheel_.get ⟨i, hi⟩).multiple) + 8) st1.sieve_ 0
      (st1.wheel_.get ⟨i, hi⟩).multiple (st1.wheel_.get ⟨i, hi⟩).index h2 (by omega) (by omega)
    have hsome := cross_run_touched_some (p / 30) (st1.sieve_.length % 2 ^ 32)
      (8 * (st1.sieve_.length % 2 ^ 32 - (st1.wheel_.get ⟨i, hi⟩).multiple) + 8) st1.sieve_ 0
      (st1.wheel_.get ⟨i, hi⟩).multiple (st1.wheel_.get ⟨i, hi⟩).index
    rw [hr] at hsome
    cases hT : cross_run_touched (p / 30) (st1.sieve_.length % 2 ^ 32)
      (8 * (st1.sieve_.length % 2 ^ 32 - (st1.wheel_.get ⟨i, hi⟩).multiple) + 8)
      (st1.wheel_.get ⟨i, hi⟩).multiple (st1.wheel_.get ⟨i, hi⟩).index with
    | none => rw [hT] at hsome; simp at hsome
    | some tr =>
      refine ⟨tr, rfl, ?_⟩
      intro j hj
      have := cross_run_touched_lt _ _ _ _ _ tr (by omega) hT j hj
      exact ⟨this, by omega⟩
  · exact ⟨[], rfl, fun j hj => by simp at hj⟩

/-- The function `cross_off`, called with `i ≤ wheel_.size()`: it returns, and every byte
index it touches is below `sieve_end` and inside the byte array. -/
theorem cross_off_touched_lt (st : Sieve) (i p : Nat) (hi : i ≤ st.wheel_.length)
    (hp : 0 < p ∨ i < st.wheel_.length) :
    ∃ r tr, cross_off st i p = some r ∧ cross_off_touched st i p = some tr
      ∧ ∀ j ∈ tr, j < st.sieve_.length % 2 ^ 32 ∧ j < st.sieve_.length := by
  unfold cross_off cross_off_touched
  split_ifs with h
  · have hp0 : 0 < p := by
      rcases hp with hp | hp
      · exact hp
      · omega
    obtain ⟨wh, hwh⟩ := add_wheel_some st p hp0
    rw [hwh]
    simp only
    obtain ⟨cnt, st2, e, _⟩ :=
      cross_off_wheel_count { st with wheel_ := st.wheel_ ++ [wh] } i p (by simp; omega)
    obtain ⟨tr, e2, hlt⟩ :=
      cross_off_wheel_touched_lt { st with wheel_ := st.wheel_ ++ [wh] } i p (by simp; omega)
    exact ⟨_, tr, e, e2, hlt⟩
  · obtain ⟨cnt, st2, e, _⟩ := cross_off_wheel_count st i p (by omega)
    obtain ⟨tr, e2, hlt⟩ := cross_off_wheel_touched_lt st i p (by omega)
    exact ⟨_, tr, e, e2, hlt⟩

/-! ### The signed `operator<<` of int128_t.hpp -/

/-- The value passed to the unsigned operator is the absolute value of `n`, also for
`n = -2^127`. -/
theorem i128_magnitude (n : Int) (hlo : -2 ^ 127 ≤ n) (hhi : n < 2 ^ 127) :
    ((if n < 0 then neg_i128 n else n) % 2 ^ 128).toNat = n.natAbs := by
  unfold neg_i128
  norm_num at hlo hhi ⊢
  split_ifs with h <;> omega

/-- The signed operator writes `"-"` for a negative `n` and then what the unsigned
operator writes for the absolute value of `n`. -/
theorem ostream_i128_spec (n : Int) (hlo : -2 ^ 127 ≤ n) (hhi : n < 2 ^ 127) :
    ostream_i128 n
      = some ((if n < 0 then [45] else [])
          ++ (if n.natAbs = 0 then [48]
              else ((Nat.digits 10 n.natAbs).map (fun d => 48 + d)).reverse)) := by
  have hlt : n.natAbs < 2 ^ 128 := by
    norm_num at hlo hhi ⊢
    omega
  unfold ostream_i128
  simp only
  rw [i128_magnitude n hlo hhi, ostream_u128_spec n.natAbs hlt]

/-- The signed operator: `"-"` for a negative `n`, then the canonical decimal digits of
the absolute value of `n`; the least value `-2^127` included. -/
theorem ostream_i128_canonical_aux (n : Int) (hlo : -2 ^ 127 ≤ n) (hhi : n < 2 ^ 127) :
    ∃ digits, ostream_u128 n.natAbs = some digits
      ∧ digits = (if n.natAbs = 0 then [48]
          else ((Nat.digits 10 n.natAbs).map (fun d => 48 + d)).reverse)
      ∧ (∀ c ∈ digits, 48 ≤ c ∧ c ≤ 57) ∧ decimal_value digits = n.natAbs
      ∧ ostream_i128 n = some (if n < 0 then 45 :: digits else digits)
      ∧ ostream_i128 (-2 ^ 127)
          = some [45, 49, 55, 48, 49, 52, 49, 49, 56, 51, 52, 54, 48, 52, 54, 57, 50, 51, 49, 55, 51, 49, 54, 56, 55, 51, 48, 51, 55, 49, 53, 56, 56, 52, 49, 48, 53, 55, 50, 56] := by
  have hlt : n.natAbs < 2 ^ 128 := by
    norm_num at hlo hhi ⊢
    omega
  obtain ⟨s, hs, _, _, hdig, hval⟩ := ostream_u128_canonical_aux n.natAbs hlt
  have hs2 := hs
  rw [ostream_u128_spec n.natAbs hlt] at hs2
  simp only [Option.some.injEq] at hs2
  refine ⟨s, hs, hs2.symm, hdig, hval, ?_, ?_⟩
  · rw [ostream_i128_spec n hlo hhi, hs2]
    split_ifs <;> rfl
  · rw [ostream_i128_spec _ (by norm_num) (by norm_num)]
    norm_num

/-! ### What a segment does to a worker, step by step

A relation `R` between worker states that is reflexive and transitive and holds across
the filling of the sieve, across every `finish_b` and across every evaluation of a leaf
holds across the whole segment. -/

theorem easy_leaves_rel (R : S2Worker → S2Worker → Prop) (hrefl : ∀ w, R w w)
    (htrans : ∀ u v w, R u v → R v w → R u w) (x low b prime : Nat) (factors : FactorTable) :
    ∀ (ms : List Nat) (w w2 : S2Worker),
      (∀ m ∈ ms, prime < factors.lpf m → ∀ v v2,
        eval_leaf x low b (prime * factors.get_number m) (factors.mu m) v = some v2 → R v v2) →
      easy_leaves x low b prime factors ms w = some w2 → R w w2 := by
  intro ms
  induction ms with
  | nil =>
    intro w w2 _ h
    simp only [easy_leaves, Option.some.injEq] at h
    subst h
    exact hrefl w
  | cons m rest ih =>
    intro w w2 hev h
    simp only [easy_leaves] at h
    have hrest : ∀ m' ∈ rest, prime < factors.lpf m' → ∀ v v2,
        eval_leaf x low b (prime * factors.get_number m') (factors.mu m') v = some v2 → R v v2 :=
      fun m' hm' => hev m' (List.mem_cons_of_mem _ hm')
    split_ifs at h with hl
    · cases h1 : eval_leaf x low b (prime * factors.get_number m) (factors.mu m) w with
      | none => rw [h1] at h; cases h
      | some w1 =>
        rw [h1] at h
        exact htrans _ _ _ (hev m (List.mem_cons_self _ _) hl w w1 h1) (ih w1 w2 hrest h)
    · exact ih w w2 hrest h

theorem hard_leaves_rel (R : S2Worker → S2Worker → Prop) (hrefl : ∀ w, R w w)
    (htrans : ∀ u v w, R u v → R v w → R u w) (x low b prime mhl : Nat) (primes : List Nat) :
    ∀ (l : Nat) (w w2 : S2Worker),
      (∀ l2, l2 ≤ l → mhl < primes.getD l2 0 → ∀ v v2,
        eval_leaf x low b (prime * primes.getD l2 0) (-1) v = some v2 → R v v2) →
      hard_leaves x low b prime mhl primes l w = some w2 → R w w2 := by
  intro l
  induction l with
  | zero =>
    intro w w2 _ h
    simp only [hard_leaves] at h
    split_ifs at h
    simp only [Option.some.injEq] at h
    subst h
    exact hrefl w
  | succ l ih =>
    intro w w2 hev h
    simp only [hard_leaves] at h
    split_ifs at h with hl
    · cases h1 : eval_leaf x low b (prime * primes.getD (l + 1) 0) (-1) w with
      | none => rw [h1] at h; cases h
      | some w1 =>
        rw [h1] at h
        exact htrans _ _ _ (hev (l + 1) (le_refl _) hl w w1 h1)
          (ih w1 w2 (fun l2 h2 => hev l2 (by omega)) h)
    · simp only [Option.some.injEq] at h
      subst h
      exact hrefl w

theorem easy_b_rel (R : S2Worker → S2Worker → Prop) (hrefl : ∀ w, R w w)
    (htrans : ∀ u v w, R u v → R v w → R u w) (x y : Nat) (factors : FactorTable)
    (primes : List Nat) (low high b : Nat) (w w2 : S2Worker) (flag : Bool)
    (hfin : ∀ v v2, finish_b primes low high b v = some v2 → R v v2)
    (hev : ¬ primes.getD b 0 ≥ min (x / (primes.getD b 0 * low)) y →
      ∀ m, factors.to_index
            (max (min (x / (primes.getD b 0 * high)) y) (y / primes.getD b 0)) < m →
        m ≤ factors.to_index (min (x / (primes.getD b 0 * low)) y) →
        primes.getD b 0 < factors.lpf m → ∀ v v2,
        eval_leaf x low b (primes.getD b 0 * factors.get_number m) (factors.mu m) v = some v2 →
        R v v2)
    (h : easy_b x y factors primes low high b w = some (w2, flag)) : R w w2 := by
  unfold easy_b at h
  simp only [] at h
  by_cases hbr : primes.getD b 0 ≥ min (x / (primes.getD b 0 * low)) y
  · rw [if_pos hbr] at h
    cases h
    exact hrefl w
  · rw [if_neg hbr] at h
    cases h1 : easy_leaves x low b (primes.getD b 0) factors
        (List.range'
          (factors.to_index (max (min (x / (primes.getD b 0 * high)) y) (y / primes.getD b 0)) + 1)
          (factors.to_index (min (x / (primes.getD b 0 * low)) y)
            - factors.to_index
                (max (min (x / (primes.getD b 0 * high)) y) (y / primes.getD b 0)))).reverse w with
    | none => rw [h1] at h; cases h
    | some w1 =>
      rw [h1] at h
      simp only [] at h
      cases h2 : finish_b primes low high b w1 with
      | none => rw [h2] at h; cases h
      | some w3 =>
        rw [h2] at h
        cases h
        refine htrans _ _ _ ?_ (hfin w1 w2 h2)
        apply easy_leaves_rel R hrefl htrans x low b (primes.getD b 0) factors _ w w1 _ h1
        intro m hm hl v v2 hv
        rw [List.mem_reverse, List.mem_range'_1] at hm
        exact hev hbr m (by omega) (by omega) hl v v2 hv

theorem hard_b_rel (R : S2Worker → S2Worker → Prop) (hrefl : ∀ w, R w w)
    (htrans : ∀ u v w, R u v → R v w → R u w) (x y z : Nat) (pi primes : List Nat)
    (low high b : Nat) (w w2 : S2Worker) (flag : Bool)
    (hfin : ∀ v v2, finish_b primes low high b v = some v2 → R v v2)
    (hev : ¬ primes.getD b 0 ≥ primes.getD (pi.getD
          (min (min (x / (primes.getD b 0 * low)) y) (z / primes.getD b 0)) 0) 0 →
      ∀ l2, l2 ≤ pi.getD (min (min (x / (primes.getD b 0 * low)) y) (z / primes.getD b 0)) 0 →
        max (max (min (x / (primes.getD b 0 * high)) y) (y / primes.getD b 0))
          (primes.getD b 0) < primes.getD l2 0 → ∀ v v2,
        eval_leaf x low b (primes.getD b 0 * primes.getD l2 0) (-1) v = some v2 → R v v2)
    (h : hard_b x y z pi primes low high b w = some (w2, flag)) : R w w2 := by
  unfold hard_b at h
  simp only [] at h
  by_cases hbr : primes.getD b 0 ≥ primes.getD (pi.getD
      (min (min (x / (primes.getD b 0 * low)) y) (z / primes.getD b 0)) 0) 0
  · rw [if_pos hbr] at h
    cases h
    exact hrefl w
  · rw [if_neg hbr] at h
    cases h1 : hard_leaves x low b (primes.getD b 0)
        (max (max (min (x / (primes.getD b 0 * high)) y) (y / primes.getD b 0))
          (primes.getD b 0)) primes
        (pi.getD (min (min (x / (primes.getD b 0 * low)) y) (z / primes.getD b 0)) 0) w with
    | none => rw [h1] at h; cases h
    | some w1 =>
      rw [h1] at h
      simp only [] at h
      cases h2 : finish_b primes low high b w1 with
      | none => rw [h2] at h; cases h
      | some w3 =>
        rw [h2] at h
        cases h
        refine htrans _ _ _ ?_ (hfin w1 w2 h2)
        exact hard_leaves_rel R hrefl htrans x low b (primes.getD b 0) _ primes _ w w1
          (hev hbr) h1

theorem run_bs_rel (R : S2Worker → S2Worker → Prop) (hrefl : ∀ w, R w w)
    (htrans : ∀ u v w, R u v → R v w → R u w)
    (body : Nat → S2Worker → Option (S2Worker × Bool)) :
    ∀ (bs : List Nat) (w w2 : S2Worker) (flag : Bool),
      (∀ b ∈ bs, ∀ v v2 fl, body b v = some (v2, fl) → R v v2) →
      run_bs body bs w = some (w2, flag) → R w w2 := by
  intro bs
  induction bs with
  | nil =>
    intro w w2 flag _ h
    simp only [run_bs, Option.some.injEq, Prod.mk.injEq] at h
    obtain ⟨rfl, _⟩ := h
    exact hrefl w
  | cons b rest ih =>
    intro w w2 flag hbody h
    simp only [run_bs] at h
    cases hb : body b w with
    | none => rw [hb] at h; cases h
    | some r =>
      obtain ⟨w1, fl⟩ := r
      rw [hb] at h
      have h1 := hbody b (List.mem_cons_self _ _) w w1 fl hb
      cases fl with
      | true =>
        simp only [Option.some.injEq, Prod.mk.injEq] at h
        obtain ⟨rfl, _⟩ := h
        exact h1
      | false =>
        simp only [] at h
        exact htrans _ _ _ h1
          (ih w1 w2 flag (fun b' hb' => hbody b' (List.mem_cons_of_mem _ hb')) h)

/-- A relation that holds across the filling of the sieve, every `finish_b` and every
evaluation of a leaf of a segment holds across the segment. The leaves are those the
source evaluates: at an index `b` of the easy loop the numbers
`primes[b] * get_number(m)` for the table indices `m` in `(min_m, max_m]`, at an index `b`
of the hard loop the numbers `primes[b] * primes[l2]` with `l2 ≤ l`. -/
theorem process_segment_rel (R : S2Worker → S2Worker → Prop) (hrefl : ∀ w, R w w)
    (htrans : ∀ u v w, R u v → R v w → R u w) (x y z c : Nat) (factors : FactorTable)
    (pi primes : List Nat) (pi_sqrty pi_max low high : Nat) (w w2 : S2Worker)
    (hfill : ∀ (v : S2Worker) (sieve2 : List Bool) (next2 : List Nat),
      R v { v with sieve := sieve2, counters := sieve2, next := next2 })
    (hfin : ∀ b v v2, finish_b primes low high b v = some v2 → R v v2)
    (heasy : ∀ b, c + 1 ≤ b → b ≤ pi_sqrty → b ≤ pi_max →
      ¬ primes.getD b 0 ≥ min (x / (primes.getD b 0 * low)) y →
      ∀ m, factors.to_index
            (max (min (x / (primes.getD b 0 * high)) y) (y / primes.getD b 0)) < m →
        m ≤ factors.to_index (min (x / (primes.getD b 0 * low)) y) →
        primes.getD b 0 < factors.lpf m → ∀ v v2,
        eval_leaf x low b (primes.getD b 0 * factors.get_number m) (factors.mu m) v = some v2 →
        R v v2)
    (hhard : ∀ b, c + 1 ≤ b → pi_sqrty < b → b ≤ pi_max →
      ¬ primes.getD b 0 ≥ primes.getD (pi.getD
          (min (min (x / (primes.getD b 0 * low)) y) (z / primes.getD b 0)) 0) 0 →
      ∀ l2, l2 ≤ pi.getD (min (min (x / (primes.getD b 0 * low)) y) (z / primes.getD b 0)) 0 →
        max (max (min (x / (primes.getD b 0 * high)) y) (y / primes.getD b 0))
          (primes.getD b 0) < primes.getD l2 0 → ∀ v v2,
        eval_leaf x low b (primes.getD b 0 * primes.getD l2 0) (-1) v = some v2 → R v v2)
    (h : process_segment x y z c factors pi primes pi_sqrty pi_max low high w = some w2) :
    R w w2 := by
  unfold process_segment at h
  simp only [] at h
  have key : ∀ w1 : S2Worker, R w w1 →
      (match run_bs (easy_b x y factors primes low high)
          (List.range' (c + 1) (min pi_sqrty pi_max + 1 - (c + 1))) w1 with
        | none => none
        | some (w2, true) => some w2
        | some (w2, false) =>
          match run_bs (hard_b x y z pi primes low high)
              (List.range' (max (c + 1) (min pi_sqrty pi_max + 1))
                (pi_max + 1 - max (c + 1) (min pi_sqrty pi_max + 1))) w2 with
          | none => none
          | some (w3, _) => some w3) = some w2 → R w w2 := by
    intro w1 hw1 h
    cases he : run_bs (easy_b x y factors primes low high)
        (List.range' (c + 1) (min pi_sqrty pi_max + 1 - (c + 1))) w1 with
    | none => rw [he] at h; cases h
    | some r2 =>
      obtain ⟨w3, fl⟩ := r2
      rw [he] at h
      have hR1 : R w1 w3 := by
        apply run_bs_rel R hrefl htrans _ _ w1 w3 fl _ he
        intro b hb v v2 fl0 hbody
        rw [List.mem_range'_1] at hb
        exact easy_b_rel R hrefl htrans x y factors primes low high b v v2 fl0 (hfin b)
          (heasy b (by omega) (by omega) (by omega)) hbody
      cases fl with
      | true =>
        simp only [Option.some.injEq] at h
        subst h
        exact htrans _ _ _ hw1 hR1
      | false =>
        simp only [] at h
        cases hh : run_bs (hard_b x y z pi primes low high)
            (List.range' (max (c + 1) (min pi_sqrty pi_max + 1))
              (pi_max + 1 - max (c + 1) (min pi_sqrty pi_max + 1))) w3 with
        | none => rw [hh] at h; cases h
        | some r3 =>
          obtain ⟨w4, fl3⟩ := r3
          rw [hh] at h
          simp only [Option.some.injEq] at h
          subst h
          have hR2 : R w3 w4 := by
            apply run_bs_rel R hrefl htrans _ _ w3 w4 fl3 _ hh
            intro b hb v v2 fl0 hbody
            rw [List.mem_range'_1] at hb
            exact hard_b_rel R hrefl htrans x y z pi primes low high b v v2 fl0 (hfin b)
              (hhard b (by omega) (by omega) (by omega)) hbody
          exact htrans _ _ _ hw1 (htrans _ _ _ hR1 hR2)
  by_cases hcm : c ≤ pi_max
  · rw [if_pos hcm] at h
    cases hsp : small_primes primes low high (List.range' 2 (c + 1 - 2))
        (sieve_fill w.sieve.length low) w.next with
    | none => rw [hsp] at h; cases h
    | some r =>
      obtain ⟨sieve2, next2⟩ := r
      rw [hsp] at h
      simp only [] at h
      exact key _ (hfill w sieve2 next2) h
  · rw [if_neg hcm] at h
    simp only [] at h
    exact key w (hrefl w) h

/-! ### The lengths of `phi` and `mu_sum` -/

/-- The relation "the vectors `phi` and `mu_sum` keep their lengths". -/
theorem eval_leaf_len (x low b n : Nat) (mu : Int) (w w2 : S2Worker)
    (h : eval_leaf x low b n mu w = some w2) :
    w2.phi.length = w.phi.length ∧ w2.mu_sum.length = w.mu_sum.length := by
  unfold eval_leaf at h
  by_cases hn : n = 0
  · rw [if_pos hn] at h; cases h
  · rw [if_neg hn] at h
    simp only [] at h
    split_ifs at h
    simp only [Option.some.injEq] at h
    subst h
    exact ⟨rfl, by simp⟩

theorem finish_b_len (primes : List Nat) (low high b : Nat) (w w2 : S2Worker)
    (h : finish_b primes low high b w = some w2) :
    w2.phi.length = w.phi.length ∧ w2.mu_sum.length = w.mu_sum.length := by
  unfold finish_b at h
  simp only [] at h
  cases hc : s2_cross_off (primes.getD b 0) low high
      (high - w.next.getD b 0 + 1) (w.next.getD b 0) w.sieve w.counters with
  | none => rw [hc] at h; cases h
  | some r =>
    obtain ⟨k, sieve2, counters2⟩ := r
    rw [hc] at h
    simp only [Option.some.injEq] at h
    subst h
    exact ⟨by simp, rfl⟩

theorem process_segment_len (x y z c : Nat) (factors : FactorTable) (pi primes : List Nat)
    (pi_sqrty pi_max low high : Nat) (w w2 : S2Worker)
    (h : process_segment x y z c factors pi primes pi_sqrty pi_max low high w = some w2) :
    w2.phi.length = w.phi.length ∧ w2.mu_sum.length = w.mu_sum.length :=
  process_segment_rel
    (fun u v => v.phi.length = u.phi.length ∧ v.mu_sum.length = u.mu_sum.length)
    (fun _ => ⟨rfl, rfl⟩) (fun _ _ _ h1 h2 => ⟨h2.1.trans h1.1, h2.2.trans h1.2⟩)
    x y z c factors pi primes pi_sqrty pi_max low high w w2
    (fun _ _ _ => ⟨rfl, rfl⟩) (fun b v v2 hv => finish_b_len primes low high b v v2 hv)
    (fun b _ _ _ _ _ _ _ _ v v2 hv => eval_leaf_len x low b _ _ v v2 hv)
    (fun b _ _ _ _ _ _ _ v v2 hv => eval_leaf_len x low b _ _ v v2 hv) h

theorem segment_loop_len (x y z c : Nat) (factors : FactorTable) (pi primes : List Nat)
    (pi_sqrty pi_max S limit : Nat) :
    ∀ (fuel low : Nat) (w w2 : S2Worker),
      segment_loop x y z c factors pi primes pi_sqrty pi_max S limit fuel low w = some w2 →
      w2.phi.length = w.phi.length ∧ w2.mu_sum.length = w.mu_sum.length := by
  intro fuel
  induction fuel with
  | zero =>
    intro low w w2 h
    simp only [segment_loop] at h
    split_ifs at h
    simp only [Option.some.injEq] at h
    subst h
    exact ⟨rfl, rfl⟩
  | succ fuel ih =>
    intro low w w2 h
    simp only [segment_loop] at h
    split_ifs at h with hl
    · cases hp : process_segment x y z c factors pi primes pi_sqrty pi_max low
          (min (low + S) limit) w with
      | none => rw [hp] at h; cases h
      | some w1 =>
        rw [hp] at h
        obtain ⟨a1, a2⟩ := process_segment_len x y z c factors pi primes pi_sqrty pi_max low _
          w w1 hp
        obtain ⟨b1, b2⟩ := ih _ w1 w2 h
        exact ⟨b1.trans a1, b2.trans a2⟩
    · simp only [Option.some.injEq] at h
      subst h
      exact ⟨rfl, rfl⟩

/-- The vectors `phi` and `mu_sum` that a worker returns both have the length
`pi[max_prime] + 1`. -/
theorem S2_sieve_thread_len (x y z c S K t low limit : Nat) (factors : FactorTable)
    (pi primes : List Nat) (w : S2Worker)
    (h : S2_sieve_thread x y z c S K t low limit factors pi primes = some w) :
    w.phi.length
        = pi.getD (min (min (isqrt (x / (low + S * K * t))) y) (isqrt z)) 0 + 1
      ∧ w.mu_sum.length
        = pi.getD (min (min (isqrt (x / (low + S * K * t))) y) (isqrt z)) 0 + 1 := by
  unfold S2_sieve_thread at h
  simp only [] at h
  obtain ⟨h1, h2⟩ := segment_loop_len x y z c factors pi primes _ _ S _ K _ _ w h
  simp only [List.length_replicate] at h1 h2
  exact ⟨h1, h2⟩

/-- The length of a worker's vectors is at most the length of `phi_total`, for a table
`pi` that is non-decreasing. -/
theorem thread_len_le_total (x y z : Nat) (pi : List Nat) (low_t : Nat)
    (hmono : ∀ i j, i ≤ j → j < pi.length → pi.getD i 0 ≤ pi.getD j 0)
    (hlen : min (isqrt z) y < pi.length) :
    pi.getD (min (min (isqrt (x / low_t)) y) (isqrt z)) 0 + 1
      ≤ pi.getD (min (isqrt z) y) 0 + 1 := by
  have : min (min (isqrt (x / low_t)) y) (isqrt z) ≤ min (isqrt z) y :=
    le_min (min_le_right _ _) (le_trans (min_le_left _ _) (min_le_right _ _))
  have := hmono _ _ this hlen
  omega

/-! ### The segments of the schedule -/

theorem seg_chain_append : ∀ (l1 l2 : List (Nat × Nat)) (a m b : Nat),
    seg_chain l1 a m → seg_chain l2 m b → seg_chain (l1 ++ l2) a b := by
  intro l1
  induction l1 with
  | nil =>
    intro l2 a m b h1 h2
    simp only [seg_chain] at h1
    subst h1
    exact h2
  | cons s rest ih =>
    intro l2 a m b h1 h2
    simp only [seg_chain] at h1
    simp only [List.cons_append, seg_chain]
    exact ⟨h1.1, h1.2.1, ih l2 _ m b h1.2.2 h2⟩

theorem seg_chain_le : ∀ (l : List (Nat × Nat)) (a b : Nat), seg_chain l a b → a ≤ b := by
  intro l
  induction l with
  | nil => intro a b h; simp only [seg_chain] at h; omega
  | cons s rest ih =>
    intro a b h
    simp only [seg_chain] at h
    have := ih _ _ h.2.2
    omega

/-- The segments of a chain from `a` to `b` lie in `[a, b)`, each is not empty, each ends
before the later ones start, and together they cover `[a, b)`. -/
theorem seg_chain_spec : ∀ (l : List (Nat × Nat)) (a b : Nat), seg_chain l a b →
    (∀ s ∈ l, a ≤ s.1 ∧ s.1 < s.2 ∧ s.2 ≤ b)
      ∧ l.Pairwise (fun s t => s.2 ≤ t.1)
      ∧ ∀ n, (∃ s ∈ l, s.1 ≤ n ∧ n < s.2) ↔ (a ≤ n ∧ n < b) := by
  intro l
  induction l with
  | nil =>
    intro a b h
    simp only [seg_chain] at h
    subst h
    refine ⟨fun s hs => by simp at hs, List.Pairwise.nil, ?_⟩
    intro n
    constructor
    · rintro ⟨s, hs, _⟩; simp at hs
    · intro hn; omega
  | cons s rest ih =>
    intro a b h
    simp only [seg_chain] at h
    obtain ⟨h1, h2, h3⟩ := h
    obtain ⟨g1, g2, g3⟩ := ih _ _ h3
    have hle := seg_chain_le _ _ _ h3
    refine ⟨?_, ?_, ?_⟩
    · intro t ht
      rcases List.mem_cons.mp ht with rfl | ht
      · omega
      · have := g1 t ht; omega
    · refine List.Pairwise.cons ?_ g2
      intro t ht
      exact (g1 t ht).1
    · intro n
      constructor
      · rintro ⟨t, ht, hn1, hn2⟩
        rcases List.mem_cons.mp ht with rfl | ht
        · omega
        · have := (g3 n).mp ⟨t, ht, hn1, hn2⟩
          omega
      · intro hn
        by_cases hc : n < s.2
        · exact ⟨s, List.mem_cons_self _ _, by omega, hc⟩
        · obtain ⟨t, ht, hn1, hn2⟩ := (g3 n).mpr ⟨by omega, hn.2⟩
          exact ⟨t, List.mem_cons_of_mem _ ht, hn1, hn2⟩

theorem segments_loop_chain (S limit : Nat) (hS : 1 ≤ S) :
    ∀ (fuel low : Nat), limit ≤ low + S * fuel →
      ∃ l, segments_loop S limit fuel low = some l ∧ seg_chain l (min low limit) limit
        ∧ ∀ s ∈ l, s.2 ≤ s.1 + S := by
  intro fuel
  induction fuel with
  | zero =>
    intro low h
    refine ⟨[], ?_, ?_, fun s hs => by simp at hs⟩
    · simp only [segments_loop]
      rw [if_neg (by omega)]
    · simp only [seg_chain]
      omega
  | succ fuel ih =>
    intro low h
    simp only [segments_loop]
    by_cases hl : low < limit
    · rw [if_pos hl]
      obtain ⟨l, e, hc, hs⟩ := ih (low + S) (by rw [Nat.mul_succ] at h; omega)
      rw [e]
      refine ⟨_, rfl, ?_, ?_⟩
      · simp only [seg_chain]
        exact ⟨by omega, by omega, hc⟩
      · intro s hs2
        rcases List.mem_cons.mp hs2 with rfl | hs2
        · simp only; omega
        · exact hs s hs2
    · rw [if_neg hl]
      refine ⟨[], rfl, ?_, fun s hs => by simp at hs⟩
      simp only [seg_chain]
      omega

/-- The worker `t` of a pass covers `[low + S*K*t, min(low + S*K*(t+1), limit))`. -/
theorem thread_segments_chain (S K t low limit : Nat) (hS : 1 ≤ S) :
    ∃ l, thread_segments S K t low limit = some l
      ∧ seg_chain l (min (low + S * K * t) limit) (min (low + S * K * (t + 1)) limit)
      ∧ ∀ s ∈ l, s.2 ≤ s.1 + S := by
  unfold thread_segments
  simp only []
  obtain ⟨l, e, hc, hs⟩ := segments_loop_chain S (min (low + S * K * t + S * K) limit) hS K
    (low + S * K * t) (by have := min_le_left (low + S * K * t + S * K) limit; omega)
  refine ⟨l, e, ?_, hs⟩
  have e1 : min (low + S * K * t) (min (low + S * K * t + S * K) limit)
      = min (low + S * K * t) limit := by
    rcases Nat.le_total (low + S * K * t + S * K) limit with h | h
    · rw [min_eq_left h]; omega
    · rw [min_eq_right h]
  have e2 : low + S * K * (t + 1) = low + S * K * t + S * K := by ring
  rw [e1] at hc
  rw [e2]
  exact hc

theorem pass_segments_chain (S K low limit : Nat) (hS : 1 ≤ S) :
    ∀ (n t : Nat), ∃ l, pass_segments S K low limit (List.range' t n) = some l
      ∧ seg_chain l (min (low + S * K * t) limit) (min (low + S * K * (t + n)) limit)
      ∧ ∀ s ∈ l, s.2 ≤ s.1 + S := by
  intro n
  induction n with
  | zero =>
    intro t
    exact ⟨[], rfl, by simp [seg_chain], fun s hs => by simp at hs⟩
  | succ n ih =>
    intro t
    obtain ⟨l1, e1, c1, s1⟩ := thread_segments_chain S K t low limit hS
    obtain ⟨l2, e2, c2, s2⟩ := ih (t + 1)
    refine ⟨l1 ++ l2, ?_, ?_, ?_⟩
    · simp only [List.range'_succ, pass_segments, e1, e2]
    · have e : t + 1 + n = t + (n + 1) := by omega
      rw [e] at c2
      exact seg_chain_append _ _ _ _ _ c1 c2
    · intro s hs
      rcases List.mem_append.mp hs with h | h
      · exact s1 s h
      · exact s2 s h

theorem schedule_loop_chain (limit : Nat) (balance : Nat → Nat × Nat)
    (hbal : ∀ k, 1 ≤ (balance k).1) :
    ∀ (fuel k low threads S K : Nat), 1 ≤ S → limit ≤ low + fuel →
      ∃ l, schedule_loop limit balance fuel k low threads S K = some l
        ∧ seg_chain l (min low limit) limit := by
  intro fuel
  induction fuel with
  | zero =>
    intro k low threads S K _ h
    refine ⟨[], ?_, ?_⟩
    · simp only [schedule_loop]
      rw [if_neg (by omega)]
    · simp only [seg_chain]; omega
  | succ fuel ih =>
    intro k low threads S K hS h
    simp only [schedule_loop]
    by_cases hl : low < limit
    · rw [if_pos hl, if_neg (by omega)]
      generalize hT : in_between 1 threads (ceil_div (limit - low) S) = T
      generalize hK : in_between 1 K (ceil_div (ceil_div (limit - low) S) T) = K2
      have hT1 : 1 ≤ T := by rw [← hT]; exact in_between_ge _ _ _
      have hK1 : 1 ≤ K2 := by rw [← hK]; exact in_between_ge _ _ _
      obtain ⟨l1, e1, c1, _⟩ := pass_segments_chain S K2 low limit hS T 0
      rw [← List.range_eq_range'] at e1
      have hadv : 1 ≤ K2 * T * S := Nat.mul_pos (Nat.mul_pos hK1 hT1) hS
      obtain ⟨l2, e2, c2⟩ := ih (k + 1) (low + K2 * T * S) T (balance k).1 (balance k).2
        (hbal k) (by omega)
      rw [e1, e2]
      refine ⟨l1 ++ l2, rfl, ?_⟩
      have e3 : low + S * K2 * (0 + T) = low + K2 * T * S := by ring
      have e4 : low + S * K2 * 0 = low := by ring
      rw [e3, e4] at c1
      exact seg_chain_append _ _ _ _ _ c1 c2
    · rw [if_neg hl]
      refine ⟨[], rfl, ?_⟩
      simp only [seg_chain]; omega

/-- The segments of `S2_sieve` form a chain from 1 to `z + 1`. -/
theorem S2_sieve_segments_chain (z threads mss : Nat) (balance : Nat → Nat × Nat)
    (hmss : 1 ≤ mss) (hbal : ∀ k, 1 ≤ (balance k).1) :
    ∃ l, S2_sieve_segments z threads mss balance = some l ∧ seg_chain l 1 (z + 1) := by
  unfold S2_sieve_segments
  obtain ⟨l, e, hc⟩ := schedule_loop_chain (z + 1) balance hbal (z + 1) 0 1 threads mss 1 hmss
    (by omega)
  refine ⟨l, e, ?_⟩
  have : min 1 (z + 1) = 1 := by omega
  rw [this] at hc
  exact hc

/-- A true prime-counting table is non-decreasing. -/
theorem pi_ok_mono (pi : List Nat) (hpi : pi_ok pi) :
    ∀ i j, i ≤ j → j < pi.length → pi.getD i 0 ≤ pi.getD j 0 := by
  intro i j hij hj
  rw [hpi i (by omega), hpi j hj]
  exact Nat.monotone_primeCounting hij

/-- The vectors of a worker and the carry-over loop: `phi` and `mu_sum` have the length
`pi[max_prime] + 1`, which is at most the length of `phi_total` for a non-decreasing `pi`;
every index `j` of the carry-over loop is inside `phi_total`, `mu_sum` and `phi`, and the
loop keeps the length of `phi_total`. -/
theorem S2_vector_lengths_aux (x y z c S K t low limit : Nat) (factors : FactorTable)
    (pi primes : List Nat)
    (hmono : ∀ i j, i ≤ j → j < pi.length → pi.getD i 0 ≤ pi.getD j 0)
    (hlen : min (isqrt z) y < pi.length) (w : S2Worker)
    (h : S2_sieve_thread x y z c S K t low limit factors pi primes = some w) :
    w.phi.length = pi.getD (min (min (isqrt (x / (low + S * K * t))) y) (isqrt z)) 0 + 1
      ∧ w.mu_sum.length
          = pi.getD (min (min (isqrt (x / (low + S * K * t))) y) (isqrt z)) 0 + 1
      ∧ w.phi.length ≤ pi.getD (min (isqrt z) y) 0 + 1
      ∧ ∀ (s2 : Int) (phi_total : List Int),
          phi_total.length = pi.getD (min (isqrt z) y) 0 + 1 →
          (∀ j ∈ List.range' 1 (w.phi.length - 1),
            j < phi_total.length ∧ j < w.mu_sum.length ∧ j < w.phi.length)
          ∧ (carry_over w.mu_sum w.phi (List.range' 1 (w.phi.length - 1)) s2
              phi_total).2.length = phi_total.length := by
  obtain ⟨h1, h2⟩ := S2_sieve_thread_len x y z c S K t low limit factors pi primes w h
  have h3 := thread_len_le_total x y z pi (low + S * K * t) hmono hlen
  refine ⟨h1, h2, by omega, ?_⟩
  intro s2 pt hpt
  refine ⟨?_, ?_⟩
  · intro j hj
    rw [List.mem_range'_1] at hj
    omega
  · exact (carry_over_spec w.mu_sum w.phi (w.phi.length - 1) 1 s2 pt (by omega)).2.1

/-! ### The leaves of a segment lie in the segment -/

theorem eval_leaf_leaves (x low b n : Nat) (mu : Int) (w w2 : S2Worker)
    (h : eval_leaf x low b n mu w = some w2) :
    ∃ e, w2.leaves = w.leaves ++ [e] ∧ e.xn = x / n ∧ e.b = b ∧ e.mu = mu
      ∧ low ≤ x / n ∧ x / n - low < w.counters.length := by
  unfold eval_leaf at h
  by_cases hn : n = 0
  · rw [if_pos hn] at h; cases h
  · rw [if_neg hn] at h
    simp only [] at h
    split_ifs at h with hc
    simp only [Option.some.injEq] at h
    subst h
    exact ⟨_, rfl, rfl, rfl, rfl, by omega, by omega⟩

/-- The leaves evaluated in the segment `[low, high)`: the log of the worker only grows,
and every new leaf has its quotient `x / n` in `[low, high)`. -/
theorem process_segment_range (x y z c : Nat) (factors : FactorTable) (pi primes : List Nat)
    (pi_max low high : Nat) (w w2 : S2Worker) (htab : s2_tables_ok y pi primes factors)
    (hpm : pi_max ≤ Nat.primeCounting y) (hlow : 1 ≤ low) (hlh : low < high)
    (h : process_segment x y z c factors pi primes (pi.getD (Nat.sqrt y) 0) pi_max low high w
      = some w2) :
    ∃ new, w2.leaves = w.leaves ++ new ∧ ∀ e ∈ new, low ≤ e.xn ∧ e.xn < high := by
  obtain ⟨hy, hpi, hpr, hfac⟩ := htab
  have hev : ∀ (b n : Nat) (mu : Int) (v v2 : S2Worker), low ≤ x / n → x / n < high →
      eval_leaf x low b n mu v = some v2 →
      ∃ new, v2.leaves = v.leaves ++ new ∧ ∀ e ∈ new, low ≤ e.xn ∧ e.xn < high := by
    intro b n mu v v2 h1 h2 hv
    obtain ⟨e, he, hxn, _⟩ := eval_leaf_leaves x low b n mu v v2 hv
    refine ⟨[e], he, ?_⟩
    intro e' he'
    rw [List.mem_singleton] at he'
    subst he'
    rw [hxn]
    exact ⟨h1, h2⟩
  refine process_segment_rel
    (fun u v => ∃ new, v.leaves = u.leaves ++ new ∧ ∀ e ∈ new, low ≤ e.xn ∧ e.xn < high)
    (fun u => ⟨[], by simp, fun e he => by cases he⟩) ?_
    x y z c factors pi primes (pi.getD (Nat.sqrt y) 0) pi_max low high w w2
    (fun v _ _ => ⟨[], by simp, fun e he => by cases he⟩) ?_ ?_ ?_ h
  · rintro u v t ⟨n1, e1, r1⟩ ⟨n2, e2, r2⟩
    refine ⟨n1 ++ n2, by rw [e2, e1, List.append_assoc], ?_⟩
    intro e he
    rcases List.mem_append.mp he with h1 | h1
    · exact r1 e h1
    · exact r2 e h1
  · intro b v v2 hv
    exact ⟨[], by rw [finish_b_leaves primes low high b v v2 hv]; simp,
      fun e he => by cases he⟩
  · intro b hb hbs hbm hbr m hm1 hm2 _ v v2 hv
    have hbs2 := hbs
    rw [pi_tbl pi y _ hpi hy (Nat.sqrt_le_self y)] at hbs2
    have hbN : b ≤ Nat.primeCounting y := by omega
    have hp2 := (tbl_prime primes _ b hpr (by omega) hbN).two_le
    have hsq : primes.getD b 0 ≤ Nat.sqrt y :=
      tbl_le_of_le_pi primes _ b _ hpr hbs2 (Nat.monotone_primeCounting (Nat.sqrt_le_self y))
    have hpp : primes.getD b 0 * primes.getD b 0 ≤ y :=
      le_trans (Nat.mul_le_mul hsq hsq) (Nat.sqrt_le y)
    have hyp : primes.getD b 0 ≤ y / primes.getD b 0 :=
      (Nat.le_div_iff_mul_le (by omega)).mpr hpp
    generalize hmax : min (x / (primes.getD b 0 * low)) y = max_m at hbr hm2
    generalize hmin : max (min (x / (primes.getD b 0 * high)) y) (y / primes.getD b 0) = min_m
      at hm1
    have hmin1 : 1 ≤ min_m := by
      rw [← hmin]
      exact le_trans (by omega) (le_max_right _ _)
    have hmax1 : 1 ≤ max_m := by omega
    obtain ⟨hi1, hi2⟩ := hfac.2.2 min_m hmin1
    obtain ⟨ha1, ha2⟩ := hfac.2.2 max_m hmax1
    have h1 : factors.get_number m ≤ max_m :=
      le_trans (factors_mono factors hfac m _ (by omega)) ha1
    have h2 : min_m < factors.get_number m :=
      lt_of_lt_of_le hi2 (factors_mono factors hfac _ m (by omega))
    have hr := leaf_range x (primes.getD b 0) (factors.get_number m) low high (by omega)
      (factors_pos factors hfac m) (by omega) (by omega)
      (by rw [← hmax] at h1; exact le_trans h1 (min_le_left _ _))
      (by
        have h3 : factors.get_number m ≤ y := by
          rw [← hmax] at h1
          exact le_trans h1 (min_le_right _ _)
        have h4 : min (x / (primes.getD b 0 * high)) y < factors.get_number m := by
          rw [← hmin] at h2
          exact lt_of_le_of_lt (le_max_left _ _) h2
        rcases min_lt_iff.mp h4 with h5 | h5
        · exact h5
        · omega)
    exact hev b _ _ v v2 hr.2.1 hr.2.2 hv
  · intro b hb hbs hbm hbr l2 hl2 hgt v v2 hv
    have hbN : b ≤ Nat.primeCounting y := by omega
    have hp2 := (tbl_prime primes _ b hpr (by omega) hbN).two_le
    generalize hvv : min (min (x / (primes.getD b 0 * low)) y) (z / primes.getD b 0) = vv
      at hbr hl2
    have hvy : vv ≤ y := by
      rw [← hvv]
      exact le_trans (min_le_left _ _) (min_le_right _ _)
    have hvx : vv ≤ x / (primes.getD b 0 * low) := by
      rw [← hvv]
      exact le_trans (min_le_left _ _) (min_le_left _ _)
    rw [pi_tbl pi y vv hpi hy hvy] at hl2
    have hle : primes.getD l2 0 ≤ vv :=
      tbl_le_of_le_pi primes _ l2 vv hpr hl2 (Nat.monotone_primeCounting hvy)
    have hgt2 : primes.getD b 0 < primes.getD l2 0 :=
      lt_of_le_of_lt (le_max_right _ _) hgt
    have hr := leaf_range x (primes.getD b 0) (primes.getD l2 0) low high (by omega)
      (by omega) (by omega) (by omega) (by omega)
      (by
        have h4 : min (x / (primes.getD b 0 * high)) y < primes.getD l2 0 :=
          lt_of_le_of_lt (le_trans (le_max_left _ _) (le_max_left _ _)) hgt
        rcases min_lt_iff.mp h4 with h5 | h5
        · exact h5
        · omega)
    exact hev b _ _ v v2 hr.2.1 hr.2.2 hv

/-- The loop of a worker with its log: the log is that of the loop's own run, its
segments are those of the loop's control, the leaves of the worker are those of the log
in order, and every leaf of a segment has its quotient in the segment. -/
theorem segment_log_spec (x y z c : Nat) (factors : FactorTable) (pi primes : List Nat)
    (pi_max S limit : Nat) (htab : s2_tables_ok y pi primes factors)
    (hpm : pi_max ≤ Nat.primeCounting y) (hS : 1 ≤ S) :
    ∀ (fuel low : Nat) (w w2 : S2Worker), 1 ≤ low →
      segment_loop x y z c factors pi primes (pi.getD (Nat.sqrt y) 0) pi_max S limit fuel low w
        = some w2 →
      ∃ log, segment_log x y z c factors pi primes (pi.getD (Nat.sqrt y) 0) pi_max S limit fuel
          low w = some (w2, log)
        ∧ segments_loop S limit fuel low = some (log.map (fun r => (r.1, r.2.1)))
        ∧ w2.leaves = w.leaves ++ (log.map (fun r => r.2.2)).flatten
        ∧ ∀ r ∈ log, ∀ e ∈ r.2.2, r.1 ≤ e.xn ∧ e.xn < r.2.1 := by
  intro fuel
  induction fuel with
  | zero =>
    intro low w w2 _ h
    simp only [segment_loop] at h
    split_ifs at h with hl
    simp only [Option.some.injEq] at h
    subst h
    refine ⟨[], ?_, ?_, by simp, fun r hr => by cases hr⟩
    · simp only [segment_log]; rw [if_neg hl]
    · simp only [segments_loop]; rw [if_neg hl]; rfl
  | succ fuel ih =>
    intro low w w2 hlow h
    simp only [segment_loop] at h
    by_cases hl : low < limit
    · rw [if_pos hl] at h
      cases hp : process_segment x y z c factors pi primes (pi.getD (Nat.sqrt y) 0) pi_max low
          (min (low + S) limit) w with
      | none => rw [hp] at h; cases h
      | some w1 =>
        rw [hp] at h
        simp only [] at h
        obtain ⟨new, hnew, hrange⟩ := process_segment_range x y z c factors pi primes pi_max low
          (min (low + S) limit) w w1 htab hpm hlow (by omega) hp
        obtain ⟨log, e1, e2, e3, e4⟩ := ih (low + S) w1 w2 (by omega) h
        refine ⟨(low, min (low + S) limit, w1.leaves.drop w.leaves.length) :: log, ?_, ?_, ?_,
          ?_⟩
        · simp only [segment_log]
          rw [if_pos hl, hp]
          simp only []
          rw [e1]
        · simp only [segments_loop]
          rw [if_pos hl, e2]
          rfl
        · rw [e3, hnew]
          simp
        · intro r hr e he
          rcases List.mem_cons.mp hr with rfl | hr
          · simp only at he ⊢
            rw [hnew, List.drop_left] at he
            exact hrange e he
          · exact e4 r hr e he
    · rw [if_neg hl] at h
      simp only [Option.some.injEq] at h
      subst h
      refine ⟨[], ?_, ?_, by simp, fun r hr => by cases hr⟩
      · simp only [segment_log]; rw [if_neg hl]
      · simp only [segments_loop]; rw [if_neg hl]; rfl

/-- A worker with its log: it returns; the log is that of the worker's own run, its
segments are those of the schedule, the leaves of the worker are those of the log, and
every leaf of a segment `[low, high)` has its quotient `x / n` in `[low, high)`, so that
the index `x / n - low` passed to `cnt_query` is below `high - low` and below the segment
size. -/
theorem thread_log_spec (x y z c S K t low0 limit : Nat) (factors : FactorTable)
    (pi primes : List Nat) (htab : s2_tables_ok y pi primes factors) (hlow0 : 1 ≤ low0)
    (hS : 1 ≤ S) :
    ∃ w log, thread_log x y z c S K t low0 limit factors pi primes = some (w, log)
      ∧ S2_sieve_thread x y z c S K t low0 limit factors pi primes = some w
      ∧ thread_segments S K t low0 limit = some (log.map (fun r => (r.1, r.2.1)))
      ∧ w.leaves = (log.map (fun r => r.2.2)).flatten
      ∧ ∀ r ∈ log, ∀ e ∈ r.2.2,
          r.1 ≤ e.xn ∧ e.xn < r.2.1 ∧ e.xn - r.1 < r.2.1 - r.1 ∧ e.xn - r.1 < S := by
  obtain ⟨w, hw, _⟩ := S2_sieve_thread_spec x y z c S K t low0 limit factors pi primes
    (low0 + S * K * t) (min (low0 + S * K * t + S * K) limit)
    (pi_max_at x y z pi (low0 + S * K * t)) htab hlow0 hS rfl rfl rfl
  have hpm : pi_max_at x y z pi (low0 + S * K * t) ≤ Nat.primeCounting y :=
    pi_max_at_le x y z pi _ htab.2.1 htab.1
  have hw2 := hw
  unfold S2_sieve_thread at hw2
  simp only [isqrt_eq] at hw2
  obtain ⟨log, e1, e2, e3, e4⟩ := segment_log_spec x y z c factors pi primes
    (pi_max_at x y z pi (low0 + S * K * t)) S (min (low0 + S * K * t + S * K) limit) htab hpm hS
    K (low0 + S * K * t) _ w (by omega) hw2
  obtain ⟨segs, hsegs, hchain, hsize⟩ := thread_segments_chain S K t low0 limit hS
  have e2' : thread_segments S K t low0 limit = some (log.map (fun r => (r.1, r.2.1))) := e2
  refine ⟨w, log, ?_, hw, e2', by simpa using e3, ?_⟩
  · unfold thread_log
    simp only [isqrt_eq]
    exact e1
  · intro r hr e he
    obtain ⟨h1, h2⟩ := e4 r hr e he
    rw [e2'] at hsegs
    simp only [Option.some.injEq] at hsegs
    have hmem : (r.1, r.2.1) ∈ segs := by
      rw [← hsegs]
      exact List.mem_map.mpr ⟨r, hr, rfl⟩
    have := hsize _ hmem
    simp only at this
    exact ⟨h1, h2, by omega, by omega⟩

/-! ### The entry that `update_cache` stores -/

/-- A call of `PhiCache::phi` that none of the four early returns answers, with
`a < MAX_A` and `x ≤ 65535`: it returns `sum` and leaves the cache
`update_cache cache3 x a sum`; the magnitude of `sum` is `phi(x, a)`, lies in `1..65535`
and is unchanged by the cast to 16 bits, so the entry stored is `|sum|` and
`is_cached(x, a)` holds afterwards. -/
theorem phi_store_spec (tiny : PhiTiny) (primes pi : List Nat) (N : Nat)
    (htiny : tiny_ok tiny) (hprimes : primes_ok primes N) (hpi : pi_ok pi)
    (fuel : Nat) (cache : List (List Nat)) (sign : Int) (x a : Nat)
    (hfuel : a < fuel) (haN : a + 1 ≤ N) (hsq : Nat.sqrt x < pi.length)
    (hsign : sign = 1 ∨ sign = -1) (hc : cache_ok cache) (hlen : cache.length = MAX_A)
    (h1 : ¬ x ≤ primes.getD a 0) (h2 : ¬ a ≤ tiny.max_a) (h3 : is_pix primes pi x a = false)
    (h4 : is_cached cache x a = false) (ha : a < MAX_A) (hx : x ≤ 65535) :
    ∃ sum cache3,
      PhiCache.phi tiny primes pi fuel cache sign x a = some (sum, update_cache cache3 x a sum)
        ∧ cache3.length = MAX_A ∧ sum = sign * (phi_spec x a : Int)
        ∧ 1 ≤ sum.natAbs ∧ sum.natAbs ≤ 65535 ∧ sum.natAbs % 65536 = sum.natAbs
        ∧ ((update_cache cache3 x a sum).getD a []).getD x 0 = sum.natAbs
        ∧ is_cached (update_cache cache3 x a sum) x a = true := by
  have hx1 : 1 ≤ x := by omega
  obtain ⟨cache2, hcall, _⟩ := phi_correct tiny primes pi N htiny hprimes hpi fuel cache sign x a
    hfuel haN hx1 hsq hsign hc
  obtain ⟨f, rfl⟩ : ∃ f, fuel = f + 1 := ⟨fuel - 1, by omega⟩
  have hcall2 := hcall
  simp only [PhiCache.phi, if_neg h1, if_neg h2, h3, h4, Bool.false_eq_true, if_false]
    at hcall2
  split at hcall2
  · cases hcall2
  · rename_i sum cache3 hfold
    simp only [Option.some.injEq, Prod.mk.injEq] at hcall2
    obtain ⟨hsum, hc1⟩ := hcall2
    have hlen3 : cache3.length = cache.length :=
      phi_fold_length primes pi _ (phi_cache_length tiny primes pi f) sign x cache.length _ _
        (fun r0 hr0 => by cases hr0; rfl) _ hfold
    have habs : sum.natAbs = phi_spec x a := by
      rw [hsum]
      rcases hsign with h | h <;> rw [h] <;> simp
    have hpos := phi_spec_pos x a hx1
    have hle := phi_spec_le x a
    have hmod : sum.natAbs % 65536 = sum.natAbs := Nat.mod_eq_of_lt (by omega)
    obtain ⟨g1, g2⟩ := update_cache_hit cache3 x a sum (by omega) hx
    rw [hmod] at g2
    refine ⟨sum, cache3, ?_, by rw [hlen3, hlen], hsum, by omega, by omega, hmod, g2, ?_⟩
    · rw [hcall, hc1, hsum]
    · unfold is_cached
      simp only [Bool.and_eq_true, decide_eq_true_eq]
      refine ⟨⟨?_, g1⟩, ?_⟩
      · rw [update_cache_length]; omega
      · rw [g2]; omega

/-! ### The entries that `phi_vector` skips -/

/-- The value that `phi_vector` stores at the index `i`. -/
theorem phi_vector_loop_spec (tiny : PhiTiny) (primes pi : List Nat) (N : Nat)
    (htiny : tiny_ok tiny) (hprimes : primes_ok primes N) (hpi : pi_ok pi) (x : Nat)
    (hsq : Nat.sqrt x < pi.length) :
    ∀ (l : List Nat) (phi : List Int) (cache : List (List Nat)), cache_ok cache →
      (∀ i ∈ l, 2 ≤ i ∧ i ≤ N) →
      phi_vector_loop tiny primes pi x l phi cache
        = some (l.foldl (fun p i => p.set i
            (if x / primes.getD (i - 1) 0 = 0 then -1
              else -1 * (phi_spec (x / primes.getD (i - 1) 0) (i - 2) : Int))) phi) := by
  intro l
  induction l with
  | nil => intro phi cache _ _; rfl
  | cons i rest ih =>
    intro phi cache hc hl
    obtain ⟨hi2, hiN⟩ := hl i (List.mem_cons_self _ _)
    have hP := tbl_prime primes N (i - 1) hprimes (by omega) (by omega)
    obtain ⟨cache2, hcall, hc2⟩ := phi_call_value tiny primes pi N htiny hprimes hpi cache (-1)
      (x / primes.getD (i - 1) 0) (i - 2) (by omega)
      (lt_of_le_of_lt (sqrt_div_le x _) hsq) (Or.inr rfl) hc
    simp only [phi_vector_loop]
    rw [if_neg hP.ne_zero, hcall]
    simp only [List.foldl_cons]
    exact ih _ cache2 hc2 (fun j hj => hl j (List.mem_cons_of_mem _ hj))

/-- Above the limit the skipped call gives `-1`: its argument is below the prime
`primes[i - 1]`, so that `phi` of it is 1. -/
theorem phi_skipped_value (primes : List Nat) (N : Nat) (hprimes : primes_ok primes N)
    (x i : Nat) (hi : Nat.primeCounting (Nat.sqrt x) + 1 < i) (hiN : i ≤ N) :
    (if x / primes.getD (i - 1) 0 = 0 then (-1 : Int)
      else -1 * (phi_spec (x / primes.getD (i - 1) 0) (i - 2) : Int)) = -1 := by
  split_ifs with h0
  · rfl
  · have hP := tbl_prime primes N (i - 1) hprimes (by omega) (by omega)
    have hPpi := tbl_pi primes N (i - 1) hprimes (by omega)
    have hgt : Nat.sqrt x < primes.getD (i - 1) 0 := by
      by_contra hcon
      have := Nat.monotone_primeCounting (not_lt.mp hcon)
      omega
    have hlt : x / primes.getD (i - 1) 0 < primes.getD (i - 1) 0 := by
      rw [Nat.div_lt_iff_lt_mul hP.pos]
      calc x < (Nat.sqrt x + 1) * (Nat.sqrt x + 1) := Nat.lt_succ_sqrt x
        _ ≤ primes.getD (i - 1) 0 * primes.getD (i - 1) 0 := Nat.mul_le_mul hgt hgt
    have hpi2 := pi_lt_of_lt_prime _ _ hP hlt
    rw [hPpi] at hpi2
    rw [phi_spec_small _ _ (Nat.pos_of_ne_zero h0) (by omega)]
    rfl

theorem set_same (l : List Int) (i : Nat) (v : Int) (h : l[i]? = some v) : l.set i v = l := by
  apply List.ext_getElem?
  intro j
  rw [List.getElem?_set]
  by_cases hij : i = j
  · subst hij
    rw [if_pos rfl]
    split_ifs with hl
    · exact h.symm
    · rw [List.getElem?_eq_none (not_lt.mp hl)]
  · rw [if_neg hij]

theorem foldl_set_same (f : Nat → Int) (v : Int) :
    ∀ (l : List Nat) (phi : List Int), (∀ i ∈ l, f i = v ∧ phi[i]? = some v) →
      l.foldl (fun p i => p.set i (f i)) phi = phi := by
  intro l
  induction l with
  | nil => intro phi _; rfl
  | cons i rest ih =>
    intro phi h
    obtain ⟨h1, h2⟩ := h i (List.mem_cons_self _ _)
    simp only [List.foldl_cons]
    rw [h1, set_same phi i v h2]
    exact ih phi (fun j hj => h j (List.mem_cons_of_mem _ hj))

theorem foldl_set_other (f : Nat → Int) :
    ∀ (l : List Nat) (phi : List Int) (j : Nat), j ∉ l →
      (l.foldl (fun p i => p.set i (f i)) phi)[j]? = phi[j]? := by
  intro l
  induction l with
  | nil => intro phi j _; rfl
  | cons i rest ih =>
    intro phi j hj
    simp only [List.foldl_cons]
    rw [ih _ j (fun h => hj (List.mem_cons_of_mem _ h)),
      List.getElem?_set_ne (fun h => hj (by rw [h]; exact List.mem_cons_self _ _))]

/-- The first loop of `phi_vector` run up to `a` gives the vector that the loop run up to
`limit` gives. -/
theorem phi_vector_full_eq (tiny : PhiTiny) (primes pi : List Nat) (N : Nat)
    (htiny : tiny_ok tiny) (hprimes : primes_ok primes N) (hpi : pi_ok pi) (x a : Nat)
    (ha : a ≤ N) (hsq : Nat.sqrt x < pi.length) :
    phi_vector_full tiny primes pi x a = phi_vector tiny primes pi x a := by
  unfold phi_vector_full phi_vector
  simp only []
  cases ha1 : (if primes.getD a 0 > x then pi.get? x else some a) with
  | none => rfl
  | some a' =>
    simp only []
    have ha' : a' ≤ a := by
      split_ifs at ha1 with hgt
      · have hxl : x < pi.length := by
          by_contra hcon
          rw [List.get?_eq_none.mpr (not_lt.mp hcon)] at ha1
          cases ha1
        rw [List.get?_eq_get hxl] at ha1
        simp only [Option.some.injEq] at ha1
        have hpx := hpi x hxl
        rw [List.getD_eq_getElem?_getD, List.getElem?_eq_getElem hxl] at hpx
        simp only [Option.getD_some] at hpx
        rw [List.get_eq_getElem] at ha1
        rw [← ha1, hpx]
        rcases Nat.eq_zero_or_pos a with h0 | h0
        · subst h0
          rw [hprimes.2.1] at hgt
          omega
        · have hP := tbl_prime primes N a hprimes h0 ha
          have := pi_lt_of_lt_prime x _ hP hgt
          rw [tbl_pi primes N a hprimes ha] at this
          omega
      · simp only [Option.some.injEq] at ha1
        omega
    by_cases hcond : x > 0 ∧ a' > tiny.get_c (primes.getD a 0)
    · rw [if_pos hcond, if_pos hcond]
      by_cases hc0 : tiny.get_c (primes.getD a 0) = 0
      · rw [if_pos hc0, if_pos hc0]
      · rw [if_neg hc0, if_neg hc0, if_pos hsq]
        generalize hc : tiny.get_c (primes.getD a 0) = c at hcond hc0
        generalize hphi0 : (List.take (a + 1) (List.replicate (a' + 1) (if x > 0 then (-1 : Int) else 0))
            ++ List.replicate (a + 1 - (List.replicate (a' + 1) (if x > 0 then (-1 : Int) else 0)).length)
                (if x > 0 then 1 else 0)).set c (tiny.phi_tiny x (c - 1) : Int) = phi0
        have hphi0_get : ∀ i, c < i → i ≤ a' → phi0[i]? = some (-1) := by
          intro i h1 h2
          rw [← hphi0, List.getElem?_set_ne (by omega), if_pos hcond.1,
            List.take_of_length_le (by simp; omega),
            List.getElem?_append_left (by simp; omega), List.getElem?_replicate,
            if_pos (by omega)]
        rw [hpi _ hsq]
        generalize hlim : min a' (Nat.primeCounting (Nat.sqrt x) + 1) = limit
        have hlim_le : limit ≤ a' := by rw [← hlim]; exact min_le_left _ _
        -- the list of the full loop is the list of the loop up to the limit and a rest
        have hsplit : List.range' (c + 1) (a' + 1 - (c + 1))
            = List.range' (c + 1) (limit + 1 - (c + 1))
              ++ List.range' (c + 1 + (limit + 1 - (c + 1))) (a' - max limit c) := by
          rw [List.range'_append_1]
          congr 1
          omega
        have hfull := phi_vector_loop_spec tiny primes pi N htiny hprimes hpi x hsq
          (List.range' (c + 1) (a' + 1 - (c + 1))) phi0 empty_cache
          cache_ok_empty
          (by intro i hi; rw [List.mem_range'_1] at hi; omega)
        have hreal := phi_vector_loop_spec tiny primes pi N htiny hprimes hpi x hsq
          (List.range' (c + 1) (limit + 1 - (c + 1))) phi0 empty_cache
          cache_ok_empty
          (by intro i hi; rw [List.mem_range'_1] at hi; omega)
        rw [hfull, hreal, hsplit, List.foldl_append]
        simp only []
        congr 2
        apply foldl_set_same _ (-1)
        intro i hi
        rw [List.mem_range'_1] at hi
        refine ⟨phi_skipped_value primes N hprimes x i (by rw [← hlim] at hi; omega) (by omega),
          ?_⟩
        rw [foldl_set_other _ _ _ i (by rw [List.mem_range'_1]; omega)]
        exact hphi0_get i (by omega) (by omega)
    · rw [if_neg hcond, if_neg hcond]

/-- Above the limit the skipped call `phi<-1>(x / primes[i - 1], i - 2)` returns `-1`, on
any cache that satisfies the cache invariant. -/
theorem phi_skipped_call (tiny : PhiTiny) (primes pi : List Nat) (N : Nat)
    (htiny : tiny_ok tiny) (hprimes : primes_ok primes N) (hpi : pi_ok pi) (x a' i : Nat)
    (hsq : Nat.sqrt x < pi.length) (haN : a' ≤ N)
    (hlim : min a' (pi.getD (Nat.sqrt x) 0 + 1) < i) (hia : i ≤ a')
    (cache : List (List Nat)) (hc : cache_ok cache) :
    ∃ cache2, phi_call tiny primes pi cache (-1) (x / primes.getD (i - 1) 0) (i - 2)
      = some (-1, cache2) := by
  rw [hpi _ hsq] at hlim
  have hi : Nat.primeCounting (Nat.sqrt x) + 1 < i := by omega
  obtain ⟨cache2, hcall, _⟩ := phi_call_value tiny primes pi N htiny hprimes hpi cache (-1)
    (x / primes.getD (i - 1) 0) (i - 2) (by omega)
    (lt_of_le_of_lt (sqrt_div_le x _) hsq) (Or.inr rfl) hc
  rw [phi_skipped_value primes N hprimes x i hi (by omega)] at hcall
  exact ⟨cache2, hcall⟩

/-- The function `phi_vector` returns when `x > 0`, `a > c` and `c ≥ 1`. -/
theorem phi_vector_full_some (tiny : PhiTiny) (primes pi : List Nat) (N : Nat)
    (htiny : tiny_ok tiny) (hprimes : primes_ok primes N) (hpi : pi_ok pi) (x a : Nat)
    (ha : a ≤ N) (hx : 0 < x) (hsq : Nat.sqrt x < pi.length)
    (hxpi : primes.getD a 0 > x → x < pi.length)
    (hc1 : 1 ≤ tiny.get_c (primes.getD a 0))
    (hac : (if primes.getD a 0 > x then pi.getD x 0 else a) > tiny.get_c (primes.getD a 0)) :
    ∃ v, phi_vector_full tiny primes pi x a = some v := by
  have ha1 : (if primes.getD a 0 > x then pi.get? x else some a)
      = some (if primes.getD a 0 > x then pi.getD x 0 else a) := by
    split_ifs with hgt
    · have hxl := hxpi hgt
      rw [List.get?_eq_get hxl, List.getD_eq_getElem?_getD, List.getElem?_eq_getElem hxl]
      rfl
    · rfl
  generalize hA : (if primes.getD a 0 > x then pi.getD x 0 else a) = a' at ha1 hac
  have ha' : a' ≤ a := by
    rw [← hA]
    split_ifs with hgt
    · rw [hpi x (hxpi hgt)]
      have hP := tbl_prime primes N a hprimes (by
        rcases Nat.eq_zero_or_pos a with h0 | h0
        · subst h0; rw [hprimes.2.1] at hgt; omega
        · exact h0) ha
      have := pi_lt_of_lt_prime x _ hP hgt
      rw [tbl_pi primes N a hprimes ha] at this
      omega
    · exact le_refl _
  unfold phi_vector_full
  simp only []
  rw [ha1]
  simp only []
  rw [if_pos ⟨hx, hac⟩, if_neg (by omega)]
  rw [phi_vector_loop_spec tiny primes pi N htiny hprimes hpi x hsq _ _ empty_cache
    cache_ok_empty (by intro i hi; rw [List.mem_range'_1] at hi; omega)]
  exact ⟨_, rfl⟩

/-! ### A table that is too short: a stored zero -/

/-- A call that reaches the recursive sum with a sum whose 16-bit magnitude is zero leaves
no entry that `is_cached` finds. -/
theorem phi_store_zero (tiny : PhiTiny) (primes pi : List Nat) (fuel : Nat)
    (cache : List (List Nat)) (sign : Int) (x a : Nat) (v : Int) (cache1 : List (List Nat))
    (h : PhiCache.phi tiny primes pi (fuel + 1) cache sign x a = some (v, cache1))
    (h1 : ¬ x ≤ primes.getD a 0) (h2 : ¬ a ≤ tiny.max_a) (h3 : is_pix primes pi x a = false)
    (h4 : is_cached cache x a = false) (ha : a < cache.length) (hx : x ≤ 65535)
    (hv : v.natAbs % 65536 = 0) :
    is_cached cache1 x a = false := by
  simp only [PhiCache.phi, if_neg h1, if_neg h2, h3, h4, Bool.false_eq_true, if_false] at h
  split at h
  · cases h
  · rename_i sum cache3 hfold
    simp only [Option.some.injEq, Prod.mk.injEq] at h
    obtain ⟨hsum, hc1⟩ := h
    subst hsum
    have hlen3 : cache3.length = cache.length :=
      phi_fold_length primes pi _ (phi_cache_length tiny primes pi fuel) sign x cache.length _ _
        (fun r0 hr0 => by cases hr0; rfl) _ hfold
    obtain ⟨g1, g2⟩ := update_cache_hit cache3 x a sum (by omega) hx
    rw [hc1] at g1 g2
    unfold is_cached
    rw [g2, hv]
    simp

set_option maxRecDepth 1000000 in
theorem short_pi_zero_call :
    (phi_call rec_tiny ref_primes short_pi empty_cache 1 3904 20).map Prod.fst = some 0 := by
  unfold phi_call
  rw [phi_eval_eq]
  decide!

/-- The true `pi` table cut to 8 entries, so that `isqrt(3904) = 62` is outside it: the
call `phi<1>(3904, 20)` on an empty cache reaches `update_cache` with `sum = 0`, and
`is_cached(3904, 20)` is false afterwards. -/
theorem phi_cache_short_pi_zero :
    tiny_ok rec_tiny ∧ primes_ok ref_primes 22 ∧ pi_ok short_pi
      ∧ ∃ cache1, phi_call rec_tiny ref_primes short_pi empty_cache 1 3904 20 = some (0, cache1)
          ∧ is_cached cache1 3904 20 = false := by
  obtain ⟨⟨v, cache1⟩, hcall, hv⟩ := Option.map_eq_some'.mp short_pi_zero_call
  simp only at hv
  subst hv
  have h1 : ¬ 3904 ≤ ref_primes.getD 20 0 := by decide
  have h2 : ¬ 20 ≤ rec_tiny.max_a := by decide
  have h3 : is_pix ref_primes short_pi 3904 20 = false := by decide
  have h4 : is_cached empty_cache 3904 20 = false := by decide
  have ha : 20 < empty_cache.length := by decide
  exact ⟨rec_tiny_ok, ref_primes_ok_all, short_pi_ok, cache1, hcall,
    phi_store_zero rec_tiny ref_primes short_pi 20 empty_cache 1 3904 20 0 cache1 hcall h1 h2 h3
      h4 ha (by norm_num) (by decide)⟩

/-! ## The claims about the cache, the sizes, the wheel and the decimal output -/

set_option maxRecDepth 100000 in
/-- C12 (amended): on a Sieve constructed with start = 0 and segment size 240,
`pre_sieve(7, 0, 240)` followed by `count(0, 239)` returns the number of integers in
`[0, 239]` that are coprime to `2*3*5*7*11*13*17`: the loop of `pre_sieve` runs over
`primes[4..7]`, which are 7, 11, 13 and 17. -/
theorem pre_sieve_seven_count (ws : Nat) :
    (Sieve.new 0 240 ws).bind (fun st => (pre_sieve st 7 0 240).map (fun st2 => count st2 0 239))
      = some ((Finset.range 240).filter
          (fun n => Nat.Coprime n (2 * 3 * 5 * 7 * 11 * 13 * 17))).card := by
  have h : ∀ a b : Nat, Sieve.new 0 240 a = Sieve.new 0 240 b := fun _ _ => rfl
  rw [h ws 0]
  decide

set_option maxRecDepth 100000 in
/-- C12, counterexample: the call sequence returns 46, while 45 integers of `[0, 239]`
are coprime to `2*3*5*7*11*13*17*19`; the integer 19 is counted, `primes[8] = 19` is not
crossed off by `pre_sieve(7, ...)`. -/
theorem pre_sieve_seven_keeps_19 :
    (Sieve.new 0 240 10).bind
        (fun st => (pre_sieve st 7 0 240).map (fun st2 => (count st2 0 239, is_live st2 19)))
      = some (46, true)
      ∧ ((Finset.range 240).filter
          (fun n => Nat.Coprime n (2 * 3 * 5 * 7 * 11 * 13 * 17 * 19))).card = 45 := by
  constructor <;> decide

/-- C13 (amended): for every start with `start % 30 == 0` and every segment_size with
`segment_size % 240 == 0` and `segment_size > 0`, the constructor
`Sieve(start, segment_size, wheel_size)` leaves the byte array with exactly
`segment_size / 30` bytes, and `segment_size()` returns the segment_size argument. -/
theorem sieve_new_size (start seg ws : Nat) (hstart : start % 30 = 0) (hseg : seg % 240 = 0)
    (hpos : 0 < seg) :
    ∃ st, Sieve.new start seg ws = some st ∧ st.sieve_.length = seg / 30
      ∧ segment_size st = seg := by
  have hnew : Sieve.new start seg ws = some (set_sieve_size
      { start_ := start, sieve_ := [], wheel_ := List.replicate 4 ⟨0, 0⟩ } seg) := by
    unfold Sieve.new
    rw [if_pos ⟨hstart, hseg⟩]
  have hlen := set_sieve_size_length
    { start_ := start, sieve_ := [], wheel_ := List.replicate 4 ⟨0, 0⟩ } seg
  rw [get_segment_size_multiple seg hseg, max_eq_right (by omega)] at hlen
  refine ⟨_, hnew, hlen, ?_⟩
  unfold segment_size
  rw [hlen]
  omega

/-- C13, witness: start 30 and segment size 480 give 16 bytes. -/
theorem sieve_new_size_witness :
    30 % 30 = 0 ∧ 480 % 240 = 0 ∧ 0 < 480
      ∧ ∃ st, Sieve.new 30 480 10 = some st ∧ st.sieve_.length = 480 / 30
        ∧ segment_size st = 480 :=
  ⟨by decide, by decide, by decide, sieve_new_size 30 480 10 (by decide) (by decide) (by decide)⟩

/-- C13, counterexample: the segment size 0 satisfies `0 % 240 == 0`, yet the constructor
leaves 8 bytes, not `0 / 30 = 0`, and `segment_size()` returns 240, not 0:
`get_segment_size` takes `max(240, size)`. -/
theorem sieve_new_size_zero :
    (0 : Nat) % 30 = 0 ∧ (0 : Nat) % 240 = 0
      ∧ (Sieve.new 0 0 10).map (fun st => (st.sieve_.length, segment_size st)) = some (8, 240)
      ∧ (0 : Nat) / 30 = 0 := by
  decide

/-- C14 (amended): for every sieve whose byte array is a whole number of 64-bit words and
every `start <= stop` with `stop < segment_size()`, every 64-bit word that
`count(start, stop)` reads (indices `start/240` through `stop/240`) lies inside the byte
array: its word index is below `bytes.len() / 8`. -/
theorem count_reads_inside (st : Sieve) (start stop : Nat) (hlen : st.sieve_.length % 8 = 0)
    (h1 : start ≤ stop) (h2 : stop < segment_size st) :
    ∀ j ∈ count_reads start stop, j < st.sieve_.length / 8 := by
  unfold segment_size at h2
  have hstop : stop / 240 < st.sieve_.length / 8 := by omega
  have hle : start / 240 ≤ stop / 240 := Nat.div_le_div_right h1
  intro j hj
  unfold count_reads at hj
  rw [if_neg (by omega)] at hj
  simp only at hj
  split_ifs at hj with heq
  · simp only [List.mem_singleton] at hj
    omega
  · simp only [List.append_assoc, List.mem_append, List.mem_singleton, List.mem_range'_1] at hj
    omega

/-- C14, witness: `count(0, 239)` on a sieve of 8 bytes reads word 0 only. -/
theorem count_reads_inside_witness :
    (List.replicate 8 255).length % 8 = 0 ∧ 0 ≤ 239
      ∧ 239 < segment_size ⟨0, List.replicate 8 255, []⟩
      ∧ ∀ j ∈ count_reads 0 239, j < (List.replicate 8 255).length / 8 :=
  ⟨by decide, by decide, by decide,
    count_reads_inside ⟨0, List.replicate 8 255, []⟩ 0 239 (by decide) (by decide) (by decide)⟩

/-- C14, counterexample: on a sieve of 8 bytes (`segment_size() = 240`, one 64-bit word)
the call `count(240, 241)` satisfies `start <= stop` and `stop - start < segment_size()`,
and reads the word of index 1, which is not below `bytes.len() / 8 = 1`. -/
theorem count_reads_outside :
    240 ≤ 241 ∧ 241 - 240 < segment_size ⟨0, List.replicate 8 255, []⟩
      ∧ 1 ∈ count_reads 240 241 ∧ ¬ 1 < (List.replicate 8 255).length / 8 := by
  decide

/-- C18: when `cross_off(i, p)` is entered with an existing wheel entry `i` whose
`multiple` (a 32-bit field) is at least `bytes.len()`, it returns 0, leaves every byte of
the sieve and `wheel[i].index` unchanged, and reduces `wheel[i].multiple` by exactly
`bytes.len()`; nothing else of the state changes. -/
theorem cross_off_carry_over (st : Sieve) (i p : Nat) (wh : Wheel)
    (hget : st.wheel_.get? i = some wh) (h32 : wh.multiple < 2 ^ 32)
    (hge : st.sieve_.length ≤ wh.multiple) :
    cross_off st i p = some (0, { st with
      wheel_ := st.wheel_.set i ⟨wh.multiple - st.sieve_.length, wh.index⟩ }) := by
  have hi : i < st.wheel_.length := by
    by_contra hcon
    rw [List.get?_eq_none.mpr (by omega)] at hget
    cases hget
  have hmod : st.sieve_.length % 2 ^ 32 = st.sieve_.length := Nat.mod_eq_of_lt (by omega)
  unfold cross_off
  rw [if_neg (by omega)]
  unfold cross_off_wheel
  rw [hget]
  simp only [hmod]
  rw [if_pos hge]

/-- C18, witness: a sieve of 8 bytes whose wheel entry 4 has `multiple = 11`. -/
theorem cross_off_carry_over_witness :
    (⟨0, List.replicate 8 255, [⟨0, 0⟩, ⟨0, 0⟩, ⟨0, 0⟩, ⟨0, 0⟩, ⟨11, 3⟩]⟩ : Sieve).wheel_.get? 4
        = some ⟨11, 3⟩
      ∧ (11 : Nat) < 2 ^ 32 ∧ (List.replicate 8 255).length ≤ 11
      ∧ cross_off ⟨0, List.replicate 8 255, [⟨0, 0⟩, ⟨0, 0⟩, ⟨0, 0⟩, ⟨0, 0⟩, ⟨11, 3⟩]⟩ 4 7
        = some (0, ⟨0, List.replicate 8 255, [⟨0, 0⟩, ⟨0, 0⟩, ⟨0, 0⟩, ⟨0, 0⟩, ⟨3, 3⟩]⟩) :=
  ⟨rfl, by norm_num, by decide,
    cross_off_carry_over ⟨0, List.replicate 8 255, [⟨0, 0⟩, ⟨0, 0⟩, ⟨0, 0⟩, ⟨0, 0⟩, ⟨11, 3⟩]⟩ 4 7
      ⟨11, 3⟩ rfl (by norm_num) (by decide)⟩

/-- C20: for every x, every a, every cache state (reachable by earlier calls or not) and
any tables, `PhiCache::phi<-1>(x, a)` returns the negation of what `PhiCache::phi<+1>(x, a)`
returns, and leaves the same cache: the SIGN parameter only negates the result, on every
branch; the one call returns exactly when the other does. -/
theorem phi_sign_negates (tiny : PhiTiny) (primes pi : List Nat) (fuel : Nat)
    (cache : List (List Nat)) (x a : Nat) :
    PhiCache.phi tiny primes pi fuel cache (-1) x a
      = (PhiCache.phi tiny primes pi fuel cache 1 x a).map (fun r => (-r.1, r.2)) :=
  phi_neg tiny primes pi fuel cache 1 x a

/-- A call that none of the first three returns answers and that finds its entry in the
cache returns from the `is_cached` branch: the stored entry times SIGN, the cache
unchanged. -/
theorem phi_cached_hit (tiny : PhiTiny) (primes pi : List Nat) (fuel : Nat)
    (cache : List (List Nat)) (sign : Int) (x a : Nat)
    (h1 : ¬ x ≤ primes.getD a 0) (h2 : ¬ a ≤ tiny.max_a) (h3 : is_pix primes pi x a = false)
    (h4 : is_cached cache x a = true) :
    PhiCache.phi tiny primes pi (fuel + 1) cache sign x a
      = some ((((cache.getD a []).getD x 0 : Nat) : Int) * sign, cache) := by
  simp only [PhiCache.phi, if_neg h1, if_neg h2, h3, h4, Bool.false_eq_true, if_false, if_true]

/-- C11: for every sequence of calls `phi<SIGN>(x, a)` (SIGN = 1 or -1) made on one PhiCache
object that starts with an empty cache, with `primes` the true prime list up to index
`a + 1`, `pi` the true prime-counting table with more than `sqrt(x)` entries and PhiTiny
meeting its contract, every call returns, and returns the same value that a new PhiCache
with an empty cache returns for the same `(SIGN, x, a)`. -/
theorem phi_cache_transparent (tiny : PhiTiny) (primes pi : List Nat) (N : Nat)
    (htiny : tiny_ok tiny) (hprimes : primes_ok primes N) (hpi : pi_ok pi)
    (calls : List (Int × Nat × Nat))
    (hcalls : ∀ c ∈ calls, (c.1 = 1 ∨ c.1 = -1) ∧ c.2.2 + 1 ≤ N ∧ Nat.sqrt c.2.1 < pi.length) :
    ∃ vs, phi_calls tiny primes pi calls empty_cache = some vs
      ∧ phi_fresh tiny primes pi calls = some vs :=
  ⟨_, phi_calls_spec tiny primes pi N htiny hprimes hpi calls empty_cache hcalls cache_ok_empty,
    phi_fresh_spec tiny primes pi N htiny hprimes hpi calls hcalls⟩

/-- C11, witness: the calls `phi<1>(400, 7)`, `phi<-1>(400, 7)`, `phi<1>(400, 7)` with the
reference tables (`max_a = 6`, `prime(7) = 17`, `prime(8)^2 = 361 <= 400`). None of the
first three returns answers the first call on the empty cache: it runs the recursive sum,
returns `phi(400, 7)` and stores it, so that `is_cached(400, 7)` is true on the cache it
leaves; the second and the third call return from the `is_cached` branch, the stored entry
times SIGN. The three values are `phi(400, 7)`, `-phi(400, 7)`, `phi(400, 7)`, on the one
object as on new objects. -/
theorem phi_cache_transparent_witness :
    tiny_ok ref_tiny ∧ primes_ok ref_primes 21 ∧ pi_ok ref_pi
      ∧ (∀ c ∈ [((1 : Int), 400, 7), (-1, 400, 7), (1, 400, 7)],
          (c.1 = 1 ∨ c.1 = -1) ∧ c.2.2 + 1 ≤ 21 ∧ Nat.sqrt c.2.1 < ref_pi.length)
      ∧ ¬ 400 ≤ ref_primes.getD 7 0 ∧ ¬ 7 ≤ ref_tiny.max_a
      ∧ is_pix ref_primes ref_pi 400 7 = false ∧ is_cached empty_cache 400 7 = false
      ∧ (∃ cache1,
          phi_call ref_tiny ref_primes ref_pi empty_cache 1 400 7
              = some ((phi_spec 400 7 : Int), cache1)
            ∧ is_cached cache1 400 7 = true
            ∧ (cache1.getD 7 []).getD 400 0 = phi_spec 400 7
            ∧ 1 ≤ phi_spec 400 7
            ∧ phi_call ref_tiny ref_primes ref_pi cache1 (-1) 400 7
                = some ((((cache1.getD 7 []).getD 400 0 : Nat) : Int) * (-1), cache1)
            ∧ phi_call ref_tiny ref_primes ref_pi cache1 1 400 7
                = some ((((cache1.getD 7 []).getD 400 0 : Nat) : Int) * 1, cache1))
      ∧ phi_calls ref_tiny ref_primes ref_pi [(1, 400, 7), (-1, 400, 7), (1, 400, 7)]
            empty_cache
          = some [(phi_spec 400 7 : Int), -(phi_spec 400 7 : Int), (phi_spec 400 7 : Int)]
      ∧ ∃ vs, phi_calls ref_tiny ref_primes ref_pi [(1, 400, 7), (-1, 400, 7), (1, 400, 7)]
            empty_cache = some vs
          ∧ phi_fresh ref_tiny ref_primes ref_pi [(1, 400, 7), (-1, 400, 7), (1, 400, 7)]
            = some vs := by
  have hsq : Nat.sqrt 400 < ref_pi.length :=
    lt_of_lt_of_le (Nat.sqrt_lt'.mpr (by norm_num)) (by decide : 101 ≤ ref_pi.length)
  have hcalls : ∀ c ∈ [((1 : Int), 400, 7), (-1, 400, 7), (1, 400, 7)],
      (c.1 = 1 ∨ c.1 = -1) ∧ c.2.2 + 1 ≤ 21 ∧ Nat.sqrt c.2.1 < ref_pi.length := by
    intro c hc
    simp only [List.mem_cons, List.mem_singleton, List.not_mem_nil, or_false] at hc
    rcases hc with rfl | rfl | rfl
    · exact ⟨Or.inl rfl, by norm_num, hsq⟩
    · exact ⟨Or.inr rfl, by norm_num, hsq⟩
    · exact ⟨Or.inl rfl, by norm_num, hsq⟩
  have h1 : ¬ 400 ≤ ref_primes.getD 7 0 := by decide
  have h2 : ¬ 7 ≤ ref_tiny.max_a := by decide
  have h3 : is_pix ref_primes ref_pi 400 7 = false := by decide
  have h4 : is_cached empty_cache 400 7 = false := by decide
  obtain ⟨sum, cache3, e1, _, hsum, hpos, _, _, hentry, hcached⟩ :=
    phi_store_spec ref_tiny ref_primes ref_pi 21 ref_tiny_ok ref_primes_ok ref_pi_ok 8
      empty_cache 1 400 7 (by norm_num) (by norm_num) hsq (Or.inl rfl) cache_ok_empty rfl
      h1 h2 h3 h4 (by decide) (by norm_num)
  rw [one_mul] at hsum
  subst hsum
  rw [Int.natAbs_ofNat] at hpos hentry
  have c1 : phi_call ref_tiny ref_primes ref_pi empty_cache 1 400 7
      = some ((phi_spec 400 7 : Int), update_cache cache3 400 7 (phi_spec 400 7 : Int)) := e1
  have c2 : ∀ sign : Int,
      phi_call ref_tiny ref_primes ref_pi (update_cache cache3 400 7 (phi_spec 400 7 : Int))
          sign 400 7
        = some (((((update_cache cache3 400 7 (phi_spec 400 7 : Int)).getD 7 []).getD 400 0
            : Nat) : Int) * sign, update_cache cache3 400 7 (phi_spec 400 7 : Int)) := by
    intro sign
    exact phi_cached_hit ref_tiny ref_primes ref_pi 7 _ sign 400 7 h1 h2 h3 hcached
  refine ⟨ref_tiny_ok, ref_primes_ok, ref_pi_ok, hcalls, h1, h2, h3, h4,
    ⟨_, c1, hcached, hentry, hpos, c2 (-1), c2 1⟩, ?_,
    phi_cache_transparent ref_tiny ref_primes ref_pi 21 ref_tiny_ok ref_primes_ok ref_pi_ok
      [(1, 400, 7), (-1, 400, 7), (1, 400, 7)] hcalls⟩
  have c3 : ∀ sign : Int,
      phi_call ref_tiny ref_primes ref_pi (update_cache cache3 400 7 (phi_spec 400 7 : Int))
          sign 400 7
        = some ((phi_spec 400 7 : Int) * sign,
            update_cache cache3 400 7 (phi_spec 400 7 : Int)) := by
    intro sign
    rw [c2 sign, hentry]
  have hvs : [(phi_spec 400 7 : Int), (phi_spec 400 7 : Int) * (-1), (phi_spec 400 7 : Int) * 1]
      = [(phi_spec 400 7 : Int), -(phi_spec 400 7 : Int), (phi_spec 400 7 : Int)] := by
    rw [mul_neg, mul_one]
  rw [← hvs]
  exact phi_calls_cons ref_tiny ref_primes ref_pi 1 400 7 _ _ _ _ _ c1
    (phi_calls_cons ref_tiny ref_primes ref_pi (-1) 400 7 _ _ _ _ _ (c3 (-1))
      (phi_calls_cons ref_tiny ref_primes ref_pi 1 400 7 [] _ _ _ [] (c3 1) rfl))

/-- C15: for every unsigned 128-bit `n`, `operator<<(stream, uint128_t n)` returns and
writes the canonical base-10 representation of `n`: the single character "0" when `n = 0`,
otherwise the decimal digits of `n`, most significant first, with no leading zero; every
character written is a digit, and reading the output back as a decimal number gives `n`. -/
theorem ostream_u128_canonical (n : Nat) (hn : n < 2 ^ 128) :
    ∃ s, ostream_u128 n = some s ∧ (n = 0 → s = [48])
      ∧ (0 < n → s = ((Nat.digits 10 n).map (fun d => 48 + d)).reverse ∧ s.head? ≠ some 48)
      ∧ (∀ c ∈ s, 48 ≤ c ∧ c ≤ 57) ∧ decimal_value s = n :=
  ostream_u128_canonical_aux n hn

/-- C15, witness: the largest 128-bit number. -/
theorem ostream_u128_canonical_witness :
    2 ^ 128 - 1 < 2 ^ 128
      ∧ ∃ s, ostream_u128 (2 ^ 128 - 1) = some s ∧ (2 ^ 128 - 1 = 0 → s = [48])
        ∧ (0 < 2 ^ 128 - 1 →
            s = ((Nat.digits 10 (2 ^ 128 - 1)).map (fun d => 48 + d)).reverse
              ∧ s.head? ≠ some 48)
        ∧ (∀ c ∈ s, 48 ≤ c ∧ c ≤ 57) ∧ decimal_value s = 2 ^ 128 - 1 :=
  ⟨by norm_num, ostream_u128_canonical (2 ^ 128 - 1) (by norm_num)⟩

/-- C16: for a sieve with `start` divisible by 30, a prime `p >= 7` below `2^32` (with
`start + 6p < 2^64`) whose wheel entry `i` is created by the first call, and consecutive
calls `cross_off(i, p)` on successive segments `k = 0, 1, 2, ...` of the same size of `S`
bytes (`S < 2^32`), every call returns and the `k`-th call clears exactly the bits of the
multiples of `p` in `[start + 30*S*k, start + 30*S*(k+1))` (a bit stands for an integer
coprime to 30); after the calls the saved pair `(wheel[i].multiple, wheel[i].index)`
designates the least multiple of `p` coprime to 30 that is `>=` the end of the segment just
processed, with `index / 8 = wheel_offsets[p mod 30] / 8` and `index <= 63`. Taking a prefix of
the segments gives the statement after each call. -/
theorem cross_off_resumes (st : Sieve) (i p S : Nat) (segs : List (List Nat))
    (hstart : st.start_ % 30 = 0) (hp : p.Prime) (hp7 : 7 ≤ p) (hp32 : p < 2 ^ 32)
    (h64 : st.start_ + 6 * p < 2 ^ 64) (hi : i = st.wheel_.length) (hS : S < 2 ^ 32)
    (hne : segs ≠ []) (hall : ∀ seg ∈ segs, seg.length = S) :
    ∃ outs st2 wh, cross_off_segments st i p segs = some (outs, st2)
      ∧ outs.length = segs.length
      ∧ (∀ k seg, segs.get? k = some seg →
          ∃ out, outs.get? k = some out ∧ out.length = S
            ∧ ∀ j, (live_bit out j = true
                ↔ live_bit seg j = true ∧ ¬ p ∣ st.start_ + 30 * S * k + word_offset j))
      ∧ st2.wheel_.get? i = some wh
      ∧ wh.index / 8 = wheel_offsets.getD (p % 30) 0 / 8 ∧ wh.index ≤ 63
      ∧ p ∣ wheel_target (st.start_ + 30 * S * segs.length) wh
      ∧ Nat.Coprime (wheel_target (st.start_ + 30 * S * segs.length) wh) 30
      ∧ st.start_ + 30 * S * segs.length ≤ wheel_target (st.start_ + 30 * S * segs.length) wh
      ∧ ∀ m, p ∣ m → Nat.Coprime m 30 → st.start_ + 30 * S * segs.length ≤ m →
          wheel_target (st.start_ + 30 * S * segs.length) wh ≤ m :=
  cross_off_segments_spec st i p S segs hstart hp hp7 hp32 h64 hi hS hne hall

/-- C16, witness: the prime 7 on three full segments of 8 bytes, from start 0. -/
theorem cross_off_resumes_witness :
    (0 : Nat) % 30 = 0 ∧ Nat.Prime 7 ∧ 7 ≤ 7 ∧ 7 < 2 ^ 32 ∧ 0 + 6 * 7 < 2 ^ 64
      ∧ 4 = (List.replicate 4 (⟨0, 0⟩ : Wheel)).length ∧ 8 < 2 ^ 32
      ∧ (∀ seg ∈ List.replicate 3 (List.replicate 8 255), seg.length = 8)
      ∧ ∃ outs st2 wh, cross_off_segments ⟨0, [], List.replicate 4 ⟨0, 0⟩⟩ 4 7
            (List.replicate 3 (List.replicate 8 255)) = some (outs, st2)
          ∧ outs.length = 3 ∧ st2.wheel_.get? 4 = some wh ∧ wh.index ≤ 63
          ∧ 7 ∣ wheel_target (0 + 30 * 8 * 3) wh := by
  have hall : ∀ seg ∈ List.replicate 3 (List.replicate 8 255), seg.length = 8 := by
    intro seg hseg
    rw [(List.mem_replicate.mp hseg).2]
    rfl
  obtain ⟨outs, st2, wh, h1, h2, _, h4, _, h6, h7, _⟩ :=
    cross_off_resumes ⟨0, [], List.replicate 4 ⟨0, 0⟩⟩ 4 7 8
      (List.replicate 3 (List.replicate 8 255)) (by decide) (by norm_num) (by norm_num)
      (by norm_num) (by norm_num) (by decide) (by norm_num) (by decide) hall
  exact ⟨by decide, by norm_num, by norm_num, by norm_num, by norm_num, by decide, by norm_num,
    hall, outs, st2, wh, h1, h2, h4, h6, h7⟩

/-- C17: for every start divisible by 30 and every `p` coprime to 30 (in particular every
prime `p >= 7`) with `p < 2^32` and `start + 6p < 2^64`, `add_wheel(p)` appends a wheel entry
whose multiple field equals `(m - start) / 30`, where `m` is the smallest multiple of `p`
that is `> start` and coprime to 30, and whose index field equals
`wheel_offsets[p mod 30] + wheel_init[q mod 30].index` with `q = start / p + 1`; that index
of `wheel_init` is the position, among the residues `1, 7, 11, 13, 17, 19, 23, 29`, of the
cofactor `m / p` modulo 30. -/
theorem add_wheel_first_multiple (st : Sieve) (p : Nat) (hstart : st.start_ % 30 = 0)
    (hp : Nat.Coprime p 30) (hp32 : p < 2 ^ 32) (h64 : st.start_ + 6 * p < 2 ^ 64) :
    ∃ m, add_wheel st p = some { st with wheel_ := st.wheel_ ++
          [⟨(m - st.start_) / 30, wheel_offsets.getD (p % 30) 0
              + (wheel_init.getD ((st.start_ / p + 1) % 30) (0, 0)).2⟩] }
      ∧ p ∣ m ∧ st.start_ < m ∧ Nat.Coprime m 30
      ∧ (∀ m', p ∣ m' → st.start_ < m' → Nat.Coprime m' 30 → m ≤ m')
      ∧ bit_offsets.getD (wheel_init.getD ((st.start_ / p + 1) % 30) (0, 0)).2 0
          = (m / p) % 30 :=
  add_wheel_entry st p hstart hp hp32 h64

/-- C17, witness: `add_wheel(7)` on a sieve that starts at 30; the entry designates 49. -/
theorem add_wheel_first_multiple_witness :
    (30 : Nat) % 30 = 0 ∧ Nat.Coprime 7 30 ∧ 7 < 2 ^ 32 ∧ 30 + 6 * 7 < 2 ^ 64
      ∧ ∃ m, add_wheel ⟨30, List.replicate 8 255, List.replicate 4 ⟨0, 0⟩⟩ 7
          = some ⟨30, List.replicate 8 255, List.replicate 4 ⟨0, 0⟩ ++
              [⟨(m - 30) / 30, wheel_offsets.getD (7 % 30) 0
                + (wheel_init.getD ((30 / 7 + 1) % 30) (0, 0)).2⟩]⟩
        ∧ 7 ∣ m ∧ 30 < m ∧ Nat.Coprime m 30
        ∧ (∀ m', 7 ∣ m' → 30 < m' → Nat.Coprime m' 30 → m ≤ m')
        ∧ bit_offsets.getD (wheel_init.getD ((30 / 7 + 1) % 30) (0, 0)).2 0 = (m / 7) % 30 :=
  ⟨by decide, by decide, by norm_num, by norm_num,
    add_wheel_first_multiple ⟨30, List.replicate 8 255, List.replicate 4 ⟨0, 0⟩⟩ 7 (by decide)
      (by decide) (by norm_num) (by norm_num)⟩

/-- C19: the constructor (with `start % 30 == 0`, `segment_size % 240 == 0`) leaves a byte
array whose length is a positive multiple of 8, and every `pre_sieve(c, low, high)` with
`high > low` (and `c <= 9`, `high < 2^64`) run on a sieve in such a state returns and leaves
one again, so `segment_size()` is a positive multiple of 240; a shortening `pre_sieve`
(`high - low < segment_size()`) sets `segment_size()` to
`get_segment_size(high - low)`, which still covers `high - low`, any other keeps the length;
`get_segment_size(size)` is `max(240, size)` rounded up to the next multiple of 240; and the
calls of `cross_off` made between two `pre_sieve` keep the state. The state `sieve_inv`
also records that `segment_size()` fits in 64 bits and that the wheel has its four inert
entries. -/
theorem sieve_size_invariant (start seg ws : Nat) (hstart : start % 30 = 0)
    (hseg : seg % 240 = 0) (hseg64 : seg < 2 ^ 64) :
    (∃ st0, Sieve.new start seg ws = some st0 ∧ sieve_inv st0
        ∧ 0 < st0.sieve_.length ∧ st0.sieve_.length % 8 = 0)
      ∧ (∀ (st : Sieve) (c low high : Nat), sieve_inv st → c ≤ 9 → low < high → high < 2 ^ 64 →
          ∃ st2, pre_sieve st c low high = some st2 ∧ sieve_inv st2
            ∧ 0 < st2.sieve_.length ∧ st2.sieve_.length % 8 = 0
            ∧ 0 < segment_size st2 ∧ segment_size st2 % 240 = 0
            ∧ (high - low < segment_size st →
                segment_size st2 = get_segment_size (high - low)
                  ∧ high - low ≤ segment_size st2)
            ∧ (segment_size st ≤ high - low → st2.sieve_.length = st.sieve_.length))
      ∧ (∀ size, size ≤ 2 ^ 64 - 16 →
          get_segment_size size % 240 = 0 ∧ max 240 size ≤ get_segment_size size
            ∧ get_segment_size size < max 240 size + 240)
      ∧ (∀ (st : Sieve) (i p : Nat) (r : Nat × Sieve), sieve_inv st →
          cross_off st i p = some r → sieve_inv r.2) := by
  refine ⟨?_, ?_, ?_, ?_⟩
  · obtain ⟨st0, h0, hinv⟩ := sieve_new_inv start seg ws hstart hseg hseg64
    exact ⟨st0, h0, hinv, hinv.1, hinv.2.1⟩
  · intro st c low high hinv hc hlt h64
    obtain ⟨st2, h2, hinv2, hlen, hcov⟩ := pre_sieve_size st c low high hinv hc hlt h64
    have hpos := hinv2.1
    have h8 := hinv2.2.1
    refine ⟨st2, h2, hinv2, hpos, h8, ?_, ?_, ?_, ?_⟩
    · unfold segment_size; omega
    · unfold segment_size; omega
    · intro hshort
      refine ⟨?_, hcov hshort⟩
      rw [if_pos hshort] at hlen
      have hsz : high - low ≤ 2 ^ 64 - 16 := by
        have := hinv.2.1
        have := hinv.2.2.1
        unfold segment_size at *
        omega
      have := (get_segment_size_spec (high - low) hsz).1
      unfold segment_size
      rw [hlen]
      omega
    · intro hlong
      rw [if_neg (by omega)] at hlen
      exact hlen
  · intro size hsize
    obtain ⟨g1, g2, g3, _⟩ := get_segment_size_spec size hsize
    exact ⟨g1, g2, g3⟩
  · intro st i p r hinv hco
    obtain ⟨f1, f2, f3, f4⟩ := cross_off_frame st i p r hco
    obtain ⟨h1, h2, h3, h4⟩ := hinv
    unfold segment_size at h3
    exact ⟨by rw [f2]; exact h1, by rw [f2]; exact h2, by unfold segment_size; rw [f2]; exact h3,
      by omega⟩

/-- C19, witness: a sieve constructed with start 0 and segment size 480, then
`pre_sieve(7, 0, 100)`, a shortened segment. -/
theorem sieve_size_invariant_witness :
    (0 : Nat) % 30 = 0 ∧ (480 : Nat) % 240 = 0 ∧ (480 : Nat) < 2 ^ 64
      ∧ ∃ st0 st2, Sieve.new 0 480 10 = some st0 ∧ pre_sieve st0 7 0 100 = some st2
        ∧ 0 < st2.sieve_.length ∧ st2.sieve_.length % 8 = 0 ∧ segment_size st2 % 240 = 0 := by
  obtain ⟨⟨st0, h0, hinv0, _⟩, hpre, _⟩ :=
    sieve_size_invariant 0 480 10 (by decide) (by decide) (by norm_num)
  obtain ⟨st2, h2, _, h3, h4, _, h5, _⟩ := hpre st0 7 0 100 hinv0 (by decide) (by decide)
    (by norm_num)
  exact ⟨by decide, by decide, by norm_num, st0, st2, h0, h2, h3, h4, h5⟩

/-! ## The claims about the stored entry, the skipped entries, the odd multiples, the
counters, the leaves of a segment, the touched bytes, the vector lengths, the segments and
the signed output -/

/-- C21: a call `PhiCache::phi<SIGN>(x, a)` that reaches `update_cache` (none of the four
early returns answers it) with `a < MAX_A = 100` and `x <= 65535`, under the true `primes`
table, the true `pi` table with more than `isqrt(x)` entries and the PhiTiny contract, on a
cache of `MAX_A` rows that satisfies the cache invariant: the call returns `sum` and leaves
the cache `update_cache(x, a, sum)`; `sum` is `SIGN * phi(x, a)`, its magnitude lies in
`1..65535`, the cast to 16 bits does not change it, the entry stored is `|sum|`, and
`is_cached(x, a)` is true afterwards. Every nested call is such a call with a smaller
`a`. -/
theorem phi_cache_store_magnitude (tiny : PhiTiny) (primes pi : List Nat) (N : Nat)
    (htiny : tiny_ok tiny) (hprimes : primes_ok primes N) (hpi : pi_ok pi)
    (fuel : Nat) (cache : List (List Nat)) (sign : Int) (x a : Nat)
    (hfuel : a < fuel) (haN : a + 1 ≤ N) (hsq : Nat.sqrt x < pi.length)
    (hsign : sign = 1 ∨ sign = -1) (hc : cache_ok cache) (hlen : cache.length = MAX_A)
    (h1 : ¬ x ≤ primes.getD a 0) (h2 : ¬ a ≤ tiny.max_a) (h3 : is_pix primes pi x a = false)
    (h4 : is_cached cache x a = false) (ha : a < MAX_A) (hx : x ≤ 65535) :
    ∃ sum cache3,
      PhiCache.phi tiny primes pi fuel cache sign x a = some (sum, update_cache cache3 x a sum)
        ∧ cache3.length = MAX_A ∧ sum = sign * (phi_spec x a : Int)
        ∧ 1 ≤ sum.natAbs ∧ sum.natAbs ≤ 65535 ∧ sum.natAbs % 65536 = sum.natAbs
        ∧ ((update_cache cache3 x a sum).getD a []).getD x 0 = sum.natAbs
        ∧ is_cached (update_cache cache3 x a sum) x a = true :=
  phi_store_spec tiny primes pi N htiny hprimes hpi fuel cache sign x a hfuel haN hsq hsign hc
    hlen h1 h2 h3 h4 ha hx

/-- C21, witness: `phi<1>(400, 7)` on an empty cache with the reference tables
(`max_a = 6`, `prime(7) = 17`, `prime(8)^2 = 361 <= 400`). -/
theorem phi_cache_store_magnitude_witness :
    7 < 8 ∧ 7 + 1 ≤ 21 ∧ Nat.sqrt 400 < ref_pi.length ∧ cache_ok empty_cache
      ∧ empty_cache.length = MAX_A ∧ ¬ 400 ≤ ref_primes.getD 7 0 ∧ ¬ 7 ≤ ref_tiny.max_a
      ∧ is_pix ref_primes ref_pi 400 7 = false ∧ is_cached empty_cache 400 7 = false
      ∧ 7 < MAX_A ∧ 400 ≤ 65535
      ∧ ∃ sum cache3,
        PhiCache.phi ref_tiny ref_primes ref_pi 8 empty_cache 1 400 7
            = some (sum, update_cache cache3 400 7 sum)
          ∧ cache3.length = MAX_A ∧ sum = 1 * (phi_spec 400 7 : Int)
          ∧ 1 ≤ sum.natAbs ∧ sum.natAbs ≤ 65535 ∧ sum.natAbs % 65536 = sum.natAbs
          ∧ ((update_cache cache3 400 7 sum).getD 7 []).getD 400 0 = sum.natAbs
          ∧ is_cached (update_cache cache3 400 7 sum) 400 7 = true := by
  have hsq : Nat.sqrt 400 < ref_pi.length :=
    lt_of_lt_of_le (Nat.sqrt_lt'.mpr (by norm_num)) (by decide : 101 ≤ ref_pi.length)
  exact ⟨by norm_num, by norm_num, hsq, cache_ok_empty, rfl, by decide, by decide, by decide,
    by decide, by decide, by norm_num,
    phi_cache_store_magnitude ref_tiny ref_primes ref_pi 21 ref_tiny_ok ref_primes_ok ref_pi_ok
      8 empty_cache 1 400 7 (by norm_num) (by norm_num) hsq (Or.inl rfl) cache_ok_empty rfl
      (by decide) (by decide) (by decide) (by decide) (by decide) (by norm_num)⟩

/-- C22: in `phi_vector` with `x > 0`, `a > c` (`a` after the tightening to `pi[x]`,
`c >= 1`) and `isqrt(x) < pi.size()`, under the true tables: for every `i` with
`limit < i <= a`, `limit = min(a, pi[isqrt(x)] + 1)`, the skipped call
`PhiCache::phi<-1>(x / primes[i - 1], i - 2)` returns `-1` on every cache that satisfies the
cache invariant; `phi_vector` returns, and the function with the loop run for every `i` in
`(c, a]` returns the same vector. -/
theorem phi_vector_skipped_entries (tiny : PhiTiny) (primes pi : List Nat) (N : Nat)
    (htiny : tiny_ok tiny) (hprimes : primes_ok primes N) (hpi : pi_ok pi) (x a : Nat)
    (ha : a ≤ N) (hx : 0 < x) (hsq : Nat.sqrt x < pi.length)
    (hxpi : primes.getD a 0 > x → x < pi.length)
    (hc1 : 1 ≤ tiny.get_c (primes.getD a 0))
    (hac : (if primes.getD a 0 > x then pi.getD x 0 else a) > tiny.get_c (primes.getD a 0)) :
    (∀ i, min (if primes.getD a 0 > x then pi.getD x 0 else a)
          (pi.getD (Nat.sqrt x) 0 + 1) < i →
        i ≤ (if primes.getD a 0 > x then pi.getD x 0 else a) →
        ∀ cache, cache_ok cache →
          ∃ cache2, phi_call tiny primes pi cache (-1) (x / primes.getD (i - 1) 0) (i - 2)
            = some (-1, cache2))
      ∧ ∃ v, phi_vector tiny primes pi x a = some v
          ∧ phi_vector_full tiny primes pi x a = some v := by
  refine ⟨?_, ?_⟩
  · intro i hlim hia cache hc
    have haN : (if primes.getD a 0 > x then pi.getD x 0 else a) ≤ N := by
      split_ifs with hgt
      · rw [hpi x (hxpi hgt)]
        have hP := tbl_prime primes N a hprimes (by
          rcases Nat.eq_zero_or_pos a with h0 | h0
          · subst h0; rw [hprimes.2.1] at hgt; omega
          · exact h0) ha
        have := pi_lt_of_lt_prime x _ hP hgt
        rw [tbl_pi primes N a hprimes ha] at this
        omega
      · exact ha
    exact phi_skipped_call tiny primes pi N htiny hprimes hpi x _ i hsq haN hlim hia cache hc
  · obtain ⟨v, hv⟩ := phi_vector_full_some tiny primes pi N htiny hprimes hpi x a ha hx hsq hxpi
      hc1 hac
    exact ⟨v, by rw [← phi_vector_full_eq tiny primes pi N htiny hprimes hpi x a ha hsq, hv],
      hv⟩

set_option maxRecDepth 100000 in
/-- C22, witness: `x = 100`, `a = 10` with the reference tables: `c = 6`,
`limit = min(10, pi[10] + 1) = 5`, so that every entry of `(6, 10]` is skipped; the skipped
call for `i = 8`, `phi<-1>(100 / 19, 6)`, returns `-1` on the empty cache. -/
theorem phi_vector_skipped_entries_witness :
    10 ≤ 21 ∧ 0 < 100 ∧ Nat.sqrt 100 < ref_pi.length
      ∧ (ref_primes.getD 10 0 > 100 → 100 < ref_pi.length)
      ∧ 1 ≤ ref_tiny.get_c (ref_primes.getD 10 0)
      ∧ (if ref_primes.getD 10 0 > 100 then ref_pi.getD 100 0 else 10)
          > ref_tiny.get_c (ref_primes.getD 10 0)
      ∧ min (if ref_primes.getD 10 0 > 100 then ref_pi.getD 100 0 else 10)
          (ref_pi.getD (Nat.sqrt 100) 0 + 1) < 8
      ∧ 8 ≤ (if ref_primes.getD 10 0 > 100 then ref_pi.getD 100 0 else 10)
      ∧ (∃ cache2, phi_call ref_tiny ref_primes ref_pi empty_cache (-1)
          (100 / ref_primes.getD (8 - 1) 0) (8 - 2) = some (-1, cache2))
      ∧ ∃ v, phi_vector ref_tiny ref_primes ref_pi 100 10 = some v
          ∧ phi_vector_full ref_tiny ref_primes ref_pi 100 10 = some v := by
  have hsq : Nat.sqrt 100 < ref_pi.length :=
    lt_of_lt_of_le (Nat.sqrt_lt'.mpr (by norm_num)) (by decide : 101 ≤ ref_pi.length)
  have hxpi : ref_primes.getD 10 0 > 100 → 100 < ref_pi.length := fun _ => by decide
  have hc1 : 1 ≤ ref_tiny.get_c (ref_primes.getD 10 0) := by decide
  have hac : (if ref_primes.getD 10 0 > 100 then ref_pi.getD 100 0 else 10)
      > ref_tiny.get_c (ref_primes.getD 10 0) := by decide
  have h10 : Nat.sqrt 100 = 10 := Nat.sqrt_eq 10
  have hlim : min (if ref_primes.getD 10 0 > 100 then ref_pi.getD 100 0 else 10)
      (ref_pi.getD (Nat.sqrt 100) 0 + 1) < 8 := by
    rw [h10]
    decide
  have hia : 8 ≤ (if ref_primes.getD 10 0 > 100 then ref_pi.getD 100 0 else 10) := by decide
  obtain ⟨h1, h2⟩ := phi_vector_skipped_entries ref_tiny ref_primes ref_pi 21 ref_tiny_ok
    ref_primes_ok ref_pi_ok 100 10 (by norm_num) (by norm_num) hsq hxpi hc1 hac
  exact ⟨by norm_num, by norm_num, hsq, hxpi, hc1, hac, hlim, hia,
    h1 8 hlim hia empty_cache cache_ok_empty, h2⟩

/-- C23: for every `low` and every index `b` with `1 <= b < size` whose `primes[b]` is odd
(an odd prime in particular), the vector `generate_next_multiples(low, size, primes)` has
`size` entries and its entry `b` is the least odd multiple of `primes[b]` that is
`>= low`. -/
theorem generate_next_multiples_least_odd (low size : Nat) (primes : List Nat) (b : Nat)
    (hb1 : 1 ≤ b) (hb : b < size) (hodd : primes.getD b 0 % 2 = 1) :
    (generate_next_multiples low size primes).length = size
      ∧ least_odd_multiple (primes.getD b 0) low
          ((generate_next_multiples low size primes).getD b 0) :=
  ⟨generate_next_multiples_length low size primes (by omega),
    generate_next_multiples_least low size primes b hb1 hb hodd⟩

/-- C23, witness: `low = 10` and the prime `primes[3] = 5`: the entry is 15. -/
theorem generate_next_multiples_least_odd_witness :
    1 ≤ 3 ∧ 3 < 4 ∧ ref_primes.getD 3 0 % 2 = 1
      ∧ (generate_next_multiples 10 4 ref_primes).getD 3 0 = 15
      ∧ (generate_next_multiples 10 4 ref_primes).length = 4
      ∧ least_odd_multiple (ref_primes.getD 3 0) 10
          ((generate_next_multiples 10 4 ref_primes).getD 3 0) :=
  ⟨by norm_num, by norm_num, by decide, by decide,
    (generate_next_multiples_least_odd 10 4 ref_primes 3 (by norm_num) (by norm_num)
      (by decide)).1,
    (generate_next_multiples_least_odd 10 4 ref_primes 3 (by norm_num) (by norm_num)
      (by decide)).2⟩

/-- C24: one call of `S2_sieve::cross_off` with `prime >= 1` and `next_multiple >= low`
returns; a position is passed to `cnt_update` exactly when the call changes its bit from
set to unset, and no position is passed twice (`cross_off_updates` is the list of the
calls); the run over the counters of the model and over counters seen through their
queries makes exactly these calls, in order; and if before the call
`cnt_query(counters, j)` is the number of the set bits at the positions `<= j` for every
`j` of the segment, the same holds after the call. -/
theorem cross_off_cnt_update_once (prime low high fuel k : Nat) (sieve : List Bool)
    (hp : 1 ≤ prime) (hk : low ≤ k) (hfuel : high - k < fuel) :
    ∃ k2 sieve2 ups, cross_off_updates prime low high fuel k sieve = some (k2, sieve2, ups)
      ∧ ups.Nodup
      ∧ (∀ i, i ∈ ups ↔ (sieve.getD i false = true ∧ sieve2.getD i false = false))
      ∧ (∀ counters : List Bool,
          s2_cross_off prime low high fuel k sieve counters
            = some (k2, sieve2, ups.foldl (fun c pos => c.set pos false) counters))
      ∧ ∀ q : Nat → Int, (∀ j, j < sieve.length → q j = (cnt_query sieve j : Int)) →
          cross_off_with cnt_update prime low high fuel k sieve q
              = some (k2, sieve2, ups.foldl cnt_update q)
            ∧ ∀ j, j < sieve.length → (ups.foldl cnt_update q) j = (cnt_query sieve2 j : Int) :=
  cross_off_updates_spec prime low high fuel k sieve hp hk hfuel

/-- C24, witness: the prime 3 on the segment `[10, 20)` filled with the odd numbers,
entered at 15: the only call is the one for the position 5, and the counters that held the
counts of the set bits before the call hold them after it. -/
theorem cross_off_cnt_update_once_witness :
    1 ≤ 3 ∧ 10 ≤ 15 ∧ 20 - 15 < 6
      ∧ cross_off_updates 3 10 20 6 15 (sieve_fill 10 10)
          = some (21, [false, true, false, true, false, false, false, true, false, true], [5])
      ∧ s2_cross_off 3 10 20 6 15 (sieve_fill 10 10) (sieve_fill 10 10)
          = some (21, [false, true, false, true, false, false, false, true, false, true],
              [false, true, false, true, false, false, false, true, false, true])
      ∧ cross_off_with cnt_update 3 10 20 6 15 (sieve_fill 10 10)
            (fun j => (cnt_query (sieve_fill 10 10) j : Int))
          = some (21, [false, true, false, true, false, false, false, true, false, true],
              cnt_update (fun j => (cnt_query (sieve_fill 10 10) j : Int)) 5)
      ∧ ∀ j, j < 10 →
          cnt_update (fun j => (cnt_query (sieve_fill 10 10) j : Int)) 5 j
            = (cnt_query [false, true, false, true, false, false, false, true, false, true] j
                : Int) := by
  obtain ⟨k2, sieve2, ups, e, _, _, hc, hq⟩ :=
    cross_off_cnt_update_once 3 10 20 6 15 (sieve_fill 10 10) (by norm_num) (by norm_num)
      (by norm_num)
  have hval : cross_off_updates 3 10 20 6 15 (sieve_fill 10 10)
      = some (21, [false, true, false, true, false, false, false, true, false, true], [5]) := by
    decide
  rw [hval] at e
  simp only [Option.some.injEq, Prod.mk.injEq] at e
  obtain ⟨rfl, rfl, rfl⟩ := e
  obtain ⟨hq1, hq2⟩ := hq (fun j => (cnt_query (sieve_fill 10 10) j : Int)) (fun _ _ => rfl)
  exact ⟨by norm_num, by norm_num, by norm_num, hval, hc (sieve_fill 10 10), hq1,
    fun j hj => hq2 j hj⟩

/-- C25: in `S2_sieve_thread`, with `pi` the true table up to `y`, `primes` the true prime
list and `factors` meeting the FactorTable contract (`to_index` snaps down to the largest
table number, `get_number` is its increasing inverse), `low >= 1` and a segment size
`>= 1`: the worker returns; its run with the log of the segments gives the same state, the
logged segments are those of its schedule, the leaves of the worker are those of the log,
and every leaf evaluated while the segment `[low, high)` is processed has
`low <= x / n < high`, so that the index `x / n - low` passed to `cnt_query` is below
`high - low` and below the segment size. -/
theorem S2_leaves_in_segment (x y z c S K t low0 limit : Nat) (factors : FactorTable)
    (pi primes : List Nat) (htab : s2_tables_ok y pi primes factors) (hlow0 : 1 ≤ low0)
    (hS : 1 ≤ S) :
    ∃ w log, thread_log x y z c S K t low0 limit factors pi primes = some (w, log)
      ∧ S2_sieve_thread x y z c S K t low0 limit factors pi primes = some w
      ∧ thread_segments S K t low0 limit = some (log.map (fun r => (r.1, r.2.1)))
      ∧ w.leaves = (log.map (fun r => r.2.2)).flatten
      ∧ ∀ r ∈ log, ∀ e ∈ r.2.2,
          r.1 ≤ e.xn ∧ e.xn < r.2.1 ∧ e.xn - r.1 < r.2.1 - r.1 ∧ e.xn - r.1 < S :=
  thread_log_spec x y z c S K t low0 limit factors pi primes htab hlow0 hS

/-- C25, witness: `x = 1000`, `y = 10`, `z = 100`, `c = 1` with the reference tables: the
worker 1 of a pass with segments of 7 numbers, 2 per worker. -/
theorem S2_leaves_in_segment_witness :
    s2_tables_ok 10 ref_pi ref_primes ref_factors ∧ 1 ≤ 1 ∧ 1 ≤ 7
      ∧ ∃ w log, thread_log 1000 10 100 1 7 2 1 1 101 ref_factors ref_pi ref_primes
            = some (w, log)
          ∧ S2_sieve_thread 1000 10 100 1 7 2 1 1 101 ref_factors ref_pi ref_primes = some w
          ∧ thread_segments 7 2 1 1 101 = some (log.map (fun r => (r.1, r.2.1)))
          ∧ w.leaves = (log.map (fun r => r.2.2)).flatten
          ∧ ∀ r ∈ log, ∀ e ∈ r.2.2,
              r.1 ≤ e.xn ∧ e.xn < r.2.1 ∧ e.xn - r.1 < r.2.1 - r.1 ∧ e.xn - r.1 < 7 :=
  ⟨ref_tables_ok 10 (by norm_num), le_refl _, by norm_num,
    S2_leaves_in_segment 1000 10 100 1 7 2 1 1 101 ref_factors ref_pi ref_primes
      (ref_tables_ok 10 (by norm_num)) (le_refl _) (by norm_num)⟩

/-- C26: if `S2_sieve::cross_off` is entered with `next_multiple` the least odd multiple of
the odd `prime` that is `>= low`, and `low < high`, then it returns; the bits of the odd
multiples of `prime` in `[low, high)` are unset, every other bit has the value it had, and
`next_multiple` is the least odd multiple of `prime` that is `>= high`. The small-prime
loop for `i = 2..c` does the same for all its primes: each `next[i]` becomes the least odd
multiple of `primes[i]` that is `>= high`, no other entry of `next` changes, and the bits
unset are those of the odd multiples of these primes in `[low, high)`. -/
theorem s2_cross_off_odd_multiples (prime low high nm fuel : Nat) (sieve counters : List Bool)
    (hp : prime % 2 = 1) (hlh : low < high) (hnm : least_odd_multiple prime low nm)
    (hfuel : high - nm < fuel) :
    (∃ k2 sieve2 counters2,
      s2_cross_off prime low high fuel nm sieve counters = some (k2, sieve2, counters2)
        ∧ least_odd_multiple prime high k2 ∧ sieve2.length = sieve.length
        ∧ ∀ i, (sieve2.getD i false = true
            ↔ sieve.getD i false = true
              ∧ ¬ (low + i < high ∧ prime ∣ low + i ∧ (low + i) % 2 = 1)))
      ∧ ∀ (primes : List Nat) (c : Nat) (next : List Nat), c < next.length →
          (∀ j, 2 ≤ j → j ≤ c →
            primes.getD j 0 % 2 = 1
              ∧ least_odd_multiple (primes.getD j 0) low (next.getD j 0)) →
          ∃ sieve2 next2,
            small_primes primes low high (List.range' 2 (c + 1 - 2)) sieve next
                = some (sieve2, next2)
              ∧ sieve2.length = sieve.length ∧ next2.length = next.length
              ∧ (∀ j, j < 2 ∨ c < j → next2.getD j 0 = next.getD j 0)
              ∧ (∀ j, 2 ≤ j → j ≤ c →
                  least_odd_multiple (primes.getD j 0) high (next2.getD j 0))
              ∧ ∀ k, (sieve2.getD k false = true
                  ↔ sieve.getD k false = true
                    ∧ ¬ (low + k < high ∧ (low + k) % 2 = 1
                          ∧ ∃ j, 2 ≤ j ∧ j ≤ c ∧ primes.getD j 0 ∣ low + k)) := by
  refine ⟨?_, ?_⟩
  · rw [s2_cross_off_eq_with]
    exact cross_off_with_odd _ prime low high nm fuel sieve counters hp (by omega) hnm hfuel
  · intro primes c next hc hnext
    exact small_primes_segment primes low high c sieve next (by omega) hc hnext

/-- C26, witness: the prime 3 on the segment `[10, 20)` filled with the odd numbers,
entered at 15; and the small-prime loop for `c = 3` (the primes 3 and 5, both entered at
15), which leaves `next = [0, 12, 21, 25]`. -/
theorem s2_cross_off_odd_multiples_witness :
    3 % 2 = 1 ∧ 10 < 20 ∧ least_odd_multiple 3 10 15 ∧ 20 - 15 < 6
      ∧ s2_cross_off 3 10 20 6 15 (sieve_fill 10 10) (sieve_fill 10 10)
          = some (21, [false, true, false, true, false, false, false, true, false, true],
              [false, true, false, true, false, false, false, true, false, true])
      ∧ (∃ k2 sieve2 counters2,
          s2_cross_off 3 10 20 6 15 (sieve_fill 10 10) (sieve_fill 10 10)
              = some (k2, sieve2, counters2)
            ∧ least_odd_multiple 3 20 k2 ∧ sieve2.length = (sieve_fill 10 10).length
            ∧ ∀ i, (sieve2.getD i false = true
                ↔ (sieve_fill 10 10).getD i false = true
                  ∧ ¬ (10 + i < 20 ∧ 3 ∣ 10 + i ∧ (10 + i) % 2 = 1)))
      ∧ 3 < [0, 12, 15, 15].length
      ∧ (∀ j, 2 ≤ j → j ≤ 3 →
          ref_primes.getD j 0 % 2 = 1
            ∧ least_odd_multiple (ref_primes.getD j 0) 10 ([0, 12, 15, 15].getD j 0))
      ∧ small_primes ref_primes 10 20 (List.range' 2 (3 + 1 - 2)) (sieve_fill 10 10)
            [0, 12, 15, 15]
          = some ([false, true, false, true, false, false, false, true, false, true],
              [0, 12, 21, 25])
      ∧ ∃ sieve2 next2,
          small_primes ref_primes 10 20 (List.range' 2 (3 + 1 - 2)) (sieve_fill 10 10)
              [0, 12, 15, 15] = some (sieve2, next2)
            ∧ sieve2.length = (sieve_fill 10 10).length
            ∧ next2.length = [0, 12, 15, 15].length
            ∧ (∀ j, j < 2 ∨ 3 < j → next2.getD j 0 = [0, 12, 15, 15].getD j 0)
            ∧ (∀ j, 2 ≤ j → j ≤ 3 →
                least_odd_multiple (ref_primes.getD j 0) 20 (next2.getD j 0))
            ∧ ∀ k, (sieve2.getD k false = true
                ↔ (sieve_fill 10 10).getD k false = true
                  ∧ ¬ (10 + k < 20 ∧ (10 + k) % 2 = 1
                        ∧ ∃ j, 2 ≤ j ∧ j ≤ 3 ∧ ref_primes.getD j 0 ∣ 10 + k)) := by
  have hnm : least_odd_multiple 3 10 15 :=
    ⟨by norm_num, by norm_num, by norm_num, fun m h1 h2 h3 => by omega⟩
  have hnm5 : least_odd_multiple 5 10 15 :=
    ⟨by norm_num, by norm_num, by norm_num, fun m h1 h2 h3 => by omega⟩
  have hnext : ∀ j, 2 ≤ j → j ≤ 3 →
      ref_primes.getD j 0 % 2 = 1
        ∧ least_odd_multiple (ref_primes.getD j 0) 10 ([0, 12, 15, 15].getD j 0) := by
    intro j h2 h3
    interval_cases j
    · exact ⟨by decide, hnm⟩
    · exact ⟨by decide, hnm5⟩
  obtain ⟨h1, h2⟩ := s2_cross_off_odd_multiples 3 10 20 15 6 (sieve_fill 10 10)
    (sieve_fill 10 10) (by norm_num) (by norm_num) hnm (by norm_num)
  exact ⟨by norm_num, by norm_num, hnm, by norm_num, by decide, h1, by decide, hnext,
    by decide, h2 ref_primes 3 [0, 12, 15, 15] (by decide) hnext⟩

/-- C27: for every sieve state and every call `Sieve::cross_off(i, p)` with
`i <= wheel_.size()` on entry (and `p > 0` when `add_wheel` is called, which divides by
`p`), the call returns and every byte index it passes to `unset_bit`
(`cross_off_touched`, the indices in order) is below `sieve_end`, the 32-bit size, and
below `bytes.len()`. Pointers are byte indices that do not wrap. -/
theorem cross_off_memory_safe (st : Sieve) (i p : Nat) (hi : i ≤ st.wheel_.length)
    (hp : 0 < p ∨ i < st.wheel_.length) :
    ∃ r tr, cross_off st i p = some r ∧ cross_off_touched st i p = some tr
      ∧ ∀ j ∈ tr, j < st.sieve_.length % 2 ^ 32 ∧ j < st.sieve_.length :=
  cross_off_touched_lt st i p hi hp

/-- C27, witness: a sieve of 8 bytes and the prime 7 at the new wheel index 4: the bytes
touched are 0, 1, 2, 3, 3, 4, 5, 6, 7. -/
theorem cross_off_memory_safe_witness :
    4 ≤ (⟨0, List.replicate 8 255, [⟨0, 0⟩, ⟨0, 0⟩, ⟨0, 0⟩, ⟨0, 0⟩]⟩ : Sieve).wheel_.length
      ∧ (0 < 7 ∨ 4 < (⟨0, List.replicate 8 255,
            [⟨0, 0⟩, ⟨0, 0⟩, ⟨0, 0⟩, ⟨0, 0⟩]⟩ : Sieve).wheel_.length)
      ∧ cross_off_touched ⟨0, List.replicate 8 255, [⟨0, 0⟩, ⟨0, 0⟩, ⟨0, 0⟩, ⟨0, 0⟩]⟩ 4 7
          = some [0, 1, 2, 3, 3, 4, 5, 6, 7]
      ∧ ∃ r tr,
        cross_off ⟨0, List.replicate 8 255, [⟨0, 0⟩, ⟨0, 0⟩, ⟨0, 0⟩, ⟨0, 0⟩]⟩ 4 7 = some r
          ∧ cross_off_touched ⟨0, List.replicate 8 255, [⟨0, 0⟩, ⟨0, 0⟩, ⟨0, 0⟩, ⟨0, 0⟩]⟩ 4 7
              = some tr
          ∧ ∀ j ∈ tr,
              j < (⟨0, List.replicate 8 255,
                    [⟨0, 0⟩, ⟨0, 0⟩, ⟨0, 0⟩, ⟨0, 0⟩]⟩ : Sieve).sieve_.length % 2 ^ 32
                ∧ j < (⟨0, List.replicate 8 255,
                    [⟨0, 0⟩, ⟨0, 0⟩, ⟨0, 0⟩, ⟨0, 0⟩]⟩ : Sieve).sieve_.length :=
  ⟨by decide, Or.inl (by norm_num), by decide,
    cross_off_memory_safe ⟨0, List.replicate 8 255, [⟨0, 0⟩, ⟨0, 0⟩, ⟨0, 0⟩, ⟨0, 0⟩]⟩ 4 7
      (by decide) (Or.inl (by norm_num))⟩

/-- C28: in `S2_sieve`, for a non-decreasing `pi` with `min(isqrt(z), y)` inside it: the
vectors `phi` and `mu_sum` that the worker `t` returns both have the length
`pi[max_prime] + 1`, `max_prime = min(isqrt(x / low_t), y, isqrt(z))`, and this length is
at most `pi[min(isqrt(z), y)] + 1`, the length of `phi_total`; so every index `j` of the
carry-over loop is inside `phi_total`, `mu_sum` and `phi`, and the loop keeps the length of
`phi_total`. Under the table contracts every worker returns and `S2_sieve` returns, which
in the model means that no access was out of bounds. -/
theorem S2_vector_lengths (x y z c S K t low limit : Nat) (factors : FactorTable)
    (pi primes : List Nat) (threads mss : Nat) (balance : Nat → Nat × Nat)
    (hmono : ∀ i j, i ≤ j → j < pi.length → pi.getD i 0 ≤ pi.getD j 0)
    (hlen : min (isqrt z) y < pi.length) :
    (∀ w, S2_sieve_thread x y z c S K t low limit factors pi primes = some w →
      w.phi.length = pi.getD (min (min (isqrt (x / (low + S * K * t))) y) (isqrt z)) 0 + 1
        ∧ w.mu_sum.length
            = pi.getD (min (min (isqrt (x / (low + S * K * t))) y) (isqrt z)) 0 + 1
        ∧ w.phi.length ≤ pi.getD (min (isqrt z) y) 0 + 1
        ∧ ∀ (s2 : Int) (phi_total : List Int),
            phi_total.length = pi.getD (min (isqrt z) y) 0 + 1 →
            (∀ j ∈ List.range' 1 (w.phi.length - 1),
              j < phi_total.length ∧ j < w.mu_sum.length ∧ j < w.phi.length)
            ∧ (carry_over w.mu_sum w.phi (List.range' 1 (w.phi.length - 1)) s2
                phi_total).2.length = phi_total.length)
      ∧ (s2_tables_ok y pi primes factors → 1 ≤ low → 1 ≤ S →
          ∃ w, S2_sieve_thread x y z c S K t low limit factors pi primes = some w)
      ∧ (s2_tables_ok y pi primes factors → 1 ≤ mss → (∀ k, 1 ≤ (balance k).1) →
          ∃ st, S2_sieve x y z c pi primes factors threads mss balance = some st) := by
  refine ⟨?_, ?_, ?_⟩
  · intro w h
    exact S2_vector_lengths_aux x y z c S K t low limit factors pi primes hmono hlen w h
  · intro htab hlow hS
    obtain ⟨w, hw, _⟩ := S2_sieve_thread_spec x y z c S K t low limit factors pi primes
      (low + S * K * t) (min (low + S * K * t + S * K) limit)
      (pi_max_at x y z pi (low + S * K * t)) htab hlow hS rfl rfl rfl
    exact ⟨w, hw⟩
  · intro htab hmss hbal
    obtain ⟨st, hst, _⟩ := S2_sieve_spec x y z c pi primes factors threads mss balance htab
      hmss hbal
    exact ⟨st, hst⟩

/-- C28, witness: `x = 1000`, `y = 10`, `z = 100`, `c = 1` with the reference tables, the
worker 1 of a pass with segments of 7 numbers, 2 per worker: the worker returns vectors of
the stated lengths, and `S2_sieve` with 4 threads returns. -/
theorem S2_vector_lengths_witness :
    (∀ i j, i ≤ j → j < ref_pi.length → ref_pi.getD i 0 ≤ ref_pi.getD j 0)
      ∧ min (isqrt 100) 10 < ref_pi.length
      ∧ s2_tables_ok 10 ref_pi ref_primes ref_factors
      ∧ (∃ w, S2_sieve_thread 1000 10 100 1 7 2 1 1 101 ref_factors ref_pi ref_primes = some w
          ∧ w.phi.length
              = ref_pi.getD (min (min (isqrt (1000 / (1 + 7 * 2 * 1))) 10) (isqrt 100)) 0 + 1
          ∧ w.mu_sum.length
              = ref_pi.getD (min (min (isqrt (1000 / (1 + 7 * 2 * 1))) 10) (isqrt 100)) 0 + 1
          ∧ w.phi.length ≤ ref_pi.getD (min (isqrt 100) 10) 0 + 1
          ∧ ∀ (s2 : Int) (phi_total : List Int),
              phi_total.length = ref_pi.getD (min (isqrt 100) 10) 0 + 1 →
              (∀ j ∈ List.range' 1 (w.phi.length - 1),
                j < phi_total.length ∧ j < w.mu_sum.length ∧ j < w.phi.length)
              ∧ (carry_over w.mu_sum w.phi (List.range' 1 (w.phi.length - 1)) s2
                  phi_total).2.length = phi_total.length)
      ∧ ∃ st, S2_sieve 1000 10 100 1 ref_pi ref_primes ref_factors 4 7
          (fun k => (7 + k, 1 + k)) = some st := by
  have hlen : min (isqrt 100) 10 < ref_pi.length :=
    lt_of_le_of_lt (min_le_right _ _) (by decide)
  have htab : s2_tables_ok 10 ref_pi ref_primes ref_factors := ref_tables_ok 10 (by norm_num)
  obtain ⟨h1, h2, h3⟩ := S2_vector_lengths 1000 10 100 1 7 2 1 1 101 ref_factors ref_pi
    ref_primes 4 7 (fun k => (7 + k, 1 + k)) (pi_ok_mono ref_pi ref_pi_ok) hlen
  obtain ⟨w, hw⟩ := h2 htab (le_refl _) (by norm_num)
  exact ⟨pi_ok_mono ref_pi ref_pi_ok, hlen, htab, ⟨w, hw, h1 w hw⟩,
    h3 htab (by norm_num) (fun k => Nat.le_add_right_of_le (by norm_num))⟩

/-- C29: for every `z >= 0`, every least segment size `>= 1` and every sequence of segment
sizes `>= 1` and segments-per-thread values that the load balancer may leave, the list of
the segments `[low, high)` sieved by all the workers over all the passes of the outer loop
of `S2_sieve` is defined; every segment is not empty, each segment ends before the later
ones start (so they are pairwise disjoint), and their union is `[1, z + 1)`. The worker
`t` of a pass covers `[low + S*K*t, min(low + S*K*(t+1), limit))` with segments of at most
`S` numbers, and these are the segments that the worker's own run logs. -/
theorem S2_sieve_segments_partition (z threads mss : Nat) (balance : Nat → Nat × Nat)
    (hmss : 1 ≤ mss) (hbal : ∀ k, 1 ≤ (balance k).1) :
    (∃ segs, S2_sieve_segments z threads mss balance = some segs
      ∧ (∀ s ∈ segs, s.1 < s.2)
      ∧ segs.Pairwise (fun s t => s.2 ≤ t.1)
      ∧ ∀ n, (∃ s ∈ segs, s.1 ≤ n ∧ n < s.2) ↔ (1 ≤ n ∧ n < z + 1))
      ∧ (∀ S K t low limit, 1 ≤ S →
          ∃ l, thread_segments S K t low limit = some l
            ∧ (∀ s ∈ l, s.1 < s.2 ∧ s.2 ≤ s.1 + S)
            ∧ l.Pairwise (fun s t => s.2 ≤ t.1)
            ∧ ∀ n, (∃ s ∈ l, s.1 ≤ n ∧ n < s.2)
                ↔ (min (low + S * K * t) limit ≤ n ∧ n < min (low + S * K * (t + 1)) limit))
      ∧ ∀ (x y c S K t low limit : Nat) (factors : FactorTable) (pi primes : List Nat),
          s2_tables_ok y pi primes factors → 1 ≤ low → 1 ≤ S →
          ∃ w log, thread_log x y z c S K t low limit factors pi primes = some (w, log)
            ∧ S2_sieve_thread x y z c S K t low limit factors pi primes = some w
            ∧ thread_segments S K t low limit = some (log.map (fun r => (r.1, r.2.1))) := by
  refine ⟨?_, ?_, ?_⟩
  · obtain ⟨segs, e, hc⟩ := S2_sieve_segments_chain z threads mss balance hmss hbal
    obtain ⟨h1, h2, h3⟩ := seg_chain_spec segs 1 (z + 1) hc
    exact ⟨segs, e, fun s hs => (h1 s hs).2.1, h2, h3⟩
  · intro S K t low limit hS
    obtain ⟨l, e, hc, hs⟩ := thread_segments_chain S K t low limit hS
    obtain ⟨h1, h2, h3⟩ := seg_chain_spec l _ _ hc
    exact ⟨l, e, fun s hm => ⟨(h1 s hm).2.1, hs s hm⟩, h2, h3⟩
  · intro x y c S K t low limit factors pi primes htab hlow hS
    obtain ⟨w, log, h1, h2, h3, _⟩ :=
      thread_log_spec x y z c S K t low limit factors pi primes htab hlow hS
    exact ⟨w, log, h1, h2, h3⟩

set_option maxRecDepth 100000 in
/-- C29, witness: `z = 20` with 2 threads and segments that start at 3 numbers and grow:
the segments are `[1,4)`, `[4,7)`, `[7,11)`, `[11,15)`, `[15,20)`, `[20,21)`; the worker 1
of a pass at `low = 1` with `limit = 21` and 2 segments of 3 numbers covers `[7, 13)`, and
with the reference tables its run logs the segments of its schedule. -/
theorem S2_sieve_segments_partition_witness :
    1 ≤ 3 ∧ (∀ k, 1 ≤ ((fun k => (4 + k, 1 + k)) k : Nat × Nat).1)
      ∧ S2_sieve_segments 20 2 3 (fun k => (4 + k, 1 + k))
          = some [(1, 4), (4, 7), (7, 11), (11, 15), (15, 20), (20, 21)]
      ∧ (∃ segs, S2_sieve_segments 20 2 3 (fun k => (4 + k, 1 + k)) = some segs
          ∧ (∀ s ∈ segs, s.1 < s.2)
          ∧ segs.Pairwise (fun s t => s.2 ≤ t.1)
          ∧ ∀ n, (∃ s ∈ segs, s.1 ≤ n ∧ n < s.2) ↔ (1 ≤ n ∧ n < 20 + 1))
      ∧ thread_segments 3 2 1 1 21 = some [(7, 10), (10, 13)]
      ∧ (∃ l, thread_segments 3 2 1 1 21 = some l
          ∧ (∀ s ∈ l, s.1 < s.2 ∧ s.2 ≤ s.1 + 3)
          ∧ l.Pairwise (fun s t => s.2 ≤ t.1)
          ∧ ∀ n, (∃ s ∈ l, s.1 ≤ n ∧ n < s.2)
              ↔ (min (1 + 3 * 2 * 1) 21 ≤ n ∧ n < min (1 + 3 * 2 * (1 + 1)) 21))
      ∧ ∃ w log, thread_log 400 10 20 1 3 2 1 1 21 ref_factors ref_pi ref_primes
            = some (w, log)
          ∧ S2_sieve_thread 400 10 20 1 3 2 1 1 21 ref_factors ref_pi ref_primes = some w
          ∧ thread_segments 3 2 1 1 21 = some (log.map (fun r => (r.1, r.2.1))) := by
  obtain ⟨h1, h2, h3⟩ := S2_sieve_segments_partition 20 2 3 (fun k => (4 + k, 1 + k))
    (by norm_num) (fun k => Nat.le_add_right_of_le (by norm_num))
  exact ⟨by norm_num, fun k => Nat.le_add_right_of_le (by norm_num), by decide, h1, by decide,
    h2 3 2 1 1 21 (by norm_num),
    h3 400 10 1 3 2 1 1 21 ref_factors ref_pi ref_primes (ref_tables_ok 10 (by norm_num))
      (le_refl _) (by norm_num)⟩

/-- C30: for every signed 128-bit `n`, the least value `-2^127` included (its negation is
taken modulo `2^128`), `operator<<(stream, int128_t n)` returns and writes `"-"` followed
by the canonical decimal digits of `|n|` when `n < 0`, and the canonical decimal digits of
`n` otherwise: the digits are what the unsigned operator writes for `|n|`, the single
character "0" for 0 and else the decimal digits, most significant first, which read back
as `|n|`; and `-2^127` is written as `-170141183460469231731687303715884105728`. -/
theorem ostream_i128_canonical (n : Int) (hlo : -2 ^ 127 ≤ n) (hhi : n < 2 ^ 127) :
    ∃ digits, ostream_u128 n.natAbs = some digits
      ∧ digits = (if n.natAbs = 0 then [48]
          else ((Nat.digits 10 n.natAbs).map (fun d => 48 + d)).reverse)
      ∧ (∀ c ∈ digits, 48 ≤ c ∧ c ≤ 57) ∧ decimal_value digits = n.natAbs
      ∧ ostream_i128 n = some (if n < 0 then 45 :: digits else digits)
      ∧ ostream_i128 (-2 ^ 127)
          = some [45, 49, 55, 48, 49, 52, 49, 49, 56, 51, 52, 54, 48, 52, 54, 57, 50, 51, 49, 55,
              51, 49, 54, 56, 55, 51, 48, 51, 55, 49, 53, 56, 56, 52, 49, 48, 53, 55, 50, 56] :=
  ostream_i128_canonical_aux n hlo hhi

/-- C30, witness: the least value `-2^127`. -/
theorem ostream_i128_canonical_witness :
    (-2 ^ 127 : Int) ≤ -2 ^ 127 ∧ (-2 ^ 127 : Int) < 2 ^ 127
      ∧ ∃ digits, ostream_u128 (-2 ^ 127 : Int).natAbs = some digits
        ∧ digits = (if (-2 ^ 127 : Int).natAbs = 0 then [48]
            else ((Nat.digits 10 (-2 ^ 127 : Int).natAbs).map (fun d => 48 + d)).reverse)
        ∧ (∀ c ∈ digits, 48 ≤ c ∧ c ≤ 57) ∧ decimal_value digits = (-2 ^ 127 : Int).natAbs
        ∧ ostream_i128 (-2 ^ 127)
            = some (if (-2 ^ 127 : Int) < 0 then 45 :: digits else digits)
        ∧ ostream_i128 (-2 ^ 127)
            = some [45, 49, 55, 48, 49, 52, 49, 49, 56, 51, 52, 54, 48, 52, 54, 57, 50, 51, 49,
                55, 51, 49, 54, 56, 55, 51, 48, 51, 55, 49, 53, 56, 56, 52, 49, 48, 53, 55, 50,
                56] :=
  ⟨le_refl _, by norm_num, ostream_i128_canonical (-2 ^ 127) (le_refl _) (by norm_num)⟩

end Primecount
